import Mathlib

/-!
# go-semtools: knowledge base and query engine

A shallow embedding of `knowledge_base.go` and `query.go`.

Go objects that are shared by reference and mutated (`*knowledgeBase`, `*query`) live in a
`World`: two heaps, one of knowledge bases and one of queries, addressed by their position.
A method with a pointer receiver takes the handle of the receiver and the world, and returns
the new world. A result `none` stands for a run that does not return a value: a nil
dereference, an index out of range, or an evaluation that never ends.

The closures of type `matcher` that `query.go` creates are represented by the constructor
that names the place of creation together with the captured variables. The closure of `Group`
captures the handle of the sub query, so that it sees the leaves added to the sub query later.

`Evaluate` follows the group closures from query to query. The nest of calls is cut off at the
number of queries of the heap: a deeper nest visits a query twice and goes on for ever. The
builder methods only create references from a query to a younger one, and `evaluateFuel_mono`
shows that a larger bound never changes a result.

Narrowings of the Go types, all on the side of the inputs:
* the value slot of a typed literal (`interface{}`) holds a value of a comparable type: a
  text, another value that is `==` to itself, or a value that is not (a NaN); two values that
  are `==` are one value of the model, with one text under `%v` (of 0.0 and -0.0, which are
  `==` and print differently, only one is present); a value of a type on which `==` panics
  (a slice, a map, a function) is left out;
* the subject, predicate and object of a statement and the type of a typed literal are
  non-nil (the graph of a statement and the node handed to a query leaf may be nil);
* the slice of statements handed to `Insert` or `Delete` does not share its array with the
  stored sequence of a base: the methods take a list by value.
-/

namespace Semtools

set_option linter.dupNamespace false

/-! ## Data model (knowledge_base.go) -/

/-- Struct `namedNode`: a node referenced by an IRI. -/
structure namedNode where
  iri : String
deriving DecidableEq, Repr

/-- Struct `localizedLiteral`: a text value with a language. -/
structure localizedLiteral where
  value : String
  language : String
deriving DecidableEq, Repr

/-- A value in a slot of type `interface{}`, as far as the operator `==` and the verb `%v`
see it. -/
inductive Value where
  /-- A Go string. -/
  | text (s : String)
  /-- A value of another comparable type that is `==` to itself (a number, a boolean):
  `id` names the value with its dynamic type, `shown` is its text under `%v`. -/
  | other (id : Nat) (shown : String)
  /-- A value that is not `==` to itself: a NaN, or a struct or an array that holds one;
  `shown` is its text under `%v`. -/
  | nan (shown : String)
deriving DecidableEq, Repr

/-- The text of a value under the verb `%v`. -/
def Value.shown : Value → String
  | Value.text s => s
  | Value.other _ s => s
  | Value.nan s => s

/-- The operator `==` on two values of type `interface{}`. -/
def Value.equal : Value → Value → Bool
  | Value.text a, Value.text b => a == b
  | Value.other i a, Value.other j b => i == j && a == b
  | _, _ => false

/-- Whether a value is a Go string. -/
def Value.isText : Value → Bool
  | Value.text _ => true
  | _ => false

/-- Struct `typedLiteral`: a value with a type node. -/
structure typedLiteral where
  value : Value
  typeNode : namedNode
deriving DecidableEq, Repr

/-- Interface `Node`: one of the three implementations in the package. -/
inductive Node where
  | named (nn : namedNode)
  | localized (ln : localizedLiteral)
  | typed (tn : typedLiteral)
deriving DecidableEq, Repr

/-- Struct `statement`; `graph = none` is the nil graph. -/
structure statement where
  subject : namedNode
  predicate : namedNode
  object : Node
  graph : Option namedNode
deriving DecidableEq, Repr

/-- Constructor `NewNamedNode`. -/
def NewNamedNode (iri : String) : namedNode :=
  { iri := iri }

/-- Constructor `NewTypedLiteral`. -/
def NewTypedLiteral (value : Value) (typeNode : namedNode) : typedLiteral :=
  { value := value, typeNode := typeNode }

/-- Constructor `NewLocalizedLiteral`: an empty language becomes `"default"`. -/
def NewLocalizedLiteral (value : String) (language : String) : localizedLiteral :=
  if language == "" then { value := value, language := "default" }
  else { value := value, language := language }

/-- Constructor `NewStatement`. -/
def NewStatement (subject predicate : namedNode) (object : Node) (graph : Option namedNode) :
    statement :=
  { subject := subject, predicate := predicate, object := object, graph := graph }

/-- Method `namedNode.Equals`: `other` is a NamedNode with the same IRI
(`none` is the nil interface value). -/
def namedNode.Equals (nn : namedNode) (other : Option Node) : Bool :=
  match other with
  | some (Node.named v) => nn.iri == v.iri
  | _ => false

/-- Method `localizedLiteral.Equals`. -/
def localizedLiteral.Equals (ln : localizedLiteral) (other : Option Node) : Bool :=
  match other with
  | some (Node.localized v) => ln.language == v.language && ln.value == v.value
  | _ => false

/-- Method `typedLiteral.Equals`. -/
def typedLiteral.Equals (tn : typedLiteral) (other : Option Node) : Bool :=
  match other with
  | some (Node.typed v) =>
    tn.typeNode.Equals (some (Node.named v.typeNode)) && Value.equal tn.value v.value
  | _ => false

/-- Dynamic dispatch of `Node.Equals` on the implementation of the receiver. -/
def Node.Equals (n : Node) (other : Option Node) : Bool :=
  match n with
  | Node.named nn => nn.Equals other
  | Node.localized ln => ln.Equals other
  | Node.typed tn => tn.Equals other

/-- Whether the value of a node is a text: every named node and localized literal, and a
typed literal with a Go string in its value slot. -/
def Node.textValued : Node → Bool
  | Node.typed tn => tn.value.isText
  | _ => true

/-- A NamedNode interface value (nil or a node) seen as a value of `interface{}`. -/
def asNode (n : Option namedNode) : Option Node :=
  n.map Node.named

/-- Method `statement.Equals`. -/
def statement.Equals (s : statement) (other : Option statement) : Bool :=
  match other with
  | some v =>
    if !(s.subject.Equals (some (Node.named v.subject))) then false
    else if !(s.predicate.Equals (some (Node.named v.predicate))) then false
    else if !(s.object.Equals (some v.object)) then false
    else if s.graph.isNone && v.graph.isSome then false
    else if s.graph.isSome && v.graph.isNone then false
    else
      match s.graph with
      | some g => if !(g.Equals (asNode v.graph)) then false else true
      | none => true
  | none => false

/-! ## Heaps -/

/-- Closures of type `matcher` created in query.go. -/
inductive matcher where
  /-- The literal `func(stmt Statement) bool {return true}` of NewQuery / NewQueryWithParent. -/
  | seed
  /-- The closure of `Group`, capturing the sub query `sq`. -/
  | group (sq : Nat)
  /-- The closure of `Graph`, capturing `node`. -/
  | graph (node : Option namedNode)
  /-- The closure of `Subject`, capturing `node`. -/
  | subject (node : Option namedNode)
  /-- The closure of `Predicate`, capturing `node`. -/
  | predicate (node : Option namedNode)
  /-- The closure of `Object`, capturing `node`. -/
  | object (node : Option Node)
  /-- The closure of `add`, capturing `prev` and `qmatcher`. -/
  | or (prev qmatcher : matcher)
deriving DecidableEq, Repr

/-- Struct `query`; `base` and `parent` are handles (or nil). -/
structure query where
  base : Option Nat
  parent : Option Nat
  query : List matcher
  nextOp : String
deriving DecidableEq, Repr

/-- Struct `knowledgeBase`. -/
structure knowledgeBase where
  name : String
  statements : List statement
  defaultGraph : namedNode
deriving DecidableEq, Repr

/-- The objects allocated so far. -/
structure World where
  kbs : List knowledgeBase
  queries : List query
deriving DecidableEq, Repr

/-- Replace the query behind handle `q`. -/
def World.setQuery (w : World) (q : Nat) (qq : query) : World :=
  { w with queries := w.queries.set q qq }

/-- Replace the knowledge base behind handle `kb`. -/
def World.setKb (w : World) (kb : Nat) (k : knowledgeBase) : World :=
  { w with kbs := w.kbs.set kb k }

/-! ## Query engine (query.go) -/

/-- Constructor `NewQuery`. -/
def NewQuery (w : World) : World × Nat :=
  ({ w with queries := w.queries ++
      [{ base := none, parent := none, query := [matcher.seed], nextOp := "and" }] },
   w.queries.length)

/-- Constructor `NewQueryWithParent`. -/
def NewQueryWithParent (parent : Option Nat) (w : World) : World × Nat :=
  ({ w with queries := w.queries ++
      [{ base := none, parent := parent, query := [matcher.seed], nextOp := "and" }] },
   w.queries.length)

/-- Method `query.add`. -/
def query.add (q : Nat) (qmatcher : matcher) (w : World) : Option World :=
  match w.queries[q]? with
  | none => none
  | some q0 =>
    let op := q0.nextOp
    let q1 : Semtools.query := { q0 with nextOp := "and" }
    if op == "and" then
      some (w.setQuery q { q1 with query := q1.query ++ [qmatcher] })
    else if op == "or" then
      let lidx := q1.query.length - 1
      match q1.query[lidx]? with
      | none => none
      | some prev => some (w.setQuery q { q1 with query := q1.query.set lidx (matcher.or prev qmatcher) })
    else some (w.setQuery q q1)

/-- Method `query.Group`: returns the sub query. -/
def query.Group (q : Nat) (w : World) : Option (World × Nat) :=
  let (w1, sq) := NewQueryWithParent (some q) w
  match query.add q (matcher.group sq) w1 with
  | none => none
  | some w2 => some (w2, sq)

/-- Method `query.EndGroup`. -/
def query.EndGroup (q : Nat) (w : World) : Option (World × Nat) :=
  match w.queries[q]? with
  | none => none
  | some q0 =>
    match q0.parent with
    | none => some (w, q)
    | some p => some (w, p)

/-- Method `query.Or`. -/
def query.Or (q : Nat) (w : World) : Option (World × Nat) :=
  match w.queries[q]? with
  | none => none
  | some q0 => some (w.setQuery q { q0 with nextOp := "or" }, q)

/-- Method `query.Graph`. -/
def query.Graph (q : Nat) (node : Option namedNode) (w : World) : Option (World × Nat) :=
  (query.add q (matcher.graph node) w).map (fun w1 => (w1, q))

/-- Method `query.Subject`. -/
def query.Subject (q : Nat) (node : Option namedNode) (w : World) : Option (World × Nat) :=
  (query.add q (matcher.subject node) w).map (fun w1 => (w1, q))

/-- Method `query.Predicate`. -/
def query.Predicate (q : Nat) (node : Option namedNode) (w : World) : Option (World × Nat) :=
  (query.add q (matcher.predicate node) w).map (fun w1 => (w1, q))

/-- Method `query.Object`. -/
def query.Object (q : Nat) (node : Option Node) (w : World) : Option (World × Nat) :=
  (query.add q (matcher.object node) w).map (fun w1 => (w1, q))

/-- Method `query.Bind`. -/
def query.Bind (q : Nat) (base : Option Nat) (w : World) : Option (World × Nat) :=
  match w.queries[q]? with
  | none => none
  | some q0 => some (w.setQuery q { q0 with base := base }, q)

/-- Call of a matcher closure on a statement; `grp sq stmt` is the call `sq.Evaluate(stmt)`. -/
def matcher.call (grp : Nat → statement → Option Bool) : matcher → statement → Option Bool
  | matcher.seed, _ => some true
  | matcher.group sq, stmt => grp sq stmt
  | matcher.graph node, stmt =>
    match stmt.graph with
    | none => some node.isNone
    | some g => some (g.Equals (asNode node))
  | matcher.subject node, stmt => some (stmt.subject.Equals (asNode node))
  | matcher.predicate node, stmt => some (stmt.predicate.Equals (asNode node))
  | matcher.object node, stmt => some (stmt.object.Equals node)
  | matcher.or prev qmatcher, stmt =>
    match matcher.call grp prev stmt with
    | none => none
    | some true => some true
    | some false => matcher.call grp qmatcher stmt

/-- The loop of `query.Evaluate` over the conjuncts. -/
def evalConjuncts (grp : Nat → statement → Option Bool) : List matcher → statement → Option Bool
  | [], _ => some true
  | m :: ms, stmt =>
    match matcher.call grp m stmt with
    | none => none
    | some false => some false
    | some true => evalConjuncts grp ms stmt

/-- Method `query.Evaluate` with a bound on the depth of nested `Evaluate` calls. -/
def evaluateFuel : Nat → List query → Nat → statement → Option Bool
  | 0, _, _, _ => none
  | fuel + 1, h, q, stmt =>
    match h[q]? with
    | none => none
    | some q0 => evalConjuncts (evaluateFuel fuel h) q0.query stmt

/-- Method `query.Evaluate`. A nest of calls deeper than the number of queries repeats a
query and never returns. -/
def query.Evaluate (q : Nat) (stmt : statement) (w : World) : Option Bool :=
  evaluateFuel w.queries.length w.queries q stmt

/-- Method `query.ResultsFrom`. -/
def query.ResultsFrom (q : Nat) (stmts : List statement) (w : World) : Option (List statement) :=
  match stmts with
  | [] => some []
  | stmt :: rest =>
    match query.Evaluate q stmt w with
    | none => none
    | some b =>
      match query.ResultsFrom q rest w with
      | none => none
      | some res => some (if b then stmt :: res else res)

/-- The loop of `query.ResultIndexesFrom`, from position `idx` on. -/
def resultIndexesLoop (q : Nat) (w : World) : Nat → List statement → Option (List Nat)
  | _, [] => some []
  | idx, stmt :: rest =>
    match query.Evaluate q stmt w with
    | none => none
    | some b =>
      match resultIndexesLoop q w (idx + 1) rest with
      | none => none
      | some res => some (if b then idx :: res else res)

/-- Method `query.ResultIndexesFrom`. -/
def query.ResultIndexesFrom (q : Nat) (stmts : List statement) (w : World) : Option (List Nat) :=
  resultIndexesLoop q w 0 stmts

/-- The statements of the bound base, as read by `Results` and `ResultIndexes`. -/
def boundStatements (q : Nat) (w : World) : Option (List statement) :=
  match w.queries[q]? with
  | none => none
  | some q0 =>
    match q0.base with
    | none => some []
    | some b => (w.kbs[b]?).map (fun k => k.statements)

/-- Method `query.Results`. -/
def query.Results (q : Nat) (w : World) : Option (List statement) :=
  match boundStatements q w with
  | none => none
  | some stmts => query.ResultsFrom q stmts w

/-- Method `query.ResultIndexes`. -/
def query.ResultIndexes (q : Nat) (w : World) : Option (List Nat) :=
  match boundStatements q w with
  | none => none
  | some stmts => query.ResultIndexesFrom q stmts w

/-! ## Knowledge base (knowledge_base.go) -/

/-- Constructor `NewKnowledgeBase`. -/
def NewKnowledgeBase (name : String) (w : World) : World × Nat :=
  let name := if name == "" then "kb" else name
  ({ w with kbs := w.kbs ++
      [{ name := name, statements := [], defaultGraph := NewNamedNode "default-graph" }] },
   w.kbs.length)

/-- Method `knowledgeBase.Statements`. -/
def knowledgeBase.Statements (kb : Nat) (w : World) : Option (List statement) :=
  (w.kbs[kb]?).map (fun k => k.statements)

/-- Method `knowledgeBase.Select`. -/
def knowledgeBase.Select (kb : Nat) (w : World) : Option (World × Nat) :=
  let (w1, q) := NewQuery w
  query.Bind q (some kb) w1

/-- Body of the loop of `knowledgeBase.Insert`. -/
def insertStep (kb : Nat) (stmt : statement) (w : World) : Option World := do
  let k ← w.kbs[kb]?
  let subj := stmt.subject
  let pred := stmt.predicate
  let obj := stmt.object
  let graph := match stmt.graph with
    | none => k.defaultGraph
    | some g => g
  let (w1, q1) ← knowledgeBase.Select kb w
  let (w2, q2) ← query.Graph q1 (some graph) w1
  let (w3, q3) ← query.Subject q2 (some subj) w2
  let (w4, q4) ← query.Predicate q3 (some pred) w3
  let (w5, q5) ← query.Object q4 (some obj) w4
  let found ← query.Results q5 w5
  if found.length == 0 then
    let k5 ← w5.kbs[kb]?
    pure (w5.setKb kb { k5 with statements := k5.statements ++ [NewStatement subj pred obj (some graph)] })
  else
    pure w5

/-- Method `knowledgeBase.Insert`. -/
def knowledgeBase.Insert (kb : Nat) (stmts : List statement) (w : World) : Option World :=
  match stmts with
  | [] => some w
  | stmt :: rest =>
    match insertStep kb stmt w with
    | none => none
    | some w1 => knowledgeBase.Insert kb rest w1

/-- The expression `append(s[:idx], s[idx+1:]...)`; the slice `s[idx+1:]` needs
`idx+1 <= len(s)`. -/
def removeAt (s : List statement) (idx : Nat) : Option (List statement) :=
  if idx + 1 ≤ s.length then some (s.take idx ++ s.drop (idx + 1)) else none

/-- The inner loop of `knowledgeBase.Delete` over the sorted positions. -/
def removeLoop (kb : Nat) : List Nat → World → Option World
  | [], w => some w
  | idx :: rest, w =>
    match w.kbs[kb]? with
    | none => none
    | some k =>
      match removeAt k.statements idx with
      | none => none
      | some s => removeLoop kb rest (w.setKb kb { k with statements := s })

/-- Body of the outer loop of `knowledgeBase.Delete`. -/
def deleteStep (kb : Nat) (stmt : statement) (w : World) : Option World := do
  let (w1, q1) ← knowledgeBase.Select kb w
  let (w2, q2) ← match stmt.graph with
    | some g => query.Graph q1 (some g) w1
    | none => some (w1, q1)
  let (w3, q3) ← query.Subject q2 (some stmt.subject) w2
  let (w4, q4) ← query.Predicate q3 (some stmt.predicate) w3
  let (w5, q5) ← query.Object q4 (some stmt.object) w4
  let found ← query.ResultIndexes q5 w5
  -- sort.Sort(sort.Reverse(sort.IntSlice(matches)))
  let sorted := found.insertionSort (fun a b => b ≤ a)
  removeLoop kb sorted w5

/-- Method `knowledgeBase.Delete`. -/
def knowledgeBase.Delete (kb : Nat) (stmts : List statement) (w : World) : Option World :=
  match stmts with
  | [] => some w
  | stmt :: rest =>
    match deleteStep kb stmt w with
    | none => none
    | some w1 => knowledgeBase.Delete kb rest w1

/-! ## Call sequences, method chains and leaves -/

/-- A call of one of the two mutating methods of a knowledge base. -/
inductive Call where
  | Insert (stmts : List statement)
  | Delete (stmts : List statement)
deriving DecidableEq, Repr

/-- A sequence of `Insert` and `Delete` calls on the knowledge base `kb`, in order. -/
def applyCalls (kb : Nat) : List Call → World → Option World
  | [], w => some w
  | Call.Insert stmts :: rest, w =>
    match knowledgeBase.Insert kb stmts w with
    | none => none
    | some w1 => applyCalls kb rest w1
  | Call.Delete stmts :: rest, w =>
    match knowledgeBase.Delete kb stmts w with
    | none => none
    | some w1 => applyCalls kb rest w1

/-- Proof auxiliary: the statement that `Insert` stores for `stmt`. -/
def stored (dg : namedNode) (stmt : statement) : statement :=
  NewStatement stmt.subject stmt.predicate stmt.object (some (stmt.graph.getD dg))

/-- Proof auxiliary: the effect of one round of the loop of `Insert` on the sequence. -/
def insertPure (dg : namedNode) (L : List statement) (stmt : statement) : List statement :=
  if L.any (fun t => t.Equals (some (stored dg stmt))) then L else L ++ [stored dg stmt]

/-- Proof auxiliary: the test by which one round of the loop of `Delete` picks positions. -/
def deleteTest (stmt t : statement) : Bool :=
  match stmt.graph with
  | some _ => t.Equals (some stmt)
  | none => t.subject.Equals (some (Node.named stmt.subject)) &&
      t.predicate.Equals (some (Node.named stmt.predicate)) &&
      t.object.Equals (some stmt.object)

/-- Proof auxiliary: the effect of one round of the loop of `Delete` on the sequence. -/
def deletePure (L : List statement) (stmt : statement) : List statement :=
  L.filter (fun t => !(deleteTest stmt t))

/-- Proof auxiliary: the effect of one call on the sequence. -/
def callPure (dg : namedNode) (L : List statement) : Call → List statement
  | Call.Insert stmts => stmts.foldl (insertPure dg) L
  | Call.Delete stmts => stmts.foldl deletePure L

/-- Method chaining `r.f(...)`: the call `f` on the query and world that `r` returned. -/
def thenCall {α : Type} (r : Option (World × Nat)) (f : Nat → World → Option α) : Option α :=
  match r with
  | none => none
  | some (w, q) => f q w

/-- One of the four leaf builder calls of a query, with its argument. -/
inductive Leaf where
  | Graph (node : Option namedNode)
  | Subject (node : Option namedNode)
  | Predicate (node : Option namedNode)
  | Object (node : Option Node)
deriving DecidableEq, Repr

/-- The builder call that the leaf stands for. -/
def Leaf.build : Leaf → Nat → World → Option (World × Nat)
  | Leaf.Graph node, q, w => query.Graph q node w
  | Leaf.Subject node, q, w => query.Subject q node w
  | Leaf.Predicate node, q, w => query.Predicate q node w
  | Leaf.Object node, q, w => query.Object q node w

/-- The body of the closure that the builder call of the leaf creates. -/
def Leaf.holds : Leaf → statement → Bool
  | Leaf.Graph node, stmt =>
    match stmt.graph with
    | none => node.isNone
    | some g => g.Equals (asNode node)
  | Leaf.Subject node, stmt => stmt.subject.Equals (asNode node)
  | Leaf.Predicate node, stmt => stmt.predicate.Equals (asNode node)
  | Leaf.Object node, stmt => stmt.object.Equals node

/-- Proof auxiliary: the closure that the builder call of the leaf creates. -/
def Leaf.toMatcher : Leaf → matcher
  | Leaf.Graph node => matcher.graph node
  | Leaf.Subject node => matcher.subject node
  | Leaf.Predicate node => matcher.predicate node
  | Leaf.Object node => matcher.object node

/-! ## Proof auxiliaries and example data -/

/-- Proof auxiliary: the positions, counted from `idx`, of the statements that satisfy `p`. -/
def positionsFrom (p : statement → Bool) : Nat → List statement → List Nat
  | _, [] => []
  | idx, stmt :: rest =>
    if p stmt then idx :: positionsFrom p (idx + 1) rest else positionsFrom p (idx + 1) rest

/-- Example data: the statement `a - b - c` with a nil graph. -/
def exStatementNoGraph : statement :=
  NewStatement (NewNamedNode "a") (NewNamedNode "b") (Node.named (NewNamedNode "c")) none

/-- Example data: the statement `a - b - c` in graph `g`. -/
def exStatementG : statement :=
  NewStatement (NewNamedNode "a") (NewNamedNode "b") (Node.named (NewNamedNode "c"))
    (some (NewNamedNode "g"))

/-- Example data: the statement `a - b - d` in graph `g`. -/
def exStatementD : statement :=
  NewStatement (NewNamedNode "a") (NewNamedNode "b") (Node.named (NewNamedNode "d"))
    (some (NewNamedNode "g"))

/-- Example data: the statement `a - b - NaN` in graph `g`: its object is a typed literal with
the value `math.NaN()` and the type `t`. -/
def exStatementNaN : statement :=
  NewStatement (NewNamedNode "a") (NewNamedNode "b")
    (Node.typed (NewTypedLiteral (Value.nan "NaN") (NewNamedNode "t")))
    (some (NewNamedNode "g"))

/-- Example data: a knowledge base that holds two statements. -/
def exBase : knowledgeBase :=
  { name := "kb", statements := [exStatementG, exStatementD],
    defaultGraph := NewNamedNode "default-graph" }

/-- Example data: a world with `exBase` behind handle 0 and no query. -/
def exWorld : World :=
  { kbs := [exBase], queries := [] }


/-- Example data: `exWorld` with one query, `Select().Subject(a)`, behind handle 0. -/
def exQueryWorld : World :=
  { kbs := [exBase],
    queries := [(⟨some 0, none, [matcher.seed, matcher.subject (some (NewNamedNode "a"))],
      "and"⟩ : query)] }

/-! ## Texts (Go `string` and package `strings`)

A Go string is modelled by a Lean `String`, a sequence of characters; a position counts
characters. For ASCII text a character is a byte, as in Go. Go counts bytes: on a text with a
character of more than one byte, an index or slice expression of the model and of Go differ
(`s[1:len(s)-1]` drops the last byte in Go and the last character here). -/

/-- The Go operator `<` on the characters of two strings (the order of the UTF-8 bytes is
the order of the code points). -/
def ltChars : List Char → List Char → Bool
  | [], [] => false
  | [], _ :: _ => true
  | _ :: _, [] => false
  | a :: as, b :: bs =>
    if a.toNat < b.toNat then true
    else if b.toNat < a.toNat then false
    else ltChars as bs

/-- The Go operator `<` on strings. -/
def stringLess (a b : String) : Bool :=
  ltChars a.data b.data

/-- Function `sort.Strings`: ascending order. -/
def sort.Strings (l : List String) : List String :=
  l.insertionSort (fun a b => stringLess b a = false)

/-- Function `strings.HasPrefix` on characters. -/
def hasPrefixChars : List Char → List Char → Bool
  | _, [] => true
  | [], _ :: _ => false
  | c :: cs, p :: ps => c == p && hasPrefixChars cs ps

/-- Function `strings.Contains` on characters. -/
def containsChars (s substr : List Char) : Bool :=
  match s with
  | [] => hasPrefixChars [] substr
  | c :: cs => hasPrefixChars (c :: cs) substr || containsChars cs substr

/-- Function `strings.Contains`. -/
def strings.Contains (s substr : String) : Bool :=
  containsChars s.data substr.data

/-- Function `strings.Replace` with `n = 1` on characters: the first occurrence of `old`. -/
def replaceFirstChars (s old new : List Char) : List Char :=
  match s with
  | [] => if hasPrefixChars [] old then new else []
  | c :: cs =>
    if hasPrefixChars (c :: cs) old then new ++ (c :: cs).drop old.length
    else c :: replaceFirstChars cs old new

/-- Call `strings.Replace(s, old, new, 1)`. -/
def strings.Replace1 (s old new : String) : String :=
  String.mk (replaceFirstChars s.data old.data new.data)

/-! ## Regular expressions (package `regexp`)

The syntax tree of the part of the RE2 syntax that parser_ttl.go uses, and the leftmost-first
match of package `regexp`: the match that starts first and that a backtracking search finds
first. Positions count from the start of the whole text, so that `^` holds at position 0 only,
also when a search starts later. -/

/-- Syntax tree of a regular expression. -/
inductive Regex where
  /-- The empty expression. -/
  | empty
  /-- A literal character. -/
  | char (c : Char)
  /-- A character class: the union of the ranges, or its complement when `neg` is set. -/
  | cls (neg : Bool) (ranges : List (Char × Char))
  /-- The operator `^` without the flag `m`: the start of the text. -/
  | bot
  /-- The operator `$` without the flag `m`: the end of the text. -/
  | eot
  /-- Concatenation. -/
  | cat (r s : Regex)
  /-- Alternation `r|s`; `r` is preferred. -/
  | alt (r s : Regex)
  /-- The operators `r*` (greedy) and `r*?`. -/
  | star (r : Regex) (greedy : Bool)
  /-- The operators `r+` (greedy) and `r+?`. -/
  | plus (r : Regex) (greedy : Bool)
  /-- The operators `r?` (greedy) and `r??`. -/
  | quest (r : Regex) (greedy : Bool)
  /-- The capturing group number `i`. -/
  | cap (i : Nat) (r : Regex)
deriving DecidableEq, Repr

/-- The class `\s`: `[\t\n\f\r ]`. -/
def Regex.space : Regex :=
  Regex.cls false [('\t', '\n'), ('\x0c', '\r'), (' ', ' ')]

/-- The class `\S`. -/
def Regex.nonSpace : Regex :=
  Regex.cls true [('\t', '\n'), ('\x0c', '\r'), (' ', ' ')]

/-- The operator `.` without the flag `s`: every character but the line feed. -/
def Regex.dot : Regex :=
  Regex.cls true [('\n', '\n')]

/-- The class `[\S\s]`: every character. -/
def Regex.any : Regex :=
  Regex.cls true []

/-- The concatenation of the characters of a literal text. -/
def Regex.lit : List Char → Regex
  | [] => Regex.empty
  | [c] => Regex.char c
  | c :: cs => Regex.cat (Regex.char c) (Regex.lit cs)

/-- Whether a character is in one of the ranges. -/
def inRanges (c : Char) : List (Char × Char) → Bool
  | [] => false
  | (lo, hi) :: rest => (lo.toNat ≤ c.toNat && c.toNat ≤ hi.toNat) || inRanges c rest

/-- State of a match attempt: the position, the text from there on, and the groups closed so
far, the latest first, each with its number, start and end. -/
structure MState where
  pos : Nat
  rest : List Char
  caps : List (Nat × Nat × Nat)
deriving DecidableEq, Repr

/-- The first result of two alternatives of the backtracking search. -/
def orElse (a : Option MState) (b : Unit → Option MState) : Option MState :=
  match a with
  | some x => some x
  | none => b ()

/-- A repetition of `body`, followed by `k`. An iteration has to consume a character before
the next one starts; `fuel` bounds the number of iterations and is never used up when it
starts above the length of the text. -/
def repeatLoop (body : (MState → Option MState) → MState → Option MState) (greedy : Bool) :
    Nat → (MState → Option MState) → MState → Option MState
  | 0, k, s => k s
  | fuel + 1, k, s =>
    if greedy then
      orElse (body (fun s2 => if s.pos < s2.pos then repeatLoop body greedy fuel k s2 else none) s)
        (fun _ => k s)
    else
      orElse (k s)
        (fun _ => body (fun s2 => if s.pos < s2.pos then repeatLoop body greedy fuel k s2
          else none) s)

/-- The backtracking search for a match of `r` at state `s`, followed by `k`. -/
def Regex.run : Regex → Nat → (MState → Option MState) → MState → Option MState
  | Regex.empty, _, k, s => k s
  | Regex.char c, _, k, s =>
    match s.rest with
    | [] => none
    | x :: xs => if x == c then k { s with pos := s.pos + 1, rest := xs } else none
  | Regex.cls neg ranges, _, k, s =>
    match s.rest with
    | [] => none
    | x :: xs =>
      if inRanges x ranges != neg then k { s with pos := s.pos + 1, rest := xs } else none
  | Regex.bot, _, k, s => if s.pos == 0 then k s else none
  | Regex.eot, _, k, s => if s.rest.isEmpty then k s else none
  | Regex.cat r1 r2, fuel, k, s => Regex.run r1 fuel (Regex.run r2 fuel k) s
  | Regex.alt r1 r2, fuel, k, s => orElse (Regex.run r1 fuel k s) (fun _ => Regex.run r2 fuel k s)
  | Regex.star r greedy, fuel, k, s => repeatLoop (Regex.run r fuel) greedy fuel k s
  | Regex.plus r greedy, fuel, k, s =>
    Regex.run r fuel (repeatLoop (Regex.run r fuel) greedy fuel k) s
  | Regex.quest r greedy, fuel, k, s =>
    if greedy then orElse (Regex.run r fuel k s) (fun _ => k s)
    else orElse (k s) (fun _ => Regex.run r fuel k s)
  | Regex.cap i r, fuel, k, s =>
    Regex.run r fuel (fun s2 => k { s2 with caps := (i, s.pos, s2.pos) :: s2.caps }) s

/-- A match: start, end and the groups. -/
structure Match where
  start : Nat
  stop : Nat
  caps : List (Nat × Nat × Nat)
deriving DecidableEq, Repr

/-- The leftmost-first match that starts at `pos` or later; `rest` is the text from `pos`. -/
def Regex.searchFrom (re : Regex) (fuel : Nat) : Nat → List Char → Option Match
  | pos, [] =>
    (Regex.run re fuel (fun s => some s) ⟨pos, [], []⟩).map (fun s => ⟨pos, s.pos, s.caps⟩)
  | pos, c :: cs =>
    match Regex.run re fuel (fun s => some s) ⟨pos, c :: cs, []⟩ with
    | some s => some ⟨pos, s.pos, s.caps⟩
    | none => Regex.searchFrom re fuel (pos + 1) cs

/-- The search `doExecute` of package `regexp` from position `pos` of `text`. -/
def Regex.execute (re : Regex) (text : List Char) (pos : Nat) : Option Match :=
  Regex.searchFrom re (text.length + 1) pos (text.drop pos)

/-- Start and end of group `i` of a match (group 0 is the match), if the group took part. -/
def Match.group (m : Match) (i : Nat) : Option (Nat × Nat) :=
  if i == 0 then some (m.start, m.stop)
  else (m.caps.find? (fun c => c.1 == i)).map (fun c => c.2)

/-- The text of group `i`, empty if the group took no part. -/
def Match.text (m : Match) (text : List Char) (i : Nat) : List Char :=
  match m.group i with
  | none => []
  | some (a, b) => (text.drop a).take (b - a)

/-- The loop `allMatches` of package `regexp` (all successive matches, `n < 0`). -/
def allMatchesLoop (re : Regex) (text : List Char) :
    Nat → Nat → Option Nat → List Match
  | 0, _, _ => []
  | fuel + 1, pos, prevMatchEnd =>
    if pos ≤ text.length then
      match Regex.execute re text pos with
      | none => []
      | some m =>
        let accept := !(m.stop == pos && some m.start == prevMatchEnd)
        let pos2 := if m.stop == pos then pos + 1 else m.stop
        if accept then m :: allMatchesLoop re text fuel pos2 (some m.stop)
        else allMatchesLoop re text fuel pos2 (some m.stop)
    else []

/-- All successive matches, as `FindAllStringSubmatchIndex(text, -1)` sees them. -/
def Regex.allMatches (re : Regex) (text : List Char) : List Match :=
  allMatchesLoop re text (text.length + 2) 0 none

/-- A piece of a replacement template: literal text or `$i`. -/
inductive TemplatePart where
  | text (s : List Char)
  | group (i : Nat)
deriving DecidableEq, Repr

/-- The expansion of a replacement template for a match. -/
def expandTemplate (text : List Char) (m : Match) : List TemplatePart → List Char
  | [] => []
  | TemplatePart.text s :: rest => s ++ expandTemplate text m rest
  | TemplatePart.group i :: rest => m.text text i ++ expandTemplate text m rest

/-- The loop of `replaceAll` of package `regexp`; the result is the buffer and the end of
the last match. -/
def replaceAllLoop (re : Regex) (text : List Char) (repl : List TemplatePart) :
    Nat → Nat → Nat → List Char → List Char × Nat
  | 0, _, lastMatchEnd, buf => (buf, lastMatchEnd)
  | fuel + 1, searchPos, lastMatchEnd, buf =>
    if searchPos ≤ text.length then
      match Regex.execute re text searchPos with
      | none => (buf, lastMatchEnd)
      | some m =>
        let buf1 := buf ++ (text.drop lastMatchEnd).take (m.start - lastMatchEnd)
        let buf2 := if m.stop > lastMatchEnd || m.start == 0 then
          buf1 ++ expandTemplate text m repl else buf1
        let width := if searchPos < text.length then 1 else 0
        let searchPos2 := if searchPos + width > m.stop then searchPos + width
          else if searchPos + 1 > m.stop then searchPos + 1
          else m.stop
        replaceAllLoop re text repl fuel searchPos2 m.stop buf2
    else (buf, lastMatchEnd)

/-- Method `ReplaceAllString` with the template already split into its pieces. -/
def Regex.ReplaceAllString (re : Regex) (src : String) (repl : List TemplatePart) : String :=
  let r := replaceAllLoop re src.data repl (src.data.length + 2) 0 0 []
  String.mk (r.1 ++ src.data.drop r.2)

/-! ## Namespace (namespace.go) -/

/-- The order in which a `range` over a Go map visits the keys: some permutation, which Go
does not fix. The model uses one order for all the ranges of one call of the codec. -/
structure MapOrder where
  visit : List String → List String
  perm : ∀ l, (visit l).Perm l

/-- The order that visits the keys as the model stores them. -/
def MapOrder.stored : MapOrder :=
  { visit := fun l => l, perm := fun l => List.Perm.refl l }

/-- The order that visits the keys back to front. -/
def MapOrder.reversed : MapOrder :=
  { visit := fun l => l.reverse, perm := fun l => List.reverse_perm l }

/-- Struct `Namespace`: the field `ns` of type `map[string]string`, as the list of its
entries; the keys are pairwise distinct. -/
structure Namespace where
  ns : List (String × String)
deriving DecidableEq, Repr

/-- Constructor `NewEmptyNamespace`. -/
def NewEmptyNamespace : Namespace :=
  { ns := [] }

/-- The assignment `m[key] = value` on the entries of a map. -/
def mapSet (key value : String) : List (String × String) → List (String × String)
  | [] => [(key, value)]
  | (k, v) :: rest => if k == key then (k, value) :: rest else (k, v) :: mapSet key value rest

/-- Method `Namespace.Set`. -/
def Namespace.Set (ns : Namespace) (key value : String) : Namespace :=
  { ns := mapSet key value ns.ns }

/-- Method `Namespace.Get`. -/
def Namespace.Get (ns : Namespace) (key : String) : Option String :=
  (ns.ns.find? (fun e => e.1 == key)).map (fun e => e.2)

/-- Method `Namespace.MustGet`: the zero value `""` for a missing key. -/
def Namespace.MustGet (ns : Namespace) (key : String) : String :=
  (ns.Get key).getD ""

/-- Method `Namespace.Contains`. -/
def Namespace.Contains (ns : Namespace) (key : String) : Bool :=
  (ns.Get key).isSome

/-- Method `Namespace.ListKeys`. -/
def Namespace.ListKeys (ns : Namespace) (ord : MapOrder) : List String :=
  ord.visit (ns.ns.map (fun e => e.1))

/-- Constructor `NewNamespace`. -/
def NewNamespace : Namespace :=
  ((((((((((NewEmptyNamespace.Set "xsd" "http://www.w3.org/2001/XMLSchema").Set
    "rdf" "http://www.w3.org/1999/02/22-rdf-syntax-ns").Set
    "rdfs" "http://www.w3.org/2000/01/rdf-schema").Set
    "owl" "http://www.w3.org/2002/07/owl").Set
    "sesame" "http://www.openrdf.org/schema/sesame").Set
    "fn" "http://www.w3.org/2005/xpath-functions").Set
    "foaf" "http://xmlns.com/foaf/0.1").Set
    "dc" "http://purl.org/dc/elements/1.1").Set
    "hint" "http://www.bigdata.com/queryHints").Set
    "bd" "http://www.bigdata.com/rdf").Set
    "bds" "http://www.bigdata.com/rdf/search"

/-- The loop `for _, k := range keys { copy.Set(k, src.MustGet(k)) }`. -/
def copyEntries (src : Namespace) : List String → Namespace → Namespace
  | [], copy => copy
  | k :: rest, copy => copyEntries src rest (copy.Set k (src.MustGet k))

/-- Method `Namespace.Copy`. -/
def Namespace.Copy (ns : Namespace) (ord : MapOrder) : Namespace :=
  copyEntries ns (ns.ListKeys ord) NewNamespace

/-- Method `Namespace.Include`. -/
def Namespace.Include (ns : Namespace) (ord : MapOrder) (other : Namespace) : Namespace :=
  copyEntries other (other.ListKeys ord) (ns.Copy ord)

/-! ## Turtle codec: Marshal (parser_ttl.go) -/

deriving instance DecidableEq for Except

/-- Variable `TurtleParserDefaultNamespace`. -/
def TurtleParserDefaultNamespace : Namespace :=
  NewNamespace

/-- Struct `TurtleParserOptions`; a nil `Namespace` is `none`. -/
structure TurtleParserOptions where
  Substitute : Bool
  Namespace : Option Namespace
  PrettyPrint : Bool
  RequireBaseIri : Bool
  FallbackToFirstSubjectForBaseIri : Bool
deriving DecidableEq, Repr

/-- Struct `TurtleParser`. -/
structure TurtleParser where
  options : TurtleParserOptions
deriving DecidableEq, Repr

/-- Constructor `NewTurtleParser`; `none` is the call with nil options. -/
def NewTurtleParser (opts : Option TurtleParserOptions) : TurtleParser :=
  let opts1 : TurtleParserOptions := match opts with
    | none => { Substitute := false, Namespace := none, PrettyPrint := false,
                RequireBaseIri := false, FallbackToFirstSubjectForBaseIri := false }
    | some o => o
  let opts2 : TurtleParserOptions := match opts1.Namespace with
    | none => { opts1 with Namespace := some NewEmptyNamespace }
    | some _ => opts1
  { options := opts2 }

/-- The namespace of the options of a parser made by `NewTurtleParser`. -/
def TurtleParser.optionsNamespace (p : TurtleParser) : Namespace :=
  p.options.Namespace.getD NewEmptyNamespace

/-- Method `String` of the three kinds of node. -/
def Node.String : Node → String
  | Node.named nn => nn.iri
  | Node.localized ln => ln.value
  | Node.typed tn => tn.value.shown

/-- Variable `ttlStringEscapeRe`: the expression `([^\\])(")`. -/
def ttlStringEscapeRe : Regex :=
  Regex.cat (Regex.cap 1 (Regex.cls true [('\\', '\\')])) (Regex.cap 2 (Regex.char '"'))

/-- Method `marshalString`; the template is `$1\"`. -/
def TurtleParser.marshalString (_p : TurtleParser) (str : String) : String :=
  "\"" ++ ttlStringEscapeRe.ReplaceAllString str
    [TemplatePart.group 1, TemplatePart.text ['\\', '"']] ++ "\""

/-- The loop of `marshalIri` over the keys: the first key whose stem followed by `#` occurs
in the IRI gives the substituted text. -/
def substituteLoop (iri : String) (ns : Namespace) : List String → Option String
  | [] => none
  | k :: rest =>
    if strings.Contains iri (ns.MustGet k ++ "#") then
      some (strings.Replace1 iri (ns.MustGet k ++ "#") (k ++ ":"))
    else substituteLoop iri ns rest

/-- Method `marshalIri`. A nil namespace is `none`; the package passes nil only together
with `substitute = false`, and the model visits no key for it. -/
def TurtleParser.marshalIri (_p : TurtleParser) (ord : MapOrder) (iri : String)
    (substitute : Bool) (ns : Option Namespace) : String :=
  let substituted : Option String :=
    if substitute then
      match ns with
      | none => none
      | some n => substituteLoop iri n (n.ListKeys ord)
    else none
  let iri2 := match substituted with
    | some t => t
    | none => "<" ++ iri ++ ">"
  if iri2 == "rdf:type" then "a" else iri2

/-- Method `marshalNode`; the error of the `default` case cannot arise for the three kinds of
node of the package. -/
def TurtleParser.marshalNode (p : TurtleParser) (ord : MapOrder) (n : Node) (substitute : Bool)
    (ns : Option Namespace) : Except String String :=
  match n with
  | Node.named nn => Except.ok (p.marshalIri ord nn.iri substitute ns)
  | Node.localized ln =>
    let v := p.marshalString ln.value
    let l := if ln.language == "" then "default" else ln.language
    Except.ok (v ++ "@" ++ l)
  | Node.typed tn =>
    let v := p.marshalString (Node.String (Node.typed tn))
    let iri := p.marshalIri ord tn.typeNode.iri substitute ns
    Except.ok (v ++ "^^" ++ iri)

/-- The first loop of `Marshal`: the variables `baseIri` and `unique` after the statements. -/
def scanGraphs : List statement → String × Bool → String × Bool
  | [], st => st
  | stmt :: rest, (baseIri, unique) =>
    match stmt.graph with
    | none => scanGraphs rest (baseIri, unique)
    | some g =>
      let unique2 := if baseIri != "" && baseIri != g.iri then false else unique
      scanGraphs rest (g.iri, unique2)

/-- The loop that writes the `@prefix` directives. -/
def prefixLines (p : TurtleParser) (ord : MapOrder) (ns : Namespace) : List String → String → String
  | [], ttl => ttl
  | k :: rest, ttl =>
    prefixLines p ord ns rest
      (ttl ++ "@prefix " ++ k ++ ": " ++ p.marshalIri ord (ns.MustGet k ++ "#") false none ++ " .\n")

/-- The value `m[key]` of a map with slices as values (nil for a missing key). -/
def mapGet {β : Type} (key : String) : List (String × List β) → List β
  | [] => []
  | (k, v) :: rest => if k == key then v else mapGet key rest

/-- The assignment `m[key] = value` on a map. -/
def mapPut {β : Type} (key : String) (value : β) : List (String × β) → List (String × β)
  | [] => [(key, value)]
  | (k, v) :: rest => if k == key then (k, value) :: rest else (k, v) :: mapPut key value rest

/-- The loop that fills `grouped`: subject IRI, then predicate IRI, then the objects in the
order of the statements. -/
def groupStatements : List statement → List (String × List (String × List Node)) →
    List (String × List (String × List Node))
  | [], grouped => grouped
  | v :: rest, grouped =>
    let inner := mapGet v.subject.iri grouped
    let objs := mapGet v.predicate.iri inner
    groupStatements rest
      (mapPut v.subject.iri (mapPut v.predicate.iri (objs ++ [v.object]) inner) grouped)

/-- Call `sort.Slice(objs, less)` with `less` the order of the `String()` of the nodes. The
model keeps the input order of nodes with the same `String()`, as Go does for a slice of at
most 12 nodes; Go fixes no order for them in a longer slice. -/
def sortObjects (objs : List Node) : List Node :=
  objs.insertionSort (fun a b => stringLess (Node.String b) (Node.String a) = false)

/-- The loop over the objects of one predicate. -/
def marshalObjects (p : TurtleParser) (ord : MapOrder) (ns : Namespace) :
    Nat → List Node → String → String
  | _, [], ttl => ttl
  | idx, obj :: rest, ttl =>
    let ttl1 := if idx > 0 then ttl ++ ", " else ttl
    let ttl2 := if p.options.PrettyPrint then ttl1 ++ "\n        " else ttl1
    let vs := match p.marshalNode ord obj p.options.Substitute (some ns) with
      | Except.ok s => s
      | Except.error _ => ""
    marshalObjects p ord ns (idx + 1) rest (ttl2 ++ vs ++ " ")

/-- The loop over the predicates of one subject; `inner` is `grouped[subjectIri]`. -/
def marshalPredicates (p : TurtleParser) (ord : MapOrder) (ns : Namespace)
    (inner : List (String × List Node)) : Nat → List String → String → String
  | _, [], ttl => ttl
  | pIdx, predicateIri :: rest, ttl =>
    let ttl1 := if pIdx > 0 then ttl ++ "; " else ttl
    let ttl2 := if p.options.PrettyPrint then ttl1 ++ "\n    " else ttl1
    let ps := match p.marshalNode ord (Node.named (NewNamedNode predicateIri))
        p.options.Substitute (some ns) with
      | Except.ok s => s
      | Except.error _ => ""
    let ttl3 := ttl2 ++ ps ++ " "
    let objs := sortObjects (mapGet predicateIri inner)
    marshalPredicates p ord ns inner (pIdx + 1) rest (marshalObjects p ord ns 0 objs ttl3)

/-- The loop over the subjects. -/
def marshalSubjects (p : TurtleParser) (ord : MapOrder) (ns : Namespace)
    (grouped : List (String × List (String × List Node))) :
    List String → String → Except String String
  | [], ttl => Except.ok ttl
  | subjectIri :: rest, ttl =>
    let ttl1 := if p.options.PrettyPrint then ttl ++ "\n# " ++ subjectIri ++ "\n" else ttl
    match p.marshalNode ord (Node.named (NewNamedNode subjectIri)) p.options.Substitute
        (some ns) with
    | Except.error e => Except.error e
    | Except.ok ms =>
      let ttl2 := ttl1 ++ ms ++ " "
      let inner := mapGet subjectIri grouped
      let predicateIris := sort.Strings (ord.visit (inner.map (fun e => e.1)))
      let ttl3 := marshalPredicates p ord ns inner 0 predicateIris ttl2
      marshalSubjects p ord ns grouped rest (ttl3 ++ ".\n")

/-- Method `Marshal`. -/
def TurtleParser.Marshal (p : TurtleParser) (ord : MapOrder) (stmts : List statement) :
    Except String String :=
  let ns := TurtleParserDefaultNamespace.Include ord p.optionsNamespace
  let scan := scanGraphs stmts ("", true)
  let baseIri := scan.1
  let unique := scan.2
  let ns1 := if unique && baseIri != "" then ns.Set "" baseIri else ns
  let ttl := if unique && baseIri != "" then
    "@base " ++ p.marshalIri ord baseIri false none ++ " .\n" else ""
  let ttl1 := if p.options.Substitute then
    prefixLines p ord ns1 (sort.Strings (ns1.ListKeys ord)) ttl else ttl
  let grouped := groupStatements stmts []
  let subjectIris := sort.Strings (ord.visit (grouped.map (fun e => e.1)))
  marshalSubjects p ord ns1 grouped subjectIris ttl1

/-- Example data: the statement `s - p - o` in the graph with the empty IRI. -/
def exStatementEmptyGraph : statement :=
  NewStatement (NewNamedNode "s") (NewNamedNode "p") (Node.named (NewNamedNode "o"))
    (some (NewNamedNode ""))

/-- Example data: the statement `s - p - o2` in graph `x`. -/
def exStatementX : statement :=
  NewStatement (NewNamedNode "s") (NewNamedNode "p") (Node.named (NewNamedNode "o2"))
    (some (NewNamedNode "x"))

/-- Example data: a parser with `Substitute` and a namespace that names the stem `http://t`
by the key `t`. -/
def exSubstituteParser : TurtleParser :=
  NewTurtleParser (some (TurtleParserOptions.mk true
    (some (NewEmptyNamespace.Set "t" "http://t")) false false false))

/-- Example data: the statement `http://t#s - http://t#p - http://t#o` in graph `http://t`. -/
def exStatementT : statement :=
  NewStatement (NewNamedNode "http://t#s") (NewNamedNode "http://t#p")
    (Node.named (NewNamedNode "http://t#o")) (some (NewNamedNode "http://t"))

/-- Proof auxiliary: the objects of the statements with subject IRI `s` and predicate IRI
`pr`, in the order of the statements. -/
def objectsOf (stmts : List statement) (s pr : String) : List Node :=
  (stmts.filter (fun st => decide (st.subject.iri = s ∧ st.predicate.iri = pr))).map
    (fun st => st.object)

/-- Proof auxiliary: the text of `marshalNode` without substitution. -/
def plainText (n : Node) : String :=
  match (NewTurtleParser none).marshalNode MapOrder.stored n false none with
  | Except.ok s => s
  | Except.error _ => ""

/-! ## More of package `strings` -/

/-- Function `unicode.IsSpace`, by which `strings.TrimSpace` cuts. -/
def isSpaceChar (c : Char) : Bool :=
  c == '\t' || c == '\n' || c == '\x0b' || c == '\x0c' || c == '\r' || c == ' ' ||
  c.toNat == 0x85 || c.toNat == 0xA0 || c.toNat == 0x1680 ||
  (0x2000 ≤ c.toNat && c.toNat ≤ 0x200a) || c.toNat == 0x2028 || c.toNat == 0x2029 ||
  c.toNat == 0x202f || c.toNat == 0x205f || c.toNat == 0x3000

/-- Function `strings.TrimSpace` on characters. -/
def trimSpaceChars (s : List Char) : List Char :=
  ((s.dropWhile isSpaceChar).reverse.dropWhile isSpaceChar).reverse

/-- Function `strings.TrimSpace`. -/
def strings.TrimSpace (s : String) : String :=
  String.mk (trimSpaceChars s.data)

/-- Call `strings.ReplaceAll(s, "\n", "")`. -/
def removeNewlines (s : String) : String :=
  String.mk (s.data.filter (fun c => c != '\n'))

/-- Function `strings.LastIndex` on characters, counting from `pos`: the start of the last
occurrence of `substr`. -/
def lastIndexChars (substr : List Char) : Nat → List Char → Option Nat
  | pos, [] => if hasPrefixChars [] substr then some pos else none
  | pos, c :: cs =>
    match lastIndexChars substr (pos + 1) cs with
    | some i => some i
    | none => if hasPrefixChars (c :: cs) substr then some pos else none

/-- Function `strings.Split` on characters with a separator of one character. -/
def splitChars (sep : Char) : List Char → List (List Char)
  | [] => [[]]
  | c :: cs =>
    if c == sep then [] :: splitChars sep cs
    else
      match splitChars sep cs with
      | [] => [[c]]
      | first :: rest => (c :: first) :: rest

/-- The slice expression `s[lo:hi]`; `none` when the bounds are out of range. -/
def sliceChars (s : List Char) (lo hi : Nat) : Option (List Char) :=
  if lo ≤ hi ∧ hi ≤ s.length then some ((s.drop lo).take (hi - lo)) else none

/-- Concatenation of a list of expressions. -/
def Regex.seq : List Regex → Regex
  | [] => Regex.empty
  | [r] => r
  | r :: rest => Regex.cat r (Regex.seq rest)

/-- Method `FindStringSubmatch`: the texts of the match and of the groups `1..n` of the first
match, or nil. -/
def Regex.FindStringSubmatch (re : Regex) (n : Nat) (s : String) : Option (List String) :=
  (Regex.execute re s.data 0).map
    (fun m => (List.range (n + 1)).map (fun i => String.mk (m.text s.data i)))

/-- Method `FindAllStringSubmatch` with `n = -1`. -/
def Regex.FindAllStringSubmatch (re : Regex) (n : Nat) (s : String) : List (List String) :=
  (Regex.allMatches re s.data).map
    (fun m => (List.range (n + 1)).map (fun i => String.mk (m.text s.data i)))

/-! ## Turtle codec: Unmarshal (parser_ttl.go) -/

/-- The three ways in which a call ends: with a value, with a Go error, or in a panic. -/
inductive Outcome (α : Type) where
  | ok (v : α)
  | error (msg : String)
  | panic
deriving DecidableEq, Repr

/-- Sequencing of two calls. -/
def Outcome.bind {α β : Type} (x : Outcome α) (f : α → Outcome β) : Outcome β :=
  match x with
  | Outcome.ok v => f v
  | Outcome.error msg => Outcome.error msg
  | Outcome.panic => Outcome.panic

/-- An index or slice expression: out of range is a panic. -/
def Outcome.ofOption {α : Type} : Option α → Outcome α
  | some v => Outcome.ok v
  | none => Outcome.panic

/-- Variable `ttlCommentMatcher`: the expression `(^|\n)\s*?#.*`. -/
def ttlCommentMatcher : Regex :=
  Regex.seq [Regex.cap 1 (Regex.alt Regex.bot (Regex.char '\n')),
    Regex.star Regex.space false, Regex.char '#', Regex.star Regex.dot true]

/-- Method `stripComments`. -/
def TurtleParser.stripComments (_p : TurtleParser) (str : String) : String :=
  ttlCommentMatcher.ReplaceAllString str []

/-- Variable `ttlDirectiveMatcher` of `Unmarshal`: the expression
`\s*@(prefix|base)\s+.+?>\s*\.`. -/
def ttlDirectiveMatcher : Regex :=
  Regex.seq [Regex.star Regex.space true, Regex.char '@',
    Regex.cap 1 (Regex.alt (Regex.lit "prefix".data) (Regex.lit "base".data)),
    Regex.plus Regex.space true, Regex.plus Regex.dot false, Regex.char '>',
    Regex.star Regex.space true, Regex.char '.']

/-- The alternatives `<.*?>|\S*?:\S+?` of a token that is an IRI. -/
def iriToken : Regex :=
  Regex.alt
    (Regex.seq [Regex.char '<', Regex.star Regex.dot false, Regex.char '>'])
    (Regex.seq [Regex.star Regex.nonSpace false, Regex.char ':', Regex.plus Regex.nonSpace false])

/-- Variable `leadingIriMatcher` of `Unmarshal`: the expression `^(a|<.*?>|\S*?:\S+?)\s+`. -/
def leadingIriMatcher : Regex :=
  Regex.seq [Regex.bot, Regex.cap 1 (Regex.alt (Regex.char 'a') iriToken),
    Regex.plus Regex.space true]

/-- Variable `ttlBaseDirective`: the expression `(^|\s|\.)\s*@base\s*?<(.+?)>\s*?\.`. -/
def ttlBaseDirective : Regex :=
  Regex.seq [Regex.cap 1 (Regex.alt Regex.bot (Regex.alt Regex.space (Regex.char '.'))),
    Regex.star Regex.space true, Regex.lit "@base".data, Regex.star Regex.space false,
    Regex.char '<', Regex.cap 2 (Regex.plus Regex.dot false), Regex.char '>',
    Regex.star Regex.space false, Regex.char '.']

/-- Variable `ttlFirstSubjectMatcher`: the expression `(^|\n|\.)\s*?(<.*?>|\S*?:\S+?)\s+`. -/
def ttlFirstSubjectMatcher : Regex :=
  Regex.seq [Regex.cap 1 (Regex.alt Regex.bot (Regex.alt (Regex.char '\n') (Regex.char '.'))),
    Regex.star Regex.space false, Regex.cap 2 iriToken, Regex.plus Regex.space true]

/-- Variable `ttlPrefixDirective`: the expression
`(^|\s|\.)\s*?@prefix\s+?(\S*?):\s*?<(.+?)(#*)>\s*?.`. -/
def ttlPrefixDirective : Regex :=
  Regex.seq [Regex.cap 1 (Regex.alt Regex.bot (Regex.alt Regex.space (Regex.char '.'))),
    Regex.star Regex.space false, Regex.lit "@prefix".data, Regex.plus Regex.space false,
    Regex.cap 2 (Regex.star Regex.nonSpace false), Regex.char ':',
    Regex.star Regex.space false, Regex.char '<', Regex.cap 3 (Regex.plus Regex.dot false),
    Regex.cap 4 (Regex.star (Regex.char '#') true), Regex.char '>',
    Regex.star Regex.space false, Regex.dot]

/-- Variable `ttlStatementMatcher`: the expression
`(^|\n|\.)\s*?(<.*?>|[A-Za-z0-9_-]*?:\S+?)\s+`. -/
def ttlStatementMatcher : Regex :=
  Regex.seq [Regex.cap 1 (Regex.alt Regex.bot (Regex.alt (Regex.char '\n') (Regex.char '.'))),
    Regex.star Regex.space false,
    Regex.cap 2 (Regex.alt
      (Regex.seq [Regex.char '<', Regex.star Regex.dot false, Regex.char '>'])
      (Regex.seq [Regex.star (Regex.cls false
          [('A', 'Z'), ('a', 'z'), ('0', '9'), ('_', '_'), ('-', '-')]) false,
        Regex.char ':', Regex.plus Regex.nonSpace false])),
    Regex.plus Regex.space true]

/-- Variable `ttlSubStatementMatcher`: the expression `(^|\n|;)\s*?(a|<.*?>|\S*?:\S+?)\s+`. -/
def ttlSubStatementMatcher : Regex :=
  Regex.seq [Regex.cap 1 (Regex.alt Regex.bot (Regex.alt (Regex.char '\n') (Regex.char ';'))),
    Regex.star Regex.space false, Regex.cap 2 (Regex.alt (Regex.char 'a') iriToken),
    Regex.plus Regex.space true]

/-- Variable `ttlLiteralMatcher`: the expression
`\s*?"([\S\s]*?[^\\])*?"(((\^\^|@)(.*?))?)\s*?(,|$)`. -/
def ttlLiteralMatcher : Regex :=
  Regex.seq [Regex.star Regex.space false, Regex.char '"',
    Regex.star (Regex.cap 1 (Regex.cat (Regex.star Regex.any false)
      (Regex.cls true [('\\', '\\')]))) false,
    Regex.char '"',
    Regex.cap 2 (Regex.quest (Regex.cap 3 (Regex.cat
      (Regex.cap 4 (Regex.alt (Regex.lit "^^".data) (Regex.char '@')))
      (Regex.cap 5 (Regex.star Regex.dot false)))) true),
    Regex.star Regex.space false, Regex.cap 6 (Regex.alt (Regex.char ',') Regex.eot)]

/-- Variable `ttlIriMatcher`: the expression `\s*?(<.*?>|\S*?:\S+?)\s*?(,|$)`. -/
def ttlIriMatcher : Regex :=
  Regex.seq [Regex.star Regex.space false, Regex.cap 1 iriToken,
    Regex.star Regex.space false, Regex.cap 2 (Regex.alt (Regex.char ',') Regex.eot)]

/-- Method `unmarshalIri`. -/
def TurtleParser.unmarshalIri (_p : TurtleParser) (str : String) (ns : Namespace) :
    Outcome String :=
  let str1 := strings.TrimSpace str
  let str2 := if str1 == "a" then "<http://www.w3.org/1999/02/22-rdf-syntax-ns#type>" else str1
  match str2.data with
  | [] => Outcome.panic
  | c :: _ =>
    if c == '<' then
      (Outcome.ofOption (sliceChars str2.data 1 (str2.data.length - 1))).bind
        (fun t => Outcome.ok (String.mk t))
    else
      let sSplits := splitChars ':' str2.data
      match sSplits with
      | [] => Outcome.panic
      | first :: _ =>
        match ns.Get (String.mk first) with
        | some full =>
          if sSplits.length == 2 then
            Outcome.ok (full ++ "#" ++ String.mk (sSplits.getD 1 []))
          else Outcome.ok str2
        | none => Outcome.ok str2

/-- Method `unmarshalNode`. -/
def TurtleParser.unmarshalNode (p : TurtleParser) (str : String) (ns : Namespace) :
    Outcome Node :=
  let s := (strings.TrimSpace str).data
  match s with
  | [] => Outcome.panic
  | c :: _ =>
    if c == '"' then
      if s.getLast? == some '"' then
        (Outcome.ofOption (sliceChars s 1 (s.length - 1))).bind (fun v =>
          Outcome.ok (Node.localized (NewLocalizedLiteral (String.mk v) "default")))
      else if containsChars s ['@'] then
        (Outcome.ofOption (lastIndexChars ['@'] 0 s)).bind (fun idx =>
          (Outcome.ofOption (sliceChars s 1 (idx - 1))).bind (fun v =>
            (Outcome.ofOption (sliceChars s (idx + 1) s.length)).bind (fun l =>
              Outcome.ok (Node.localized (NewLocalizedLiteral (String.mk v) (String.mk l))))))
      else if containsChars s ['^', '^'] then
        (Outcome.ofOption (lastIndexChars ['^', '^'] 0 s)).bind (fun idx =>
          (Outcome.ofOption (sliceChars s (idx + 2) s.length)).bind (fun t =>
            (p.unmarshalIri (String.mk t) ns).bind (fun tpIri =>
              (Outcome.ofOption (sliceChars s 1 (idx - 1))).bind (fun v =>
                Outcome.ok (Node.typed (NewTypedLiteral (Value.text (String.mk v))
                  (NewNamedNode tpIri)))))))
      else Outcome.error ("Failed to unmarshal node from ttl string: " ++ String.mk s)
    else
      (p.unmarshalIri (String.mk s) ns).bind (fun iri =>
        Outcome.ok (Node.named (NewNamedNode iri)))

/-- Method `extractBaseIri`. -/
def TurtleParser.extractBaseIri (p : TurtleParser) (str : String) (ns : Namespace)
    (fallbackToFirstSubject : Bool) : Outcome String :=
  let res := ttlBaseDirective.FindAllStringSubmatch 2 str
  if res.length > 1 then
    Outcome.error "More than one '@base <...> .' directive found in ttl data."
  else
    match res with
    | [m] => Outcome.ofOption m[2]?
    | _ =>
      let fs := if fallbackToFirstSubject then ttlFirstSubjectMatcher.FindStringSubmatch 2 str
        else none
      match fs with
      | some m => (Outcome.ofOption m[2]?).bind (fun t => p.unmarshalIri t ns)
      | none =>
        if p.options.RequireBaseIri then
          if !fallbackToFirstSubject then
            Outcome.error "No '@base <...> .' directive found in ttl data."
          else Outcome.error "Not one single subject found in ttl data to use as base uri."
        else Outcome.ok ""

/-- The loop of `extractNamespace` over the matches. -/
def setPrefixes : List (List String) → Namespace → Outcome Namespace
  | [], ns => Outcome.ok ns
  | m :: rest, ns =>
    match m[2]?, m[3]? with
    | some k, some v => setPrefixes rest (ns.Set k v)
    | _, _ => Outcome.panic

/-- Method `extractNamespace`. -/
def TurtleParser.extractNamespace (_p : TurtleParser) (str : String) : Outcome Namespace :=
  setPrefixes (ttlPrefixDirective.FindAllStringSubmatch 4 str) NewEmptyNamespace

/-- The loop of `extractStatements` and of `extractSubStatements` over the matches; `mark` is
the character that ends a clause (`.` or `;`) and `next` holds the matches after the current
one. The index `eIdx` is at least 1 where it is decreased, because a match has three
characters or more. -/
def extractClauses (mark : Char) (str : List Char) : List Match → Outcome (List String)
  | [] => Outcome.ok []
  | r :: next =>
    (Outcome.ofOption (r.group 1)).bind (fun g1 =>
      (Outcome.ofOption str[g1.1]?).bind (fun c1 =>
        let sIdx := if c1 == mark then g1.1 + 1 else g1.1
        let eIdx0 : Outcome Nat := match next with
          | [] => Outcome.ok (str.length - 1)
          | r2 :: _ => (Outcome.ofOption (r2.group 1)).bind (fun g2 => Outcome.ok g2.1)
        eIdx0.bind (fun e0 =>
          (Outcome.ofOption str[e0]?).bind (fun c2 =>
            let eIdx := if c2 == mark then e0 - 1 else e0
            (Outcome.ofOption (sliceChars str sIdx (eIdx + 1))).bind (fun piece =>
              (extractClauses mark str next).bind (fun rest =>
                Outcome.ok (String.mk (trimSpaceChars piece) :: rest)))))))

/-- Method `extractStatements`. -/
def TurtleParser.extractStatements (_p : TurtleParser) (str : String) : Outcome (List String) :=
  extractClauses '.' str.data (ttlStatementMatcher.allMatches str.data)

/-- Method `extractSubStatements`. -/
def TurtleParser.extractSubStatements (_p : TurtleParser) (str : String) :
    Outcome (List String) :=
  extractClauses ';' str.data (ttlSubStatementMatcher.allMatches str.data)

/-- One of the two loops of `extractObjects` over the matches: the text of a match, trimmed,
without a comma at its end. -/
def objectTexts (str : List Char) : List Match → Outcome (List String)
  | [] => Outcome.ok []
  | m :: rest =>
    let t := trimSpaceChars (m.text str 0)
    match t.getLast? with
    | none => Outcome.panic
    | some c =>
      let t2 := if c == ',' then t.dropLast else t
      (objectTexts str rest).bind (fun more => Outcome.ok (String.mk t2 :: more))

/-- Method `extractObjects`. -/
def TurtleParser.extractObjects (_p : TurtleParser) (str : String) : Outcome (List String) :=
  (objectTexts str.data (ttlLiteralMatcher.allMatches str.data)).bind (fun literals =>
    let str2 := ttlLiteralMatcher.ReplaceAllString str []
    (objectTexts str2.data (ttlIriMatcher.allMatches str2.data)).bind (fun iris =>
      Outcome.ok (literals ++ iris)))

/-- The innermost loop of `Unmarshal`: the objects of one predicate. -/
def unmarshalObjects (p : TurtleParser) (ns : Namespace) (subject predicate : namedNode)
    (graph : Option namedNode) : List String → List statement → Outcome (List statement)
  | [], result => Outcome.ok result
  | objectStr :: rest, result =>
    match p.unmarshalNode objectStr ns with
    | Outcome.panic => Outcome.panic
    | Outcome.error _ => Outcome.error ("Unable to unmarshal object string: " ++ objectStr)
    | Outcome.ok object =>
      let s := NewStatement subject predicate object graph
      let isNew := !(result.any (fun r => r.Equals (some s)))
      unmarshalObjects p ns subject predicate graph rest (if isNew then result ++ [s] else result)

/-- The middle loop of `Unmarshal`: the predicates of one subject. -/
def unmarshalSubStatements (p : TurtleParser) (ns : Namespace) (subject : namedNode)
    (graph : Option namedNode) : List String → List statement → Outcome (List statement)
  | [], result => Outcome.ok result
  | subStatement :: rest, result =>
    match leadingIriMatcher.FindStringSubmatch 1 subStatement with
    | none => Outcome.error ("Unable to extract predicate from substatement: " ++ subStatement)
    | some pm =>
      (Outcome.ofOption pm[1]?).bind (fun tok =>
        (p.unmarshalIri tok ns).bind (fun predIri =>
          let predicate := NewNamedNode predIri
          let body := strings.TrimSpace (leadingIriMatcher.ReplaceAllString subStatement [])
          (p.extractObjects body).bind (fun objs =>
            (unmarshalObjects p ns subject predicate graph objs result).bind (fun result2 =>
              unmarshalSubStatements p ns subject graph rest result2))))

/-- The outer loop of `Unmarshal`: the clauses. -/
def unmarshalStatements (p : TurtleParser) (ns : Namespace) (graph : Option namedNode) :
    List String → List statement → Outcome (List statement)
  | [], result => Outcome.ok result
  | stmt :: rest, result =>
    match leadingIriMatcher.FindStringSubmatch 1 stmt with
    | none => Outcome.error ("Unable to extract subject from statement: " ++ stmt)
    | some sm =>
      (Outcome.ofOption sm[1]?).bind (fun tok =>
        (p.unmarshalIri tok ns).bind (fun subjIri =>
          let subject := NewNamedNode subjIri
          let body := strings.TrimSpace (leadingIriMatcher.ReplaceAllString stmt [])
          (p.extractSubStatements body).bind (fun subs =>
            (unmarshalSubStatements p ns subject graph subs result).bind (fun result2 =>
              unmarshalStatements p ns graph rest result2))))

/-- Method `Unmarshal`. -/
def TurtleParser.Unmarshal (p : TurtleParser) (ord : MapOrder) (text : String) :
    Outcome (List statement) :=
  let str := p.stripComments text
  let ttl_body := removeNewlines (ttlDirectiveMatcher.ReplaceAllString str [])
  let ns0 := TurtleParserDefaultNamespace.Copy ord
  (p.extractNamespace str).bind (fun extractedNs =>
    let ns1 := ns0.Include ord extractedNs
    (p.extractBaseIri str ns1 p.options.FallbackToFirstSubjectForBaseIri).bind (fun baseIri =>
      let graph : Option namedNode := if baseIri != "" then some (NewNamedNode baseIri) else none
      let ns2 := if baseIri != "" then ns1.Set "" baseIri else ns1
      (p.extractStatements ttl_body).bind (fun stmts =>
        unmarshalStatements p ns2 graph stmts [])))

/-! ## Auxiliary definitions for the round trip of the Turtle codec -/

/-- Proof auxiliary: the characters of the class `\s`. -/
def wsChar (c : Char) : Bool :=
  c == '\t' || c == '\n' || c == '\x0c' || c == '\r' || c == ' '

/-- Proof auxiliary: the continuation that accepts. -/
def accept (s : MState) : Option MState := some s


/-- Proof auxiliary: the text of a list of segments; a segment with groups is a match, one
without is text in which no match starts. -/
def segText : List (Option (List (Nat × Nat × Nat)) × List Char) → List Char
  | [] => []
  | (_, cs) :: rest => cs ++ segText rest

/-- Proof auxiliary: the text of the segments that are no match. -/
def keptText : List (Option (List (Nat × Nat × Nat)) × List Char) → List Char
  | [] => []
  | (none, cs) :: rest => cs ++ keptText rest
  | (some _, _) :: rest => keptText rest

/-- Proof auxiliary: the matches of a list of segments that starts at `pos`. -/
def matchesOf : Nat → List (Option (List (Nat × Nat × Nat)) × List Char) → List Match
  | _, [] => []
  | pos, (none, cs) :: rest => matchesOf (pos + cs.length) rest
  | pos, (some caps, cs) :: rest => ⟨pos, pos + cs.length, caps⟩ :: matchesOf (pos + cs.length) rest

/-- Proof auxiliary: the search for `re` behaves on the segments as they are marked. -/
def SegOK (re : Regex) (fuel : Nat) :
    Nat → List (Option (List (Nat × Nat × Nat)) × List Char) → Prop
  | pos, [] => Regex.run re fuel (fun s => some s) ⟨pos, [], []⟩ = none
  | pos, (none, cs) :: rest =>
    (∀ i, i < cs.length →
      Regex.run re fuel (fun s => some s) ⟨pos + i, cs.drop i ++ segText rest, []⟩ = none) ∧
    SegOK re fuel (pos + cs.length) rest
  | pos, (some caps, cs) :: rest =>
    cs ≠ [] ∧
    (∃ s, Regex.run re fuel (fun s => some s) ⟨pos, cs ++ segText rest, []⟩ = some s ∧
      s.pos = pos + cs.length ∧ s.caps = caps) ∧
    SegOK re fuel (pos + cs.length) rest

/-- Proof auxiliary: a character that the round trip admits in an IRI and in a language tag:
no white space and none of the characters `"`, `<`, `>`, `@`, `^`, `,`, `;`, `.`. -/
def tokenChar (c : Char) : Bool :=
  !(isSpaceChar c || c == '"' || c == '<' || c == '>' || c == '@' || c == '^' || c == ','
    || c == ';' || c == '.')

/-- Proof auxiliary: a character that the round trip admits in an IRI: a token character or
`.`. -/
def iriChar (c : Char) : Bool :=
  !(isSpaceChar c || c == '"' || c == '<' || c == '>' || c == '@' || c == '^' || c == ','
    || c == ';')

/-- Proof auxiliary: a character that the round trip admits in the value of a literal: none of
`"`, the backslash, `@`, `;` and the line feed. -/
def valueChar (c : Char) : Bool :=
  !(c == '"' || c == '\\' || c == '@' || c == ';' || c == '\n')

/-- Proof auxiliary: behind the first `.` of the text there is neither `:` nor `<`. -/
def dotSafe (l : List Char) : Bool :=
  (l.dropWhile (fun c => c != '.')).all (fun c => c != ':' && c != '<')

/-- Proof auxiliary: an IRI of IRI characters without `:` behind a `.`. -/
def plainIri (iri : String) : Bool :=
  iri.data.all iriChar && dotSafe iri.data

/-- Proof auxiliary: a node that the round trip admits: admitted IRIs, language tags of token
characters, values that are texts of value characters without `:` and `<` behind a `.`, and a
language tag that is not empty and neither `base` nor `prefix`. -/
def plainNode : Node → Bool
  | Node.named nn => plainIri nn.iri
  | Node.localized ln =>
    ln.value.data.all valueChar && ln.language.data.all tokenChar &&
      ln.language != "" && ln.language != "base" && ln.language != "prefix" &&
      dotSafe ln.value.data
  | Node.typed tn =>
    tn.value.shown.data.all valueChar && plainIri tn.typeNode.iri &&
      dotSafe tn.value.shown.data && tn.value.isText

/-- Proof auxiliary: a statement that the round trip admits. -/
def plainStatement (s : statement) : Bool :=
  plainIri s.subject.iri && plainIri s.predicate.iri && plainNode s.object

/-- Proof auxiliary: the characters of the text of a node without substitution. -/
def nodeText : Node → List Char
  | Node.named nn => '<' :: (nn.iri.data ++ ['>'])
  | Node.localized ln => '"' :: (ln.value.data ++ '"' :: '@' :: ln.language.data)
  | Node.typed tn =>
    '"' :: (tn.value.shown.data ++
      '"' :: '^' :: '^' :: '<' :: (tn.typeNode.iri.data ++ ['>']))

/-- Proof auxiliary: the text of the objects after the first of a predicate. -/
def objsTail : List Node → List Char
  | [] => []
  | o :: rest => ' ' :: ',' :: ' ' :: (nodeText o ++ objsTail rest)

/-- Proof auxiliary: the text of the objects of a predicate, without the blank at the end. -/
def objsText : List Node → List Char
  | [] => []
  | o :: rest => nodeText o ++ objsTail rest

/-- Proof auxiliary: the text of a predicate with its objects. -/
def predText (pr : String × List Node) : List Char :=
  '<' :: (pr.1.data ++ '>' :: ' ' :: objsText pr.2)

/-- Proof auxiliary: the text of the predicates after the first of a subject. -/
def predsTail : List (String × List Node) → List Char
  | [] => []
  | pr :: rest => ' ' :: ';' :: ' ' :: (predText pr ++ predsTail rest)

/-- Proof auxiliary: the text of the predicates of a subject. -/
def predsText : List (String × List Node) → List Char
  | [] => []
  | pr :: rest => predText pr ++ predsTail rest

/-- Proof auxiliary: the text of a clause, without the blank and the `.` at its end. -/
def clauseText (cl : String × List (String × List Node)) : List Char :=
  '<' :: (cl.1.data ++ '>' :: ' ' :: predsText cl.2)

/-- Proof auxiliary: the text of the clauses. -/
def docText : List (String × List (String × List Node)) → List Char
  | [] => []
  | cl :: rest => clauseText cl ++ ' ' :: '.' :: '\n' :: docText rest

/-- Proof auxiliary: the subjects, predicates and objects of the statements in the order in
which `Marshal` writes them. -/
def docOf (ord : MapOrder) (stmts : List statement) :
    List (String × List (String × List Node)) :=
  (sort.Strings (ord.visit ((groupStatements stmts []).map (fun e => e.1)))).map (fun s =>
    (s, (sort.Strings (ord.visit ((mapGet s (groupStatements stmts [])).map (fun e => e.1)))).map
      (fun pr => (pr, sortObjects (objectsOf stmts s pr)))))

/-- Proof auxiliary: the line of the directive `@base`. -/
def baseText (g : String) : List Char :=
  '@' :: 'b' :: 'a' :: 's' :: 'e' :: ' ' :: '<' :: (g.data ++ ['>', ' ', '.', '\n'])

/-- Proof auxiliary: the document is one that `Marshal` writes from admitted statements: no
subject without predicate, no predicate without object, and IRIs and nodes as admitted. -/
def plainDoc (doc : List (String × List (String × List Node))) : Prop :=
  ∀ cl ∈ doc, plainIri cl.1 = true ∧ cl.2 ≠ [] ∧
    ∀ pr ∈ cl.2, plainIri pr.1 = true ∧ pr.2 ≠ [] ∧ ∀ o ∈ pr.2, plainNode o = true

/-- Proof auxiliary: what stands behind an object in the text of the objects: nothing at the
end of the text, or a blank and a comma. -/
def objEnd (trail more : List Char) : Prop :=
  (trail = [] ∧ more = []) ∨ trail = [' ', ',']

/-- Proof auxiliary: the text behind the value of a literal: `@` and a language tag, or `^^`
and an IRI in angle brackets. -/
def litMark (marker body : List Char) : Prop :=
  (marker = ['@'] ∨ marker = ['^', '^']) ∧
    ∀ c ∈ body, wsChar c = false ∧ c ≠ ',' ∧ c ≠ '\n'

/-- Proof auxiliary: a property of every part of the text `cs ++ more` that starts inside
`cs`. -/
def NoStart (P : List Char → Prop) (cs more : List Char) : Prop :=
  ∀ i, i < cs.length → P (cs.drop i ++ more)

/-- Proof auxiliary: no match of `re` starts at the text `l`, at whatever position. -/
def Fails (re : Regex) (fuel : Nat) (l : List Char) : Prop :=
  ∀ pos, Regex.run re fuel (fun s => some s) ⟨pos, l, []⟩ = none

/-- Proof auxiliary: no match of `re` starts at the text `l` behind the start of the text. -/
def FailsLater (re : Regex) (fuel : Nat) (l : List Char) : Prop :=
  ∀ pos, 0 < pos → Regex.run re fuel (fun s => some s) ⟨pos, l, []⟩ = none

/-- Proof auxiliary: the groups of the match of `re` at `pos`. -/
def capsAt (re : Regex) (fuel pos : Nat) (text : List Char) : List (Nat × Nat × Nat) :=
  match Regex.run re fuel (fun s => some s) ⟨pos, text, []⟩ with
  | some s => s.caps
  | none => []

/-- Proof auxiliary: whether a node is a literal. -/
def isLiteral : Node → Bool
  | Node.named _ => false
  | _ => true

/-- Proof auxiliary: what stands behind an object in the text of the objects. -/
def objTrail : List Node → List Char
  | [] => []
  | _ :: _ => [' ', ',']

/-- Proof auxiliary: the text of the objects as the parts that `extractObjects` finds: an
object with the blank before it (`lead`, none before the first) and the blank and comma
behind it. -/
def segsPlain : List Char → List Node → List Char
  | _, [] => []
  | lead, o :: rest => (lead ++ nodeText o ++ objTrail rest) ++ segsPlain [' '] rest

/-- Proof auxiliary: the parts of the text of the objects for `ttlLiteralMatcher`. -/
def litSegs (fuel : Nat) :
    Nat → List Char → List Node → List (Option (List (Nat × Nat × Nat)) × List Char)
  | _, _, [] => []
  | pos, lead, o :: rest =>
    ((if isLiteral o then
        some (capsAt ttlLiteralMatcher fuel pos
          ((lead ++ nodeText o ++ objTrail rest) ++ segsPlain [' '] rest))
      else none), lead ++ nodeText o ++ objTrail rest)
      :: litSegs fuel (pos + (lead ++ nodeText o ++ objTrail rest).length) [' '] rest

/-- Proof auxiliary: the text that is left of the objects without the literals. -/
def keptPlain : List Char → List Node → List Char
  | _, [] => []
  | lead, o :: rest =>
    (if isLiteral o then [] else lead ++ nodeText o ++ objTrail rest) ++ keptPlain [' '] rest

/-- Proof auxiliary: the parts of the text that is left of the objects without the literals
for `ttlIriMatcher`. -/
def iriSegs (fuel : Nat) :
    Nat → List Char → List Node → List (Option (List (Nat × Nat × Nat)) × List Char)
  | _, _, [] => []
  | pos, lead, o :: rest =>
    if isLiteral o then iriSegs fuel pos [' '] rest
    else
      (some (capsAt ttlIriMatcher fuel pos
          ((lead ++ nodeText o ++ objTrail rest) ++ keptPlain [' '] rest)),
        lead ++ nodeText o ++ objTrail rest)
      :: iriSegs fuel (pos + (lead ++ nodeText o ++ objTrail rest).length) [' '] rest

/-- Proof auxiliary: the blank that `extractObjects` leaves behind an object that is not the
last. -/
def objBlank : List Node → List Char
  | [] => []
  | _ :: _ => [' ']

/-- Proof auxiliary: the texts of the objects that `extractObjects` returns for the objects for
which `keep` holds. -/
def objPieces (keep : Node → Bool) : List Node → List String
  | [] => []
  | o :: rest =>
    if keep o then
      String.mk (nodeText o ++ objBlank rest) ::
        objPieces keep rest
    else objPieces keep rest

/-- Proof auxiliary: texts joined by a mark. -/
def joinMarked (mark : Char) : List (List Char) → List Char
  | [] => []
  | [z] => z
  | z :: z2 :: rest => z ++ mark :: joinMarked mark (z2 :: rest)

/-- Proof auxiliary: the matches after the first have their group 1 at the marks between the
texts; `pos` is the start of the first text. -/
def MarksAt : Nat → List (List Char) → List Match → Prop
  | _, [], ms => ms = []
  | _, [_], ms => ms = []
  | _, _ :: _ :: _, [] => False
  | pos, z :: z2 :: rest, m :: ms =>
    (∃ e, m.group 1 = some (pos + z.length, e)) ∧ MarksAt (pos + z.length + 1) (z2 :: rest) ms

/-- Proof auxiliary: the blank behind the objects of a predicate that is not the last. -/
def predBlank : List (String × List Node) → List Char
  | [] => []
  | _ :: _ => [' ']

/-- Proof auxiliary: the parts of the text of the predicates after the first for
`ttlSubStatementMatcher`; `q` is the position of the `;`. -/
def subSegsTail : Nat → List (String × List Node) →
    List (Option (List (Nat × Nat × Nat)) × List Char)
  | _, [] => []
  | q, pr :: rest =>
    (some [(2, q + 2, q + pr.1.data.length + 4), (1, q, q + 1)],
      ';' :: ' ' :: '<' :: (pr.1.data ++ ['>', ' '])) ::
    (none, objsText pr.2 ++ predBlank rest) ::
    subSegsTail (q + pr.1.data.length + 5 + (objsText pr.2 ++ predBlank rest).length) rest

/-- Proof auxiliary: the parts of the text of the predicates for `ttlSubStatementMatcher`. -/
def subSegs : List (String × List Node) → List (Option (List (Nat × Nat × Nat)) × List Char)
  | [] => []
  | pr :: rest =>
    (some [(2, 0, pr.1.data.length + 2), (1, 0, 0)], '<' :: (pr.1.data ++ ['>', ' '])) ::
    (none, objsText pr.2 ++ predBlank rest) ::
    subSegsTail (pr.1.data.length + 3 + (objsText pr.2 ++ predBlank rest).length) rest

/-- Proof auxiliary: the texts between the marks `;` of the text of the predicates after the
first. -/
def subPieces : List (String × List Node) → List (List Char)
  | [] => []
  | pr :: rest => (' ' :: (predText pr ++ predBlank rest)) :: subPieces rest

/-- Proof auxiliary: the text of the clauses without the line feeds. -/
def bodyText : List (String × List (String × List Node)) → List Char
  | [] => []
  | cl :: rest => clauseText cl ++ ' ' :: '.' :: bodyText rest

/-- Proof auxiliary: the parts of the text of the clauses after the first for
`ttlStatementMatcher`; `q` is the position of the `.` before the clause. -/
def stSegsTail : Nat → List (String × List (String × List Node)) →
    List (Option (List (Nat × Nat × Nat)) × List Char)
  | _, [] => [(none, ['.'])]
  | q, cl :: rest =>
    (some [(2, q + 1, q + cl.1.data.length + 3), (1, q, q + 1)],
      '.' :: '<' :: (cl.1.data ++ ['>', ' '])) ::
    (none, predsText cl.2 ++ [' ']) ::
    stSegsTail (q + cl.1.data.length + 4 + (predsText cl.2 ++ [' ']).length) rest

/-- Proof auxiliary: the parts of the text of the clauses for `ttlStatementMatcher`. -/
def stSegs : List (String × List (String × List Node)) →
    List (Option (List (Nat × Nat × Nat)) × List Char)
  | [] => []
  | cl :: rest =>
    (some [(2, 0, cl.1.data.length + 2), (1, 0, 0)], '<' :: (cl.1.data ++ ['>', ' '])) ::
    (none, predsText cl.2 ++ [' ']) ::
    stSegsTail (cl.1.data.length + 3 + (predsText cl.2 ++ [' ']).length) rest

/-- Proof auxiliary: whether a text starts with `word` and a white space character. -/
def wordThenSpace (word l : List Char) : Bool :=
  hasPrefixChars l word &&
    (match l.drop word.length with
     | [] => false
     | c :: _ => wsChar c)

/-- Proof auxiliary: whether the text behind an `@` is one of the directive names and white
space. -/
def kwNext (l : List Char) : Bool :=
  wordThenSpace ['p', 'r', 'e', 'f', 'i', 'x'] l || wordThenSpace ['b', 'a', 's', 'e'] l

/-- Proof auxiliary: the first character behind the white space at the start of a text is
no `@`. -/
def noAtNext (l : List Char) : Prop :=
  ∀ d ∈ (l.dropWhile wsChar).head?, d ≠ '@'

/-- Proof auxiliary: a place of the text at which none of the expressions for comments and
directives can start to match: a line feed stands before `<` or the end, white space and `.`
do not stand before white space and `@`, and `@` does not stand before a directive name. -/
def Good : List Char → Prop
  | [] => True
  | c :: more =>
    (c = '\n' → ∀ d ∈ more.head?, d = '<') ∧
    ((wsChar c = true ∨ c = '.') → noAtNext more) ∧
    (c = '@' → kwNext more = false)

/-- Example data: the statement `s - p - "a\nb"@en` in graph `g`, with a line feed in the
value of the literal. -/
def exStatementLineFeed : statement :=
  NewStatement (NewNamedNode "s") (NewNamedNode "p")
    (Node.localized (NewLocalizedLiteral "a\nb" "en")) (some (NewNamedNode "g"))

/-- Example data: the statement `s - p - http://a.org:80/o` in graph `g`: its object is an
IRI with a port. -/
def exStatementPortObject : statement :=
  NewStatement (NewNamedNode "s") (NewNamedNode "p")
    (Node.named (NewNamedNode "http://a.org:80/o")) (some (NewNamedNode "g"))

/-- Example data: the statement `s - http://a.org:80/p - o` in graph `g`: its predicate is an
IRI with a port. -/
def exStatementPortPredicate : statement :=
  NewStatement (NewNamedNode "s") (NewNamedNode "http://a.org:80/p")
    (Node.named (NewNamedNode "o")) (some (NewNamedNode "g"))

/-- Example data: the statement `s - p - "http://a.org:80/x"^^t` in graph `g`: its object is a
typed literal with the text of a URL with a port as value. -/
def exStatementPortValue : statement :=
  NewStatement (NewNamedNode "s") (NewNamedNode "p")
    (Node.typed (NewTypedLiteral (Value.text "http://a.org:80/x") (NewNamedNode "t")))
    (some (NewNamedNode "g"))

/-- Example data: the statement `s - p - 42^^t` in graph `g`: its object is a typed literal
with the number 42, not a text, as value. -/
def exStatementNumber : statement :=
  NewStatement (NewNamedNode "s") (NewNamedNode "p")
    (Node.typed (NewTypedLiteral (Value.other 42 "42") (NewNamedNode "t")))
    (some (NewNamedNode "g"))

/-- Example data: three statements in the graph `http://example.org/g` with a named node, a
localized literal and a typed literal as objects. -/
def exRoundTrip : List statement :=
  [NewStatement (NewNamedNode "http://example.org/s") (NewNamedNode "http://example.org/p")
      (Node.named (NewNamedNode "http://example.org/o")) (some (NewNamedNode "http://example.org/g")),
    NewStatement (NewNamedNode "http://example.org/s") (NewNamedNode "http://example.org/p")
      (Node.localized (NewLocalizedLiteral "Hello. World, again" "en"))
      (some (NewNamedNode "http://example.org/g")),
    NewStatement (NewNamedNode "http://example.org/s") (NewNamedNode "http://example.org/q")
      (Node.typed (NewTypedLiteral (Value.text "12:30") (NewNamedNode "http://www.w3.org/2001/XMLSchema#time")))
      (some (NewNamedNode "http://example.org/g"))]

/-! ## Marshal with a node of another type (parser_ttl.go) -/

/-- A value of the interface `Node` as `Marshal` may receive it: a node of one of the three
kinds of the package, or a value of another type that implements the interface; of such a
value `Marshal` calls the method `String` only, whose result is `str`. -/
inductive MarshalNode where
  | known (n : Node)
  | foreign (str : String)
deriving DecidableEq, Repr

/-- Method `String` of a value of the interface `Node`. -/
def MarshalNode.String : MarshalNode → String
  | MarshalNode.known n => Node.String n
  | MarshalNode.foreign str => str

/-- A statement as `Marshal` reads it, with an object of any type that implements `Node`. -/
structure MarshalStatement where
  subject : namedNode
  predicate : namedNode
  object : MarshalNode
  graph : Option namedNode
deriving DecidableEq, Repr

/-- Method `marshalNode` with the `default` case of its type switch: a value of another type
than the three kinds gives the error (the text of the error, which `fmt.Errorf` formats from
the value, is shortened). -/
def TurtleParser.marshalNodeAny (p : TurtleParser) (ord : MapOrder) (n : MarshalNode)
    (substitute : Bool) (ns : Option Namespace) : Except String String :=
  match n with
  | MarshalNode.known k => p.marshalNode ord k substitute ns
  | MarshalNode.foreign _ => Except.error "Unable to marshal Node"

/-- The first loop of `Marshal` on statements with any object. -/
def scanGraphsAny : List MarshalStatement → String × Bool → String × Bool
  | [], st => st
  | stmt :: rest, (baseIri, unique) =>
    match stmt.graph with
    | none => scanGraphsAny rest (baseIri, unique)
    | some g =>
      let unique2 := if baseIri != "" && baseIri != g.iri then false else unique
      scanGraphsAny rest (g.iri, unique2)

/-- The loop that fills `grouped`, on statements with any object. -/
def groupStatementsAny : List MarshalStatement → List (String × List (String × List MarshalNode)) →
    List (String × List (String × List MarshalNode))
  | [], grouped => grouped
  | v :: rest, grouped =>
    let inner := mapGet v.subject.iri grouped
    let objs := mapGet v.predicate.iri inner
    groupStatementsAny rest
      (mapPut v.subject.iri (mapPut v.predicate.iri (objs ++ [v.object]) inner) grouped)

/-- Call `sort.Slice(objs, less)` on objects of any type, as in `sortObjects`. -/
def sortObjectsAny (objs : List MarshalNode) : List MarshalNode :=
  objs.insertionSort (fun a b => stringLess (MarshalNode.String b) (MarshalNode.String a) = false)

/-- The loop over the objects of one predicate: `vs, _ := p.marshalNode(obj, ...)` drops the
error of `marshalNode`, and the test `err != nil` behind it reads the variable `err` of the
subject, which is nil there; `vs` is the empty text when `marshalNode` fails. -/
def marshalObjectsAny (p : TurtleParser) (ord : MapOrder) (ns : Namespace) :
    Nat → List MarshalNode → String → String
  | _, [], ttl => ttl
  | idx, obj :: rest, ttl =>
    let ttl1 := if idx > 0 then ttl ++ ", " else ttl
    let ttl2 := if p.options.PrettyPrint then ttl1 ++ "\n        " else ttl1
    let vs := match p.marshalNodeAny ord obj p.options.Substitute (some ns) with
      | Except.ok s => s
      | Except.error _ => ""
    marshalObjectsAny p ord ns (idx + 1) rest (ttl2 ++ vs ++ " ")

/-- The loop over the predicates of one subject, on objects of any type. -/
def marshalPredicatesAny (p : TurtleParser) (ord : MapOrder) (ns : Namespace)
    (inner : List (String × List MarshalNode)) : Nat → List String → String → String
  | _, [], ttl => ttl
  | pIdx, predicateIri :: rest, ttl =>
    let ttl1 := if pIdx > 0 then ttl ++ "; " else ttl
    let ttl2 := if p.options.PrettyPrint then ttl1 ++ "\n    " else ttl1
    let ps := match p.marshalNodeAny ord (MarshalNode.known (Node.named (NewNamedNode predicateIri)))
        p.options.Substitute (some ns) with
      | Except.ok s => s
      | Except.error _ => ""
    let ttl3 := ttl2 ++ ps ++ " "
    let objs := sortObjectsAny (mapGet predicateIri inner)
    marshalPredicatesAny p ord ns inner (pIdx + 1) rest (marshalObjectsAny p ord ns 0 objs ttl3)

/-- The loop over the subjects, on objects of any type; the only `return "", err` that can be
taken is the one behind the call of `marshalNode` for the subject. -/
def marshalSubjectsAny (p : TurtleParser) (ord : MapOrder) (ns : Namespace)
    (grouped : List (String × List (String × List MarshalNode))) :
    List String → String → Except String String
  | [], ttl => Except.ok ttl
  | subjectIri :: rest, ttl =>
    let ttl1 := if p.options.PrettyPrint then ttl ++ "\n# " ++ subjectIri ++ "\n" else ttl
    match p.marshalNodeAny ord (MarshalNode.known (Node.named (NewNamedNode subjectIri)))
        p.options.Substitute (some ns) with
    | Except.error e => Except.error e
    | Except.ok ms =>
      let ttl2 := ttl1 ++ ms ++ " "
      let inner := mapGet subjectIri grouped
      let predicateIris := sort.Strings (ord.visit (inner.map (fun e => e.1)))
      let ttl3 := marshalPredicatesAny p ord ns inner 0 predicateIris ttl2
      marshalSubjectsAny p ord ns grouped rest (ttl3 ++ ".\n")

/-- Method `Marshal` on statements with objects of any type that implements `Node`. -/
def TurtleParser.MarshalAny (p : TurtleParser) (ord : MapOrder) (stmts : List MarshalStatement) :
    Except String String :=
  let ns := TurtleParserDefaultNamespace.Include ord p.optionsNamespace
  let scan := scanGraphsAny stmts ("", true)
  let baseIri := scan.1
  let unique := scan.2
  let ns1 := if unique && baseIri != "" then ns.Set "" baseIri else ns
  let ttl := if unique && baseIri != "" then
    "@base " ++ p.marshalIri ord baseIri false none ++ " .\n" else ""
  let ttl1 := if p.options.Substitute then
    prefixLines p ord ns1 (sort.Strings (ns1.ListKeys ord)) ttl else ttl
  let grouped := groupStatementsAny stmts []
  let subjectIris := sort.Strings (ord.visit (grouped.map (fun e => e.1)))
  marshalSubjectsAny p ord ns1 grouped subjectIris ttl1

/-- A statement of the package as `Marshal` reads it. -/
def MarshalStatement.ofStatement (s : statement) : MarshalStatement :=
  { subject := s.subject, predicate := s.predicate, object := MarshalNode.known s.object,
    graph := s.graph }

/-- Example data: the statement `s - p - x` whose object `x` has another type than the three
kinds of node. -/
def exStatementForeign : MarshalStatement :=
  MarshalStatement.mk (NewNamedNode "s") (NewNamedNode "p") (MarshalNode.foreign "x") none

/-! ## The statements that Unmarshal forms -/

/-- The step of `Unmarshal` for a statement `s` that it has formed: `s` is appended to the
result only if no statement of the result `Equals` it. -/
def keepNew (result : List statement) (s : statement) : List statement :=
  if result.any (fun r => r.Equals (some s)) then result else result ++ [s]

/-- The statements that the innermost loop of `Unmarshal` forms from the objects of one
predicate, in the order of the loop, without the test against the result. -/
def formedObjects (p : TurtleParser) (ns : Namespace) (subject predicate : namedNode)
    (graph : Option namedNode) : List String → Outcome (List statement)
  | [] => Outcome.ok []
  | objectStr :: rest =>
    match p.unmarshalNode objectStr ns with
    | Outcome.panic => Outcome.panic
    | Outcome.error _ => Outcome.error ("Unable to unmarshal object string: " ++ objectStr)
    | Outcome.ok object =>
      (formedObjects p ns subject predicate graph rest).bind (fun more =>
        Outcome.ok (NewStatement subject predicate object graph :: more))

/-- The statements that the middle loop of `Unmarshal` forms from the predicates of one
subject, in the order of the loop. -/
def formedSubStatements (p : TurtleParser) (ns : Namespace) (subject : namedNode)
    (graph : Option namedNode) : List String → Outcome (List statement)
  | [] => Outcome.ok []
  | subStatement :: rest =>
    match leadingIriMatcher.FindStringSubmatch 1 subStatement with
    | none => Outcome.error ("Unable to extract predicate from substatement: " ++ subStatement)
    | some pm =>
      (Outcome.ofOption pm[1]?).bind (fun tok =>
        (p.unmarshalIri tok ns).bind (fun predIri =>
          let predicate := NewNamedNode predIri
          let body := strings.TrimSpace (leadingIriMatcher.ReplaceAllString subStatement [])
          (p.extractObjects body).bind (fun objs =>
            (formedObjects p ns subject predicate graph objs).bind (fun first =>
              (formedSubStatements p ns subject graph rest).bind (fun more =>
                Outcome.ok (first ++ more))))))

/-- The statements that the outer loop of `Unmarshal` forms from the clauses, in the order of
the loop. -/
def formedStatements (p : TurtleParser) (ns : Namespace) (graph : Option namedNode) :
    List String → Outcome (List statement)
  | [] => Outcome.ok []
  | stmt :: rest =>
    match leadingIriMatcher.FindStringSubmatch 1 stmt with
    | none => Outcome.error ("Unable to extract subject from statement: " ++ stmt)
    | some sm =>
      (Outcome.ofOption sm[1]?).bind (fun tok =>
        (p.unmarshalIri tok ns).bind (fun subjIri =>
          let subject := NewNamedNode subjIri
          let body := strings.TrimSpace (leadingIriMatcher.ReplaceAllString stmt [])
          (p.extractSubStatements body).bind (fun subs =>
            (formedSubStatements p ns subject graph subs).bind (fun first =>
              (formedStatements p ns graph rest).bind (fun more =>
                Outcome.ok (first ++ more))))))

/-- The statements that `Unmarshal` forms from a text, in the order in which it forms them and
with the repetitions: `Unmarshal` without the test against the result. -/
def TurtleParser.formedAll (p : TurtleParser) (ord : MapOrder) (text : String) :
    Outcome (List statement) :=
  let str := p.stripComments text
  let ttl_body := removeNewlines (ttlDirectiveMatcher.ReplaceAllString str [])
  let ns0 := TurtleParserDefaultNamespace.Copy ord
  (p.extractNamespace str).bind (fun extractedNs =>
    let ns1 := ns0.Include ord extractedNs
    (p.extractBaseIri str ns1 p.options.FallbackToFirstSubjectForBaseIri).bind (fun baseIri =>
      let graph : Option namedNode := if baseIri != "" then some (NewNamedNode baseIri) else none
      let ns2 := if baseIri != "" then ns1.Set "" baseIri else ns1
      (p.extractStatements ttl_body).bind (fun stmts =>
        formedStatements p ns2 graph stmts)))

/-- Proof auxiliary: whether an expression has no capturing group. -/
def Regex.noCap : Regex → Bool
  | Regex.cat r s => r.noCap && s.noCap
  | Regex.alt r s => r.noCap && s.noCap
  | Regex.star r _ => r.noCap
  | Regex.plus r _ => r.noCap
  | Regex.quest r _ => r.noCap
  | Regex.cap _ _ => false
  | _ => true

/-- Example data: a parser that falls back to the first subject for the base IRI. -/
def exFallbackParser : TurtleParser :=
  NewTurtleParser (some (TurtleParserOptions.mk false none false false true))

/-- Proof auxiliary: whether the text starts like a subject for the expression
`ttlFirstSubjectMatcher`: with `<`, or with a word (the characters up to the next white space)
that has a `:` before its last character. -/
def subjectLike (cs : List Char) : Bool :=
  cs.head? == some '<' || (cs.takeWhile (fun c => !wsChar c)).dropLast.contains ':'

/-- Proof auxiliary: a lead in front of the subject token `t` in which no word starts like a
subject where `ttlFirstSubjectMatcher` looks for one, and behind which it looks for one. The
expression looks for a subject at the start of the text and behind a line feed or a `.`, with
nothing but white space between; `anchored` tells whether it does so at the start of the
lead. -/
def safeLead : Bool → List Char → List Char → Bool
  | anchored, [], _ => anchored
  | anchored, c :: cs, t =>
    if wsChar c then safeLead (anchored || c == '\n') cs t
    else (!anchored || !subjectLike (c :: cs ++ t)) && safeLead (c == '.') cs t

/-- Proof auxiliary: a subject token: `<iri>` with neither `>` nor a line feed in `iri`, or a
word `prefix:local` without white space, with a `local` that is not empty and a `prefix`
without `:` that does not start with `<`. -/
def subjectToken (t : List Char) : Prop :=
  (∃ x : List Char, t = '<' :: (x ++ ['>']) ∧ ∀ c ∈ x, c ≠ '>' ∧ c ≠ '\n') ∨
  (∃ pd ld : List Char, t = pd ++ ':' :: ld ∧ (∀ c ∈ pd, isSpaceChar c = false ∧ c ≠ ':') ∧
    ld ≠ [] ∧ (∀ c ∈ ld, isSpaceChar c = false) ∧ pd.head? ≠ some '<')

/-- Proof auxiliary: the result of a match attempt is no match, or a match whose group 2, the
group closed last, lies from `a` to `b`. -/
def hitsToken (a b : Nat) (o : Option MState) : Prop :=
  o = none ∨ ∃ r, o = some r ∧ ∃ tail, r.caps = (2, a, b) :: tail

/-- Example data: a text without a base directive, with a prefix directive and a comment line
in front of the first subject. -/
def exFallbackText : String :=
  "@prefix ex: <http://www.test.de/test#> .\n# the first: user\nex:User1 ex:name ex:Max ."

/-- Example data: a text whose prefix directive has a port in its IRI. -/
def exPortText : String :=
  "@prefix ex: <http://a.b:80/x#> .\nex:s ex:p ex:o ."

/-! ## Definitions for the namespace, the parser state and chains of builder calls -/

/-- The parser after a call of `Unmarshal`. The method and the methods that it calls read the
options and assign none of them, and every `Set` in them is on a namespace that the call has
made itself (`Copy`, `Include`, `NewEmptyNamespace`); so the parser, with the namespace of its
options, is left as it was before the call. -/
def TurtleParser.afterUnmarshal (p : TurtleParser) (_ord : MapOrder) (_text : String) :
    TurtleParser :=
  p

/-- Example data: a text with a prefix directive and one statement. -/
def exPrefixText : String :=
  "@prefix ex: <http://x.org/v#> .\nex:s ex:p ex:o ."

/-- A builder call in a chain on one query: a leaf or `Or()`. -/
inductive ChainCall where
  | leaf (l : Leaf)
  | or
deriving DecidableEq, Repr

/-- The builder call that a call of a chain stands for. -/
def ChainCall.build : ChainCall → Nat → World → Option (World × Nat)
  | ChainCall.leaf l, q, w => l.build q w
  | ChainCall.or, q, w => query.Or q w

/-- A chain of builder calls `r.c1.c2...`, from the left. -/
def buildChain : List ChainCall → Option (World × Nat) → Option (World × Nat)
  | [], r => r
  | c :: rest, r => buildChain rest (thenCall r c.build)

/-! ## Comment lines: the reference for `stripComments` -/

/-- Whether a line is a comment line: its first character that is no white space is `#`. -/
def isCommentLine (l : List Char) : Bool :=
  (l.dropWhile wsChar).head? == some '#'

/-- Whether a line holds nothing but white space. -/
def isBlankLine (l : List Char) : Bool :=
  l.all wsChar

/-- Whether the first of the lines is removed: it is a comment line, or it holds nothing but
white space and the line behind it is removed. -/
def commentRemoved : List (List Char) → Bool
  | [] => false
  | l :: rest => isCommentLine l || (isBlankLine l && commentRemoved rest)

/-- The text of the lines that are not removed. A line that is not the first line of the text
stands with the line feed in front of it, and is removed with it. -/
def keptLines : Bool → List (List Char) → List Char
  | _, [] => []
  | first, l :: rest =>
    (if commentRemoved (l :: rest) then [] else if first then l else '\n' :: l)
      ++ keptLines false rest

/-- Reference for `stripComments`: the text without its comment lines and without the lines of
white space directly in front of a comment line; a removed line goes with the line feed in
front of it. -/
def stripCommentsByLines (str : String) : String :=
  String.mk (keptLines true (splitChars '\n' str.data))

/-- Proof auxiliary: the text of lines; a line that is not the first one has a line feed in
front of it. -/
def joinLines : Bool → List (List Char) → List Char
  | _, [] => []
  | first, l :: rest => (if first then l else '\n' :: l) ++ joinLines false rest

/-- Proof auxiliary: the groups of a match of `ttlCommentMatcher` that starts at `pos`. -/
def commentCaps (pos : Nat) : List (Nat × Nat × Nat) :=
  if pos = 0 then [(1, 0, 0)] else [(1, pos, pos + 1)]

/-- Proof auxiliary: the parts of a text for `ttlCommentMatcher`; `pend` is the text of the
lines of white space whose fate the next line decides. -/
def commentSegs : Bool → Nat → List Char → List (List Char) →
    List (Option (List (Nat × Nat × Nat)) × List Char)
  | _, _, pend, [] => [(none, pend)]
  | first, pos, pend, l :: rest =>
    if isCommentLine l then
      (some (commentCaps pos), pend ++ (if first then l else '\n' :: l))
        :: commentSegs false (pos + (pend ++ (if first then l else '\n' :: l)).length) [] rest
    else if isBlankLine l then
      commentSegs false pos (pend ++ (if first then l else '\n' :: l)) rest
    else
      (none, pend ++ (if first then l else '\n' :: l))
        :: commentSegs false (pos + (pend ++ (if first then l else '\n' :: l)).length) [] rest

/-! ## Lists of object tokens -/

/-- Whether every `"` of the value of a literal stands directly behind a backslash and the
value does not end in a backslash; `esc` tells whether a backslash stands in front. -/
def valueOK : Bool → List Char → Bool
  | esc, [] => !esc
  | esc, c :: cs =>
    if c == '\\' then valueOK true cs
    else if c == '"' then esc && valueOK false cs
    else valueOK false cs

/-- A character of a token `prefix:local`: no white space and no comma. -/
def suffixChar (c : Char) : Bool :=
  !isSpaceChar c && c != ','

/-- The text behind the `@` or the `^^` of a literal: without a comma and a line feed, and
not ending in white space. -/
def suffixOK (body : List Char) : Bool :=
  body.all (fun c => c != ',' && c != '\n') && body.getLast?.all (fun c => !isSpaceChar c)

/-- An object token: a quoted literal without a suffix, with a suffix `@lang`, with a suffix
`^^type`, an IRI in angle brackets, or a token `prefix:local`. -/
inductive ObjCore where
  | plain (v : List Char)
  | tagged (v lang : List Char)
  | typed (v ty : List Char)
  | bracket (x : List Char)
  | short (pd ld : List Char)
deriving DecidableEq, Repr

/-- The text of an object token. -/
def ObjCore.text : ObjCore → List Char
  | ObjCore.plain v => '"' :: (v ++ ['"'])
  | ObjCore.tagged v lang => '"' :: (v ++ '"' :: '@' :: lang)
  | ObjCore.typed v ty => '"' :: (v ++ '"' :: '^' :: '^' :: ty)
  | ObjCore.bracket x => '<' :: (x ++ ['>'])
  | ObjCore.short pd ld => pd ++ ':' :: ld

/-- Whether an object token is a quoted literal. -/
def ObjCore.isLiteral : ObjCore → Bool
  | ObjCore.plain _ => true
  | ObjCore.tagged _ _ => true
  | ObjCore.typed _ _ => true
  | ObjCore.bracket _ => false
  | ObjCore.short _ _ => false

/-- The object tokens of the statement about `extractObjects`: in the value of a literal every
`"` stands behind a backslash and no backslash stands at the end; a suffix holds no comma and
no line feed and does not end in white space; an IRI in angle brackets holds no `>`, no line
feed and no `"`; a token `prefix:local` holds no white space, no comma and no `"`, its part
in front of the first `:` does not start with `<` and its part behind is not empty. -/
def ObjCore.ok : ObjCore → Bool
  | ObjCore.plain v => valueOK false v
  | ObjCore.tagged v lang => valueOK false v && suffixOK lang
  | ObjCore.typed v ty => valueOK false v && suffixOK ty
  | ObjCore.bracket x => x.all (fun c => c != '>' && c != '\n' && c != '"')
  | ObjCore.short pd ld =>
    pd.all (fun c => suffixChar c && c != ':' && c != '"') && pd.head? != some '<' &&
      ld != [] && ld.all (fun c => suffixChar c && c != '"')

/-- An object token with the white space in front of it and behind it. -/
structure ObjToken where
  lead : List Char
  core : ObjCore
  trail : List Char
deriving DecidableEq, Repr

/-- Whether the white space around a token is `\s` and the token is one of `ObjCore.ok`. -/
def ObjToken.ok (t : ObjToken) : Bool :=
  t.lead.all wsChar && t.trail.all wsChar && t.core.ok

/-- What stands behind a token in a comma-separated list: its white space, and a comma when
another token follows. -/
def tokenTrail (t : ObjToken) : List ObjToken → List Char
  | [] => t.trail
  | _ :: _ => t.trail ++ [',']

/-- The text of a token in a comma-separated list. -/
def tokenUnit (t : ObjToken) (rest : List ObjToken) : List Char :=
  t.lead ++ t.core.text ++ tokenTrail t rest

/-- The text of a comma-separated list of object tokens. -/
def tokensText : List ObjToken → List Char
  | [] => []
  | t :: rest => tokenUnit t rest ++ tokensText rest

/-- The white space behind a token that `extractObjects` keeps: the one in front of a comma,
none at the end of the list. -/
def tokenBlank (t : ObjToken) : List ObjToken → List Char
  | [] => []
  | _ :: _ => t.trail

/-- The strings that stand for the tokens of one kind, in the order of the list: the token
with the white space behind it when a comma follows, the token alone at the end of the
list. -/
def tokenPieces (lit : Bool) : List ObjToken → List String
  | [] => []
  | t :: rest =>
    (if t.core.isLiteral = lit then [String.mk (t.core.text ++ tokenBlank t rest)] else []) ++
      tokenPieces lit rest

/-- Proof auxiliary: the text of a list of tokens without its literals. -/
def tokensKept : List ObjToken → List Char
  | [] => []
  | t :: rest => (if t.core.isLiteral then [] else tokenUnit t rest) ++ tokensKept rest

/-- Proof auxiliary: the segments of the text of a list of tokens for `ttlLiteralMatcher`. -/
def tokenLitSegs (fuel : Nat) :
    Nat → List ObjToken → List (Option (List (Nat × Nat × Nat)) × List Char)
  | _, [] => []
  | pos, t :: rest =>
    ((if t.core.isLiteral then
        some (capsAt ttlLiteralMatcher fuel pos (tokenUnit t rest ++ tokensText rest))
      else none), tokenUnit t rest) :: tokenLitSegs fuel (pos + (tokenUnit t rest).length) rest

/-- Proof auxiliary: the segments of the text without the literals for `ttlIriMatcher`. -/
def tokenIriSegs (fuel : Nat) :
    Nat → List ObjToken → List (Option (List (Nat × Nat × Nat)) × List Char)
  | _, [] => []
  | pos, t :: rest =>
    if t.core.isLiteral then tokenIriSegs fuel pos rest
    else (some (capsAt ttlIriMatcher fuel pos (tokenUnit t rest ++ tokensKept rest)),
      tokenUnit t rest) :: tokenIriSegs fuel (pos + (tokenUnit t rest).length) rest

/-- Proof auxiliary: the text of a value as runs of backslashes, each with the character
behind it. -/
def escUnits : List (List Char × Char) → List Char
  | [] => []
  | u :: rest => u.1 ++ u.2 :: escUnits rest

/-- Proof auxiliary: what stands behind a token: white space at the end of the text, or white
space and a comma. -/
def tokenEnd (trail more : List Char) : Prop :=
  ∃ ws, (∀ c ∈ ws, wsChar c = true) ∧ ((trail = ws ∧ more = []) ∨ trail = ws ++ [','])

/-- The list of `TestExtractObjects`, cut to one token of every kind. -/
def exTokens : List ObjToken :=
  [⟨[], ObjCore.bracket "myuri#asds".data, [' ']⟩,
   ⟨[' '], ObjCore.plain "wrds".data, []⟩,
   ⟨[' '], ObjCore.tagged "sda\\\"@dasd , sds".data "de".data, [' ']⟩,
   ⟨[' '], ObjCore.short "sdas".data "Test".data, []⟩,
   ⟨['\n', ' '], ObjCore.typed "sdasds".data "<http://jdsj/asds#sads>".data, ['\t']⟩]

/-! ## Equality of nodes and statements -/

theorem namedNode_Equals_iff (a b : namedNode) :
    a.Equals (some (Node.named b)) = true ↔ a = b := by
  cases a; cases b
  simp [namedNode.Equals]

theorem namedNode_Equals_named (a b : namedNode) :
    a.Equals (some (Node.named b)) = decide (a = b) := by
  rw [Bool.eq_iff_iff, namedNode_Equals_iff]; simp

theorem Value_equal_iff (a b : Value) :
    Value.equal a b = true ↔ a = b ∧ Value.equal a a = true := by
  cases a <;> cases b <;> simp [Value.equal]

theorem Value_equal_comm (a b : Value) : Value.equal a b = Value.equal b a := by
  cases a with
  | text s =>
    cases b with
    | text t =>
      rw [Bool.eq_iff_iff]
      simp only [Value.equal, beq_iff_eq]
      exact eq_comm
    | other j t => rfl
    | nan t => rfl
  | other i s =>
    cases b with
    | text t => rfl
    | other j t =>
      rw [Bool.eq_iff_iff]
      simp only [Value.equal, Bool.and_eq_true, beq_iff_eq]
      constructor <;> (intro h; exact ⟨h.1.symm, h.2.symm⟩)
    | nan t => rfl
  | nan s => cases b <;> rfl

theorem Value_equal_text (v : Value) (h : v.isText = true) : Value.equal v v = true := by
  cases v with
  | text s => simp [Value.equal]
  | other i s => cases h
  | nan s => cases h

/-- A node that `Equals` another is that node, and `Equals` itself. -/
theorem Node_Equals_iff (a b : Node) :
    a.Equals (some b) = true ↔ a = b ∧ a.Equals (some a) = true := by
  cases a with
  | named x =>
    cases b with
    | named y => simp [Node.Equals, namedNode_Equals_iff]
    | localized y => simp [Node.Equals, namedNode.Equals]
    | typed y => simp [Node.Equals, namedNode.Equals]
  | localized x =>
    cases b with
    | localized y =>
      cases x; cases y
      simp [Node.Equals, localizedLiteral.Equals]
      tauto
    | named y => simp [Node.Equals, localizedLiteral.Equals]
    | typed y => simp [Node.Equals, localizedLiteral.Equals]
  | typed x =>
    cases b with
    | typed y =>
      obtain ⟨xv, xt⟩ := x
      obtain ⟨yv, yt⟩ := y
      simp only [Node.Equals, typedLiteral.Equals, Bool.and_eq_true, namedNode_Equals_iff,
        Node.typed.injEq, typedLiteral.mk.injEq, true_and]
      rw [Value_equal_iff xv yv]
      tauto
    | named y => simp [Node.Equals, typedLiteral.Equals]
    | localized y => simp [Node.Equals, typedLiteral.Equals]

theorem Node_Equals_comm (a b : Node) : a.Equals (some b) = b.Equals (some a) := by
  cases a with
  | named x =>
    cases b with
    | named y =>
      rw [Bool.eq_iff_iff]
      simp only [Node.Equals, namedNode.Equals, beq_iff_eq]
      exact eq_comm
    | localized y => simp [Node.Equals, namedNode.Equals, localizedLiteral.Equals]
    | typed y => simp [Node.Equals, namedNode.Equals, typedLiteral.Equals]
  | localized x =>
    cases b with
    | localized y =>
      rw [Bool.eq_iff_iff]
      simp only [Node.Equals, localizedLiteral.Equals, Bool.and_eq_true, beq_iff_eq]
      constructor <;> (intro h; exact ⟨h.1.symm, h.2.symm⟩)
    | named y => simp [Node.Equals, namedNode.Equals, localizedLiteral.Equals]
    | typed y => simp [Node.Equals, localizedLiteral.Equals, typedLiteral.Equals]
  | typed x =>
    cases b with
    | typed y =>
      rw [Bool.eq_iff_iff]
      simp only [Node.Equals, typedLiteral.Equals, namedNode.Equals,
        Value_equal_comm x.value y.value, Bool.and_eq_true, beq_iff_eq]
      constructor <;> (intro h; exact ⟨h.1.symm, h.2⟩)
    | named y => simp [Node.Equals, namedNode.Equals, typedLiteral.Equals]
    | localized y => simp [Node.Equals, localizedLiteral.Equals, typedLiteral.Equals]

/-- On a node that `Equals` itself, `Equals` is the equality of nodes. -/
theorem Node_Equals_some (a b : Node) (h : a.Equals (some a) = true) :
    a.Equals (some b) = decide (a = b) := by
  rw [Bool.eq_iff_iff, Node_Equals_iff]
  simp [h]

/-- The tests of `statement.Equals`, one after the other. -/
theorem statement_Equals_and (s v : statement) :
    s.Equals (some v) = (s.subject.Equals (some (Node.named v.subject)) &&
      s.predicate.Equals (some (Node.named v.predicate)) &&
      s.object.Equals (some v.object) && decide (s.graph = v.graph)) := by
  obtain ⟨s1, s2, s3, s4⟩ := s
  obtain ⟨v1, v2, v3, v4⟩ := v
  cases s4 <;> cases v4 <;>
    cases h1 : s1.Equals (some (Node.named v1)) <;>
    cases h2 : s2.Equals (some (Node.named v2)) <;>
    cases h3 : s3.Equals (some v3) <;>
    simp [statement.Equals, namedNode_Equals_named, asNode, h1, h2, h3]

/-- A statement that `Equals` another is that statement, and its object `Equals` itself. -/
theorem statement_Equals_iff (s v : statement) :
    s.Equals (some v) = true ↔ s = v ∧ s.object.Equals (some s.object) = true := by
  rw [statement_Equals_and]
  obtain ⟨s1, s2, s3, s4⟩ := s
  obtain ⟨v1, v2, v3, v4⟩ := v
  simp only [Bool.and_eq_true, namedNode_Equals_iff, decide_eq_true_eq, statement.mk.injEq]
  rw [Node_Equals_iff s3 v3]
  tauto

theorem statement_Equals_comm (s v : statement) : s.Equals (some v) = v.Equals (some s) := by
  rw [statement_Equals_and, statement_Equals_and, Node_Equals_comm s.object v.object,
    namedNode_Equals_named, namedNode_Equals_named, namedNode_Equals_named,
    namedNode_Equals_named]
  rw [Bool.eq_iff_iff]
  simp only [Bool.and_eq_true, decide_eq_true_eq]
  constructor <;> (intro h; exact ⟨⟨⟨h.1.1.1.symm, h.1.1.2.symm⟩, h.1.2⟩, h.2.symm⟩)

theorem statement_Equals_self (s : statement) :
    s.Equals (some s) = s.object.Equals (some s.object) := by
  rw [statement_Equals_and]
  simp [namedNode_Equals_named]

/-- On a statement whose object `Equals` itself, `Equals` is the equality of statements. -/
theorem statement_Equals_some (s v : statement) (h : s.object.Equals (some s.object) = true) :
    s.Equals (some v) = decide (s = v) := by
  rw [Bool.eq_iff_iff, statement_Equals_iff]
  simp [h]

/-- Two statements that `Equals` a third one: the first `Equals` the second. -/
theorem statement_Equals_trans (a b c : statement) (h1 : a.Equals (some c) = true)
    (h2 : b.Equals (some c) = true) : a.Equals (some b) = true := by
  obtain ⟨e1, r1⟩ := (statement_Equals_iff a c).mp h1
  obtain ⟨e2, _⟩ := (statement_Equals_iff b c).mp h2
  rw [statement_Equals_iff]
  exact ⟨e1.trans e2.symm, r1⟩

/-! ## A query that is the last object of the heap -/

theorem getElem?_snoc_length {α : Type} (l : List α) (a : α) :
    (l ++ [a])[l.length]? = some a := by simp

theorem set_snoc_length {α : Type} (l : List α) (a b : α) :
    (l ++ [a]).set l.length b = l ++ [b] := by
  simp [List.set_append]

theorem query_add_last_and (K : List knowledgeBase) (qs : List query) (qq : query)
    (m : matcher) (h : qq.nextOp = "and") :
    query.add qs.length m ⟨K, qs ++ [qq]⟩ =
      some ⟨K, qs ++ [⟨qq.base, qq.parent, qq.query ++ [m], "and"⟩]⟩ := by
  simp [query.add, World.setQuery, h, set_snoc_length]

theorem query_add_last_or (K : List knowledgeBase) (qs : List query) (qq : query)
    (m prev : matcher) (ms : List matcher) (h : qq.nextOp = "or") (hq : qq.query = ms ++ [prev]) :
    query.add qs.length m ⟨K, qs ++ [qq]⟩ =
      some ⟨K, qs ++ [⟨qq.base, qq.parent, ms ++ [matcher.or prev m], "and"⟩]⟩ := by
  simp [query.add, World.setQuery, h, hq, set_snoc_length]

theorem query_Or_last (K : List knowledgeBase) (qs : List query) (qq : query) :
    query.Or qs.length ⟨K, qs ++ [qq]⟩ =
      some (⟨K, qs ++ [⟨qq.base, qq.parent, qq.query, "or"⟩]⟩, qs.length) := by
  simp [query.Or, World.setQuery, set_snoc_length]

theorem knowledgeBase_Select_eq (kb : Nat) (K : List knowledgeBase) (qs : List query) :
    knowledgeBase.Select kb ⟨K, qs⟩ =
      some (⟨K, qs ++ [⟨some kb, none, [matcher.seed], "and"⟩]⟩, qs.length) := by
  simp [knowledgeBase.Select, NewQuery, query.Bind, World.setQuery, set_snoc_length]

theorem query_Evaluate_last (K : List knowledgeBase) (qs : List query) (qq : query)
    (s : statement) :
    query.Evaluate qs.length s ⟨K, qs ++ [qq]⟩ =
      evalConjuncts (evaluateFuel qs.length (qs ++ [qq])) qq.query s := by
  simp [query.Evaluate, evaluateFuel]

theorem query_ResultsFrom_eq_filter (q : Nat) (w : World) (p : statement → Bool)
    (h : ∀ s, query.Evaluate q s w = some (p s)) (L : List statement) :
    query.ResultsFrom q L w = some (L.filter p) := by
  induction L with
  | nil => rfl
  | cons a L ih =>
    simp only [query.ResultsFrom, h, ih, List.filter_cons]

theorem evalConjuncts_insert (grp : Nat → statement → Option Bool) (g s p : namedNode) (o : Node)
    (t : statement) :
    evalConjuncts grp [matcher.seed, matcher.graph (some g), matcher.subject (some s),
      matcher.predicate (some p), matcher.object (some o)] t
      = some (t.Equals (some (NewStatement s p o (some g)))) := by
  rw [statement_Equals_and]
  obtain ⟨t1, t2, t3, t4⟩ := t
  cases t4 with
  | none =>
    simp [evalConjuncts, matcher.call, NewStatement]
  | some tg =>
    simp only [evalConjuncts, matcher.call, NewStatement, asNode,
      Option.map_some', namedNode_Equals_named]
    cases h4 : t3.Equals (some o) <;> by_cases h1 : tg = g <;> by_cases h2 : t1 = s <;>
      by_cases h3 : t2 = p <;> simp [h1, h2, h3]

theorem evalConjuncts_delete_any (grp : Nat → statement → Option Bool) (s p : namedNode) (o : Node)
    (t : statement) :
    evalConjuncts grp [matcher.seed, matcher.subject (some s),
      matcher.predicate (some p), matcher.object (some o)] t
      = some (t.subject.Equals (some (Node.named s)) &&
          t.predicate.Equals (some (Node.named p)) && t.object.Equals (some o)) := by
  simp only [evalConjuncts, matcher.call, asNode, Option.map_some']
  cases t.subject.Equals (some (Node.named s)) <;>
    cases t.predicate.Equals (some (Node.named p)) <;>
    cases t.object.Equals (some o) <;> rfl

/-! ## Positions of the matches and their removal -/

theorem resultIndexesLoop_eq (q : Nat) (w : World) (p : statement → Bool)
    (h : ∀ s, query.Evaluate q s w = some (p s)) (L : List statement) (idx : Nat) :
    resultIndexesLoop q w idx L = some (positionsFrom p idx L) := by
  induction L generalizing idx with
  | nil => rfl
  | cons a L ih =>
    simp only [resultIndexesLoop, h, ih, positionsFrom]

theorem positionsFrom_ge (p : statement → Bool) (L : List statement) (idx : Nat) :
    ∀ x ∈ positionsFrom p idx L, idx ≤ x := by
  induction L generalizing idx with
  | nil => simp [positionsFrom]
  | cons a L ih =>
    intro x hx
    simp only [positionsFrom] at hx
    split at hx
    · rcases List.mem_cons.mp hx with h | h
      · omega
      · have := ih (idx + 1) x h; omega
    · have := ih (idx + 1) x hx; omega

theorem positionsFrom_sorted (p : statement → Bool) (L : List statement) (idx : Nat) :
    (positionsFrom p idx L).Sorted (· < ·) := by
  induction L generalizing idx with
  | nil => simp [positionsFrom]
  | cons a L ih =>
    simp only [positionsFrom]
    split
    · refine List.sorted_cons.mpr ⟨?_, ih (idx + 1)⟩
      intro b hb
      have := positionsFrom_ge p L (idx + 1) b hb
      omega
    · exact ih (idx + 1)

theorem sort_descending_eq_reverse (l : List Nat) (h : l.Sorted (· < ·)) :
    l.insertionSort (· ≥ ·) = l.reverse := by
  apply List.eq_of_perm_of_sorted (r := (· ≥ ·))
  · exact (List.perm_insertionSort _ l).trans (List.reverse_perm l).symm
  · exact List.sorted_insertionSort _ l
  · have h2 : l.Sorted (· ≤ ·) := h.imp (fun hab => Nat.le_of_lt hab)
    exact List.pairwise_reverse.mpr h2

theorem removeAt_middle (A B : List statement) (b : statement) :
    removeAt (A ++ b :: B) A.length = some (A ++ B) := by
  simp [removeAt]

theorem foldlM_removeAt (p : statement → Bool) (B A : List statement) :
    List.foldlM removeAt (A ++ B) (positionsFrom p A.length B).reverse
      = some (A ++ B.filter (fun t => !p t)) := by
  induction B generalizing A with
  | nil => simp [positionsFrom]
  | cons b B ih =>
    have e : A ++ b :: B = (A ++ [b]) ++ B := by simp
    have ih2 := ih (A ++ [b])
    simp only [List.length_append, List.length_singleton] at ih2
    simp only [positionsFrom]
    cases hb : p b
    · simp only [Bool.false_eq_true, if_false]
      rw [e, ih2]
      simp [List.filter_cons, hb]
    · simp only [if_true, List.reverse_cons, List.foldlM_append]
      rw [e, ih2]
      simp [List.filter_cons, hb, removeAt_middle]

theorem set_getElem?_self {α : Type} (l : List α) (i : Nat) (a : α) (h : l[i]? = some a) :
    l.set i a = l := by
  apply List.ext_getElem?
  intro j
  by_cases hij : i = j
  · subst hij
    have hlt : i < l.length := (List.getElem?_eq_some.mp h).1
    simp [hlt, h]
  · simp [List.getElem?_set, hij]

theorem removeLoop_eq (kb : Nat) (idxs : List Nat) (K : List knowledgeBase) (qs : List query)
    (k : knowledgeBase) (hk : K[kb]? = some k) (L : List statement)
    (h : List.foldlM removeAt k.statements idxs = some L) :
    removeLoop kb idxs ⟨K, qs⟩ = some ⟨K.set kb { k with statements := L }, qs⟩ := by
  induction idxs generalizing K k with
  | nil =>
    simp only [List.foldlM, pure, Option.some.injEq] at h
    subst h
    simp only [removeLoop]
    congr
    exact (set_getElem?_self _ _ _ hk).symm
  | cons i is ih =>
    simp only [List.foldlM, bind, Option.bind_eq_some] at h
    obtain ⟨s1, hs1, h2⟩ := h
    simp only [removeLoop, hk, hs1, World.setKb]
    have hlt : kb < K.length := (List.getElem?_eq_some.mp hk).1
    have := ih (K.set kb { k with statements := s1 }) { k with statements := s1 }
      (by simp [hlt]) h2
    simpa using this

theorem query_Results_last (K : List knowledgeBase) (qs : List query) (qq : query)
    (kb : Nat) (k : knowledgeBase) (hb : qq.base = some kb) (hk : K[kb]? = some k)
    (p : statement → Bool)
    (hp : ∀ s, evalConjuncts (evaluateFuel qs.length (qs ++ [qq])) qq.query s = some (p s)) :
    query.Results qs.length ⟨K, qs ++ [qq]⟩ = some (k.statements.filter p) := by
  have hb2 : boundStatements qs.length ⟨K, qs ++ [qq]⟩ = some k.statements := by
    simp [boundStatements, hb, hk]
  simp only [query.Results, hb2]
  exact query_ResultsFrom_eq_filter _ _ p (fun s => by rw [query_Evaluate_last]; exact hp s) _

theorem query_ResultIndexes_last (K : List knowledgeBase) (qs : List query) (qq : query)
    (kb : Nat) (k : knowledgeBase) (hb : qq.base = some kb) (hk : K[kb]? = some k)
    (p : statement → Bool)
    (hp : ∀ s, evalConjuncts (evaluateFuel qs.length (qs ++ [qq])) qq.query s = some (p s)) :
    query.ResultIndexes qs.length ⟨K, qs ++ [qq]⟩ = some (positionsFrom p 0 k.statements) := by
  have hb2 : boundStatements qs.length ⟨K, qs ++ [qq]⟩ = some k.statements := by
    simp [boundStatements, hb, hk]
  simp only [query.ResultIndexes, hb2, query.ResultIndexesFrom]
  exact resultIndexesLoop_eq _ _ p (fun s => by rw [query_Evaluate_last]; exact hp s) _ _

/-! ## The effect of `Insert` and `Delete` on the stored sequence -/

theorem insertStep_eq (kb : Nat) (stmt : statement) (K : List knowledgeBase) (qs : List query)
    (k : knowledgeBase) (hk : K[kb]? = some k) :
    ∃ qq, insertStep kb stmt ⟨K, qs⟩ =
      some ⟨K.set kb { k with statements :=
          if (k.statements.any (fun t => t.Equals (some (NewStatement stmt.subject
              stmt.predicate stmt.object (some (stmt.graph.getD k.defaultGraph))))))
          then k.statements
          else k.statements ++ [NewStatement stmt.subject stmt.predicate stmt.object
              (some (stmt.graph.getD k.defaultGraph))] }, qs ++ [qq]⟩ := by
  have hg : (match stmt.graph with
      | none => k.defaultGraph
      | some g => g) = stmt.graph.getD k.defaultGraph := by
    cases stmt.graph <;> rfl
  refine ⟨⟨some kb, none, [matcher.seed, matcher.graph (some (stmt.graph.getD k.defaultGraph)),
    matcher.subject (some stmt.subject), matcher.predicate (some stmt.predicate),
    matcher.object (some stmt.object)], "and"⟩, ?_⟩
  have hres := query_Results_last K qs
    ⟨some kb, none, [matcher.seed, matcher.graph (some (stmt.graph.getD k.defaultGraph)),
      matcher.subject (some stmt.subject), matcher.predicate (some stmt.predicate),
      matcher.object (some stmt.object)], "and"⟩ kb k rfl hk
    (fun t => t.Equals (some (NewStatement stmt.subject stmt.predicate stmt.object
      (some (stmt.graph.getD k.defaultGraph)))))
    (fun s => evalConjuncts_insert _ _ _ _ _ s)
  simp only [insertStep, hk, hg, knowledgeBase_Select_eq, query.Graph, query.Subject,
    query.Predicate, query.Object, query_add_last_and, Option.map_some', Option.bind_eq_bind,
    Option.some_bind, List.singleton_append, List.cons_append, List.nil_append, hres,
    World.setKb, pure]
  cases hany : k.statements.any (fun t => t.Equals (some (NewStatement stmt.subject
      stmt.predicate stmt.object (some (stmt.graph.getD k.defaultGraph)))))
  · have h0 : List.filter (fun t => t.Equals (some (NewStatement stmt.subject stmt.predicate
        stmt.object (some (stmt.graph.getD k.defaultGraph))))) k.statements = [] := by
      rw [List.filter_eq_nil_iff]
      intro a ha
      have := List.any_eq_false.mp hany a ha
      simpa using this
    simp [h0]
  · have hne : List.filter (fun t => t.Equals (some (NewStatement stmt.subject stmt.predicate
        stmt.object (some (stmt.graph.getD k.defaultGraph))))) k.statements ≠ [] := by
      obtain ⟨a, ha, he⟩ := List.any_eq_true.mp hany
      intro hnil
      exact List.filter_eq_nil_iff.mp hnil a ha he
    simp [hne, set_getElem?_self _ _ _ hk]

theorem deleteStep_eq_some (kb : Nat) (stmt : statement) (g : namedNode) (K : List knowledgeBase)
    (qs : List query) (k : knowledgeBase) (hk : K[kb]? = some k) (hg : stmt.graph = some g) :
    ∃ qq, deleteStep kb stmt ⟨K, qs⟩ =
      some ⟨K.set kb { k with statements :=
          (k.statements.filter (fun t => !(t.Equals (some stmt)))) }, qs ++ [qq]⟩ := by
  refine ⟨⟨some kb, none, [matcher.seed, matcher.graph (some g),
    matcher.subject (some stmt.subject), matcher.predicate (some stmt.predicate),
    matcher.object (some stmt.object)], "and"⟩, ?_⟩
  have hst : NewStatement stmt.subject stmt.predicate stmt.object (some g) = stmt := by
    cases stmt; simp_all [NewStatement]
  have hres := query_ResultIndexes_last K qs
    ⟨some kb, none, [matcher.seed, matcher.graph (some g),
      matcher.subject (some stmt.subject), matcher.predicate (some stmt.predicate),
      matcher.object (some stmt.object)], "and"⟩ kb k rfl hk
    (fun t => t.Equals (some stmt))
    (fun s => by rw [evalConjuncts_insert, hst])
  have hfold := foldlM_removeAt (fun t => t.Equals (some stmt)) k.statements []
  simp only [List.nil_append, List.length_nil] at hfold
  simp only [deleteStep, hg, knowledgeBase_Select_eq, query.Graph, query.Subject,
    query.Predicate, query.Object, query_add_last_and, Option.map_some', Option.bind_eq_bind,
    Option.some_bind, List.singleton_append, List.cons_append, List.nil_append, hres,
    sort_descending_eq_reverse _ (positionsFrom_sorted _ _ _)]
  exact removeLoop_eq kb _ K _ k hk _ hfold

theorem deleteStep_eq_none (kb : Nat) (stmt : statement) (K : List knowledgeBase)
    (qs : List query) (k : knowledgeBase) (hk : K[kb]? = some k) (hg : stmt.graph = none) :
    ∃ qq, deleteStep kb stmt ⟨K, qs⟩ =
      some ⟨K.set kb { k with statements :=
          (k.statements.filter (fun t =>
            !(t.subject.Equals (some (Node.named stmt.subject)) &&
              t.predicate.Equals (some (Node.named stmt.predicate)) &&
              t.object.Equals (some stmt.object)))) }, qs ++ [qq]⟩ := by
  refine ⟨⟨some kb, none, [matcher.seed,
    matcher.subject (some stmt.subject), matcher.predicate (some stmt.predicate),
    matcher.object (some stmt.object)], "and"⟩, ?_⟩
  have hres := query_ResultIndexes_last K qs
    ⟨some kb, none, [matcher.seed,
      matcher.subject (some stmt.subject), matcher.predicate (some stmt.predicate),
      matcher.object (some stmt.object)], "and"⟩ kb k rfl hk
    (fun t => t.subject.Equals (some (Node.named stmt.subject)) &&
      t.predicate.Equals (some (Node.named stmt.predicate)) &&
      t.object.Equals (some stmt.object))
    (fun s => evalConjuncts_delete_any _ _ _ _ s)
  have hfold := foldlM_removeAt (fun t => t.subject.Equals (some (Node.named stmt.subject)) &&
      t.predicate.Equals (some (Node.named stmt.predicate)) &&
      t.object.Equals (some stmt.object)) k.statements []
  simp only [List.nil_append, List.length_nil] at hfold
  simp only [deleteStep, hg, knowledgeBase_Select_eq, query.Subject,
    query.Predicate, query.Object, query_add_last_and, Option.map_some', Option.bind_eq_bind,
    Option.some_bind, List.singleton_append, List.cons_append, List.nil_append, hres,
    sort_descending_eq_reverse _ (positionsFrom_sorted _ _ _)]
  exact removeLoop_eq kb _ K _ k hk _ hfold

theorem insertStep_pure (kb : Nat) (stmt : statement) (K : List knowledgeBase) (qs : List query)
    (k : knowledgeBase) (hk : K[kb]? = some k) :
    ∃ qq, insertStep kb stmt ⟨K, qs⟩ =
      some ⟨K.set kb { k with statements := insertPure k.defaultGraph k.statements stmt },
        qs ++ [qq]⟩ := by
  obtain ⟨qq, h⟩ := insertStep_eq kb stmt K qs k hk
  exact ⟨qq, by rw [h]; rfl⟩

theorem deleteStep_pure (kb : Nat) (stmt : statement) (K : List knowledgeBase) (qs : List query)
    (k : knowledgeBase) (hk : K[kb]? = some k) :
    ∃ qq, deleteStep kb stmt ⟨K, qs⟩ =
      some ⟨K.set kb { k with statements := deletePure k.statements stmt }, qs ++ [qq]⟩ := by
  cases hg : stmt.graph with
  | none =>
    obtain ⟨qq, h⟩ := deleteStep_eq_none kb stmt K qs k hk hg
    refine ⟨qq, ?_⟩
    rw [h]
    simp [deletePure, deleteTest, hg]
  | some g =>
    obtain ⟨qq, h⟩ := deleteStep_eq_some kb stmt g K qs k hk hg
    refine ⟨qq, ?_⟩
    rw [h]
    simp [deletePure, deleteTest, hg]

theorem getElem?_set_self_of_some {α : Type} (l : List α) (i : Nat) (a b : α)
    (h : l[i]? = some a) : (l.set i b)[i]? = some b := by
  have hlt : i < l.length := (List.getElem?_eq_some.mp h).1
  simp [hlt]

theorem Insert_pure (kb : Nat) (stmts : List statement) (K : List knowledgeBase)
    (qs : List query) (k : knowledgeBase) (hk : K[kb]? = some k) :
    ∃ qs2, knowledgeBase.Insert kb stmts ⟨K, qs⟩ =
      some ⟨K.set kb { k with statements := stmts.foldl (insertPure k.defaultGraph) k.statements },
        qs2⟩ := by
  induction stmts generalizing K qs k with
  | nil => exact ⟨qs, by simp [knowledgeBase.Insert, set_getElem?_self _ _ _ hk]⟩
  | cons a rest ih =>
    obtain ⟨qq, h⟩ := insertStep_pure kb a K qs k hk
    obtain ⟨qs2, h2⟩ := ih (K.set kb { k with statements := insertPure k.defaultGraph k.statements a })
      (qs ++ [qq]) { k with statements := insertPure k.defaultGraph k.statements a }
      (getElem?_set_self_of_some _ _ _ _ hk)
    refine ⟨qs2, ?_⟩
    simp only [knowledgeBase.Insert, h, h2, List.set_set, List.foldl_cons]

theorem Delete_pure (kb : Nat) (stmts : List statement) (K : List knowledgeBase)
    (qs : List query) (k : knowledgeBase) (hk : K[kb]? = some k) :
    ∃ qs2, knowledgeBase.Delete kb stmts ⟨K, qs⟩ =
      some ⟨K.set kb { k with statements := stmts.foldl deletePure k.statements }, qs2⟩ := by
  induction stmts generalizing K qs k with
  | nil => exact ⟨qs, by simp [knowledgeBase.Delete, set_getElem?_self _ _ _ hk]⟩
  | cons a rest ih =>
    obtain ⟨qq, h⟩ := deleteStep_pure kb a K qs k hk
    obtain ⟨qs2, h2⟩ := ih (K.set kb { k with statements := deletePure k.statements a })
      (qs ++ [qq]) { k with statements := deletePure k.statements a }
      (getElem?_set_self_of_some _ _ _ _ hk)
    refine ⟨qs2, ?_⟩
    simp only [knowledgeBase.Delete, h, h2, List.set_set, List.foldl_cons]

theorem applyCalls_pure (kb : Nat) (calls : List Call) (K : List knowledgeBase)
    (qs : List query) (k : knowledgeBase) (hk : K[kb]? = some k) :
    ∃ qs2, applyCalls kb calls ⟨K, qs⟩ =
      some ⟨K.set kb { k with statements := calls.foldl (callPure k.defaultGraph) k.statements },
        qs2⟩ := by
  induction calls generalizing K qs k with
  | nil => exact ⟨qs, by simp [applyCalls, set_getElem?_self _ _ _ hk]⟩
  | cons c rest ih =>
    cases c with
    | Insert xs =>
      obtain ⟨qs1, h⟩ := Insert_pure kb xs K qs k hk
      obtain ⟨qs2, h2⟩ := ih (K.set kb { k with statements := xs.foldl (insertPure k.defaultGraph) k.statements })
        qs1 { k with statements := xs.foldl (insertPure k.defaultGraph) k.statements }
        (getElem?_set_self_of_some _ _ _ _ hk)
      refine ⟨qs2, ?_⟩
      simp only [applyCalls, h, h2, List.set_set, List.foldl_cons, callPure]
    | Delete xs =>
      obtain ⟨qs1, h⟩ := Delete_pure kb xs K qs k hk
      obtain ⟨qs2, h2⟩ := ih (K.set kb { k with statements := xs.foldl deletePure k.statements })
        qs1 { k with statements := xs.foldl deletePure k.statements }
        (getElem?_set_self_of_some _ _ _ _ hk)
      refine ⟨qs2, ?_⟩
      simp only [applyCalls, h, h2, List.set_set, List.foldl_cons, callPure]

theorem insertPure_apart (dg : namedNode) (L : List statement) (s : statement)
    (h : L.Pairwise (fun a b => a.Equals (some b) = false)) :
    (insertPure dg L s).Pairwise (fun a b => a.Equals (some b) = false) := by
  unfold insertPure
  cases hany : L.any (fun t => t.Equals (some (stored dg s)))
  · simp only [Bool.false_eq_true, if_false]
    rw [List.pairwise_append]
    refine ⟨h, List.pairwise_singleton _ _, ?_⟩
    intro a ha b hb
    simp only [List.mem_singleton] at hb
    subst hb
    have := List.any_eq_false.mp hany a ha
    simpa using this
  · simp only [if_true]
    exact h

theorem deletePure_apart (L : List statement) (s : statement)
    (h : L.Pairwise (fun a b => a.Equals (some b) = false)) :
    (deletePure L s).Pairwise (fun a b => a.Equals (some b) = false) :=
  h.filter _

theorem foldl_insertPure_apart (dg : namedNode) (xs : List statement) (L : List statement)
    (h : L.Pairwise (fun a b => a.Equals (some b) = false)) :
    (xs.foldl (insertPure dg) L).Pairwise (fun a b => a.Equals (some b) = false) := by
  induction xs generalizing L with
  | nil => exact h
  | cons a xs ih => exact ih _ (insertPure_apart dg L a h)

theorem foldl_deletePure_apart (xs : List statement) (L : List statement)
    (h : L.Pairwise (fun a b => a.Equals (some b) = false)) :
    (xs.foldl deletePure L).Pairwise (fun a b => a.Equals (some b) = false) := by
  induction xs generalizing L with
  | nil => exact h
  | cons a xs ih => exact ih _ (deletePure_apart L a h)

theorem foldl_callPure_apart (dg : namedNode) (calls : List Call) (L : List statement)
    (h : L.Pairwise (fun a b => a.Equals (some b) = false)) :
    (calls.foldl (callPure dg) L).Pairwise (fun a b => a.Equals (some b) = false) := by
  induction calls generalizing L with
  | nil => exact h
  | cons c cs ih =>
    cases c with
    | Insert xs => exact ih _ (foldl_insertPure_apart dg xs L h)
    | Delete xs => exact ih _ (foldl_deletePure_apart xs L h)

theorem insertPure_graph (dg : namedNode) (L : List statement) (s : statement)
    (h : ∀ t ∈ L, t.graph ≠ none) : ∀ t ∈ insertPure dg L s, t.graph ≠ none := by
  unfold insertPure
  split
  · exact h
  · intro t ht
    rcases List.mem_append.mp ht with h1 | h1
    · exact h t h1
    · simp only [List.mem_singleton] at h1
      subst h1
      simp [stored, NewStatement]

theorem deletePure_graph (L : List statement) (s : statement)
    (h : ∀ t ∈ L, t.graph ≠ none) : ∀ t ∈ deletePure L s, t.graph ≠ none :=
  fun t ht => h t (List.mem_of_mem_filter ht)

theorem foldl_insertPure_graph (dg : namedNode) (xs : List statement) (L : List statement)
    (h : ∀ t ∈ L, t.graph ≠ none) : ∀ t ∈ xs.foldl (insertPure dg) L, t.graph ≠ none := by
  induction xs generalizing L with
  | nil => exact h
  | cons a xs ih => exact ih _ (insertPure_graph dg L a h)

theorem foldl_deletePure_graph (xs : List statement) (L : List statement)
    (h : ∀ t ∈ L, t.graph ≠ none) : ∀ t ∈ xs.foldl deletePure L, t.graph ≠ none := by
  induction xs generalizing L with
  | nil => exact h
  | cons a xs ih => exact ih _ (deletePure_graph L a h)

theorem foldl_callPure_graph (dg : namedNode) (calls : List Call) (L : List statement)
    (h : ∀ t ∈ L, t.graph ≠ none) : ∀ t ∈ calls.foldl (callPure dg) L, t.graph ≠ none := by
  induction calls generalizing L with
  | nil => exact h
  | cons c cs ih =>
    cases c with
    | Insert xs => exact ih _ (foldl_insertPure_graph dg xs L h)
    | Delete xs => exact ih _ (foldl_deletePure_graph xs L h)

theorem foldl_insertPure_sublist (dg : namedNode) (xs : List statement) (L : List statement) :
    ∃ sub : List statement, sub.Sublist xs ∧
      xs.foldl (insertPure dg) L = L ++ sub.map (stored dg) := by
  induction xs generalizing L with
  | nil => exact ⟨[], List.Sublist.refl _, by simp⟩
  | cons a xs ih =>
    obtain ⟨sub, hsub, h⟩ := ih (insertPure dg L a)
    cases hm : L.any (fun t => t.Equals (some (stored dg a)))
    · refine ⟨a :: sub, hsub.cons₂ a, ?_⟩
      rw [List.foldl_cons, h]
      simp [insertPure, hm]
    · refine ⟨sub, hsub.cons a, ?_⟩
      rw [List.foldl_cons, h]
      simp [insertPure, hm]

/-- The world and handle after `NewKnowledgeBase`. -/
theorem NewKnowledgeBase_eq (name : String) (w : World) :
    NewKnowledgeBase name w =
      (⟨w.kbs ++ [⟨if name == "" then "kb" else name, [], NewNamedNode "default-graph"⟩],
        w.queries⟩, w.kbs.length) := rfl

theorem applyCalls_new (name : String) (w : World) (calls : List Call) :
    ∃ qs2, applyCalls (NewKnowledgeBase name w).2 calls (NewKnowledgeBase name w).1 =
      some ⟨w.kbs ++ [⟨if name == "" then "kb" else name,
        calls.foldl (callPure (NewNamedNode "default-graph")) [],
        NewNamedNode "default-graph"⟩], qs2⟩ := by
  rw [NewKnowledgeBase_eq]
  obtain ⟨qs2, h⟩ := applyCalls_pure w.kbs.length calls
    (w.kbs ++ [⟨if name == "" then "kb" else name, [], NewNamedNode "default-graph"⟩])
    w.queries ⟨if name == "" then "kb" else name, [], NewNamedNode "default-graph"⟩
    (getElem?_snoc_length _ _)
  refine ⟨qs2, ?_⟩
  simp only [h, set_snoc_length]

/-! ## Claims about the knowledge base -/

/-- C1: starting from `NewKnowledgeBase`, every sequence of `Insert` and `Delete` calls runs to
the end and leaves a stored sequence in which no two statements at different positions are
`Equals`; the lists handed to `Insert` may contain duplicates. -/
theorem C1_no_two_equal_statements (name : String) (w : World) (calls : List Call) :
    ∃ w2 k, applyCalls (NewKnowledgeBase name w).2 calls (NewKnowledgeBase name w).1 = some w2 ∧
      w2.kbs[(NewKnowledgeBase name w).2]? = some k ∧
      ∀ (i j : Nat) (hi : i < k.statements.length) (hj : j < k.statements.length), i ≠ j →
        (k.statements[i]).Equals (some k.statements[j]) = false := by
  obtain ⟨qs2, h⟩ := applyCalls_new name w calls
  refine ⟨_, ⟨if name == "" then "kb" else name,
    calls.foldl (callPure (NewNamedNode "default-graph")) [],
    NewNamedNode "default-graph"⟩, h, ?_, ?_⟩
  · simp [NewKnowledgeBase_eq]
  · intro i j hi hj hij
    have hap : (calls.foldl (callPure (NewNamedNode "default-graph")) []).Pairwise
        (fun a b => a.Equals (some b) = false) :=
      foldl_callPure_apart _ calls [] List.Pairwise.nil
    rw [List.pairwise_iff_getElem] at hap
    rcases Nat.lt_or_gt_of_ne hij with hlt | hgt
    · exact hap i j hi hj hlt
    · rw [statement_Equals_comm]
      exact hap j i hj hi hgt

theorem insertPure_idem (dg : namedNode) (L : List statement) (s : statement)
    (hs : s.object.Equals (some s.object) = true) :
    insertPure dg (insertPure dg L s) s = insertPure dg L s := by
  cases hm : L.any (fun t => t.Equals (some (stored dg s)))
  · have hself : (stored dg s).Equals (some (stored dg s)) = true := by
      rw [statement_Equals_self]
      exact hs
    simp [insertPure, hm, hself]
  · simp [insertPure, hm]

theorem mem_insertPure (dg : namedNode) (L : List statement) (s : statement) :
    stored dg s ∈ insertPure dg L s := by
  cases hm : L.any (fun t => t.Equals (some (stored dg s)))
  · simp [insertPure, hm]
  · obtain ⟨t, ht, he⟩ := List.any_eq_true.mp hm
    have e := ((statement_Equals_iff t _).mp he).1
    simp only [insertPure, hm, if_true]
    rw [← e]
    exact ht

theorem filter_Equals_length (L : List statement) (n : statement)
    (hap : L.Pairwise (fun a b => a.Equals (some b) = false)) (hm : n ∈ L)
    (hn : n.object.Equals (some n.object) = true) :
    (L.filter (fun t => t.Equals (some n))).length = 1 := by
  have hsub : (L.filter (fun t => t.Equals (some n))).Pairwise
      (fun a b => a.Equals (some b) = false) := hap.sublist (List.filter_sublist L)
  have hin : n ∈ L.filter (fun t => t.Equals (some n)) := by
    rw [List.mem_filter]
    exact ⟨hm, by rw [statement_Equals_self]; exact hn⟩
  cases hf : L.filter (fun t => t.Equals (some n)) with
  | nil => rw [hf] at hin; simp at hin
  | cons a rest =>
    cases rest with
    | nil => rfl
    | cons b r =>
      have ha : a.Equals (some n) = true :=
        (List.mem_filter.mp (by rw [hf]; simp : a ∈ L.filter _)).2
      have hb : b.Equals (some n) = true :=
        (List.mem_filter.mp (by rw [hf]; simp : b ∈ L.filter _)).2
      rw [hf] at hsub
      have hab := (List.pairwise_cons.mp hsub).1 b (by simp)
      rw [statement_Equals_trans a b n ha hb] at hab
      cases hab

/-- C2 (counterexample): a statement whose object is a typed literal with a NaN as value.
`Insert([s])` on the example world stores it behind the two statements of the base, a second
`Insert([s])` stores it once more, and no stored statement is `Equals` to it. -/
theorem C2_insert_twice_counterexample :
    exStatementNaN.object.Equals (some exStatementNaN.object) = false ∧
    (knowledgeBase.Insert 0 [exStatementNaN] exWorld).bind (knowledgeBase.Statements 0)
      = some [exStatementG, exStatementD, exStatementNaN] ∧
    ((knowledgeBase.Insert 0 [exStatementNaN] exWorld).bind
        (knowledgeBase.Insert 0 [exStatementNaN])).bind (knowledgeBase.Statements 0)
      = some [exStatementG, exStatementD, exStatementNaN, exStatementNaN] ∧
    ([exStatementG, exStatementD, exStatementNaN, exStatementNaN].filter
      (fun t => t.Equals (some exStatementNaN))).length = 0 := by
  refine ⟨by decide, by decide, by decide, by decide⟩

/-- C2 (amended): for a statement `s` whose object `Equals` itself,
`Insert([s]); Insert([s])` stores the same sequence as a single `Insert([s])`, for every state of
the knowledge base; and on a base built from `NewKnowledgeBase` by `Insert` and `Delete` calls,
which all return, exactly one stored statement is then `Equals` to `s` with an absent graph
replaced by the default graph. -/
theorem C2_insert_idempotent (w : World) (kb : Nat) (k : knowledgeBase) (s : statement)
    (hk : w.kbs[kb]? = some k) (hs : s.object.Equals (some s.object) = true) :
    (∃ w1 w2 k1, knowledgeBase.Insert kb [s] w = some w1 ∧
      knowledgeBase.Insert kb [s] w1 = some w2 ∧
      w1.kbs[kb]? = some k1 ∧ w2.kbs[kb]? = some k1 ∧ w2.kbs = w1.kbs) ∧
    ∀ (name : String) (w0 : World) (calls : List Call), ∃ wb w1 w2 k1,
      applyCalls (NewKnowledgeBase name w0).2 calls (NewKnowledgeBase name w0).1 = some wb ∧
      knowledgeBase.Insert (NewKnowledgeBase name w0).2 [s] wb = some w1 ∧
      knowledgeBase.Insert (NewKnowledgeBase name w0).2 [s] w1 = some w2 ∧
      w2.kbs[(NewKnowledgeBase name w0).2]? = some k1 ∧
      (k1.statements.filter (fun t => t.Equals (some (NewStatement s.subject s.predicate
        s.object (some (s.graph.getD (NewNamedNode "default-graph"))))))).length = 1 := by
  have twice : ∀ (K : List knowledgeBase) (qs : List query) (kb2 : Nat) (k2 : knowledgeBase),
      K[kb2]? = some k2 →
      ∃ qs1 qs2, knowledgeBase.Insert kb2 [s] ⟨K, qs⟩
          = some ⟨K.set kb2 { k2 with statements :=
              (insertPure k2.defaultGraph k2.statements s) }, qs1⟩ ∧
        knowledgeBase.Insert kb2 [s] ⟨K.set kb2 { k2 with statements :=
              (insertPure k2.defaultGraph k2.statements s) }, qs1⟩
          = some ⟨K.set kb2 { k2 with statements :=
              (insertPure k2.defaultGraph k2.statements s) }, qs2⟩ ∧
        (K.set kb2 { k2 with statements :=
              (insertPure k2.defaultGraph k2.statements s) })[kb2]?
          = some { k2 with statements := insertPure k2.defaultGraph k2.statements s } := by
    intro K qs kb2 k2 hk2
    obtain ⟨qs1, h1⟩ := Insert_pure kb2 [s] K qs k2 hk2
    have hk1 := getElem?_set_self_of_some K kb2 k2
      { k2 with statements := [s].foldl (insertPure k2.defaultGraph) k2.statements } hk2
    obtain ⟨qs2, h2⟩ := Insert_pure kb2 [s] _ qs1 _ hk1
    simp only [List.foldl_cons, List.foldl_nil, insertPure_idem _ _ _ hs, List.set_set]
      at h1 h2 hk1
    exact ⟨qs1, qs2, h1, h2, hk1⟩
  constructor
  · obtain ⟨K, qs⟩ := w
    obtain ⟨qs1, qs2, h1, h2, hk1⟩ := twice K qs kb k hk
    exact ⟨_, _, _, h1, h2, hk1, hk1, rfl⟩
  · intro name w0 calls
    obtain ⟨qs0, h0⟩ := applyCalls_new name w0 calls
    have hkb : (w0.kbs ++ [(⟨if name == "" then "kb" else name,
        calls.foldl (callPure (NewNamedNode "default-graph")) [],
        NewNamedNode "default-graph"⟩ : knowledgeBase)])[(NewKnowledgeBase name w0).2]?
        = some _ := getElem?_snoc_length _ _
    obtain ⟨qs1, qs2, h1, h2, hk1⟩ := twice _ qs0 _ _ hkb
    refine ⟨_, _, _, _, h0, h1, h2, hk1, ?_⟩
    have hap : (calls.foldl (callPure (NewNamedNode "default-graph")) []).Pairwise
        (fun a b => a.Equals (some b) = false) :=
      foldl_callPure_apart _ calls [] List.Pairwise.nil
    exact filter_Equals_length _ _ (insertPure_apart _ _ s hap) (mem_insertPure _ _ _) hs

/-- Witness of C2 on the example world, inserting `a - b - c` with a nil graph. -/
theorem C2_insert_idempotent_witness :
    (exWorld.kbs[0]? = some exBase ∧
      exStatementNoGraph.object.Equals (some exStatementNoGraph.object) = true) ∧
    (∃ w1 w2 k1, knowledgeBase.Insert 0 [exStatementNoGraph] exWorld = some w1 ∧
      knowledgeBase.Insert 0 [exStatementNoGraph] w1 = some w2 ∧
      w1.kbs[0]? = some k1 ∧ w2.kbs[0]? = some k1 ∧ w2.kbs = w1.kbs) ∧
    ∀ (name : String) (w0 : World) (calls : List Call), ∃ wb w1 w2 k1,
      applyCalls (NewKnowledgeBase name w0).2 calls (NewKnowledgeBase name w0).1 = some wb ∧
      knowledgeBase.Insert (NewKnowledgeBase name w0).2 [exStatementNoGraph] wb = some w1 ∧
      knowledgeBase.Insert (NewKnowledgeBase name w0).2 [exStatementNoGraph] w1 = some w2 ∧
      w2.kbs[(NewKnowledgeBase name w0).2]? = some k1 ∧
      (k1.statements.filter (fun t => t.Equals (some (NewStatement exStatementNoGraph.subject
        exStatementNoGraph.predicate exStatementNoGraph.object
        (some (exStatementNoGraph.graph.getD (NewNamedNode "default-graph"))))))).length = 1 :=
  ⟨⟨rfl, by decide⟩, C2_insert_idempotent exWorld 0 exBase exStatementNoGraph rfl (by decide)⟩

/-- C3: on a base built from `NewKnowledgeBase` by `Insert` and `Delete` calls every stored
statement has a graph, and `Insert([s])` either leaves the sequence as it is or appends the
statement with the subject, predicate and object of `s` and the graph of `s`, or
`NamedNode("default-graph")` when the graph of `s` is nil; that statement is stored afterwards. -/
theorem C3_stored_graph_present (name : String) (w : World) (calls : List Call) (s : statement) :
    ∃ w0 k0 w1 k1,
      applyCalls (NewKnowledgeBase name w).2 calls (NewKnowledgeBase name w).1 = some w0 ∧
      w0.kbs[(NewKnowledgeBase name w).2]? = some k0 ∧
      (∀ t ∈ k0.statements, t.graph ≠ none) ∧
      knowledgeBase.Insert (NewKnowledgeBase name w).2 [s] w0 = some w1 ∧
      w1.kbs[(NewKnowledgeBase name w).2]? = some k1 ∧
      (∀ t ∈ k1.statements, t.graph ≠ none) ∧
      (k1.statements = k0.statements ∨
        k1.statements = k0.statements ++ [NewStatement s.subject s.predicate s.object
          (some (match s.graph with
            | none => NewNamedNode "default-graph"
            | some g => g))]) ∧
      NewStatement s.subject s.predicate s.object
          (some (match s.graph with
            | none => NewNamedNode "default-graph"
            | some g => g)) ∈ k1.statements := by
  obtain ⟨qs2, h⟩ := applyCalls_new name w calls
  have hg0 : ∀ t ∈ calls.foldl (callPure (NewNamedNode "default-graph")) [], t.graph ≠ none :=
    foldl_callPure_graph _ calls [] (by simp)
  have hk0 : (w.kbs ++ [(⟨if name == "" then "kb" else name,
      calls.foldl (callPure (NewNamedNode "default-graph")) [],
      NewNamedNode "default-graph"⟩ : knowledgeBase)])[(NewKnowledgeBase name w).2]? = some _ :=
    getElem?_snoc_length _ _
  obtain ⟨qs3, h3⟩ := Insert_pure (NewKnowledgeBase name w).2 [s] _ qs2 _ hk0
  have hst : (match s.graph with
            | none => NewNamedNode "default-graph"
            | some g => g) = s.graph.getD (NewNamedNode "default-graph") := by
    cases s.graph <;> rfl
  rw [hst]
  refine ⟨_, _, _, _, h, hk0, hg0, h3, getElem?_set_self_of_some _ _ _ _ hk0, ?_, ?_, ?_⟩
  · exact insertPure_graph _ _ _ hg0
  · simp only [List.foldl_cons, List.foldl_nil, insertPure, stored]
    split
    · exact Or.inl rfl
    · exact Or.inr rfl
  · exact mem_insertPure _ _ _

/-- C4: `Delete([s])` for a statement `s` with a graph returns, and the stored sequence
afterwards is the old one without the statements that are `Equals` to `s`, the others in their
order; when no stored statement is `Equals` to `s` nothing changes. -/
theorem C4_delete_removes_equal (w : World) (kb : Nat) (k : knowledgeBase) (s : statement)
    (g : namedNode) (hk : w.kbs[kb]? = some k) (hg : s.graph = some g) :
    ∃ w1, knowledgeBase.Delete kb [s] w = some w1 ∧
      w1.kbs = w.kbs.set kb { k with statements :=
        (k.statements.filter (fun t => !(t.Equals (some s)))) } ∧
      ((∀ t ∈ k.statements, t.Equals (some s) = false) → w1.kbs = w.kbs) := by
  obtain ⟨K, qs⟩ := w
  obtain ⟨qs1, h1⟩ := Delete_pure kb [s] K qs k hk
  have e : deletePure k.statements s = k.statements.filter (fun t => !(t.Equals (some s))) := by
    simp [deletePure, deleteTest, hg]
  simp only [List.foldl_cons, List.foldl_nil, e] at h1
  refine ⟨_, h1, rfl, ?_⟩
  intro hno
  have e2 : k.statements.filter (fun t => !(t.Equals (some s))) = k.statements := by
    rw [List.filter_eq_self]
    intro t ht
    simp [hno t ht]
  simp only [e2]
  exact set_getElem?_self _ _ _ hk

/-- Witness of C4 on the example world, deleting `a - b - c` in graph `g`. -/
theorem C4_delete_removes_equal_witness :
    (exWorld.kbs[0]? = some exBase ∧ exStatementG.graph = some (NewNamedNode "g")) ∧
    ∃ w1, knowledgeBase.Delete 0 [exStatementG] exWorld = some w1 ∧
      w1.kbs = exWorld.kbs.set 0 { exBase with statements :=
        (exBase.statements.filter (fun t => !(t.Equals (some exStatementG)))) } ∧
      ((∀ t ∈ exBase.statements, t.Equals (some exStatementG) = false) → w1.kbs = exWorld.kbs) :=
  ⟨⟨rfl, rfl⟩, C4_delete_removes_equal exWorld 0 exBase exStatementG (NewNamedNode "g") rfl rfl⟩

/-- C5: `Delete([s])` for a statement `s` with a nil graph returns, and the stored sequence
afterwards is the old one without the statements whose subject, predicate and object are
`Equals` to those of `s`, whatever their graph; the others stay in their order. -/
theorem C5_delete_nil_graph_any_graph (w : World) (kb : Nat) (k : knowledgeBase) (s : statement)
    (hk : w.kbs[kb]? = some k) (hg : s.graph = none) :
    ∃ w1, knowledgeBase.Delete kb [s] w = some w1 ∧
      w1.kbs = w.kbs.set kb { k with statements :=
        (k.statements.filter (fun t => !(t.subject.Equals (some (Node.named s.subject)) &&
          t.predicate.Equals (some (Node.named s.predicate)) &&
          t.object.Equals (some s.object)))) } := by
  obtain ⟨K, qs⟩ := w
  obtain ⟨qs1, h1⟩ := Delete_pure kb [s] K qs k hk
  have e : deletePure k.statements s =
      k.statements.filter (fun t => !(t.subject.Equals (some (Node.named s.subject)) &&
          t.predicate.Equals (some (Node.named s.predicate)) &&
          t.object.Equals (some s.object))) := by
    simp only [deletePure, deleteTest, hg]
  simp only [List.foldl_cons, List.foldl_nil, e] at h1
  exact ⟨_, h1, rfl⟩

/-- Witness of C5 on the example world, deleting `a - b - c` with a nil graph. -/
theorem C5_delete_nil_graph_any_graph_witness :
    (exWorld.kbs[0]? = some exBase ∧ exStatementNoGraph.graph = none) ∧
    ∃ w1, knowledgeBase.Delete 0 [exStatementNoGraph] exWorld = some w1 ∧
      w1.kbs = exWorld.kbs.set 0 { exBase with statements :=
        (exBase.statements.filter (fun t =>
          !(t.subject.Equals (some (Node.named exStatementNoGraph.subject)) &&
          t.predicate.Equals (some (Node.named exStatementNoGraph.predicate)) &&
          t.object.Equals (some exStatementNoGraph.object)))) } :=
  ⟨⟨rfl, rfl⟩, C5_delete_nil_graph_any_graph exWorld 0 exBase exStatementNoGraph rfl rfl⟩

/-- C6: `Insert(xs)` returns, and the stored sequence afterwards is the old one followed by
the graph-resolved copies of a subsequence of `xs`, in the order of `xs`; the other knowledge
bases are untouched. -/
theorem C6_insert_appends_in_order (w : World) (kb : Nat) (k : knowledgeBase)
    (xs : List statement) (hk : w.kbs[kb]? = some k) :
    ∃ (w1 : World) (sub : List statement), knowledgeBase.Insert kb xs w = some w1 ∧
      sub.Sublist xs ∧
      w1.kbs = w.kbs.set kb { k with statements := (k.statements ++
        sub.map (fun x => NewStatement x.subject x.predicate x.object
          (some (x.graph.getD k.defaultGraph)))) } := by
  obtain ⟨K, qs⟩ := w
  obtain ⟨qs1, h1⟩ := Insert_pure kb xs K qs k hk
  obtain ⟨sub, hsub, h2⟩ := foldl_insertPure_sublist k.defaultGraph xs k.statements
  refine ⟨_, sub, h1, hsub, ?_⟩
  simp only [h2]
  rfl

/-- Witness of C6 on the example world, inserting a list with a statement twice. -/
theorem C6_insert_appends_in_order_witness :
    exWorld.kbs[0]? = some exBase ∧
    ∃ (w1 : World) (sub : List statement),
      knowledgeBase.Insert 0 [exStatementNoGraph, exStatementNoGraph] exWorld = some w1 ∧
      sub.Sublist [exStatementNoGraph, exStatementNoGraph] ∧
      w1.kbs = exWorld.kbs.set 0 { exBase with statements := (exBase.statements ++
        sub.map (fun x => NewStatement x.subject x.predicate x.object
          (some (x.graph.getD exBase.defaultGraph)))) } :=
  ⟨rfl, C6_insert_appends_in_order exWorld 0 exBase [exStatementNoGraph, exStatementNoGraph] rfl⟩

/-! ## Queries without groups -/

theorem Leaf_build_eq (l : Leaf) (q : Nat) (w : World) :
    l.build q w = (query.add q l.toMatcher w).map (fun w1 => (w1, q)) := by
  cases l <;> rfl

theorem matcher_call_leaf (grp : Nat → statement → Option Bool) (l : Leaf) (s : statement) :
    matcher.call grp l.toMatcher s = some (l.holds s) := by
  cases l with
  | Graph node =>
    simp only [Leaf.toMatcher, matcher.call, Leaf.holds]
    cases s.graph <;> rfl
  | Subject node => rfl
  | Predicate node => rfl
  | Object node => rfl

theorem evalConjuncts_cons (grp : Nat → statement → Option Bool) (m : matcher)
    (ms : List matcher) (s : statement) (b : Bool) (h : matcher.call grp m s = some b) :
    evalConjuncts grp (m :: ms) s = if b then evalConjuncts grp ms s else some false := by
  simp only [evalConjuncts, h]
  cases b <;> rfl

theorem evalConjuncts_seed (grp : Nat → statement → Option Bool) (ms : List matcher)
    (s : statement) : evalConjuncts grp (matcher.seed :: ms) s = evalConjuncts grp ms s := rfl

theorem evalConjuncts_nil (grp : Nat → statement → Option Bool) (s : statement) :
    evalConjuncts grp [] s = some true := rfl

theorem matcher_call_or (grp : Nat → statement → Option Bool) (m1 m2 : matcher)
    (s : statement) (b1 b2 : Bool) (h1 : matcher.call grp m1 s = some b1)
    (h2 : matcher.call grp m2 s = some b2) :
    matcher.call grp (matcher.or m1 m2) s = some (b1 || b2) := by
  simp only [matcher.call, h1, h2]
  cases b1 <;> rfl

theorem Leaf_build_last_and (l : Leaf) (K : List knowledgeBase) (qs : List query) (qq : query)
    (h : qq.nextOp = "and") :
    l.build qs.length ⟨K, qs ++ [qq]⟩ =
      some (⟨K, qs ++ [⟨qq.base, qq.parent, qq.query ++ [l.toMatcher], "and"⟩]⟩, qs.length) := by
  rw [Leaf_build_eq, query_add_last_and _ _ _ _ h]
  rfl

theorem Leaf_build_last_or (l : Leaf) (K : List knowledgeBase) (qs : List query) (qq : query)
    (prev : matcher) (ms : List matcher) (h : qq.nextOp = "or") (hq : qq.query = ms ++ [prev]) :
    l.build qs.length ⟨K, qs ++ [qq]⟩ =
      some (⟨K, qs ++ [⟨qq.base, qq.parent, ms ++ [matcher.or prev l.toMatcher], "and"⟩]⟩,
        qs.length) := by
  rw [Leaf_build_eq, query_add_last_or _ _ _ _ prev ms h hq]
  rfl

/-- The chain `Select().A.B.Or().C`, evaluated. -/
theorem eval_and_or (w : World) (kb : Nat) (A B C : Leaf) (s : statement) :
    thenCall (thenCall (thenCall (thenCall (thenCall (knowledgeBase.Select kb w) A.build)
      B.build) query.Or) C.build) (fun q => query.Evaluate q s)
      = some (A.holds s && (B.holds s || C.holds s)) := by
  obtain ⟨K, qs⟩ := w
  simp only [knowledgeBase_Select_eq, thenCall, Leaf_build_last_and, query_Or_last]
  rw [Leaf_build_last_or C K qs _ B.toMatcher [matcher.seed, A.toMatcher] rfl rfl]
  simp only [query_Evaluate_last, List.cons_append, List.nil_append, evalConjuncts_seed]
  rw [evalConjuncts_cons _ _ _ _ _ (matcher_call_leaf _ A s),
    evalConjuncts_cons _ _ _ _ _ (matcher_call_or _ _ _ _ _ _ (matcher_call_leaf _ B s)
      (matcher_call_leaf _ C s))]
  cases A.holds s <;> cases B.holds s <;> cases C.holds s <;> rfl

/-- The chain `Select().A.Or().B.Or().C`, evaluated. -/
theorem eval_or_or (w : World) (kb : Nat) (A B C : Leaf) (s : statement) :
    thenCall (thenCall (thenCall (thenCall (thenCall (thenCall (knowledgeBase.Select kb w)
      A.build) query.Or) B.build) query.Or) C.build) (fun q => query.Evaluate q s)
      = some ((A.holds s || B.holds s) || C.holds s) := by
  obtain ⟨K, qs⟩ := w
  simp only [knowledgeBase_Select_eq, thenCall, Leaf_build_last_and, query_Or_last]
  rw [Leaf_build_last_or B K qs _ A.toMatcher [matcher.seed] rfl rfl]
  simp only [query_Or_last]
  rw [Leaf_build_last_or C K qs _ (matcher.or A.toMatcher B.toMatcher) [matcher.seed] rfl rfl]
  simp only [query_Evaluate_last, List.cons_append, List.nil_append, evalConjuncts_seed]
  rw [evalConjuncts_cons _ _ _ _ _ (matcher_call_or _ _ _ _ _ _
      (matcher_call_or _ _ _ _ _ _ (matcher_call_leaf _ A s) (matcher_call_leaf _ B s))
      (matcher_call_leaf _ C s))]
  cases A.holds s <;> cases B.holds s <;> cases C.holds s <;> rfl

/-- The results of the chain `Select().A`. -/
theorem results_one (w : World) (kb : Nat) (A : Leaf) (S : List statement) :
    thenCall (thenCall (knowledgeBase.Select kb w) A.build) (fun q => query.ResultsFrom q S)
      = some (S.filter A.holds) := by
  obtain ⟨K, qs⟩ := w
  simp only [knowledgeBase_Select_eq, thenCall, Leaf_build_last_and]
  apply query_ResultsFrom_eq_filter
  intro s
  simp only [query_Evaluate_last, List.cons_append, List.nil_append, evalConjuncts_seed]
  rw [evalConjuncts_cons _ _ _ _ _ (matcher_call_leaf _ A s)]
  cases A.holds s <;> rfl

/-- The results of the chain `Select().A.B`. -/
theorem results_and (w : World) (kb : Nat) (A B : Leaf) (S : List statement) :
    thenCall (thenCall (thenCall (knowledgeBase.Select kb w) A.build) B.build)
      (fun q => query.ResultsFrom q S) = some (S.filter (fun s => A.holds s && B.holds s)) := by
  obtain ⟨K, qs⟩ := w
  simp only [knowledgeBase_Select_eq, thenCall, Leaf_build_last_and]
  apply query_ResultsFrom_eq_filter
  intro s
  simp only [query_Evaluate_last, List.cons_append, List.nil_append, evalConjuncts_seed]
  rw [evalConjuncts_cons _ _ _ _ _ (matcher_call_leaf _ A s),
    evalConjuncts_cons _ _ _ _ _ (matcher_call_leaf _ B s)]
  cases A.holds s <;> cases B.holds s <;> rfl

/-- The results of the chain `Select().A.Or().B`. -/
theorem results_or (w : World) (kb : Nat) (A B : Leaf) (S : List statement) :
    thenCall (thenCall (thenCall (thenCall (knowledgeBase.Select kb w) A.build) query.Or) B.build)
      (fun q => query.ResultsFrom q S) = some (S.filter (fun s => A.holds s || B.holds s)) := by
  obtain ⟨K, qs⟩ := w
  simp only [knowledgeBase_Select_eq, thenCall, Leaf_build_last_and, query_Or_last]
  rw [Leaf_build_last_or B K qs _ A.toMatcher [matcher.seed] rfl rfl]
  simp only
  apply query_ResultsFrom_eq_filter
  intro s
  simp only [query_Evaluate_last, List.cons_append, List.nil_append, evalConjuncts_seed]
  rw [evalConjuncts_cons _ _ _ _ _ (matcher_call_or _ _ _ _ _ _
      (matcher_call_leaf _ A s) (matcher_call_leaf _ B s))]
  cases A.holds s <;> cases B.holds s <;> rfl

/-- C7: on every statement sequence `S`, `Select().Subject(x).Object(y)` returns the statements
of `S` that are in the result of `Select().Subject(x)` and in the result of
`Select().Object(y)`, in the order of `S`. -/
theorem C7_subject_object_intersection (w : World) (kb : Nat) (S : List statement)
    (x : Option namedNode) (y : Option Node) :
    ∃ rxy rx ry : List statement,
      thenCall (thenCall (thenCall (knowledgeBase.Select kb w) (fun q => query.Subject q x))
        (fun q => query.Object q y)) (fun q => query.ResultsFrom q S) = some rxy ∧
      thenCall (thenCall (knowledgeBase.Select kb w) (fun q => query.Subject q x))
        (fun q => query.ResultsFrom q S) = some rx ∧
      thenCall (thenCall (knowledgeBase.Select kb w) (fun q => query.Object q y))
        (fun q => query.ResultsFrom q S) = some ry ∧
      rxy = S.filter (fun s => decide (s ∈ rx ∧ s ∈ ry)) := by
  refine ⟨_, _, _, results_and w kb (Leaf.Subject x) (Leaf.Object y) S,
    results_one w kb (Leaf.Subject x) S, results_one w kb (Leaf.Object y) S, ?_⟩
  apply List.filter_congr
  intro s hs
  simp [List.mem_filter, hs]

/-- C8: on every statement sequence `S`, `Select().Subject(x).Or().Object(y)` returns the
statements of `S` that are in the result of `Select().Subject(x)` or in the result of
`Select().Object(y)`, each position of `S` once and in the order of `S`. -/
theorem C8_subject_or_object_union (w : World) (kb : Nat) (S : List statement)
    (x : Option namedNode) (y : Option Node) :
    ∃ rxy rx ry : List statement,
      thenCall (thenCall (thenCall (thenCall (knowledgeBase.Select kb w)
        (fun q => query.Subject q x)) query.Or)
        (fun q => query.Object q y)) (fun q => query.ResultsFrom q S) = some rxy ∧
      thenCall (thenCall (knowledgeBase.Select kb w) (fun q => query.Subject q x))
        (fun q => query.ResultsFrom q S) = some rx ∧
      thenCall (thenCall (knowledgeBase.Select kb w) (fun q => query.Object q y))
        (fun q => query.ResultsFrom q S) = some ry ∧
      rxy = S.filter (fun s => decide (s ∈ rx ∨ s ∈ ry)) := by
  refine ⟨_, _, _, results_or w kb (Leaf.Subject x) (Leaf.Object y) S,
    results_one w kb (Leaf.Subject x) S, results_one w kb (Leaf.Object y) S, ?_⟩
  apply List.filter_congr
  intro s hs
  simp [List.mem_filter, hs]

/-- C10: for all leaves `A`, `B`, `C` and every statement, `Select().A.B.Or().C` evaluates to
`A and (B or C)`, and `Select().A.Or().B.Or().C` evaluates to `(A or B) or C`. -/
theorem C10_or_joins_adjacent_pair (w : World) (kb : Nat) (A B C : Leaf) (s : statement) :
    thenCall (thenCall (thenCall (thenCall (thenCall (knowledgeBase.Select kb w) A.build)
      B.build) query.Or) C.build) (fun q => query.Evaluate q s)
      = some (A.holds s && (B.holds s || C.holds s)) ∧
    thenCall (thenCall (thenCall (thenCall (thenCall (thenCall (knowledgeBase.Select kb w)
      A.build) query.Or) B.build) query.Or) C.build) (fun q => query.Evaluate q s)
      = some ((A.holds s || B.holds s) || C.holds s) :=
  ⟨eval_and_or w kb A B C s, eval_or_or w kb A B C s⟩

/-! ## Queries with groups -/

theorem getElem?_mid {α : Type} (pre post : List α) (a : α) :
    (pre ++ a :: post)[pre.length]? = some a := by
  rw [List.getElem?_append_right (Nat.le_refl _)]
  simp

theorem set_mid {α : Type} (pre post : List α) (a b : α) :
    (pre ++ a :: post).set pre.length b = pre ++ b :: post := by simp

theorem query_add_mid_and (K : List knowledgeBase) (l pre post : List query) (q : Nat)
    (qq : query) (m : matcher) (hl : l = pre ++ qq :: post) (hq : q = pre.length)
    (h : qq.nextOp = "and") :
    query.add q m ⟨K, l⟩ =
      some ⟨K, pre ++ ⟨qq.base, qq.parent, qq.query ++ [m], "and"⟩ :: post⟩ := by
  subst hl hq
  simp only [query.add, getElem?_mid, World.setQuery, set_mid, h]
  simp

theorem query_add_mid_or (K : List knowledgeBase) (l pre post : List query) (q : Nat)
    (qq : query) (m prev : matcher) (ms : List matcher) (hl : l = pre ++ qq :: post)
    (hq : q = pre.length) (h : qq.nextOp = "or") (hm : qq.query = ms ++ [prev]) :
    query.add q m ⟨K, l⟩ =
      some ⟨K, pre ++ ⟨qq.base, qq.parent, ms ++ [matcher.or prev m], "and"⟩ :: post⟩ := by
  subst hl hq
  simp only [query.add, getElem?_mid, World.setQuery, set_mid, h, hm]
  simp

theorem query_Or_mid (K : List knowledgeBase) (l pre post : List query) (q : Nat)
    (qq : query) (hl : l = pre ++ qq :: post) (hq : q = pre.length) :
    query.Or q ⟨K, l⟩ =
      some (⟨K, pre ++ ⟨qq.base, qq.parent, qq.query, "or"⟩ :: post⟩, q) := by
  subst hl hq
  simp only [query.Or, getElem?_mid, World.setQuery, set_mid]

theorem query_EndGroup_mid (K : List knowledgeBase) (l pre post : List query) (q p : Nat)
    (qq : query) (hl : l = pre ++ qq :: post) (hq : q = pre.length) (hp : qq.parent = some p) :
    query.EndGroup q ⟨K, l⟩ = some (⟨K, l⟩, p) := by
  subst hl hq
  simp only [query.EndGroup, getElem?_mid, hp]

theorem evaluateFuel_mid (fuel : Nat) (l pre post : List query) (q : Nat) (qq : query)
    (s : statement) (hl : l = pre ++ qq :: post) (hq : q = pre.length) :
    evaluateFuel (fuel + 1) l q s = evalConjuncts (evaluateFuel fuel l) qq.query s := by
  subst hl hq
  simp only [evaluateFuel, getElem?_mid]

theorem Leaf_build_mid_and (lf : Leaf) (K : List knowledgeBase) (l pre post : List query)
    (q : Nat) (qq : query) (hl : l = pre ++ qq :: post) (hq : q = pre.length)
    (h : qq.nextOp = "and") :
    lf.build q ⟨K, l⟩ =
      some (⟨K, pre ++ ⟨qq.base, qq.parent, qq.query ++ [lf.toMatcher], "and"⟩ :: post⟩, q) := by
  rw [Leaf_build_eq, query_add_mid_and K l pre post q qq _ hl hq h]
  rfl

theorem Leaf_build_mid_or (lf : Leaf) (K : List knowledgeBase) (l pre post : List query)
    (q : Nat) (qq : query) (prev : matcher) (ms : List matcher) (hl : l = pre ++ qq :: post)
    (hq : q = pre.length) (h : qq.nextOp = "or") (hm : qq.query = ms ++ [prev]) :
    lf.build q ⟨K, l⟩ =
      some (⟨K, pre ++ ⟨qq.base, qq.parent, ms ++ [matcher.or prev lf.toMatcher], "and"⟩ :: post⟩,
        q) := by
  rw [Leaf_build_eq, query_add_mid_or K l pre post q qq _ prev ms hl hq h hm]
  rfl

/-- The call `Group()` on the last query of the world, with the flag at `"and"`. -/
theorem query_Group_last_and (K : List knowledgeBase) (qs : List query) (qq : query)
    (h : qq.nextOp = "and") :
    query.Group qs.length ⟨K, qs ++ [qq]⟩ =
      some (⟨K, qs ++ [⟨qq.base, qq.parent, qq.query ++ [matcher.group (qs.length + 1)], "and"⟩,
        ⟨none, some qs.length, [matcher.seed], "and"⟩]⟩, qs.length + 1) := by
  simp only [query.Group, NewQueryWithParent, List.length_append, List.length_singleton]
  rw [query_add_mid_and K _ qs [⟨none, some qs.length, [matcher.seed], "and"⟩] qs.length qq _
    (by simp) rfl h]

/-- The call `Group()` on the query before the last one, with the flag at `"or"`. -/
theorem query_Group_second_or (K : List knowledgeBase) (qs : List query) (qq q2 : query)
    (prev : matcher) (ms : List matcher) (h : qq.nextOp = "or") (hm : qq.query = ms ++ [prev]) :
    query.Group qs.length ⟨K, qs ++ [qq, q2]⟩ =
      some (⟨K, qs ++ [⟨qq.base, qq.parent, ms ++ [matcher.or prev (matcher.group (qs.length + 2))],
        "and"⟩, q2, ⟨none, some qs.length, [matcher.seed], "and"⟩]⟩, qs.length + 2) := by
  simp only [query.Group, NewQueryWithParent, List.length_append, List.length_cons,
    List.length_singleton, List.length_nil]
  rw [query_add_mid_or K _ qs [q2, ⟨none, some qs.length, [matcher.seed], "and"⟩] qs.length qq _
    prev ms (by simp) rfl h hm]

theorem thenCall_some {α : Type} (w : World) (q : Nat) (f : Nat → World → Option α) :
    thenCall (some (w, q)) f = f q w := rfl

theorem matcher_call_group_some (grp : Nat → statement → Option Bool) (sq : Nat)
    (s : statement) (b : Bool) (h : grp sq s = some b) :
    matcher.call grp (matcher.group sq) s = some b := h

/-- Evaluation of a query that holds the seed and two leaves. -/
theorem evalConjuncts_two_leaves (grp : Nat → statement → Option Bool) (A B : Leaf)
    (s : statement) :
    evalConjuncts grp [matcher.seed, A.toMatcher, B.toMatcher] s
      = some (A.holds s && B.holds s) := by
  rw [evalConjuncts_seed, evalConjuncts_cons _ _ _ _ _ (matcher_call_leaf _ A s),
    evalConjuncts_cons _ _ _ _ _ (matcher_call_leaf _ B s)]
  cases A.holds s <;> cases B.holds s <;> rfl

/-- The chain `Select().Group().A.B.EndGroup().Or().C`, evaluated. -/
theorem eval_group_or_leaf (w : World) (kb : Nat) (A B C : Leaf) (s : statement) :
    thenCall (thenCall (thenCall (thenCall (thenCall (thenCall (thenCall
      (knowledgeBase.Select kb w) query.Group) A.build) B.build) query.EndGroup) query.Or)
      C.build) (fun q => query.Evaluate q s)
      = some ((A.holds s && B.holds s) || C.holds s) := by
  obtain ⟨K, qs⟩ := w
  have h2 := query_Group_last_and K qs ⟨some kb, none, [matcher.seed], "and"⟩ rfl
  have h3 := Leaf_build_mid_and A K
    (qs ++ [⟨some kb, none, [matcher.seed] ++ [matcher.group (qs.length + 1)], "and"⟩,
      ⟨none, some qs.length, [matcher.seed], "and"⟩])
    (qs ++ [⟨some kb, none, [matcher.seed] ++ [matcher.group (qs.length + 1)], "and"⟩]) []
    (qs.length + 1) ⟨none, some qs.length, [matcher.seed], "and"⟩ (by simp) (by simp) rfl
  have h4 := Leaf_build_mid_and B K
    ((qs ++ [⟨some kb, none, [matcher.seed] ++ [matcher.group (qs.length + 1)], "and"⟩]) ++
      [⟨none, some qs.length, [matcher.seed] ++ [A.toMatcher], "and"⟩])
    (qs ++ [⟨some kb, none, [matcher.seed] ++ [matcher.group (qs.length + 1)], "and"⟩]) []
    (qs.length + 1) ⟨none, some qs.length, [matcher.seed] ++ [A.toMatcher], "and"⟩
    rfl (by simp) rfl
  have h5 := query_EndGroup_mid K
    ((qs ++ [⟨some kb, none, [matcher.seed] ++ [matcher.group (qs.length + 1)], "and"⟩]) ++
      [⟨none, some qs.length, [matcher.seed] ++ [A.toMatcher] ++ [B.toMatcher], "and"⟩])
    (qs ++ [⟨some kb, none, [matcher.seed] ++ [matcher.group (qs.length + 1)], "and"⟩]) []
    (qs.length + 1) qs.length
    ⟨none, some qs.length, [matcher.seed] ++ [A.toMatcher] ++ [B.toMatcher], "and"⟩
    rfl (by simp) rfl
  have h6 := query_Or_mid K
    ((qs ++ [⟨some kb, none, [matcher.seed] ++ [matcher.group (qs.length + 1)], "and"⟩]) ++
      [⟨none, some qs.length, [matcher.seed] ++ [A.toMatcher] ++ [B.toMatcher], "and"⟩])
    qs [⟨none, some qs.length, [matcher.seed] ++ [A.toMatcher] ++ [B.toMatcher], "and"⟩]
    qs.length ⟨some kb, none, [matcher.seed] ++ [matcher.group (qs.length + 1)], "and"⟩
    (by simp) rfl
  have h7 := Leaf_build_mid_or C K
    (qs ++ ⟨some kb, none, [matcher.seed] ++ [matcher.group (qs.length + 1)], "or"⟩ ::
      [⟨none, some qs.length, [matcher.seed] ++ [A.toMatcher] ++ [B.toMatcher], "and"⟩])
    qs [⟨none, some qs.length, [matcher.seed] ++ [A.toMatcher] ++ [B.toMatcher], "and"⟩]
    qs.length ⟨some kb, none, [matcher.seed] ++ [matcher.group (qs.length + 1)], "or"⟩
    (matcher.group (qs.length + 1)) [matcher.seed] rfl rfl rfl rfl
  simp only at h6 h7
  simp only [knowledgeBase_Select_eq, thenCall_some, h2, h3, h4, h5, h6, h7]
  have e1 := evaluateFuel_mid (qs.length + 1)
    (qs ++ ⟨some kb, none, [matcher.seed] ++ [matcher.or (matcher.group (qs.length + 1))
      C.toMatcher], "and"⟩ ::
      [⟨none, some qs.length, [matcher.seed] ++ [A.toMatcher] ++ [B.toMatcher], "and"⟩])
    qs [⟨none, some qs.length, [matcher.seed] ++ [A.toMatcher] ++ [B.toMatcher], "and"⟩]
    qs.length _ s rfl rfl
  have e2 := evaluateFuel_mid qs.length
    (qs ++ ⟨some kb, none, [matcher.seed] ++ [matcher.or (matcher.group (qs.length + 1))
      C.toMatcher], "and"⟩ ::
      [⟨none, some qs.length, [matcher.seed] ++ [A.toMatcher] ++ [B.toMatcher], "and"⟩])
    (qs ++ [⟨some kb, none, [matcher.seed] ++ [matcher.or (matcher.group (qs.length + 1))
      C.toMatcher], "and"⟩]) []
    (qs.length + 1)
    ⟨none, some qs.length, [matcher.seed] ++ [A.toMatcher] ++ [B.toMatcher], "and"⟩ s
    (by simp) (by simp)
  simp only [List.cons_append, List.nil_append, evalConjuncts_two_leaves] at e2
  have e3 : query.Evaluate qs.length s
      ⟨K, qs ++ ⟨some kb, none, [matcher.seed] ++ [matcher.or (matcher.group (qs.length + 1))
      C.toMatcher], "and"⟩ ::
      [⟨none, some qs.length, [matcher.seed] ++ [A.toMatcher] ++ [B.toMatcher], "and"⟩]⟩
      = some ((A.holds s && B.holds s) || C.holds s) := by
    unfold query.Evaluate
    simp only [List.length_append, List.length_cons, List.length_singleton, List.length_nil]
    rw [e1]
    simp only [List.cons_append, List.nil_append, evalConjuncts_seed]
    rw [evalConjuncts_cons _ _ _ _ _ (matcher_call_or _ _ _ _ _ _
      (matcher_call_group_some (evaluateFuel (qs.length + 1) _) (qs.length + 1) s _ e2)
      (matcher_call_leaf _ C s))]
    cases (A.holds s && B.holds s || C.holds s) <;> rfl
  exact e3

/-- The chain `Select().Group().A.B.EndGroup().Or().Group().C.D.EndGroup()`, evaluated. -/
theorem eval_group_or_group (w : World) (kb : Nat) (A B C D : Leaf) (s : statement) :
    thenCall (thenCall (thenCall (thenCall (thenCall (thenCall (thenCall (thenCall (thenCall
      (thenCall (knowledgeBase.Select kb w) query.Group) A.build) B.build) query.EndGroup)
      query.Or) query.Group) C.build) D.build) query.EndGroup) (fun q => query.Evaluate q s)
      = some ((A.holds s && B.holds s) || (C.holds s && D.holds s)) := by
  obtain ⟨K, qs⟩ := w
  have h2 := query_Group_last_and K qs ⟨some kb, none, [matcher.seed], "and"⟩ rfl
  have h3 := Leaf_build_mid_and A K
    (qs ++ [⟨some kb, none, [matcher.seed] ++ [matcher.group (qs.length + 1)], "and"⟩,
      ⟨none, some qs.length, [matcher.seed], "and"⟩])
    (qs ++ [⟨some kb, none, [matcher.seed] ++ [matcher.group (qs.length + 1)], "and"⟩]) []
    (qs.length + 1) ⟨none, some qs.length, [matcher.seed], "and"⟩ (by simp) (by simp) rfl
  have h4 := Leaf_build_mid_and B K
    ((qs ++ [⟨some kb, none, [matcher.seed] ++ [matcher.group (qs.length + 1)], "and"⟩]) ++
      [⟨none, some qs.length, [matcher.seed] ++ [A.toMatcher], "and"⟩])
    (qs ++ [⟨some kb, none, [matcher.seed] ++ [matcher.group (qs.length + 1)], "and"⟩]) []
    (qs.length + 1) ⟨none, some qs.length, [matcher.seed] ++ [A.toMatcher], "and"⟩
    rfl (by simp) rfl
  have h5 := query_EndGroup_mid K
    ((qs ++ [⟨some kb, none, [matcher.seed] ++ [matcher.group (qs.length + 1)], "and"⟩]) ++
      [⟨none, some qs.length, [matcher.seed] ++ [A.toMatcher] ++ [B.toMatcher], "and"⟩])
    (qs ++ [⟨some kb, none, [matcher.seed] ++ [matcher.group (qs.length + 1)], "and"⟩]) []
    (qs.length + 1) qs.length
    ⟨none, some qs.length, [matcher.seed] ++ [A.toMatcher] ++ [B.toMatcher], "and"⟩
    rfl (by simp) rfl
  have h6 := query_Or_mid K
    ((qs ++ [⟨some kb, none, [matcher.seed] ++ [matcher.group (qs.length + 1)], "and"⟩]) ++
      [⟨none, some qs.length, [matcher.seed] ++ [A.toMatcher] ++ [B.toMatcher], "and"⟩])
    qs [⟨none, some qs.length, [matcher.seed] ++ [A.toMatcher] ++ [B.toMatcher], "and"⟩]
    qs.length ⟨some kb, none, [matcher.seed] ++ [matcher.group (qs.length + 1)], "and"⟩
    (by simp) rfl
  have h7 := query_Group_second_or K qs
    ⟨some kb, none, [matcher.seed] ++ [matcher.group (qs.length + 1)], "or"⟩
    ⟨none, some qs.length, [matcher.seed] ++ [A.toMatcher] ++ [B.toMatcher], "and"⟩
    (matcher.group (qs.length + 1)) [matcher.seed] rfl rfl
  have h8 := Leaf_build_mid_and C K
    (qs ++ [⟨some kb, none, [matcher.seed] ++ [matcher.or (matcher.group (qs.length + 1))
        (matcher.group (qs.length + 2))], "and"⟩,
      ⟨none, some qs.length, [matcher.seed] ++ [A.toMatcher] ++ [B.toMatcher], "and"⟩,
      ⟨none, some qs.length, [matcher.seed], "and"⟩])
    (qs ++ [⟨some kb, none, [matcher.seed] ++ [matcher.or (matcher.group (qs.length + 1))
        (matcher.group (qs.length + 2))], "and"⟩,
      ⟨none, some qs.length, [matcher.seed] ++ [A.toMatcher] ++ [B.toMatcher], "and"⟩]) []
    (qs.length + 2) ⟨none, some qs.length, [matcher.seed], "and"⟩ (by simp) (by simp) rfl
  have h9 := Leaf_build_mid_and D K
    ((qs ++ [⟨some kb, none, [matcher.seed] ++ [matcher.or (matcher.group (qs.length + 1))
        (matcher.group (qs.length + 2))], "and"⟩,
      ⟨none, some qs.length, [matcher.seed] ++ [A.toMatcher] ++ [B.toMatcher], "and"⟩]) ++
      [⟨none, some qs.length, [matcher.seed] ++ [C.toMatcher], "and"⟩])
    (qs ++ [⟨some kb, none, [matcher.seed] ++ [matcher.or (matcher.group (qs.length + 1))
        (matcher.group (qs.length + 2))], "and"⟩,
      ⟨none, some qs.length, [matcher.seed] ++ [A.toMatcher] ++ [B.toMatcher], "and"⟩]) []
    (qs.length + 2) ⟨none, some qs.length, [matcher.seed] ++ [C.toMatcher], "and"⟩
    rfl (by simp) rfl
  have h10 := query_EndGroup_mid K
    ((qs ++ [⟨some kb, none, [matcher.seed] ++ [matcher.or (matcher.group (qs.length + 1))
        (matcher.group (qs.length + 2))], "and"⟩,
      ⟨none, some qs.length, [matcher.seed] ++ [A.toMatcher] ++ [B.toMatcher], "and"⟩]) ++
      [⟨none, some qs.length, [matcher.seed] ++ [C.toMatcher] ++ [D.toMatcher], "and"⟩])
    (qs ++ [⟨some kb, none, [matcher.seed] ++ [matcher.or (matcher.group (qs.length + 1))
        (matcher.group (qs.length + 2))], "and"⟩,
      ⟨none, some qs.length, [matcher.seed] ++ [A.toMatcher] ++ [B.toMatcher], "and"⟩]) []
    (qs.length + 2) qs.length
    ⟨none, some qs.length, [matcher.seed] ++ [C.toMatcher] ++ [D.toMatcher], "and"⟩
    rfl (by simp) rfl
  simp only at h6 h7
  simp only [knowledgeBase_Select_eq, thenCall_some, h2, h3, h4, h5, h6, h7, h8, h9, h10]
  have e1 := evaluateFuel_mid (qs.length + 2)
    ((qs ++ [⟨some kb, none, [matcher.seed] ++ [matcher.or (matcher.group (qs.length + 1))
        (matcher.group (qs.length + 2))], "and"⟩,
      ⟨none, some qs.length, [matcher.seed] ++ [A.toMatcher] ++ [B.toMatcher], "and"⟩]) ++
      [⟨none, some qs.length, [matcher.seed] ++ [C.toMatcher] ++ [D.toMatcher], "and"⟩])
    qs [⟨none, some qs.length, [matcher.seed] ++ [A.toMatcher] ++ [B.toMatcher], "and"⟩,
      ⟨none, some qs.length, [matcher.seed] ++ [C.toMatcher] ++ [D.toMatcher], "and"⟩]
    qs.length ⟨some kb, none, [matcher.seed] ++ [matcher.or (matcher.group (qs.length + 1))
        (matcher.group (qs.length + 2))], "and"⟩ s (by simp) rfl
  have e2 := evaluateFuel_mid (qs.length + 1)
    ((qs ++ [⟨some kb, none, [matcher.seed] ++ [matcher.or (matcher.group (qs.length + 1))
        (matcher.group (qs.length + 2))], "and"⟩,
      ⟨none, some qs.length, [matcher.seed] ++ [A.toMatcher] ++ [B.toMatcher], "and"⟩]) ++
      [⟨none, some qs.length, [matcher.seed] ++ [C.toMatcher] ++ [D.toMatcher], "and"⟩])
    (qs ++ [⟨some kb, none, [matcher.seed] ++ [matcher.or (matcher.group (qs.length + 1))
        (matcher.group (qs.length + 2))], "and"⟩])
    [⟨none, some qs.length, [matcher.seed] ++ [C.toMatcher] ++ [D.toMatcher], "and"⟩]
    (qs.length + 1)
    ⟨none, some qs.length, [matcher.seed] ++ [A.toMatcher] ++ [B.toMatcher], "and"⟩ s
    (by simp) (by simp)
  have e3 := evaluateFuel_mid (qs.length + 1)
    ((qs ++ [⟨some kb, none, [matcher.seed] ++ [matcher.or (matcher.group (qs.length + 1))
        (matcher.group (qs.length + 2))], "and"⟩,
      ⟨none, some qs.length, [matcher.seed] ++ [A.toMatcher] ++ [B.toMatcher], "and"⟩]) ++
      [⟨none, some qs.length, [matcher.seed] ++ [C.toMatcher] ++ [D.toMatcher], "and"⟩])
    (qs ++ [⟨some kb, none, [matcher.seed] ++ [matcher.or (matcher.group (qs.length + 1))
        (matcher.group (qs.length + 2))], "and"⟩,
      ⟨none, some qs.length, [matcher.seed] ++ [A.toMatcher] ++ [B.toMatcher], "and"⟩]) []
    (qs.length + 2)
    ⟨none, some qs.length, [matcher.seed] ++ [C.toMatcher] ++ [D.toMatcher], "and"⟩ s
    rfl (by simp) 
  simp only [List.cons_append, List.nil_append, evalConjuncts_two_leaves] at e2 e3
  unfold query.Evaluate
  simp only [List.length_append, List.length_cons, List.length_singleton, List.length_nil]
  rw [e1]
  simp only [List.cons_append, List.nil_append, evalConjuncts_seed]
  rw [evalConjuncts_cons _ _ _ _ _ (matcher_call_or _ _ _ _ _ _
    (matcher_call_group_some (evaluateFuel (qs.length + 2) _) (qs.length + 1) s _ e2)
    (matcher_call_group_some (evaluateFuel (qs.length + 2) _) (qs.length + 2) s _ e3))]
  cases (A.holds s && B.holds s || C.holds s && D.holds s) <;> rfl

/-- C9: for every statement `s`, `Select().Group().Subject(x).Object(y).EndGroup().Or().Subject(z)`
evaluates to true exactly when (the subject of `s` equals `x` and its object equals `y`) or its
subject equals `z`; and for all leaves `A`, `B`, `C`, `D`,
`Select().Group().A.B.EndGroup().Or().Group().C.D.EndGroup()` evaluates to
`(A and B) or (C and D)`, the leaves being added to each group after `Group()` returned. -/
theorem C9_groups_evaluate_as_unit (w : World) (kb : Nat) (x z : Option namedNode)
    (y : Option Node) (A B C D : Leaf) (s : statement) :
    thenCall (thenCall (thenCall (thenCall (thenCall (thenCall (thenCall
      (knowledgeBase.Select kb w) query.Group) (fun q => query.Subject q x))
      (fun q => query.Object q y)) query.EndGroup) query.Or)
      (fun q => query.Subject q z)) (fun q => query.Evaluate q s)
      = some ((s.subject.Equals (asNode x) && s.object.Equals y) || s.subject.Equals (asNode z)) ∧
    thenCall (thenCall (thenCall (thenCall (thenCall (thenCall (thenCall (thenCall (thenCall
      (thenCall (knowledgeBase.Select kb w) query.Group) A.build) B.build) query.EndGroup)
      query.Or) query.Group) C.build) D.build) query.EndGroup) (fun q => query.Evaluate q s)
      = some ((A.holds s && B.holds s) || (C.holds s && D.holds s)) :=
  ⟨eval_group_or_leaf w kb (Leaf.Subject x) (Leaf.Object y) (Leaf.Subject z) s,
    eval_group_or_group w kb A B C D s⟩

theorem matcher_call_mono (g1 g2 : Nat → statement → Option Bool)
    (hg : ∀ q s b, g1 q s = some b → g2 q s = some b) (m : matcher) (s : statement) (b : Bool)
    (h : matcher.call g1 m s = some b) : matcher.call g2 m s = some b := by
  induction m generalizing b with
  | seed => exact h
  | group sq => exact hg sq s b h
  | graph node => exact h
  | subject node => exact h
  | predicate node => exact h
  | object node => exact h
  | or prev qm ih1 ih2 =>
    simp only [matcher.call] at h ⊢
    cases h1 : matcher.call g1 prev s with
    | none => simp [h1] at h
    | some b1 =>
      rw [ih1 b1 h1]
      rw [h1] at h
      cases b1 with
      | true => exact h
      | false => exact ih2 b h

theorem evalConjuncts_mono (g1 g2 : Nat → statement → Option Bool)
    (hg : ∀ q s b, g1 q s = some b → g2 q s = some b) (ms : List matcher) (s : statement)
    (b : Bool) (h : evalConjuncts g1 ms s = some b) : evalConjuncts g2 ms s = some b := by
  induction ms with
  | nil => exact h
  | cons m ms ih =>
    simp only [evalConjuncts] at h ⊢
    cases h1 : matcher.call g1 m s with
    | none => simp [h1] at h
    | some b1 =>
      rw [matcher_call_mono g1 g2 hg m s b1 h1]
      rw [h1] at h
      cases b1 with
      | true => exact ih h
      | false => exact h

/-- A result of `Evaluate` that is reached within a bound on the depth of nested calls is
reached within every larger bound. -/
theorem evaluateFuel_mono (fuel : Nat) (h : List query) (q : Nat) (s : statement) (b : Bool)
    (hres : evaluateFuel fuel h q s = some b) : evaluateFuel (fuel + 1) h q s = some b := by
  induction fuel generalizing q s b with
  | zero => simp [evaluateFuel] at hres
  | succ n ih =>
    simp only [evaluateFuel] at hres ⊢
    cases hq : h[q]? with
    | none => simp [hq] at hres
    | some q0 =>
      rw [hq] at hres
      exact evalConjuncts_mono _ _ (fun q2 s2 b2 h2 => by
        have := ih q2 s2 b2 h2
        simpa only [evaluateFuel] using this) _ s b hres

/-! ## Leaves, result lists and equality (C11 to C13) -/

/-- The chain `Select().A`, evaluated. -/
theorem eval_one (w : World) (kb : Nat) (A : Leaf) (s : statement) :
    thenCall (thenCall (knowledgeBase.Select kb w) A.build) (fun q => query.Evaluate q s)
      = some (A.holds s) := by
  obtain ⟨K, qs⟩ := w
  simp only [knowledgeBase_Select_eq, thenCall, Leaf_build_last_and]
  simp only [query_Evaluate_last, List.cons_append, List.nil_append, evalConjuncts_seed]
  rw [evalConjuncts_cons _ _ _ _ _ (matcher_call_leaf _ A s)]
  cases A.holds s <;> rfl

/-- C11: `Select().Graph(n)` evaluates on every statement; on a statement with a nil graph it
is true exactly when `n` is nil, and on a statement with graph `g` it is true exactly when `n`
is a node with the IRI of `g`. -/
theorem C11_graph_leaf_nil_graph (w : World) (kb : Nat) (n : Option namedNode) (s : statement) :
    ∃ b, thenCall (thenCall (knowledgeBase.Select kb w) (fun q => query.Graph q n))
        (fun q => query.Evaluate q s) = some b ∧
      (s.graph = none → (b = true ↔ n = none)) ∧
      (∀ g, s.graph = some g → (b = true ↔ ∃ m, n = some m ∧ m.iri = g.iri)) := by
  refine ⟨_, eval_one w kb (Leaf.Graph n) s, ?_, ?_⟩
  · intro hg
    simp [Leaf.holds, hg]
  · intro g hg
    cases n with
    | none => simp [Leaf.holds, hg, asNode, namedNode.Equals]
    | some m =>
      simp only [Leaf.holds, hg, asNode, Option.map_some', namedNode_Equals_named,
        decide_eq_true_eq]
      constructor
      · intro h
        exact ⟨m, rfl, by rw [h]⟩
      · rintro ⟨m2, hm, hi⟩
        cases Option.some.inj hm
        cases g; cases m
        simp_all

theorem resultIndexesLoop_eq_of_mem (q : Nat) (w : World) (p : statement → Bool)
    (L : List statement) (h : ∀ s ∈ L, query.Evaluate q s w = some (p s)) (idx : Nat) :
    resultIndexesLoop q w idx L = some (positionsFrom p idx L) := by
  induction L generalizing idx with
  | nil => rfl
  | cons a L ih =>
    simp only [resultIndexesLoop, h a (List.mem_cons_self _ _),
      ih (fun s hs => h s (List.mem_cons_of_mem _ hs)), positionsFrom]

theorem query_ResultsFrom_eq_filter_of_mem (q : Nat) (w : World) (p : statement → Bool)
    (L : List statement) (h : ∀ s ∈ L, query.Evaluate q s w = some (p s)) :
    query.ResultsFrom q L w = some (L.filter p) := by
  induction L with
  | nil => rfl
  | cons a L ih =>
    simp only [query.ResultsFrom, h a (List.mem_cons_self _ _),
      ih (fun s hs => h s (List.mem_cons_of_mem _ hs)), List.filter_cons]

theorem mem_positionsFrom (p : statement → Bool) (L : List statement) (idx i : Nat) :
    i ∈ positionsFrom p idx L ↔ ∃ j, ∃ h : j < L.length, i = idx + j ∧ p L[j] = true := by
  induction L generalizing idx with
  | nil => simp [positionsFrom]
  | cons a L ih =>
    have hstep : i ∈ positionsFrom p (idx + 1) L ↔
        ∃ j, ∃ h : j + 1 < (a :: L).length, i = idx + (j + 1) ∧ p (a :: L)[j + 1] = true := by
      rw [ih]
      constructor
      · rintro ⟨j, hj, hi, hp⟩
        exact ⟨j, by simpa using hj, by omega, by simpa using hp⟩
      · rintro ⟨j, hj, hi, hp⟩
        exact ⟨j, by simpa using hj, by omega, by simpa using hp⟩
    constructor
    · intro hi
      simp only [positionsFrom] at hi
      by_cases hpa : p a = true
      · rw [if_pos hpa] at hi
        rcases List.mem_cons.mp hi with h0 | h1
        · exact ⟨0, by simp, by omega, by simpa using hpa⟩
        · obtain ⟨j, hj, hij, hp⟩ := hstep.mp h1
          exact ⟨j + 1, hj, hij, hp⟩
      · rw [if_neg hpa] at hi
        obtain ⟨j, hj, hij, hp⟩ := hstep.mp hi
        exact ⟨j + 1, hj, hij, hp⟩
    · rintro ⟨j, hj, hij, hp⟩
      simp only [positionsFrom]
      cases j with
      | zero =>
        have hpa : p a = true := by simpa using hp
        rw [if_pos hpa]
        exact List.mem_cons.mpr (Or.inl (by omega))
      | succ j =>
        have := hstep.mpr ⟨j, hj, hij, hp⟩
        split
        · exact List.mem_cons_of_mem _ this
        · exact this

theorem filterMap_positionsFrom (p : statement → Bool) (L A : List statement) :
    (positionsFrom p A.length L).filterMap (fun i => (A ++ L)[i]?) = L.filter p := by
  induction L generalizing A with
  | nil => simp [positionsFrom]
  | cons a L ih =>
    have e : A ++ a :: L = (A ++ [a]) ++ L := by simp
    have ih2 := ih (A ++ [a])
    simp only [List.length_append, List.length_singleton] at ih2
    simp only [positionsFrom]
    by_cases hpa : p a = true
    · rw [if_pos hpa, List.filterMap_cons, getElem?_mid]
      simp only [List.filter_cons, hpa, if_true]
      rw [e, ih2]
    · rw [if_neg hpa]
      simp only [List.filter_cons, hpa, if_false, Bool.false_eq_true]
      rw [e, ih2]

theorem evaluateFuel_set_base (fuel : Nat) (h : List query) (q : Nat) (q0 : query)
    (b : Option Nat) (hq : h[q]? = some q0) (q2 : Nat) (s : statement) :
    evaluateFuel fuel (h.set q { q0 with base := b }) q2 s = evaluateFuel fuel h q2 s := by
  induction fuel generalizing q2 s with
  | zero => rfl
  | succ n ih =>
    have hfun : evaluateFuel n (h.set q { q0 with base := b }) = evaluateFuel n h := by
      funext q3 s3
      exact ih q3 s3
    simp only [evaluateFuel, hfun]
    by_cases hqq : q = q2
    · subst hqq
      rw [getElem?_set_self_of_some h q q0 _ hq, hq]
    · rw [List.getElem?_set_ne hqq]

theorem Evaluate_Bind (w w2 : World) (q q1 : Nat) (b : Option Nat)
    (hb : query.Bind q b w = some (w2, q1)) (q2 : Nat) (s : statement) :
    q1 = q ∧ query.Evaluate q2 s w2 = query.Evaluate q2 s w := by
  unfold query.Bind at hb
  cases hq : w.queries[q]? with
  | none => simp [hq] at hb
  | some q0 =>
    simp only [hq, Option.some.injEq, Prod.mk.injEq] at hb
    obtain ⟨hw, hq1⟩ := hb
    subst hw
    refine ⟨hq1.symm, ?_⟩
    simp only [query.Evaluate, World.setQuery, List.length_set]
    exact evaluateFuel_set_base _ _ _ _ _ hq _ _

theorem ResultsFrom_Bind (w w2 : World) (q q1 : Nat) (b : Option Nat)
    (hb : query.Bind q b w = some (w2, q1)) (q2 : Nat) (S : List statement) :
    query.ResultsFrom q2 S w2 = query.ResultsFrom q2 S w := by
  induction S with
  | nil => rfl
  | cons a S ih => simp only [query.ResultsFrom, (Evaluate_Bind w w2 q q1 b hb q2 a).2, ih]

theorem resultIndexesLoop_Bind (w w2 : World) (q q1 : Nat) (b : Option Nat)
    (hb : query.Bind q b w = some (w2, q1)) (q2 : Nat) (S : List statement) (idx : Nat) :
    resultIndexesLoop q2 w2 idx S = resultIndexesLoop q2 w idx S := by
  induction S generalizing idx with
  | nil => rfl
  | cons a S ih => simp only [resultIndexesLoop, (Evaluate_Bind w w2 q q1 b hb q2 a).2, ih]

/-- C12: when `Evaluate` returns on the statements of `S` (with value `p`), then
`ResultIndexesFrom(S)` returns the strictly increasing list of the positions `i` with
`p S[i]` true and `ResultsFrom(S)` returns the statements at those positions; `Results()` and
`ResultIndexes()` are `ResultsFrom` and `ResultIndexesFrom` on the sequence of the bound base
(the empty sequence without a base); and `Bind` changes none of `Evaluate`, `ResultsFrom` and
`ResultIndexesFrom`. -/
theorem C12_results_and_indexes (w : World) (q : Nat) (S : List statement)
    (p : statement → Bool) (hev : ∀ s ∈ S, query.Evaluate q s w = some (p s)) :
    (∃ idxs : List Nat, query.ResultIndexesFrom q S w = some idxs ∧
      idxs.Sorted (· < ·) ∧
      (∀ i, i ∈ idxs ↔ ∃ h : i < S.length, p S[i] = true) ∧
      query.ResultsFrom q S w = some (idxs.filterMap (fun i => S[i]?))) ∧
    (∀ q0 : query, w.queries[q]? = some q0 →
      (q0.base = none → query.Results q w = query.ResultsFrom q [] w ∧
        query.ResultIndexes q w = query.ResultIndexesFrom q [] w) ∧
      (∀ (b : Nat) (k : knowledgeBase), q0.base = some b → w.kbs[b]? = some k →
        query.Results q w = query.ResultsFrom q k.statements w ∧
        query.ResultIndexes q w = query.ResultIndexesFrom q k.statements w)) ∧
    (∀ (b : Option Nat) (w2 : World) (q1 : Nat), query.Bind q b w = some (w2, q1) →
      q1 = q ∧ (∀ s, query.Evaluate q s w2 = query.Evaluate q s w) ∧
      (∀ S2, query.ResultsFrom q S2 w2 = query.ResultsFrom q S2 w) ∧
      (∀ S2, query.ResultIndexesFrom q S2 w2 = query.ResultIndexesFrom q S2 w)) := by
  refine ⟨⟨positionsFrom p 0 S, resultIndexesLoop_eq_of_mem q w p S hev 0,
    positionsFrom_sorted p S 0, ?_, ?_⟩, ?_, ?_⟩
  · intro i
    rw [mem_positionsFrom]
    constructor
    · rintro ⟨j, hj, hi, hp⟩
      have hij : i = j := by omega
      subst hij
      exact ⟨hj, hp⟩
    · rintro ⟨hi, hp⟩
      exact ⟨i, hi, by omega, hp⟩
  · rw [query_ResultsFrom_eq_filter_of_mem q w p S hev]
    have := filterMap_positionsFrom p S []
    simp only [List.length_nil, List.nil_append] at this
    rw [this]
  · intro q0 hq0
    constructor
    · intro hb
      simp [query.Results, query.ResultIndexes, boundStatements, hq0, hb]
    · intro b k hb hk
      simp [query.Results, query.ResultIndexes, boundStatements, hq0, hb, hk]
  · intro b w2 q1 hb
    refine ⟨(Evaluate_Bind w w2 q q1 b hb q exStatementG).1,
      fun s => (Evaluate_Bind w w2 q q1 b hb q s).2,
      fun S2 => ResultsFrom_Bind w w2 q q1 b hb q S2,
      fun S2 => resultIndexesLoop_Bind w w2 q q1 b hb q S2 0⟩

theorem exQueryWorld_Evaluate (s : statement) :
    query.Evaluate 0 s exQueryWorld
      = some (s.subject.Equals (some (Node.named (NewNamedNode "a")))) := by
  simp only [query.Evaluate, exQueryWorld, List.length_singleton, evaluateFuel,
    List.getElem?_cons_zero, evalConjuncts, matcher.call, asNode, Option.map_some']
  cases s.subject.Equals (some (Node.named (NewNamedNode "a"))) <;> rfl

/-- Witness of C12 on the example world with a query, for the two statements of `exBase`. -/
theorem C12_results_and_indexes_witness :
    (∃ idxs : List Nat,
      query.ResultIndexesFrom 0 [exStatementG, exStatementD] exQueryWorld = some idxs ∧
      idxs.Sorted (· < ·) ∧
      (∀ i, i ∈ idxs ↔ ∃ h : i < [exStatementG, exStatementD].length,
        ([exStatementG, exStatementD][i]).subject.Equals
          (some (Node.named (NewNamedNode "a"))) = true) ∧
      query.ResultsFrom 0 [exStatementG, exStatementD] exQueryWorld
        = some (idxs.filterMap (fun i => [exStatementG, exStatementD][i]?))) ∧
    (∀ q0 : query, exQueryWorld.queries[0]? = some q0 →
      (q0.base = none → query.Results 0 exQueryWorld = query.ResultsFrom 0 [] exQueryWorld ∧
        query.ResultIndexes 0 exQueryWorld = query.ResultIndexesFrom 0 [] exQueryWorld) ∧
      (∀ (b : Nat) (k : knowledgeBase), q0.base = some b → exQueryWorld.kbs[b]? = some k →
        query.Results 0 exQueryWorld = query.ResultsFrom 0 k.statements exQueryWorld ∧
        query.ResultIndexes 0 exQueryWorld
          = query.ResultIndexesFrom 0 k.statements exQueryWorld)) ∧
    (∀ (b : Option Nat) (w2 : World) (q1 : Nat), query.Bind 0 b exQueryWorld = some (w2, q1) →
      q1 = 0 ∧ (∀ s, query.Evaluate 0 s w2 = query.Evaluate 0 s exQueryWorld) ∧
      (∀ S2, query.ResultsFrom 0 S2 w2 = query.ResultsFrom 0 S2 exQueryWorld) ∧
      (∀ S2, query.ResultIndexesFrom 0 S2 w2 = query.ResultIndexesFrom 0 S2 exQueryWorld)) :=
  C12_results_and_indexes exQueryWorld 0 [exStatementG, exStatementD]
    (fun s => s.subject.Equals (some (Node.named (NewNamedNode "a"))))
    (fun s _ => exQueryWorld_Evaluate s)

theorem Node_Equals_textValued (a : Node) (h : a.textValued = true) :
    a.Equals (some a) = true := by
  cases a with
  | named x => simp [Node.Equals, namedNode.Equals]
  | localized x => simp [Node.Equals, localizedLiteral.Equals]
  | typed x =>
    simp only [Node.Equals, typedLiteral.Equals, namedNode.Equals, beq_self_eq_true,
      Bool.true_and]
    exact Value_equal_text x.value h

/-- C13: `Equals` is reflexive and symmetric on named nodes, localized literals, typed literals
with a text value, nodes with a text value and statements whose object has a text value (with
or without a graph); it is symmetric also on the typed literals, nodes and statements with
another value. -/
theorem C13_equals_reflexive_symmetric :
    (∀ a : namedNode, a.Equals (some (Node.named a)) = true) ∧
    (∀ a b : namedNode, a.Equals (some (Node.named b)) = b.Equals (some (Node.named a))) ∧
    (∀ a : localizedLiteral, a.Equals (some (Node.localized a)) = true) ∧
    (∀ a b : localizedLiteral,
      a.Equals (some (Node.localized b)) = b.Equals (some (Node.localized a))) ∧
    (∀ a : typedLiteral, a.value.isText = true → a.Equals (some (Node.typed a)) = true) ∧
    (∀ a b : typedLiteral, a.Equals (some (Node.typed b)) = b.Equals (some (Node.typed a))) ∧
    (∀ a : Node, a.textValued = true → a.Equals (some a) = true) ∧
    (∀ a b : Node, a.Equals (some b) = b.Equals (some a)) ∧
    (∀ s : statement, s.object.textValued = true → s.Equals (some s) = true) ∧
    (∀ s t : statement, s.Equals (some t) = t.Equals (some s)) := by
  refine ⟨fun a => Node_Equals_textValued (Node.named a) rfl,
    fun a b => Node_Equals_comm (Node.named a) (Node.named b),
    fun a => Node_Equals_textValued (Node.localized a) rfl,
    fun a b => Node_Equals_comm (Node.localized a) (Node.localized b),
    fun a h => Node_Equals_textValued (Node.typed a) h,
    fun a b => Node_Equals_comm (Node.typed a) (Node.typed b),
    Node_Equals_textValued, Node_Equals_comm, ?_, statement_Equals_comm⟩
  intro s h
  rw [statement_Equals_self]
  exact Node_Equals_textValued s.object h

/-- Witness of C13: the typed literal `"5"^^t` with a text value, and the statement
`a - b - c`. -/
theorem C13_equals_reflexive_symmetric_witness :
    ((NewTypedLiteral (Value.text "5") (NewNamedNode "t")).value.isText = true ∧
      (NewTypedLiteral (Value.text "5") (NewNamedNode "t")).Equals
        (some (Node.typed (NewTypedLiteral (Value.text "5") (NewNamedNode "t")))) = true) ∧
    (exStatementG.object.textValued = true ∧ exStatementG.Equals (some exStatementG) = true) :=
  ⟨⟨rfl, C13_equals_reflexive_symmetric.2.2.2.2.1 _ rfl⟩,
    ⟨rfl, C13_equals_reflexive_symmetric.2.2.2.2.2.2.2.2.1 _ rfl⟩⟩

/-! ## The order of strings and `sort.Strings` -/

theorem Char_toNat_lt_iff (a b : Char) : a.toNat < b.toNat ↔ a < b := by
  rw [Char.lt_def]
  exact Iff.rfl

theorem Char_eq_of_toNat (a b : Char) (h1 : ¬ a.toNat < b.toNat) (h2 : ¬ b.toNat < a.toNat) :
    a = b := by
  have h : a.toNat = b.toNat := by omega
  apply Char.ext
  apply UInt32.toNat.inj
  exact h

theorem ltChars_iff (l1 l2 : List Char) : ltChars l1 l2 = true ↔ l1 < l2 := by
  induction l1 generalizing l2 with
  | nil =>
    cases l2 with
    | nil =>
      simp only [ltChars, Bool.false_eq_true, false_iff]
      intro h
      cases h
    | cons b bs =>
      simp only [ltChars, true_iff]
      exact List.Lex.nil
  | cons a as ih =>
    cases l2 with
    | nil =>
      simp only [ltChars, Bool.false_eq_true, false_iff]
      intro h
      cases h
    | cons b bs =>
      simp only [ltChars]
      by_cases h1 : a.toNat < b.toNat
      · simp only [h1, if_true, true_iff]
        exact List.Lex.rel ((Char_toNat_lt_iff a b).mp h1)
      · by_cases h2 : b.toNat < a.toNat
        · simp only [h1, h2, if_false, if_true, Bool.false_eq_true, false_iff]
          intro h
          cases h with
          | rel hab => exact h1 ((Char_toNat_lt_iff a b).mpr hab)
          | cons _ => exact h1 (absurd h2 (by omega))
        · simp only [h1, h2, if_false]
          rw [ih bs]
          have hab : a = b := Char_eq_of_toNat a b h1 h2
          subst hab
          constructor
          · intro h
            exact List.Lex.cons h
          · intro h
            cases h with
            | rel hab => exact absurd ((Char_toNat_lt_iff a a).mpr hab) h1
            | cons h3 => exact h3

theorem stringLess_iff (a b : String) : stringLess a b = true ↔ a < b := by
  unfold stringLess
  rw [ltChars_iff, String.lt_iff_toList_lt]
  exact Iff.rfl

theorem stringLess_false_iff (a b : String) : stringLess b a = false ↔ a ≤ b := by
  rw [← not_lt, ← stringLess_iff]
  simp

theorem sort_Strings_perm (l : List String) : (sort.Strings l).Perm l :=
  List.perm_insertionSort _ l

theorem sort_Strings_sorted (l : List String) : (sort.Strings l).Sorted (· ≤ ·) := by
  haveI : IsTotal String (fun a b => stringLess b a = false) :=
    ⟨fun a b => by
      rw [stringLess_false_iff, stringLess_false_iff]
      exact le_total a b⟩
  haveI : IsTrans String (fun a b => stringLess b a = false) :=
    ⟨fun a b c hab hbc => by
      rw [stringLess_false_iff] at hab hbc ⊢
      exact le_trans hab hbc⟩
  have h := List.sorted_insertionSort (fun a b => stringLess b a = false) l
  exact h.imp (fun hab => (stringLess_false_iff _ _).mp hab)

theorem sort_Strings_strict (l : List String) (hnd : l.Nodup) :
    (sort.Strings l).Sorted (· < ·) := by
  have hs := sort_Strings_sorted l
  have hnd2 : (sort.Strings l).Nodup := (sort_Strings_perm l).nodup_iff.mpr hnd
  exact (List.Sorted.lt_of_le hs hnd2)

theorem mem_sort_Strings (l : List String) (x : String) : x ∈ sort.Strings l ↔ x ∈ l :=
  (sort_Strings_perm l).mem_iff

/-- The result of `sort.Strings` does not depend on the order of the input. -/
theorem sort_Strings_of_perm (l1 l2 : List String) (h : l1.Perm l2) :
    sort.Strings l1 = sort.Strings l2 :=
  List.eq_of_perm_of_sorted
    (((sort_Strings_perm l1).trans h).trans (sort_Strings_perm l2).symm)
    (sort_Strings_sorted l1) (sort_Strings_sorted l2)

/-! ## Marshaling a node (C19, C20) -/

theorem hasPrefixChars_iff (s p : List Char) : hasPrefixChars s p = true ↔ ∃ t, s = p ++ t := by
  induction s generalizing p with
  | nil =>
    cases p with
    | nil => simp [hasPrefixChars]
    | cons c cs => simp [hasPrefixChars]
  | cons a as ih =>
    cases p with
    | nil => simp [hasPrefixChars]
    | cons c cs =>
      simp only [hasPrefixChars, Bool.and_eq_true, beq_iff_eq, ih, List.cons_append,
        List.cons.injEq]
      constructor
      · rintro ⟨h1, t, h2⟩
        exact ⟨t, h1, h2⟩
      · rintro ⟨t, h1, h2⟩
        exact ⟨h1, t, h2⟩

/-- The first occurrence of `old` in `s`, when there is one, and the text that
`strings.Replace(s, old, new, 1)` returns. -/
theorem replaceFirstChars_spec (s old new : List Char) (h : containsChars s old = true) :
    ∃ pre post, s = pre ++ old ++ post ∧ replaceFirstChars s old new = pre ++ new ++ post ∧
      ∀ pre2 post2, s = pre2 ++ old ++ post2 → pre.length ≤ pre2.length := by
  induction s with
  | nil =>
    simp only [containsChars] at h
    obtain ⟨t, ht⟩ := (hasPrefixChars_iff [] old).mp h
    have hold : old = [] := by
      cases old with
      | nil => rfl
      | cons c cs => simp at ht
    subst hold
    exact ⟨[], [], by simp, by simp [replaceFirstChars, hasPrefixChars], by simp⟩
  | cons c cs ih =>
    simp only [containsChars, Bool.or_eq_true] at h
    by_cases hp : hasPrefixChars (c :: cs) old = true
    · obtain ⟨t, ht⟩ := (hasPrefixChars_iff _ old).mp hp
      refine ⟨[], t, by simpa using ht, ?_, by simp⟩
      simp only [replaceFirstChars, hp, if_true, List.nil_append]
      rw [ht, List.drop_left']
      rfl
    · have hc : containsChars cs old = true := by
        rcases h with h | h
        · exact absurd h hp
        · exact h
      obtain ⟨pre, post, h1, h2, h3⟩ := ih hc
      refine ⟨c :: pre, post, by simp [h1], ?_, ?_⟩
      · simp only [replaceFirstChars, hp, if_false, Bool.false_eq_true, h2, List.cons_append]
      · intro pre2 post2 he
        cases pre2 with
        | nil =>
          exfalso
          apply hp
          rw [hasPrefixChars_iff]
          exact ⟨post2, by simpa using he⟩
        | cons d pre2 =>
          simp only [List.cons_append, List.cons.injEq] at he
          have := h3 pre2 post2 he.2
          simp only [List.length_cons]
          omega

theorem bracket_ne_rdf_type (iri : String) : ("<" ++ iri ++ ">" == "rdf:type") = false := by
  rw [beq_eq_false_iff_ne]
  intro h
  have h2 := congrArg String.data h
  simp only [String.data_append] at h2
  simp only [List.singleton_append, List.cons_append, List.cons.injEq] at h2
  exact absurd h2.1 (by decide)

theorem substituteLoop_none (iri : String) (ns : Namespace) (keys : List String)
    (h : ∀ k ∈ keys, strings.Contains iri (ns.MustGet k ++ "#") = false) :
    substituteLoop iri ns keys = none := by
  induction keys with
  | nil => rfl
  | cons k rest ih =>
    simp only [substituteLoop, h k (List.mem_cons_self _ _), Bool.false_eq_true, if_false]
    exact ih (fun k2 hk2 => h k2 (List.mem_cons_of_mem _ hk2))

theorem substituteLoop_unique (iri : String) (ns : Namespace) (keys : List String) (k : String)
    (hk : k ∈ keys) (hc : strings.Contains iri (ns.MustGet k ++ "#") = true)
    (h : ∀ k2 ∈ keys, k2 ≠ k → strings.Contains iri (ns.MustGet k2 ++ "#") = false) :
    substituteLoop iri ns keys
      = some (strings.Replace1 iri (ns.MustGet k ++ "#") (k ++ ":")) := by
  induction keys with
  | nil => simp at hk
  | cons k1 rest ih =>
    by_cases hk1 : k1 = k
    · subst hk1
      simp only [substituteLoop, hc, if_true]
    · have hno := h k1 (List.mem_cons_self _ _) hk1
      simp only [substituteLoop, hno, Bool.false_eq_true, if_false]
      apply ih
      · rcases List.mem_cons.mp hk with h1 | h1
        · exact absurd h1.symm hk1
        · exact h1
      · exact fun k2 hk2 => h k2 (List.mem_cons_of_mem _ hk2)

/-- C19: `marshalNode` of a named node returns the IRI in angle brackets when `substitute` is
off or no key of the namespace has its stem followed by `#` in the IRI; when `substitute` is
on and exactly one key `k` has, it returns the IRI with the first occurrence of the stem and
`#` replaced by `k:`, without brackets, and `a` in place of the result `rdf:type`. -/
theorem C19_marshal_named_node (p : TurtleParser) (ord : MapOrder) (iri : String)
    (substitute : Bool) (ns : Namespace) :
    ((substitute = false ∨
        ∀ k ∈ ns.ListKeys ord, strings.Contains iri (ns.MustGet k ++ "#") = false) →
      p.marshalNode ord (Node.named (NewNamedNode iri)) substitute (some ns)
        = Except.ok ("<" ++ iri ++ ">")) ∧
    (∀ k, substitute = true → k ∈ ns.ListKeys ord →
      strings.Contains iri (ns.MustGet k ++ "#") = true →
      (∀ k2 ∈ ns.ListKeys ord, k2 ≠ k →
        strings.Contains iri (ns.MustGet k2 ++ "#") = false) →
      ∃ pre post : List Char,
        iri.data = pre ++ (ns.MustGet k ++ "#").data ++ post ∧
        (∀ pre2 post2, iri.data = pre2 ++ (ns.MustGet k ++ "#").data ++ post2 →
          pre.length ≤ pre2.length) ∧
        p.marshalNode ord (Node.named (NewNamedNode iri)) substitute (some ns)
          = Except.ok (if String.mk (pre ++ (k ++ ":").data ++ post) = "rdf:type" then "a"
              else String.mk (pre ++ (k ++ ":").data ++ post))) := by
  constructor
  · intro h
    have hsub : (if substitute = true then substituteLoop iri ns (ns.ListKeys ord) else none)
        = none := by
      rcases h with h | h
      · simp [h]
      · simp [substituteLoop_none iri ns _ h]
    simp only [TurtleParser.marshalNode, TurtleParser.marshalIri, NewNamedNode, hsub,
      bracket_ne_rdf_type, Bool.false_eq_true, if_false]
  · intro k hs hk hc hothers
    obtain ⟨pre, post, h1, h2, h3⟩ := replaceFirstChars_spec iri.data
      (ns.MustGet k ++ "#").data (k ++ ":").data hc
    refine ⟨pre, post, h1, h3, ?_⟩
    have hsub := substituteLoop_unique iri ns (ns.ListKeys ord) k hk hc hothers
    simp only [TurtleParser.marshalNode, TurtleParser.marshalIri, NewNamedNode, hs, if_true,
      hsub, strings.Replace1, h2, beq_iff_eq]

/-- Witness of C19: `http://www.w3.org/2001/XMLSchema#string` under the default namespace,
where `xsd` is the one key whose stem and `#` occur in the IRI. -/
theorem C19_marshal_named_node_witness :
    ∃ pre post : List Char,
      ("http://www.w3.org/2001/XMLSchema#string" : String).data
        = pre ++ (NewNamespace.MustGet "xsd" ++ "#").data ++ post ∧
      (∀ pre2 post2, ("http://www.w3.org/2001/XMLSchema#string" : String).data
          = pre2 ++ (NewNamespace.MustGet "xsd" ++ "#").data ++ post2 →
        pre.length ≤ pre2.length) ∧
      (NewTurtleParser none).marshalNode MapOrder.stored
          (Node.named (NewNamedNode "http://www.w3.org/2001/XMLSchema#string")) true
          (some NewNamespace)
        = Except.ok (if String.mk (pre ++ ("xsd" ++ ":").data ++ post) = "rdf:type" then "a"
            else String.mk (pre ++ ("xsd" ++ ":").data ++ post)) :=
  (C19_marshal_named_node (NewTurtleParser none) MapOrder.stored
    "http://www.w3.org/2001/XMLSchema#string" true NewNamespace).2 "xsd" rfl
    (by decide!) (by decide!) (by decide!)

/-- C20, the code at the failing input: a quote at the start of the value and a quote right
after another quote get no backslash. -/
theorem C20_marshalString_unescaped_quotes :
    (NewTurtleParser none).marshalString "\"a" = "\"\"a\"" ∧
    (NewTurtleParser none).marshalString "a\"\"b" = "\"a\\\"\"b\"" := by
  decide!

/-- C17, the code at the failing input: the first graph has the empty IRI and the second the
IRI `x`, and `Marshal` writes the directive `@base <x> .`. -/
theorem C17_base_after_empty_graph_iri :
    (NewTurtleParser none).Marshal MapOrder.stored [exStatementEmptyGraph, exStatementX]
      = Except.ok "@base <x> .\n<s> <p> <o> , <o2> .\n" := by
  decide!

/-- C18, the code at the failing input: the IRI `http://t#s` contains the stem and `#` of the
keys `t` and of the empty key of the base, and the text of `Marshal` depends on the order in
which the range over the map of the namespace visits the keys. -/
theorem C18_marshal_depends_on_key_order :
    exSubstituteParser.Marshal MapOrder.stored [exStatementT]
      ≠ exSubstituteParser.Marshal MapOrder.reversed [exStatementT] := by
  decide!

/-! ## The directives that `Marshal` writes (C16 to C18) -/

theorem marshalNode_ok (p : TurtleParser) (ord : MapOrder) (n : Node) (substitute : Bool)
    (ns : Option Namespace) : ∃ s, p.marshalNode ord n substitute ns = Except.ok s := by
  cases n <;> exact ⟨_, rfl⟩

theorem marshalObjects_append (p : TurtleParser) (ord : MapOrder) (ns : Namespace)
    (objs : List Node) (idx : Nat) :
    ∃ tail, ∀ ttl, marshalObjects p ord ns idx objs ttl = ttl ++ tail := by
  induction objs generalizing idx with
  | nil => exact ⟨"", fun ttl => by simp [marshalObjects]⟩
  | cons o rest ih =>
    obtain ⟨tail, h⟩ := ih (idx + 1)
    refine ⟨(if idx > 0 then ", " else "") ++ (if p.options.PrettyPrint then "\n        " else "")
      ++ (match p.marshalNode ord o p.options.Substitute (some ns) with
        | Except.ok s => s
        | Except.error _ => "") ++ " " ++ tail, fun ttl => ?_⟩
    simp only [marshalObjects, h]
    split <;> split <;> simp [String.append_assoc]

theorem marshalPredicates_append (p : TurtleParser) (ord : MapOrder) (ns : Namespace)
    (inner : List (String × List Node)) (preds : List String) (pIdx : Nat) :
    ∃ tail, ∀ ttl, marshalPredicates p ord ns inner pIdx preds ttl = ttl ++ tail := by
  induction preds generalizing pIdx with
  | nil => exact ⟨"", fun ttl => by simp [marshalPredicates]⟩
  | cons pr rest ih =>
    obtain ⟨tail, h⟩ := ih (pIdx + 1)
    obtain ⟨otail, ho⟩ := marshalObjects_append p ord ns (sortObjects (mapGet pr inner)) 0
    refine ⟨(if pIdx > 0 then "; " else "") ++ (if p.options.PrettyPrint then "\n    " else "")
      ++ (match p.marshalNode ord (Node.named (NewNamedNode pr)) p.options.Substitute
          (some ns) with
        | Except.ok s => s
        | Except.error _ => "") ++ " " ++ otail ++ tail, fun ttl => ?_⟩
    simp only [marshalPredicates, h, ho]
    split <;> split <;> simp [String.append_assoc]

theorem marshalSubjects_append (p : TurtleParser) (ord : MapOrder) (ns : Namespace)
    (grouped : List (String × List (String × List Node))) (subs : List String) :
    ∃ tail, ∀ ttl, marshalSubjects p ord ns grouped subs ttl = Except.ok (ttl ++ tail) := by
  induction subs with
  | nil => exact ⟨"", fun ttl => by simp [marshalSubjects]⟩
  | cons s rest ih =>
    obtain ⟨tail, h⟩ := ih
    obtain ⟨ms, hms⟩ := marshalNode_ok p ord (Node.named (NewNamedNode s)) p.options.Substitute
      (some ns)
    obtain ⟨ptail, hp⟩ := marshalPredicates_append p ord ns (mapGet s grouped)
      (sort.Strings (ord.visit ((mapGet s grouped).map (fun e => e.1)))) 0
    refine ⟨(if p.options.PrettyPrint then "\n# " ++ s ++ "\n" else "") ++ ms ++ " " ++ ptail
      ++ ".\n" ++ tail, fun ttl => ?_⟩
    simp only [marshalSubjects, hms, h, hp]
    split <;> simp [String.append_assoc]

theorem prefixLines_append (p : TurtleParser) (ord : MapOrder) (ns : Namespace)
    (keys : List String) : ∃ tail, ∀ ttl, prefixLines p ord ns keys ttl = ttl ++ tail := by
  induction keys with
  | nil => exact ⟨"", fun ttl => by simp [prefixLines]⟩
  | cons k rest ih =>
    obtain ⟨tail, h⟩ := ih
    refine ⟨"@prefix " ++ k ++ ": " ++ p.marshalIri ord (ns.MustGet k ++ "#") false none
      ++ " .\n" ++ tail, fun ttl => ?_⟩
    simp only [prefixLines, h, String.append_assoc]

theorem scanGraphs_same (g : String) (stmts : List statement)
    (hall : ∀ st ∈ stmts, ∀ x, st.graph = some x → x.iri = g) (b : String) (u : Bool)
    (hb : b = "" ∨ b = g) :
    scanGraphs stmts (b, u) = (if stmts.any (fun st => st.graph.isSome) then g else b, u) := by
  induction stmts generalizing b with
  | nil => rfl
  | cons st rest ih =>
    have hrest : ∀ st ∈ rest, ∀ x, st.graph = some x → x.iri = g :=
      fun st2 h2 => hall st2 (List.mem_cons_of_mem _ h2)
    cases hgr : st.graph with
    | none =>
      simp only [scanGraphs, hgr, List.any_cons, Option.isSome_none, Bool.false_or]
      exact ih hrest b hb
    | some x =>
      have hx : x.iri = g := hall st (List.mem_cons_self _ _) x hgr
      have hu : (if (b != "" && b != x.iri) = true then false else u) = u := by
        rcases hb with hb | hb
        · simp [hb]
        · simp [hb, hx]
      simp only [scanGraphs, hgr, hu, List.any_cons, Option.isSome_some, Bool.true_or, if_true]
      rw [hx, ih hrest g (Or.inr rfl)]
      split <;> rfl

theorem marshalIri_plain (p : TurtleParser) (ord : MapOrder) (iri : String)
    (ns : Option Namespace) : p.marshalIri ord iri false ns = "<" ++ iri ++ ">" := by
  simp [TurtleParser.marshalIri, bracket_ne_rdf_type]

theorem mapSet_find (key value : String) (m : List (String × String)) :
    ((mapSet key value m).find? (fun e => e.1 == key)).map (fun e => e.2) = some value := by
  induction m with
  | nil => simp [mapSet]
  | cons e rest ih =>
    obtain ⟨k, v⟩ := e
    by_cases hk : k = key
    · simp [mapSet, hk]
    · have hk2 : (k == key) = false := by simpa using hk
      simp only [mapSet, hk2, Bool.false_eq_true, if_false, List.find?_cons]
      exact ih

theorem mapSet_keys_mem (key value : String) (m : List (String × String)) :
    key ∈ (mapSet key value m).map (fun e => e.1) := by
  induction m with
  | nil => simp [mapSet]
  | cons e rest ih =>
    obtain ⟨k, v⟩ := e
    by_cases hk : k = key
    · simp [mapSet, hk]
    · have hk2 : (k == key) = false := by simpa using hk
      simp only [mapSet, hk2, Bool.false_eq_true, if_false, List.map_cons, List.mem_cons]
      exact Or.inr ih

theorem empty_string_le (s : String) : "" ≤ s := by
  rw [← not_lt, String.lt_iff_toList_lt, String.toList_empty]
  intro h
  generalize s.toList = l at h
  cases h

theorem sorted_head_empty (l : List String) (hs : l.Sorted (· ≤ ·)) (hm : "" ∈ l) :
    ∃ rest, l = "" :: rest := by
  cases l with
  | nil => simp at hm
  | cons x rest =>
    refine ⟨rest, ?_⟩
    have hx : x ≤ "" := by
      rcases List.mem_cons.mp hm with h | h
      · exact le_of_eq h.symm
      · exact List.rel_of_sorted_cons hs "" h
    rw [le_antisymm hx (empty_string_le x)]

/-- C16: when at least one statement has a graph and all the graphs have the same IRI `g`,
which is not empty, the text of `Marshal` starts with the line `@base <g> .`; with
`Substitute` the next line is `@prefix : <g#> .`. -/
theorem C16_base_directive (p : TurtleParser) (ord : MapOrder) (stmts : List statement)
    (g : String) (hsome : ∃ st ∈ stmts, st.graph ≠ none)
    (hall : ∀ st ∈ stmts, ∀ x, st.graph = some x → x.iri = g) (hg : g ≠ "") :
    ∃ rest, p.Marshal ord stmts = Except.ok ("@base <" ++ g ++ "> .\n" ++ rest) ∧
      (p.options.Substitute = true → ∃ rest2, rest = "@prefix : <" ++ g ++ "#> .\n" ++ rest2) := by
  have hany : stmts.any (fun st => st.graph.isSome) = true := by
    obtain ⟨st, hst, hgr⟩ := hsome
    rw [List.any_eq_true]
    exact ⟨st, hst, by
      cases h : st.graph with
      | none => exact absurd h hgr
      | some x => rfl⟩
  have hscan : scanGraphs stmts ("", true) = (g, true) := by
    rw [scanGraphs_same g stmts hall "" true (Or.inl rfl), hany]
    rfl
  have hcond : (true && g != "") = true := by simpa using hg
  obtain ⟨stail, hs⟩ := marshalSubjects_append p ord
    ((TurtleParserDefaultNamespace.Include ord p.optionsNamespace).Set "" g)
    (groupStatements stmts [])
    (sort.Strings (ord.visit ((groupStatements stmts []).map (fun e => e.1))))
  have hbase : "@base " ++ p.marshalIri ord g false none ++ " .\n" = "@base <" ++ g ++ "> .\n" := by
    rw [marshalIri_plain]
    apply String.ext
    simp only [String.data_append, List.append_assoc]
    rfl
  cases hsub : p.options.Substitute with
  | false =>
    refine ⟨stail, ?_, fun h => by simp at h⟩
    simp only [TurtleParser.Marshal, hscan, hcond, if_true, hsub, Bool.false_eq_true, if_false,
      hs, hbase]
  | true =>
    obtain ⟨rest, hrest⟩ := sorted_head_empty
      (sort.Strings (((TurtleParserDefaultNamespace.Include ord p.optionsNamespace).Set "" g).ListKeys
        ord)) (sort_Strings_sorted _)
      ((mem_sort_Strings _ _).mpr ((ord.perm _).mem_iff.mpr (mapSet_keys_mem "" g _)))
    obtain ⟨ptail, hp⟩ := prefixLines_append p ord
      ((TurtleParserDefaultNamespace.Include ord p.optionsNamespace).Set "" g) rest
    have hget : ((TurtleParserDefaultNamespace.Include ord p.optionsNamespace).Set "" g).MustGet ""
        = g := by
      simp only [Namespace.MustGet, Namespace.Get, Namespace.Set, mapSet_find, Option.getD_some]
    refine ⟨"@prefix : <" ++ g ++ "#> .\n" ++ ptail ++ stail, ?_, fun _ => ⟨ptail ++ stail, by
      simp only [String.append_assoc]⟩⟩
    simp only [TurtleParser.Marshal, hscan, hcond, if_true, hsub, hs, hbase, hrest,
      prefixLines, hget, hp, marshalIri_plain]
    congr 1
    apply String.ext
    simp only [String.data_append, List.append_assoc]
    rfl

/-- Witness of C16: the statement `a - b - c` in graph `g` with the default options. -/
theorem C16_base_directive_witness :
    ((∃ st ∈ [exStatementG], st.graph ≠ none) ∧
      (∀ st ∈ [exStatementG], ∀ x, st.graph = some x → x.iri = "g") ∧ ("g" : String) ≠ "") ∧
    ∃ rest, (NewTurtleParser none).Marshal MapOrder.stored [exStatementG]
        = Except.ok ("@base <" ++ "g" ++ "> .\n" ++ rest) ∧
      ((NewTurtleParser none).options.Substitute = true →
        ∃ rest2, rest = "@prefix : <" ++ "g" ++ "#> .\n" ++ rest2) :=
  ⟨⟨⟨exStatementG, by simp, by decide⟩, by
      intro st hst x hx
      simp only [List.mem_singleton] at hst
      subst hst
      cases hx
      rfl, by decide⟩,
    C16_base_directive (NewTurtleParser none) MapOrder.stored [exStatementG] "g"
      ⟨exStatementG, by simp, by decide⟩
      (by
        intro st hst x hx
        simp only [List.mem_singleton] at hst
        subst hst
        cases hx
        rfl)
      (by decide)⟩

/-! ## The map `grouped` of `Marshal` -/

theorem mapGet_mapPut_same {β : Type} (k : String) (v : List β) (m : List (String × List β)) :
    mapGet k (mapPut k v m) = v := by
  induction m with
  | nil => simp [mapPut, mapGet]
  | cons e rest ih =>
    obtain ⟨k1, v1⟩ := e
    by_cases h : k1 = k
    · simp [mapPut, mapGet, h]
    · have h2 : (k1 == k) = false := by simpa using h
      simp only [mapPut, h2, Bool.false_eq_true, if_false, mapGet]
      exact ih

theorem mapGet_mapPut_ne {β : Type} (k k2 : String) (v : List β) (m : List (String × List β))
    (hne : k2 ≠ k) : mapGet k2 (mapPut k v m) = mapGet k2 m := by
  induction m with
  | nil =>
    have h2 : (k == k2) = false := by simpa using fun h => hne h.symm
    simp [mapPut, mapGet, h2]
  | cons e rest ih =>
    obtain ⟨k1, v1⟩ := e
    by_cases h : k1 = k
    · have h3 : (k == k2) = false := by simpa using fun h => hne h.symm
      simp [mapPut, mapGet, h, h3]
    · have h2 : (k1 == k) = false := by simpa using h
      simp only [mapPut, h2, Bool.false_eq_true, if_false, mapGet, ih]

theorem keys_mapPut {β : Type} (k : String) (v : β) (m : List (String × β)) :
    (mapPut k v m).map (fun e => e.1)
      = if k ∈ m.map (fun e => e.1) then m.map (fun e => e.1)
        else m.map (fun e => e.1) ++ [k] := by
  induction m with
  | nil => simp [mapPut]
  | cons e rest ih =>
    obtain ⟨k1, v1⟩ := e
    by_cases h : k1 = k
    · simp [mapPut, h]
    · have h2 : (k1 == k) = false := by simpa using h
      have h3 : ¬ k = k1 := fun h4 => h h4.symm
      simp only [mapPut, h2, Bool.false_eq_true, if_false, List.map_cons, ih, List.mem_cons, h3,
        false_or]
      split <;> simp

theorem keys_mapPut_nodup {β : Type} (k : String) (v : β) (m : List (String × β))
    (h : (m.map (fun e => e.1)).Nodup) : ((mapPut k v m).map (fun e => e.1)).Nodup := by
  rw [keys_mapPut]
  split
  · exact h
  · rename_i hk
    exact List.Nodup.append h (List.nodup_singleton _) (by simpa using hk)

theorem mem_keys_mapPut {β : Type} (k k2 : String) (v : β) (m : List (String × β)) :
    k2 ∈ (mapPut k v m).map (fun e => e.1) ↔ k2 = k ∨ k2 ∈ m.map (fun e => e.1) := by
  rw [keys_mapPut]
  split
  · rename_i hk
    constructor
    · exact Or.inr
    · rintro (h | h)
      · rw [h]; exact hk
      · exact h
  · simp only [List.mem_append, List.mem_singleton]
    tauto

theorem mapGet_of_not_mem {β : Type} (k : String) (m : List (String × List β))
    (h : k ∉ m.map (fun e => e.1)) : mapGet k m = [] := by
  induction m with
  | nil => rfl
  | cons e rest ih =>
    obtain ⟨k1, v1⟩ := e
    simp only [List.map_cons, List.mem_cons, not_or] at h
    have h2 : (k1 == k) = false := by simpa using fun h3 => h.1 h3.symm
    simp only [mapGet, h2, Bool.false_eq_true, if_false]
    exact ih h.2

theorem objectsOf_cons (st : statement) (stmts : List statement) (s pr : String) :
    objectsOf (st :: stmts) s pr
      = (if st.subject.iri = s ∧ st.predicate.iri = pr then [st.object] else [])
        ++ objectsOf stmts s pr := by
  simp only [objectsOf, List.filter_cons]
  split <;> simp_all

/-- The objects that `grouped` holds for a subject and a predicate. -/
theorem groupStatements_objects (stmts : List statement)
    (G0 : List (String × List (String × List Node))) (s pr : String) :
    mapGet pr (mapGet s (groupStatements stmts G0))
      = mapGet pr (mapGet s G0) ++ objectsOf stmts s pr := by
  induction stmts generalizing G0 with
  | nil => simp [groupStatements, objectsOf]
  | cons st rest ih =>
    simp only [groupStatements]
    rw [ih, objectsOf_cons]
    by_cases hs : st.subject.iri = s
    · subst hs
      rw [mapGet_mapPut_same]
      by_cases hp : st.predicate.iri = pr
      · subst hp
        rw [mapGet_mapPut_same]
        simp
      · rw [mapGet_mapPut_ne _ _ _ _ (fun h => hp h.symm)]
        simp [hp]
    · rw [mapGet_mapPut_ne _ _ _ _ (fun h => hs h.symm)]
      simp [hs]

/-- The keys of `grouped`: the subject IRIs of the statements. -/
theorem groupStatements_keys (stmts : List statement)
    (G0 : List (String × List (String × List Node))) (hnd : (G0.map (fun e => e.1)).Nodup) :
    ((groupStatements stmts G0).map (fun e => e.1)).Nodup ∧
    ∀ s, s ∈ (groupStatements stmts G0).map (fun e => e.1) ↔
      s ∈ G0.map (fun e => e.1) ∨ ∃ st ∈ stmts, st.subject.iri = s := by
  induction stmts generalizing G0 with
  | nil => simp [groupStatements, hnd]
  | cons st rest ih =>
    simp only [groupStatements]
    obtain ⟨h1, h2⟩ := ih _ (keys_mapPut_nodup st.subject.iri
      (mapPut st.predicate.iri (mapGet st.predicate.iri (mapGet st.subject.iri G0) ++ [st.object])
        (mapGet st.subject.iri G0)) G0 hnd)
    refine ⟨h1, fun s => ?_⟩
    rw [h2, mem_keys_mapPut]
    simp only [List.mem_cons, exists_eq_or_imp]
    constructor
    · rintro ((h | h) | h)
      · exact Or.inr (Or.inl h.symm)
      · exact Or.inl h
      · exact Or.inr (Or.inr h)
    · rintro (h | h | h)
      · exact Or.inl (Or.inr h)
      · exact Or.inl (Or.inl h.symm)
      · exact Or.inr h

/-- The keys of `grouped[s]`: the predicate IRIs of the statements with subject IRI `s`. -/
theorem groupStatements_inner_keys (stmts : List statement)
    (G0 : List (String × List (String × List Node))) (s : String)
    (hnd : ((mapGet s G0).map (fun e => e.1)).Nodup) :
    ((mapGet s (groupStatements stmts G0)).map (fun e => e.1)).Nodup ∧
    ∀ pr, pr ∈ (mapGet s (groupStatements stmts G0)).map (fun e => e.1) ↔
      pr ∈ (mapGet s G0).map (fun e => e.1) ∨
        ∃ st ∈ stmts, st.subject.iri = s ∧ st.predicate.iri = pr := by
  induction stmts generalizing G0 with
  | nil => simp [groupStatements, hnd]
  | cons st rest ih =>
    simp only [groupStatements]
    by_cases hs : st.subject.iri = s
    · subst hs
      have hnd2 : ((mapGet st.subject.iri (mapPut st.subject.iri
          (mapPut st.predicate.iri (mapGet st.predicate.iri (mapGet st.subject.iri G0)
            ++ [st.object]) (mapGet st.subject.iri G0)) G0)).map (fun e => e.1)).Nodup := by
        rw [mapGet_mapPut_same]
        exact keys_mapPut_nodup _ _ _ hnd
      obtain ⟨h1, h2⟩ := ih _ hnd2
      refine ⟨h1, fun pr => ?_⟩
      rw [h2, mapGet_mapPut_same, mem_keys_mapPut]
      simp only [List.mem_cons, exists_eq_or_imp, true_and]
      constructor
      · rintro ((h | h) | h)
        · exact Or.inr (Or.inl h.symm)
        · exact Or.inl h
        · exact Or.inr (Or.inr h)
      · rintro (h | h | h)
        · exact Or.inl (Or.inr h)
        · exact Or.inl (Or.inl h.symm)
        · exact Or.inr h
    · have hnd2 : ((mapGet s (mapPut st.subject.iri
          (mapPut st.predicate.iri (mapGet st.predicate.iri (mapGet st.subject.iri G0)
            ++ [st.object]) (mapGet st.subject.iri G0)) G0)).map (fun e => e.1)).Nodup := by
        rw [mapGet_mapPut_ne _ _ _ _ (fun h => hs h.symm)]
        exact hnd
      obtain ⟨h1, h2⟩ := ih _ hnd2
      refine ⟨h1, fun pr => ?_⟩
      rw [h2, mapGet_mapPut_ne _ _ _ _ (fun h => hs h.symm)]
      simp only [List.mem_cons, exists_eq_or_imp, hs, false_and, false_or]

/-! ## The clauses that `Marshal` writes (C15) -/

theorem foldl_append_acc (acc : String) (l : List String) :
    l.foldl (fun r s => r ++ s) acc = acc ++ l.foldl (fun r s => r ++ s) "" := by
  induction l generalizing acc with
  | nil => simp
  | cons a l ih =>
    simp only [List.foldl_cons]
    rw [ih (acc ++ a), ih ("" ++ a)]
    simp [String.append_assoc]

theorem String_join_cons (a : String) (l : List String) :
    String.join (a :: l) = a ++ String.join l := by
  simp only [String.join, List.foldl_cons]
  rw [foldl_append_acc]
  simp

theorem String_join_nil : String.join [] = "" := rfl

theorem intercalate_go_eq (acc sep : String) (l : List String) :
    String.intercalate.go acc sep l = acc ++ String.join (l.map (fun a => sep ++ a)) := by
  induction l generalizing acc with
  | nil => simp [String.intercalate.go, String_join_nil]
  | cons a l ih =>
    simp only [String.intercalate.go, ih, List.map_cons, String_join_cons, String.append_assoc]

theorem intercalate_cons (sep a : String) (l : List String) :
    String.intercalate sep (a :: l) = a ++ String.join (l.map (fun b => sep ++ b)) := by
  simp only [String.intercalate, intercalate_go_eq]

theorem marshalNode_plain (p : TurtleParser) (ord : MapOrder) (n : Node) (ns : Option Namespace) :
    p.marshalNode ord n false ns = Except.ok (plainText n) := by
  cases n with
  | named nn => simp [plainText, TurtleParser.marshalNode, marshalIri_plain]
  | localized ln => simp [plainText, TurtleParser.marshalNode, TurtleParser.marshalString]
  | typed tn =>
    simp [plainText, TurtleParser.marshalNode, TurtleParser.marshalString, marshalIri_plain]

theorem plainText_named (iri : String) :
    plainText (Node.named (NewNamedNode iri)) = "<" ++ iri ++ ">" := by
  simp [plainText, TurtleParser.marshalNode, marshalIri_plain, NewNamedNode]

theorem gt_space_append (x : String) : ">" ++ (" " ++ x) = "> " ++ x := by
  rw [← String.append_assoc]
  rfl

theorem marshalObjects_next (p : TurtleParser) (ord : MapOrder) (ns : Namespace)
    (hp : p.options.PrettyPrint = false) (hs : p.options.Substitute = false)
    (objs : List Node) (idx : Nat) (ttl : String) :
    marshalObjects p ord ns (idx + 1) objs ttl
      = ttl ++ String.join (objs.map (fun o => ", " ++ (plainText o ++ " "))) := by
  induction objs generalizing idx ttl with
  | nil => simp [marshalObjects, String_join_nil]
  | cons o rest ih =>
    simp only [marshalObjects, hp, hs, marshalNode_plain, ih, List.map_cons, String_join_cons,
      Bool.false_eq_true, if_false, Nat.succ_pos, gt_iff_lt, Nat.zero_lt_succ, if_true,
      String.append_assoc]

theorem marshalObjects_first (p : TurtleParser) (ord : MapOrder) (ns : Namespace)
    (hp : p.options.PrettyPrint = false) (hs : p.options.Substitute = false)
    (objs : List Node) (ttl : String) :
    marshalObjects p ord ns 0 objs ttl
      = ttl ++ String.intercalate ", " (objs.map (fun o => plainText o ++ " ")) := by
  cases objs with
  | nil => simp [marshalObjects, String.intercalate]
  | cons o rest =>
    simp only [marshalObjects, hp, hs, marshalNode_plain, marshalObjects_next p ord ns hp hs,
      List.map_cons, intercalate_cons, List.map_map, Bool.false_eq_true, if_false,
      gt_iff_lt, Nat.lt_irrefl, String.append_assoc]
    rfl

theorem marshalPredicates_next (p : TurtleParser) (ord : MapOrder) (ns : Namespace)
    (hp : p.options.PrettyPrint = false) (hs : p.options.Substitute = false)
    (inner : List (String × List Node)) (preds : List String) (pIdx : Nat) (ttl : String) :
    marshalPredicates p ord ns inner (pIdx + 1) preds ttl
      = ttl ++ String.join (preds.map (fun pr => "; " ++ ("<" ++ pr ++ "> " ++
          String.intercalate ", " ((sortObjects (mapGet pr inner)).map
            (fun o => plainText o ++ " "))))) := by
  induction preds generalizing pIdx ttl with
  | nil => simp [marshalPredicates, String_join_nil]
  | cons pr rest ih =>
    simp only [marshalPredicates, hp, hs, marshalNode_plain, plainText_named, ih, List.map_cons,
      String_join_cons, marshalObjects_first p ord ns hp hs, Bool.false_eq_true, if_false,
      gt_iff_lt, Nat.zero_lt_succ, if_true, String.append_assoc, gt_space_append]

theorem marshalPredicates_first (p : TurtleParser) (ord : MapOrder) (ns : Namespace)
    (hp : p.options.PrettyPrint = false) (hs : p.options.Substitute = false)
    (inner : List (String × List Node)) (preds : List String) (ttl : String) :
    marshalPredicates p ord ns inner 0 preds ttl
      = ttl ++ String.intercalate "; " (preds.map (fun pr => "<" ++ pr ++ "> " ++
          String.intercalate ", " ((sortObjects (mapGet pr inner)).map
            (fun o => plainText o ++ " ")))) := by
  cases preds with
  | nil => simp [marshalPredicates, String.intercalate]
  | cons pr rest =>
    simp only [marshalPredicates, hp, hs, marshalNode_plain, plainText_named,
      marshalPredicates_next p ord ns hp hs, marshalObjects_first p ord ns hp hs,
      List.map_cons, intercalate_cons, List.map_map, Bool.false_eq_true, if_false,
      gt_iff_lt, Nat.lt_irrefl, String.append_assoc, gt_space_append]
    rfl

theorem marshalSubjects_plain (p : TurtleParser) (ord : MapOrder) (ns : Namespace)
    (hp : p.options.PrettyPrint = false) (hs : p.options.Substitute = false)
    (grouped : List (String × List (String × List Node))) (subs : List String) (ttl : String) :
    marshalSubjects p ord ns grouped subs ttl
      = Except.ok (ttl ++ String.join (subs.map (fun s => "<" ++ s ++ "> " ++
          String.intercalate "; "
            ((sort.Strings (ord.visit ((mapGet s grouped).map (fun e => e.1)))).map
              (fun pr => "<" ++ pr ++ "> " ++
                String.intercalate ", " ((sortObjects (mapGet pr (mapGet s grouped))).map
                  (fun o => plainText o ++ " ")))) ++ ".\n"))) := by
  induction subs generalizing ttl with
  | nil => simp [marshalSubjects, String_join_nil]
  | cons s rest ih =>
    simp only [marshalSubjects, hp, hs, marshalNode_plain, plainText_named, ih, List.map_cons,
      String_join_cons, marshalPredicates_first p ord ns hp hs, Bool.false_eq_true, if_false,
      String.append_assoc, gt_space_append]

theorem sortObjects_perm (objs : List Node) : (sortObjects objs).Perm objs :=
  List.perm_insertionSort _ objs

theorem sortObjects_sorted (objs : List Node) :
    (sortObjects objs).Sorted (fun a b => Node.String a ≤ Node.String b) := by
  haveI : IsTotal Node (fun a b => stringLess (Node.String b) (Node.String a) = false) :=
    ⟨fun a b => by
      rw [stringLess_false_iff, stringLess_false_iff]
      exact le_total _ _⟩
  haveI : IsTrans Node (fun a b => stringLess (Node.String b) (Node.String a) = false) :=
    ⟨fun a b c hab hbc => by
      rw [stringLess_false_iff] at hab hbc ⊢
      exact le_trans hab hbc⟩
  have h := List.sorted_insertionSort
    (fun a b => stringLess (Node.String b) (Node.String a) = false) objs
  exact h.imp (fun hab => (stringLess_false_iff _ _).mp hab)

/-- The text of `Marshal` with the default options. -/
theorem Marshal_default_eq (ord : MapOrder) (stmts : List statement) :
    (NewTurtleParser none).Marshal ord stmts
      = Except.ok ((if (scanGraphs stmts ("", true)).2 && (scanGraphs stmts ("", true)).1 != ""
          then "@base <" ++ (scanGraphs stmts ("", true)).1 ++ "> .\n" else "") ++
        String.join ((sort.Strings (ord.visit ((groupStatements stmts []).map (fun e => e.1)))).map
          (fun s => "<" ++ s ++ "> " ++
            String.intercalate "; "
              ((sort.Strings (ord.visit
                  ((mapGet s (groupStatements stmts [])).map (fun e => e.1)))).map
                (fun pr => "<" ++ pr ++ "> " ++
                  String.intercalate ", " ((sortObjects (objectsOf stmts s pr)).map
                    (fun o => plainText o ++ " ")))) ++ ".\n"))) := by
  have hp : (NewTurtleParser none).options.PrettyPrint = false := rfl
  have hs : (NewTurtleParser none).options.Substitute = false := rfl
  have hobj : ∀ s pr, mapGet pr (mapGet s (groupStatements stmts [])) = objectsOf stmts s pr := by
    intro s pr
    rw [groupStatements_objects]
    simp [mapGet]
  have hbase : ∀ b : String, "@base " ++ (NewTurtleParser none).marshalIri ord b false none
      ++ " .\n" = "@base <" ++ b ++ "> .\n" := by
    intro b
    rw [marshalIri_plain]
    apply String.ext
    simp only [String.data_append, List.append_assoc]
    rfl
  simp only [TurtleParser.Marshal, hs, Bool.false_eq_true, if_false,
    marshalSubjects_plain _ ord _ hp hs, hobj, hbase]

/-- C15: with the default options the text of `Marshal` is an optional `@base` line followed
by one clause for every subject IRI of the statements, in strictly ascending order of the
IRI. A clause is the subject in angle brackets, a blank, the parts of its predicate IRIs in
strictly ascending order joined by `; `, and `.` with a line feed. The part of a predicate is
the predicate in angle brackets, a blank, and the texts of its objects, each followed by a
blank, in ascending order of `String()` and joined by `, `. -/
theorem C15_marshal_sorted_clauses (ord : MapOrder) (stmts : List statement) :
    ∃ (text : Node → String) (base : String) (subs : List String)
      (preds : String → List String) (objs : String → String → List Node),
      (∀ o ns, (NewTurtleParser none).marshalNode ord o false ns = Except.ok (text o)) ∧
      (base = "" ∨ ∃ g, base = "@base <" ++ g ++ "> .\n") ∧
      (NewTurtleParser none).Marshal ord stmts
        = Except.ok (base ++ String.join (subs.map (fun s => "<" ++ s ++ "> " ++
            String.intercalate "; " ((preds s).map (fun pr => "<" ++ pr ++ "> " ++
              String.intercalate ", " ((objs s pr).map (fun o => text o ++ " ")))) ++ ".\n"))) ∧
      subs.Sorted (· < ·) ∧
      (∀ s, s ∈ subs ↔ ∃ st ∈ stmts, st.subject.iri = s) ∧
      (∀ s ∈ subs, (preds s).Sorted (· < ·) ∧ preds s ≠ [] ∧
        (∀ pr, pr ∈ preds s ↔ ∃ st ∈ stmts, st.subject.iri = s ∧ st.predicate.iri = pr) ∧
        ∀ pr ∈ preds s, (objs s pr).Sorted (fun a b => Node.String a ≤ Node.String b) ∧
          objs s pr ≠ [] ∧
          (objs s pr).Perm ((stmts.filter
            (fun st => decide (st.subject.iri = s ∧ st.predicate.iri = pr))).map
              (fun st => st.object))) := by
  have hk := groupStatements_keys stmts [] (by simp)
  have hik : ∀ s, _ := fun s => groupStatements_inner_keys stmts [] s (by simp [mapGet])
  have hsubmem : ∀ s, s ∈ sort.Strings (ord.visit ((groupStatements stmts []).map (fun e => e.1)))
      ↔ ∃ st ∈ stmts, st.subject.iri = s := by
    intro s
    rw [mem_sort_Strings, (ord.perm _).mem_iff, hk.2]
    simp
  have hpredmem : ∀ s pr,
      pr ∈ sort.Strings (ord.visit ((mapGet s (groupStatements stmts [])).map (fun e => e.1)))
      ↔ ∃ st ∈ stmts, st.subject.iri = s ∧ st.predicate.iri = pr := by
    intro s pr
    rw [mem_sort_Strings, (ord.perm _).mem_iff, (hik s).2]
    simp [mapGet]
  refine ⟨plainText,
    (if (scanGraphs stmts ("", true)).2 && (scanGraphs stmts ("", true)).1 != ""
      then "@base <" ++ (scanGraphs stmts ("", true)).1 ++ "> .\n" else ""),
    sort.Strings (ord.visit ((groupStatements stmts []).map (fun e => e.1))),
    fun s => sort.Strings (ord.visit ((mapGet s (groupStatements stmts [])).map (fun e => e.1))),
    fun s pr => sortObjects (objectsOf stmts s pr),
    fun o ns => marshalNode_plain _ ord o ns, ?_, ?_, ?_, hsubmem, ?_⟩
  · split
    · exact Or.inr ⟨_, rfl⟩
    · exact Or.inl rfl
  · exact Marshal_default_eq ord stmts
  · exact sort_Strings_strict _ ((ord.perm _).nodup_iff.mpr hk.1)
  · intro s hs
    have hne : sort.Strings (ord.visit ((mapGet s (groupStatements stmts [])).map (fun e => e.1)))
        ≠ [] := by
      obtain ⟨st, hst, hsub⟩ := (hsubmem s).mp hs
      have := (hpredmem s st.predicate.iri).mpr ⟨st, hst, hsub, rfl⟩
      exact List.ne_nil_of_mem this
    refine ⟨sort_Strings_strict _ ((ord.perm _).nodup_iff.mpr (hik s).1), hne, hpredmem s, ?_⟩
    intro pr hpr
    refine ⟨sortObjects_sorted _, ?_, sortObjects_perm _⟩
    obtain ⟨st, hst, hsub, hprd⟩ := (hpredmem s pr).mp hpr
    have hmem : st.object ∈ objectsOf stmts s pr := by
      simp only [objectsOf, List.mem_map, List.mem_filter, decide_eq_true_eq]
      exact ⟨st, ⟨hst, hsub, hprd⟩, rfl⟩
    exact List.ne_nil_of_mem ((sortObjects_perm _).mem_iff.mpr hmem)

/-! ## The round trip of the Turtle codec -/

theorem Char_toNat_eq (a b : Char) (h : a.toNat = b.toNat) : a = b :=
  Char_eq_of_toNat a b (by omega) (by omega)

theorem inRanges_space (c : Char) :
    inRanges c [('\t', '\n'), ('\x0c', '\r'), (' ', ' ')] = wsChar c := by
  simp only [inRanges, wsChar, Bool.or_false]
  rw [Bool.eq_iff_iff]
  simp only [Bool.or_eq_true, Bool.and_eq_true, decide_eq_true_eq, beq_iff_eq]
  have h1 : ('\t' : Char).toNat = 9 := rfl
  have h2 : ('\n' : Char).toNat = 10 := rfl
  have h3 : ('\x0c' : Char).toNat = 12 := rfl
  have h4 : ('\r' : Char).toNat = 13 := rfl
  have h5 : (' ' : Char).toNat = 32 := rfl
  constructor
  · intro h
    have : c.toNat = 9 ∨ c.toNat = 10 ∨ c.toNat = 12 ∨ c.toNat = 13 ∨ c.toNat = 32 := by omega
    rcases this with h | h | h | h | h
    · left; left; left; left; exact Char_toNat_eq _ _ (h.trans h1.symm)
    · left; left; left; right; exact Char_toNat_eq _ _ (h.trans h2.symm)
    · left; left; right; exact Char_toNat_eq _ _ (h.trans h3.symm)
    · left; right; exact Char_toNat_eq _ _ (h.trans h4.symm)
    · right; exact Char_toNat_eq _ _ (h.trans h5.symm)
  · intro h
    rcases h with (((h | h) | h) | h) | h <;> subst h <;> decide

theorem inRanges_single (c d : Char) : inRanges c [(d, d)] = (c == d) := by
  simp only [inRanges, Bool.or_false]
  rw [Bool.eq_iff_iff]
  simp only [Bool.and_eq_true, decide_eq_true_eq, beq_iff_eq]
  constructor
  · intro h
    exact Char_toNat_eq _ _ (by omega)
  · intro h
    subst h
    omega

theorem run_char (c : Char) (fuel : Nat) (k : MState → Option MState) (pos : Nat) (x : Char)
    (xs : List Char) (caps : List (Nat × Nat × Nat)) :
    Regex.run (Regex.char c) fuel k ⟨pos, x :: xs, caps⟩
      = if x = c then k ⟨pos + 1, xs, caps⟩ else none := by
  simp [Regex.run]

theorem run_char_nil (c : Char) (fuel : Nat) (k : MState → Option MState) (pos : Nat)
    (caps : List (Nat × Nat × Nat)) :
    Regex.run (Regex.char c) fuel k ⟨pos, [], caps⟩ = none := by
  simp [Regex.run]

theorem run_cls (neg : Bool) (rs : List (Char × Char)) (fuel : Nat) (k : MState → Option MState)
    (pos : Nat) (x : Char) (xs : List Char) (caps : List (Nat × Nat × Nat)) :
    Regex.run (Regex.cls neg rs) fuel k ⟨pos, x :: xs, caps⟩
      = if (inRanges x rs != neg) = true then k ⟨pos + 1, xs, caps⟩ else none := by
  simp [Regex.run]

theorem run_cls_nil (neg : Bool) (rs : List (Char × Char)) (fuel : Nat)
    (k : MState → Option MState) (pos : Nat) (caps : List (Nat × Nat × Nat)) :
    Regex.run (Regex.cls neg rs) fuel k ⟨pos, [], caps⟩ = none := by
  simp [Regex.run]

theorem run_space (fuel : Nat) (k : MState → Option MState)
    (pos : Nat) (x : Char) (xs : List Char) (caps : List (Nat × Nat × Nat)) :
    Regex.run Regex.space fuel k ⟨pos, x :: xs, caps⟩
      = if wsChar x = true then k ⟨pos + 1, xs, caps⟩ else none := by
  simp [Regex.space, run_cls, inRanges_space]

theorem run_nonSpace (fuel : Nat) (k : MState → Option MState)
    (pos : Nat) (x : Char) (xs : List Char) (caps : List (Nat × Nat × Nat)) :
    Regex.run Regex.nonSpace fuel k ⟨pos, x :: xs, caps⟩
      = if wsChar x = false then k ⟨pos + 1, xs, caps⟩ else none := by
  simp [Regex.nonSpace, run_cls, inRanges_space]

theorem run_dot (fuel : Nat) (k : MState → Option MState)
    (pos : Nat) (x : Char) (xs : List Char) (caps : List (Nat × Nat × Nat)) :
    Regex.run Regex.dot fuel k ⟨pos, x :: xs, caps⟩
      = if x ≠ '\n' then k ⟨pos + 1, xs, caps⟩ else none := by
  simp [Regex.dot, run_cls, inRanges_single]

theorem run_any (fuel : Nat) (k : MState → Option MState)
    (pos : Nat) (x : Char) (xs : List Char) (caps : List (Nat × Nat × Nat)) :
    Regex.run Regex.any fuel k ⟨pos, x :: xs, caps⟩ = k ⟨pos + 1, xs, caps⟩ := by
  simp [Regex.any, run_cls, inRanges]

/-! Loops -/

theorem loop_lazy_done (body : (MState → Option MState) → MState → Option MState)
    (fuel : Nat) (k : MState → Option MState) (s r : MState) (h : k s = some r) :
    repeatLoop body false fuel k s = some r := by
  cases fuel with
  | zero => simpa [repeatLoop] using h
  | succ f => simp [repeatLoop, orElse, h]

theorem loop_lazy_step (body : (MState → Option MState) → MState → Option MState)
    (fuel : Nat) (k : MState → Option MState) (s : MState) (h : k s = none) :
    repeatLoop body false (fuel + 1) k s
      = body (fun s2 => if s.pos < s2.pos then repeatLoop body false fuel k s2 else none) s := by
  simp [repeatLoop, orElse, h]

theorem loop_greedy_stop (body : (MState → Option MState) → MState → Option MState)
    (fuel : Nat) (k : MState → Option MState) (s : MState)
    (h : ∀ k2, body k2 s = none) :
    repeatLoop body true fuel k s = k s := by
  cases fuel with
  | zero => simp [repeatLoop]
  | succ f => simp [repeatLoop, orElse, h]

theorem loop_greedy_step (body : (MState → Option MState) → MState → Option MState)
    (fuel : Nat) (k : MState → Option MState) (s r : MState)
    (h : body (fun s2 => if s.pos < s2.pos then repeatLoop body true fuel k s2 else none) s
      = some r) :
    repeatLoop body true (fuel + 1) k s = some r := by
  simp [repeatLoop, orElse, h]

/-- A lazy repetition of a class passes over characters of the class at which the rest of the
expression fails. -/
theorem lazy_cls_skip (neg : Bool) (rs : List (Char × Char)) (fuel0 : Nat)
    (k : MState → Option MState) (caps : List (Nat × Nat × Nat)) (ys : List Char) :
    ∀ (xs : List Char) (fuel pos : Nat), xs.length ≤ fuel →
      (∀ c ∈ xs, (inRanges c rs != neg) = true) →
      (∀ i, i < xs.length → k ⟨pos + i, xs.drop i ++ ys, caps⟩ = none) →
      repeatLoop (Regex.run (Regex.cls neg rs) fuel0) false fuel k ⟨pos, xs ++ ys, caps⟩
        = repeatLoop (Regex.run (Regex.cls neg rs) fuel0) false (fuel - xs.length) k
            ⟨pos + xs.length, ys, caps⟩ := by
  intro xs
  induction xs with
  | nil => intro fuel pos _ _ _; simp
  | cons x xs ih =>
    intro fuel pos hf hc hk
    obtain ⟨f, rfl⟩ : ∃ f, fuel = f + 1 := ⟨fuel - 1, by simp at hf; omega⟩
    have h0 := hk 0 (by simp)
    simp only [Nat.add_zero, List.drop_zero, List.cons_append] at h0
    rw [List.cons_append, loop_lazy_step _ _ _ _ h0, run_cls]
    rw [if_pos (hc x (by simp))]
    simp only [Nat.lt_add_one, if_true]
    rw [ih f (pos + 1) (by simp at hf; omega) (fun c hc2 => hc c (by simp [hc2]))]
    · simp only [List.length_cons]
      congr 1
      · omega
      · simp only [MState.mk.injEq, and_true, true_and]; omega
    · intro i hi
      have := hk (i + 1) (by simp; omega)
      simp only [List.drop_succ_cons] at this
      rw [← this]
      congr 2
      omega

/-- A greedy repetition of a class takes all characters of the class when the rest of the
expression matches after them. -/
theorem greedy_cls_all (neg : Bool) (rs : List (Char × Char)) (fuel0 : Nat)
    (k : MState → Option MState) (caps : List (Nat × Nat × Nat)) (ys : List Char) (r : MState)
    (hy : ∀ y ∈ ys.head?, (inRanges y rs != neg) = false) :
    ∀ (xs : List Char) (fuel pos : Nat), xs.length ≤ fuel →
      (∀ c ∈ xs, (inRanges c rs != neg) = true) →
      k ⟨pos + xs.length, ys, caps⟩ = some r →
      repeatLoop (Regex.run (Regex.cls neg rs) fuel0) true fuel k ⟨pos, xs ++ ys, caps⟩
        = some r := by
  intro xs
  induction xs with
  | nil =>
    intro fuel pos _ _ hk
    rw [List.nil_append, loop_greedy_stop]
    · simpa using hk
    · intro k2
      cases ys with
      | nil => exact run_cls_nil _ _ _ _ _ _
      | cons y ys =>
        rw [run_cls, if_neg]
        simpa using hy y (by simp)
  | cons x xs ih =>
    intro fuel pos hf hc hk
    obtain ⟨f, rfl⟩ : ∃ f, fuel = f + 1 := ⟨fuel - 1, by simp at hf; omega⟩
    rw [List.cons_append]
    apply loop_greedy_step
    rw [run_cls, if_pos (hc x (by simp))]
    simp only [Nat.lt_add_one, if_true]
    apply ih f (pos + 1) (by simp at hf; omega) (fun c hc2 => hc c (by simp [hc2]))
    rw [← hk]
    congr 2
    simp only [List.length_cons]
    omega


/-! Unfolding of `Regex.run` -/

theorem run_cat (r1 r2 : Regex) (fuel : Nat) (k : MState → Option MState) (s : MState) :
    Regex.run (Regex.cat r1 r2) fuel k s = Regex.run r1 fuel (Regex.run r2 fuel k) s := by
  rw [Regex.run]

theorem run_alt (r1 r2 : Regex) (fuel : Nat) (k : MState → Option MState) (s : MState) :
    Regex.run (Regex.alt r1 r2) fuel k s
      = orElse (Regex.run r1 fuel k s) (fun _ => Regex.run r2 fuel k s) := by
  rw [Regex.run]

theorem run_star (r : Regex) (g : Bool) (fuel : Nat) (k : MState → Option MState) (s : MState) :
    Regex.run (Regex.star r g) fuel k s = repeatLoop (Regex.run r fuel) g fuel k s := by
  rw [Regex.run]

theorem run_plus (r : Regex) (g : Bool) (fuel : Nat) (k : MState → Option MState) (s : MState) :
    Regex.run (Regex.plus r g) fuel k s
      = Regex.run r fuel (repeatLoop (Regex.run r fuel) g fuel k) s := by
  rw [Regex.run]

theorem run_quest_greedy (r : Regex) (fuel : Nat) (k : MState → Option MState) (s : MState) :
    Regex.run (Regex.quest r true) fuel k s
      = orElse (Regex.run r fuel k s) (fun _ => k s) := by
  rw [Regex.run]
  simp

theorem run_cap (i : Nat) (r : Regex) (fuel : Nat) (k : MState → Option MState) (s : MState) :
    Regex.run (Regex.cap i r) fuel k s
      = Regex.run r fuel (fun s2 => k { s2 with caps := (i, s.pos, s2.pos) :: s2.caps }) s := by
  rw [Regex.run]

theorem run_bot (fuel : Nat) (k : MState → Option MState) (s : MState) :
    Regex.run Regex.bot fuel k s = if s.pos = 0 then k s else none := by
  rw [Regex.run]
  simp

theorem run_eot (fuel : Nat) (k : MState → Option MState) (s : MState) :
    Regex.run Regex.eot fuel k s = if s.rest = [] then k s else none := by
  rw [Regex.run]
  simp

theorem run_empty (fuel : Nat) (k : MState → Option MState) (s : MState) :
    Regex.run Regex.empty fuel k s = k s := by
  rw [Regex.run]

theorem orElse_some (a : MState) (b : Unit → Option MState) : orElse (some a) b = some a := rfl

theorem orElse_none (b : Unit → Option MState) : orElse none b = b () := rfl

theorem searchFrom_skip (re : Regex) (fuel : Nat) (ys : List Char) :
    ∀ (xs : List Char) (pos : Nat),
      (∀ i, i < xs.length →
        Regex.run re fuel (fun s => some s) ⟨pos + i, xs.drop i ++ ys, []⟩ = none) →
      Regex.searchFrom re fuel pos (xs ++ ys) = Regex.searchFrom re fuel (pos + xs.length) ys := by
  intro xs
  induction xs with
  | nil => intro pos _; simp
  | cons x xs ih =>
    intro pos h
    have h0 := h 0 (by simp)
    simp only [Nat.add_zero, List.drop_zero, List.cons_append] at h0
    rw [List.cons_append, Regex.searchFrom, h0]
    simp only
    rw [ih (pos + 1)]
    · congr 1
      simp only [List.length_cons]
      omega
    · intro i hi
      have := h (i + 1) (by simp; omega)
      simp only [List.drop_succ_cons] at this
      rw [← this]
      congr 2
      omega

theorem searchFrom_stop (re : Regex) (fuel : Nat) :
    ∀ (segs : List (Option (List (Nat × Nat × Nat)) × List Char)) (pos : Nat) (m : Match),
      SegOK re fuel pos segs → Regex.searchFrom re fuel pos (segText segs) = some m →
      pos < m.stop := by
  intro segs
  induction segs with
  | nil =>
    intro pos m h hm
    simp only [SegOK] at h
    simp [segText, Regex.searchFrom, h] at hm
  | cons sg rest ih =>
    intro pos m h hm
    obtain ⟨o, cs⟩ := sg
    cases o with
    | none =>
      simp only [SegOK] at h
      rw [segText, searchFrom_skip re fuel _ cs pos h.1] at hm
      have := ih _ m h.2 hm
      omega
    | some caps =>
      simp only [SegOK] at h
      obtain ⟨hne, ⟨s, hs, hp, hc⟩, _⟩ := h
      obtain ⟨c, cs2, rfl⟩ := List.exists_cons_of_ne_nil hne
      rw [segText, List.cons_append, Regex.searchFrom] at hm
      rw [List.cons_append] at hs
      rw [hs] at hm
      simp only [Option.some.injEq] at hm
      subst hm
      simp only [hp, List.length_cons]
      omega

theorem allMatchesLoop_shift (re : Regex) (text : List Char) (lf p q : Nat)
    (prev1 prev2 : Option Nat) (hq : q ≤ text.length) (hpq : p ≤ q)
    (he : Regex.execute re text p = Regex.execute re text q)
    (hs : ∀ m, Regex.execute re text q = some m → q < m.stop) :
    allMatchesLoop re text (lf + 1) p prev1 = allMatchesLoop re text (lf + 1) q prev2 := by
  rw [allMatchesLoop, allMatchesLoop, if_pos (by omega), if_pos hq, he]
  cases hm : Regex.execute re text q with
  | none => rfl
  | some m =>
    have := hs m hm
    have h1 : (m.stop == p) = false := by simp; omega
    have h2 : (m.stop == q) = false := by simp; omega
    simp [h1, h2]

theorem allMatchesLoop_segs (re : Regex) (text : List Char) :
    ∀ (segs : List (Option (List (Nat × Nat × Nat)) × List Char)) (pre : List Char)
      (lf : Nat) (prev : Option Nat),
      text = pre ++ segText segs → (segText segs).length + 2 ≤ lf →
      SegOK re (text.length + 1) pre.length segs →
      allMatchesLoop re text lf pre.length prev = matchesOf pre.length segs := by
  intro segs
  induction segs with
  | nil =>
    intro pre lf prev ht hl h
    obtain ⟨f, rfl⟩ : ∃ f, lf = f + 1 := ⟨lf - 1, by omega⟩
    simp only [SegOK] at h
    simp only [segText, List.append_nil] at ht
    subst ht
    simp [allMatchesLoop, Regex.execute, Regex.searchFrom, h, matchesOf]
  | cons sg rest ih =>
    intro pre lf prev ht hl h
    obtain ⟨f, rfl⟩ : ∃ f, lf = f + 1 := ⟨lf - 1, by omega⟩
    obtain ⟨o, cs⟩ := sg
    have hlen : text.length = pre.length + cs.length + (segText rest).length := by
      rw [ht]; simp [segText]; omega
    have hdrop : text.drop pre.length = cs ++ segText rest := by
      rw [ht]; simp [segText]
    have hdrop2 : text.drop (pre.length + cs.length) = segText rest := by
      rw [ht, segText, ← List.append_assoc, ← List.length_append]
      simp
    have ht2 : text = (pre ++ cs) ++ segText rest := by
      rw [ht]; simp [segText]
    have hlen2 : (pre ++ cs).length = pre.length + cs.length := by simp
    cases o with
    | none =>
      simp only [SegOK] at h
      have he : Regex.execute re text pre.length
          = Regex.execute re text (pre.length + cs.length) := by
        rw [Regex.execute, Regex.execute, hdrop, hdrop2]
        exact searchFrom_skip re _ _ cs _ h.1
      rw [allMatchesLoop_shift re text f _ (pre.length + cs.length) prev prev (by omega)
        (by omega) he]
      · have := ih (pre ++ cs) (f + 1) prev ht2 (by simp [segText] at hl; omega)
          (by rw [hlen2]; exact h.2)
        rw [hlen2] at this
        rw [this, matchesOf]
      · intro m hm
        rw [Regex.execute, hdrop2] at hm
        exact searchFrom_stop re _ rest _ m h.2 hm
    | some caps =>
      simp only [SegOK] at h
      obtain ⟨hne, ⟨s, hs, hp, hc⟩, hrest⟩ := h
      obtain ⟨c, cs2, rfl⟩ := List.exists_cons_of_ne_nil hne
      have hex : Regex.execute re text pre.length
          = some ⟨pre.length, pre.length + (c :: cs2).length, caps⟩ := by
        rw [Regex.execute, hdrop, List.cons_append, Regex.searchFrom]
        rw [List.cons_append] at hs
        rw [hs]
        simp only [hp, hc]
      rw [allMatchesLoop, if_pos (by omega), hex]
      have h1 : (pre.length + (c :: cs2).length == pre.length) = false := by simp
      simp only [h1, Bool.false_and, Bool.not_false, if_true, Bool.false_eq_true, if_false]
      have := ih (pre ++ c :: cs2) f (some (pre.length + (c :: cs2).length)) ht2
        (by simp [segText] at hl ⊢; omega) (by rw [hlen2]; exact hrest)
      rw [hlen2] at this
      rw [this, matchesOf]

theorem allMatches_segs (re : Regex) (segs : List (Option (List (Nat × Nat × Nat)) × List Char))
    (h : SegOK re ((segText segs).length + 1) 0 segs) :
    Regex.allMatches re (segText segs) = matchesOf 0 segs := by
  have := allMatchesLoop_segs re (segText segs) segs [] ((segText segs).length + 2) none
    (by simp) (by omega) (by simpa using h)
  simpa [Regex.allMatches] using this

theorem replaceAllLoop_segs (re : Regex) (text : List Char) :
    ∀ (segs : List (Option (List (Nat × Nat × Nat)) × List Char)) (pre : List Char)
      (lf last : Nat) (buf : List Char),
      text = pre ++ segText segs → (segText segs).length + 2 ≤ lf → last ≤ pre.length →
      SegOK re (text.length + 1) pre.length segs →
      (replaceAllLoop re text [] lf pre.length last buf).1
          ++ text.drop (replaceAllLoop re text [] lf pre.length last buf).2
        = buf ++ (text.drop last).take (pre.length - last) ++ keptText segs := by
  intro segs
  induction segs with
  | nil =>
    intro pre lf last buf ht hl hlast h
    obtain ⟨f, rfl⟩ : ∃ f, lf = f + 1 := ⟨lf - 1, by omega⟩
    simp only [SegOK] at h
    simp only [segText, List.append_nil] at ht
    subst ht
    simp [replaceAllLoop, Regex.execute, Regex.searchFrom, h, keptText]
  | cons sg rest ih =>
    intro pre lf last buf ht hl hlast h
    obtain ⟨f, rfl⟩ : ∃ f, lf = f + 1 := ⟨lf - 1, by omega⟩
    obtain ⟨o, cs⟩ := sg
    have hlen : text.length = pre.length + cs.length + (segText rest).length := by
      rw [ht]; simp [segText]; omega
    have hdrop : text.drop pre.length = cs ++ segText rest := by
      rw [ht]; simp [segText]
    have hdrop2 : text.drop (pre.length + cs.length) = segText rest := by
      rw [ht, segText, ← List.append_assoc, ← List.length_append]
      simp
    have ht2 : text = (pre ++ cs) ++ segText rest := by
      rw [ht]; simp [segText]
    have hlen2 : (pre ++ cs).length = pre.length + cs.length := by simp
    have htake : (text.drop last).take (pre.length + cs.length - last)
        = (text.drop last).take (pre.length - last) ++ cs := by
      have h1 : text.drop last = pre.drop last ++ (cs ++ segText rest) := by
        rw [ht, segText, List.drop_append_of_le_length hlast]
      have h2 : (pre.drop last).length = pre.length - last := by simp
      have h3 : pre.length + cs.length - last = (pre.drop last).length + cs.length := by omega
      have h4 : pre.length - last = (pre.drop last).length + 0 := by omega
      rw [h1, h3, h4, List.take_append, List.take_append]
      simp
    have hl2 : (segText rest).length + 2 ≤ f + 1 := by
      simp only [segText, List.length_append] at hl
      omega
    have hlast2 : last ≤ (pre ++ cs).length := by
      rw [hlen2]
      omega
    cases o with
    | none =>
      simp only [SegOK] at h
      have he : Regex.execute re text pre.length
          = Regex.execute re text (pre.length + cs.length) := by
        rw [Regex.execute, Regex.execute, hdrop, hdrop2]
        exact searchFrom_skip re _ _ cs _ h.1
      have hstop : ∀ m, Regex.execute re text (pre.length + cs.length) = some m →
          pre.length + cs.length < m.stop := by
        intro m hm
        rw [Regex.execute, hdrop2] at hm
        exact searchFrom_stop re _ rest _ m h.2 hm
      have hshift : replaceAllLoop re text [] (f + 1) pre.length last buf
          = replaceAllLoop re text [] (f + 1) (pre.length + cs.length) last buf := by
        have hp1 : pre.length ≤ text.length := by omega
        have hp2 : pre.length + cs.length ≤ text.length := by omega
        rw [replaceAllLoop, replaceAllLoop, if_pos hp1, if_pos hp2, he]
        cases hm : Regex.execute re text (pre.length + cs.length) with
        | none => simp
        | some m =>
          have := hstop m hm
          have e1 : ∀ w, w ≤ 1 → (if pre.length + w > m.stop then pre.length + w
              else if pre.length + 1 > m.stop then pre.length + 1 else m.stop) = m.stop := by
            intro w hw
            rw [if_neg (by omega), if_neg (by omega)]
          have e2 : ∀ w, w ≤ 1 → (if pre.length + cs.length + w > m.stop
              then pre.length + cs.length + w
              else if pre.length + cs.length + 1 > m.stop then pre.length + cs.length + 1
              else m.stop) = m.stop := by
            intro w hw
            split
            · omega
            · rw [if_neg (by omega)]
          have w1 : (if pre.length < text.length then 1 else 0) ≤ 1 := by split <;> omega
          have w2 : (if pre.length + cs.length < text.length then 1 else 0) ≤ 1 := by
            split <;> omega
          simp only []
          rw [e1 _ w1, e2 _ w2]
      rw [hshift]
      have := ih (pre ++ cs) (f + 1) last buf ht2 hl2 hlast2 (by rw [hlen2]; exact h.2)
      rw [hlen2] at this
      rw [this, htake, keptText]
      simp
    | some caps =>
      simp only [SegOK] at h
      obtain ⟨hne, ⟨s, hs, hp, hc⟩, hrest⟩ := h
      obtain ⟨c, cs2, rfl⟩ := List.exists_cons_of_ne_nil hne
      have hex : Regex.execute re text pre.length
          = some ⟨pre.length, pre.length + (c :: cs2).length, caps⟩ := by
        rw [Regex.execute, hdrop, List.cons_append, Regex.searchFrom]
        rw [List.cons_append] at hs
        rw [hs]
        simp only [hp, hc]
      have hp1 : pre.length ≤ text.length := by omega
      rw [replaceAllLoop, if_pos hp1, hex]
      simp only [expandTemplate, List.append_nil, ite_self]
      have e1 : ∀ w, w ≤ 1 → (if pre.length + w > pre.length + (c :: cs2).length
          then pre.length + w
          else if pre.length + 1 > pre.length + (c :: cs2).length then pre.length + 1
          else pre.length + (c :: cs2).length) = pre.length + (c :: cs2).length := by
        intro w hw
        simp only [List.length_cons]
        rw [if_neg (by omega), if_neg (by omega)]
      have w1 : (if pre.length < text.length then 1 else 0) ≤ 1 := by split <;> omega
      rw [e1 _ w1]
      have hl3 : (segText rest).length + 2 ≤ f := by
        simp only [segText, List.length_append, List.length_cons] at hl
        omega
      have := ih (pre ++ c :: cs2) f (pre.length + (c :: cs2).length)
        (buf ++ (text.drop last).take (pre.length - last)) ht2
        hl3 (by rw [hlen2]) (by rw [hlen2]; exact hrest)
      rw [hlen2] at this
      rw [this, keptText]
      simp

theorem ReplaceAllString_segs (re : Regex)
    (segs : List (Option (List (Nat × Nat × Nat)) × List Char))
    (h : SegOK re ((segText segs).length + 1) 0 segs) :
    Regex.ReplaceAllString re (String.mk (segText segs)) [] = String.mk (keptText segs) := by
  have := replaceAllLoop_segs re (segText segs) segs [] ((segText segs).length + 2) 0 []
    (by simp) (by omega) (by simp) (by simpa using h)
  simp only [List.length_nil, List.drop_zero, Nat.sub_self, List.take_zero, List.append_nil,
    List.nil_append] at this
  simp only [Regex.ReplaceAllString]
  rw [this]

theorem tokenChar_not_ws (c : Char) (h : tokenChar c = true) : wsChar c = false := by
  simp only [tokenChar, isSpaceChar, wsChar, Bool.not_eq_true', Bool.or_eq_false_iff,
    beq_eq_false_iff_ne, ne_eq, Bool.or_eq_true, beq_iff_eq, not_or] at h ⊢
  tauto

theorem tokenChar_not_space (c : Char) (h : tokenChar c = true) : isSpaceChar c = false := by
  simp only [tokenChar, Bool.not_eq_true', Bool.or_eq_false_iff] at h
  tauto

theorem tokenChar_ne (c : Char) (h : tokenChar c = true) :
    c ≠ '"' ∧ c ≠ '<' ∧ c ≠ '>' ∧ c ≠ '@' ∧ c ≠ '^' ∧ c ≠ ',' ∧ c ≠ ';' ∧ c ≠ '.' ∧ c ≠ '\n'
      ∧ c ≠ ' ' := by
  have hw := tokenChar_not_ws c h
  simp only [tokenChar, Bool.not_eq_true', Bool.or_eq_false_iff,
    beq_eq_false_iff_ne, ne_eq] at h
  simp only [wsChar, Bool.or_eq_false_iff, beq_eq_false_iff_ne, ne_eq] at hw
  tauto

theorem iriChar_not_ws (c : Char) (h : iriChar c = true) : wsChar c = false := by
  simp only [iriChar, isSpaceChar, wsChar, Bool.not_eq_true', Bool.or_eq_false_iff,
    beq_eq_false_iff_ne, ne_eq, Bool.or_eq_true, beq_iff_eq, not_or] at h ⊢
  tauto

theorem iriChar_not_space (c : Char) (h : iriChar c = true) : isSpaceChar c = false := by
  simp only [iriChar, Bool.not_eq_true', Bool.or_eq_false_iff] at h
  tauto

theorem iriChar_ne (c : Char) (h : iriChar c = true) :
    c ≠ '"' ∧ c ≠ '<' ∧ c ≠ '>' ∧ c ≠ '@' ∧ c ≠ '^' ∧ c ≠ ',' ∧ c ≠ ';' ∧ c ≠ '\n'
      ∧ c ≠ ' ' := by
  have hw := iriChar_not_ws c h
  simp only [iriChar, Bool.not_eq_true', Bool.or_eq_false_iff,
    beq_eq_false_iff_ne, ne_eq] at h
  simp only [wsChar, Bool.or_eq_false_iff, beq_eq_false_iff_ne, ne_eq] at hw
  tauto

theorem valueChar_ne (c : Char) (h : valueChar c = true) :
    c ≠ '"' ∧ c ≠ '\\' ∧ c ≠ '@' ∧ c ≠ ';' ∧ c ≠ '\n' := by
  simp only [valueChar, Bool.not_eq_true', Bool.or_eq_false_iff,
    beq_eq_false_iff_ne, ne_eq] at h
  tauto

/-- A replacement in a text in which no match starts returns the text. -/
theorem ReplaceAllString_none (re : Regex) (src : String) (repl : List TemplatePart)
    (h : ∀ i, i < src.data.length →
      Regex.run re (src.data.length + 1) (fun s => some s) ⟨i, src.data.drop i, []⟩ = none)
    (hend : Regex.run re (src.data.length + 1) (fun s => some s) ⟨src.data.length, [], []⟩
      = none) :
    Regex.ReplaceAllString re src repl = src := by
  have hs : Regex.searchFrom re (src.data.length + 1) 0 src.data = none := by
    have := searchFrom_skip re (src.data.length + 1) [] src.data 0
      (by intro i hi; simpa using h i hi)
    simp only [List.append_nil, Nat.zero_add] at this
    rw [this, Regex.searchFrom, hend]
    rfl
  simp only [Regex.ReplaceAllString, replaceAllLoop, Regex.execute, List.drop_zero, hs,
    Nat.zero_le, if_true, List.nil_append]

theorem marshalString_plain (p : TurtleParser) (v : String)
    (hv : ∀ c ∈ v.data, c ≠ '"') : p.marshalString v = "\"" ++ v ++ "\"" := by
  have : ttlStringEscapeRe.ReplaceAllString v
      [TemplatePart.group 1, TemplatePart.text ['\\', '"']] = v := by
    apply ReplaceAllString_none
    · intro i hi
      have hd : ∀ l : List Char, (∀ c ∈ l, c ≠ '"') → ∀ pos,
          Regex.run ttlStringEscapeRe (v.data.length + 1) (fun s => some s) ⟨pos, l, []⟩
            = none := by
        intro l hl pos
        cases l with
        | nil => simp [ttlStringEscapeRe, Regex.run]
        | cons a l2 =>
          cases l2 with
          | nil =>
            simp only [ttlStringEscapeRe, Regex.run]
            split <;> rfl
          | cons b l3 =>
            have hb : b ≠ '"' := hl b (by simp)
            simp only [ttlStringEscapeRe, Regex.run]
            split
            · simp [hb]
            · rfl
      exact hd _ (fun c hc => hv c (List.mem_of_mem_drop hc)) i
    · simp [ttlStringEscapeRe, Regex.run]
  simp only [TurtleParser.marshalString, this]

theorem plainText_eq (n : Node) (h : plainNode n = true) : plainText n = String.mk (nodeText n) := by
  cases n with
  | named nn =>
    simp only [plainText, TurtleParser.marshalNode, marshalIri_plain, nodeText]
    apply String.ext
    simp
  | localized ln =>
    simp only [plainNode, Bool.and_eq_true, List.all_eq_true, bne_iff_ne, ne_eq] at h
    have hv : ∀ c ∈ ln.value.data, c ≠ '"' := fun c hc => (valueChar_ne c (h.1.1.1.1.1 c hc)).1
    have hl : (ln.language == "") = false := by simpa using h.1.1.1.2
    simp only [plainText, TurtleParser.marshalNode, marshalString_plain _ _ hv, hl, nodeText]
    apply String.ext
    simp
  | typed tn =>
    simp only [plainNode, Bool.and_eq_true, List.all_eq_true] at h
    have hv : ∀ c ∈ tn.value.shown.data, c ≠ '"' :=
      fun c hc => (valueChar_ne c (h.1.1.1 c hc)).1
    simp only [plainText, TurtleParser.marshalNode, Node.String, marshalString_plain _ _ hv,
      marshalIri_plain, nodeText]
    apply String.ext
    simp

theorem objs_join_data (rest : List Node) (h : ∀ o ∈ rest, plainNode o = true) :
    ' ' :: (String.join (rest.map (fun o => ", " ++ (plainText o ++ " ")))).data
      = objsTail rest ++ [' '] := by
  induction rest with
  | nil => simp [String_join_nil, objsTail]
  | cons o rest ih =>
    have ih2 := ih (fun o2 h2 => h o2 (List.mem_cons_of_mem _ h2))
    simp only [List.map_cons, String_join_cons, String.data_append, objsTail,
      plainText_eq o (h o (by simp)), List.cons_append, List.append_assoc, List.nil_append, ih2]

theorem objs_intercalate_data (objs : List Node) (hne : objs ≠ [])
    (h : ∀ o ∈ objs, plainNode o = true) :
    (String.intercalate ", " (objs.map (fun o => plainText o ++ " "))).data
      = objsText objs ++ [' '] := by
  obtain ⟨o, rest, rfl⟩ := List.exists_cons_of_ne_nil hne
  simp only [List.map_cons, intercalate_cons, String.data_append, objsText,
    plainText_eq o (h o (by simp)), List.append_assoc]
  have := objs_join_data rest (fun o2 h2 => h o2 (List.mem_cons_of_mem _ h2))
  simp only [List.map_map, Function.comp_def] at this ⊢
  simp only [List.singleton_append, List.cons_append, List.nil_append, this]

theorem preds_join_data (text : String × List Node → String)
    (rest : List (String × List Node))
    (h : ∀ pr ∈ rest, (text pr).data = predText pr ++ [' ']) :
    ' ' :: (String.join (rest.map (fun pr => "; " ++ text pr))).data
      = predsTail rest ++ [' '] := by
  induction rest with
  | nil => simp [String_join_nil, predsTail]
  | cons pr rest ih =>
    have ih2 := ih (fun o2 h2 => h o2 (List.mem_cons_of_mem _ h2))
    simp only [List.map_cons, String_join_cons, String.data_append, predsTail,
      h pr (by simp), List.cons_append, List.append_assoc, List.nil_append,
      List.singleton_append, ih2]

theorem preds_intercalate_data (text : String × List Node → String)
    (preds : List (String × List Node)) (hne : preds ≠ [])
    (h : ∀ pr ∈ preds, (text pr).data = predText pr ++ [' ']) :
    (String.intercalate "; " (preds.map text)).data = predsText preds ++ [' '] := by
  obtain ⟨pr, rest, rfl⟩ := List.exists_cons_of_ne_nil hne
  have := preds_join_data text rest (fun o2 h2 => h o2 (List.mem_cons_of_mem _ h2))
  simp only [List.map_cons, intercalate_cons, String.data_append, predsText,
    h pr (by simp), List.append_assoc, List.map_map, Function.comp_def]
  simp only [List.singleton_append, List.cons_append, List.nil_append, this]

theorem doc_join_data (text : String × List (String × List Node) → String)
    (doc : List (String × List (String × List Node)))
    (h : ∀ cl ∈ doc, (text cl).data = clauseText cl ++ [' ', '.', '\n']) :
    (String.join (doc.map text)).data = docText doc := by
  induction doc with
  | nil => simp [String_join_nil, docText]
  | cons cl rest ih =>
    have ih2 := ih (fun o2 h2 => h o2 (List.mem_cons_of_mem _ h2))
    simp only [List.map_cons, String_join_cons, String.data_append, docText,
      h cl (by simp), List.cons_append, List.append_assoc, List.nil_append,
      List.singleton_append, ih2]

theorem docOf_subjects (ord : MapOrder) (stmts : List statement) (s : String) :
    s ∈ (docOf ord stmts).map (fun cl => cl.1) ↔ ∃ st ∈ stmts, st.subject.iri = s := by
  have hk := groupStatements_keys stmts [] (by simp)
  simp only [docOf, List.map_map, Function.comp_def, List.map_id']
  rw [mem_sort_Strings, (ord.perm _).mem_iff, hk.2]
  simp

theorem docOf_mem (ord : MapOrder) (stmts : List statement)
    (cl : String × List (String × List Node)) (hcl : cl ∈ docOf ord stmts) :
    (∃ st ∈ stmts, st.subject.iri = cl.1) ∧ cl.2 ≠ [] ∧
    ∀ pr ∈ cl.2, pr.2 ≠ [] ∧ (∀ o, o ∈ pr.2 ↔
      ∃ st ∈ stmts, st.subject.iri = cl.1 ∧ st.predicate.iri = pr.1 ∧ st.object = o) := by
  have hk := groupStatements_keys stmts [] (by simp)
  have hik : ∀ s, _ := fun s => groupStatements_inner_keys stmts [] s (by simp [mapGet])
  have hpredmem : ∀ s pr,
      pr ∈ sort.Strings (ord.visit ((mapGet s (groupStatements stmts [])).map (fun e => e.1)))
      ↔ ∃ st ∈ stmts, st.subject.iri = s ∧ st.predicate.iri = pr := by
    intro s pr
    rw [mem_sort_Strings, (ord.perm _).mem_iff, (hik s).2]
    simp [mapGet]
  simp only [docOf, List.mem_map] at hcl
  obtain ⟨s, hs, rfl⟩ := hcl
  rw [mem_sort_Strings, (ord.perm _).mem_iff, hk.2] at hs
  simp only [List.map_nil, List.not_mem_nil, false_or] at hs
  have hobj : ∀ pr o, o ∈ sortObjects (objectsOf stmts s pr) ↔
      ∃ st ∈ stmts, st.subject.iri = s ∧ st.predicate.iri = pr ∧ st.object = o := by
    intro pr o
    rw [(sortObjects_perm _).mem_iff]
    simp only [objectsOf, List.mem_map, List.mem_filter, decide_eq_true_eq]
    constructor
    · rintro ⟨st, ⟨h1, h2, h3⟩, h4⟩
      exact ⟨st, h1, h2, h3, h4⟩
    · rintro ⟨st, h1, h2, h3, h4⟩
      exact ⟨st, ⟨h1, h2, h3⟩, h4⟩
  refine ⟨hs, ?_, ?_⟩
  · obtain ⟨st, hst, hsub⟩ := hs
    have := (hpredmem s st.predicate.iri).mpr ⟨st, hst, hsub, rfl⟩
    simp only [ne_eq, List.map_eq_nil_iff]
    exact List.ne_nil_of_mem this
  · intro pr hpr
    simp only [List.mem_map] at hpr
    obtain ⟨p, hp, rfl⟩ := hpr
    obtain ⟨st, hst, hsub, hprd⟩ := (hpredmem s p).mp hp
    refine ⟨?_, hobj p⟩
    exact List.ne_nil_of_mem ((hobj p st.object).mpr ⟨st, hst, hsub, hprd, rfl⟩)

theorem docOf_complete (ord : MapOrder) (stmts : List statement) (st : statement)
    (hst : st ∈ stmts) :
    ∃ cl ∈ docOf ord stmts, cl.1 = st.subject.iri ∧
      ∃ pr ∈ cl.2, pr.1 = st.predicate.iri ∧ st.object ∈ pr.2 := by
  have hk := groupStatements_keys stmts [] (by simp)
  have hik : ∀ s, _ := fun s => groupStatements_inner_keys stmts [] s (by simp [mapGet])
  refine ⟨(st.subject.iri, _), List.mem_map.mpr ⟨st.subject.iri, ?_, rfl⟩, rfl, ?_⟩
  · rw [mem_sort_Strings, (ord.perm _).mem_iff, hk.2]
    simp only [List.map_nil, List.not_mem_nil, false_or]
    exact ⟨st, hst, rfl⟩
  · refine ⟨(st.predicate.iri, _), List.mem_map.mpr ⟨st.predicate.iri, ?_, rfl⟩, rfl, ?_⟩
    · rw [mem_sort_Strings, (ord.perm _).mem_iff, (hik _).2]
      simp only [mapGet, List.find?_nil, Option.map_none', Option.getD_none, List.map_nil,
        List.not_mem_nil, false_or]
      exact ⟨st, hst, rfl, rfl⟩
    · rw [(sortObjects_perm _).mem_iff]
      simp only [objectsOf, List.mem_map, List.mem_filter, decide_eq_true_eq]
      exact ⟨st, ⟨hst, rfl, rfl⟩, rfl⟩

theorem docOf_plain (ord : MapOrder) (stmts : List statement)
    (h : ∀ st ∈ stmts, plainStatement st = true) : plainDoc (docOf ord stmts) := by
  intro cl hcl
  obtain ⟨⟨st, hst, hsub⟩, hne, hpr⟩ := docOf_mem ord stmts cl hcl
  have hpl := h st hst
  simp only [plainStatement, Bool.and_eq_true] at hpl
  refine ⟨by rw [← hsub]; exact hpl.1.1, hne, ?_⟩
  intro pr hp
  obtain ⟨hne2, hobj⟩ := hpr pr hp
  obtain ⟨o, ho⟩ := List.exists_mem_of_ne_nil _ hne2
  obtain ⟨st2, hst2, _, hprd, _⟩ := (hobj o).mp ho
  have hpl2 := h st2 hst2
  simp only [plainStatement, Bool.and_eq_true] at hpl2
  refine ⟨by rw [← hprd]; exact hpl2.1.2, hne2, ?_⟩
  intro o2 ho2
  obtain ⟨st3, hst3, _, _, hobj3⟩ := (hobj o2).mp ho2
  have hpl3 := h st3 hst3
  simp only [plainStatement, Bool.and_eq_true] at hpl3
  rw [← hobj3]
  exact hpl3.2

/-- The text of `Marshal` with the default options for admitted statements in one graph. -/
theorem Marshal_text (ord : MapOrder) (stmts : List statement) (g : namedNode)
    (hne : stmts ≠ []) (hg : g.iri ≠ "")
    (hall : ∀ st ∈ stmts, st.graph = some g ∧ plainStatement st = true) :
    (NewTurtleParser none).Marshal ord stmts
      = Except.ok (String.mk (baseText g.iri ++ docText (docOf ord stmts))) := by
  have hscan := scanGraphs_same g.iri stmts
    (fun st hst x hx => by rw [(hall st hst).1] at hx; cases hx; rfl) "" true (Or.inl rfl)
  have hany : stmts.any (fun st => st.graph.isSome) = true := by
    obtain ⟨st, rest, rfl⟩ := List.exists_cons_of_ne_nil hne
    simp [(hall st (by simp)).1]
  rw [hany] at hscan
  have hgb : (g.iri != "") = true := by simpa using hg
  rw [Marshal_default_eq, hscan]
  simp only [if_true, Bool.true_and, hgb]
  congr 1
  apply String.ext
  have hdoc := docOf_plain ord stmts (fun st hst => (hall st hst).2)
  have := doc_join_data (fun cl => "<" ++ cl.1 ++ "> " ++
      String.intercalate "; " (cl.2.map (fun pr => "<" ++ pr.1 ++ "> " ++
        String.intercalate ", " (pr.2.map (fun o => plainText o ++ " ")))) ++ ".\n")
    (docOf ord stmts) (by
      intro cl hcl
      obtain ⟨_, hne2, hpr⟩ := hdoc cl hcl
      have := preds_intercalate_data (fun pr => "<" ++ pr.1 ++ "> " ++
        String.intercalate ", " (pr.2.map (fun o => plainText o ++ " "))) cl.2 hne2 (by
          intro pr hp
          obtain ⟨_, hne3, ho⟩ := hpr pr hp
          simp only [String.data_append, objs_intercalate_data pr.2 hne3 ho, predText]
          simp)
      simp only [String.data_append, this, clauseText]
      simp)
  simp only [String.data_append, baseText]
  rw [← this]
  simp only [docOf, List.map_map, Function.comp_def]
  simp

/-- The expression `.*?>` passes over the rest of an IRI in angle brackets when the rest of
the expression matches behind it. -/
theorem run_bracket (fuel : Nat) (k : MState → Option MState) (pos : Nat) (x rest : List Char)
    (caps : List (Nat × Nat × Nat)) (r : MState)
    (hx : ∀ c ∈ x, c ≠ '>' ∧ c ≠ '\n') (hf : x.length ≤ fuel)
    (hk : k ⟨pos + x.length + 1, rest, caps⟩ = some r) :
    Regex.run (Regex.star Regex.dot false) fuel (Regex.run (Regex.char '>') fuel k)
      ⟨pos, x ++ '>' :: rest, caps⟩ = some r := by
  simp only [run_star, Regex.dot]
  rw [lazy_cls_skip true [('\n', '\n')] fuel _ caps ('>' :: rest) x fuel pos hf]
  · apply loop_lazy_done
    rw [run_char, if_pos rfl, ← hk]
  · intro c hc
    simp [inRanges_single, (hx c hc).2]
  · intro i hi
    have hd : ∃ c l, x.drop i = c :: l ∧ c ∈ x := by
      cases hdr : x.drop i with
      | nil => simp at hdr; omega
      | cons c l => exact ⟨c, l, rfl, List.mem_of_mem_drop (by rw [hdr]; simp)⟩
    obtain ⟨c, l, hcl, hc⟩ := hd
    rw [hcl, List.cons_append, run_char, if_neg (hx c hc).1]

theorem plainIri_chars (iri : String) (h : plainIri iri = true) :
    ∀ c ∈ iri.data, iriChar c = true := by
  simp only [plainIri, Bool.and_eq_true, List.all_eq_true] at h
  exact h.1

theorem plainIri_dotSafe (iri : String) (h : plainIri iri = true) : dotSafe iri.data = true := by
  simp only [plainIri, Bool.and_eq_true] at h
  exact h.2

theorem plainIri_bracket (iri : String) (h : plainIri iri = true) :
    ∀ c ∈ iri.data, c ≠ '>' ∧ c ≠ '\n' := by
  intro c hc
  have := iriChar_ne c (plainIri_chars iri h c hc)
  tauto

/-- A greedy repetition of `\s` ends before a character that is no white space. -/
theorem greedy_space_stop (fuel f : Nat) (k : MState → Option MState) (pos : Nat)
    (rest : List Char) (caps : List (Nat × Nat × Nat))
    (hr : ∀ y ∈ rest.head?, wsChar y = false) :
    repeatLoop (Regex.run Regex.space fuel) true f k ⟨pos, rest, caps⟩ = k ⟨pos, rest, caps⟩ := by
  rw [loop_greedy_stop]
  intro k2
  cases rest with
  | nil => simp [Regex.space, run_cls_nil]
  | cons y ys =>
    rw [run_space, if_neg]
    simpa using hr y (by simp)

/-- The match of `leadingIriMatcher` at an IRI in angle brackets and a blank. -/
theorem leading_run (fuel : Nat) (x rest : List Char)
    (hx : ∀ c ∈ x, c ≠ '>' ∧ c ≠ '\n') (hf : x.length ≤ fuel)
    (hr : ∀ y ∈ rest.head?, wsChar y = false) :
    Regex.run leadingIriMatcher fuel (fun s => some s) ⟨0, '<' :: (x ++ '>' :: ' ' :: rest), []⟩
      = some ⟨x.length + 3, rest, [(1, 0, x.length + 2)]⟩ := by
  simp only [leadingIriMatcher, Regex.seq, iriToken, run_cat, run_bot, run_cap, run_alt,
    if_true, run_char]
  have hne : ¬ ('<' = 'a') := by decide
  simp only [hne, if_false, orElse_none]
  rw [run_bracket fuel _ (0 + 1) x (' ' :: rest) [] ⟨x.length + 3, rest, [(1, 0, x.length + 2)]⟩
    hx hf, orElse_some]
  simp only [Nat.zero_add, run_plus, run_space]
  simp only [wsChar, beq_self_eq_true, Bool.or_true, if_true]
  have e1 : 1 + x.length + 1 + 1 = x.length + 3 := by omega
  have e2 : 1 + x.length + 1 = x.length + 2 := by omega
  rw [e1, e2]
  exact greedy_space_stop fuel fuel (fun s => some s) (x.length + 3) rest
    [(1, 0, x.length + 2)] hr

theorem dropWhile_space_append (ws core : List Char) (hws : ∀ c ∈ ws, isSpaceChar c = true)
    (hc : ∀ c ∈ core.head?, isSpaceChar c = false) :
    (ws ++ core).dropWhile isSpaceChar = core := by
  induction ws with
  | nil =>
    cases core with
    | nil => rfl
    | cons c cs => simp [List.dropWhile, hc c (by simp)]
  | cons w ws ih =>
    simp only [List.cons_append, List.dropWhile, hws w (by simp)]
    exact ih (fun c h => hws c (List.mem_cons_of_mem _ h))

/-- The result of `strings.TrimSpace` on a text between white space. -/
theorem trimSpaceChars_core (ws1 core ws2 : List Char)
    (h1 : ∀ c ∈ ws1, isSpaceChar c = true) (h2 : ∀ c ∈ ws2, isSpaceChar c = true)
    (hh : ∀ c ∈ core.head?, isSpaceChar c = false)
    (hl : ∀ c ∈ core.getLast?, isSpaceChar c = false) :
    trimSpaceChars (ws1 ++ core ++ ws2) = core := by
  cases core with
  | nil =>
    simp only [List.append_nil, trimSpaceChars]
    have : (ws1 ++ ws2).dropWhile isSpaceChar = [] := by
      rw [List.dropWhile_eq_nil_iff]
      intro c hc
      rcases List.mem_append.mp hc with h | h
      · exact h1 c h
      · exact h2 c h
    rw [this]
    rfl
  | cons a as =>
    simp only [trimSpaceChars, List.append_assoc]
    rw [dropWhile_space_append ws1 _ h1 (by simp; simpa using hh)]
    rw [List.reverse_append]
    rw [dropWhile_space_append ws2.reverse _ (by simpa using h2) (by
      rw [List.head?_reverse]
      exact hl)]
    simp

theorem trimSpaceChars_id (core : List Char)
    (hh : ∀ c ∈ core.head?, isSpaceChar c = false)
    (hl : ∀ c ∈ core.getLast?, isSpaceChar c = false) :
    trimSpaceChars core = core := by
  have := trimSpaceChars_core [] core [] (by simp) (by simp) hh hl
  simpa using this

theorem leading_find (x rest : List Char) (hx : ∀ c ∈ x, c ≠ '>' ∧ c ≠ '\n')
    (hr : ∀ y ∈ rest.head?, wsChar y = false) :
    leadingIriMatcher.FindStringSubmatch 1 (String.mk ('<' :: (x ++ '>' :: ' ' :: rest)))
      = some [String.mk ('<' :: (x ++ ['>', ' '])), String.mk ('<' :: (x ++ ['>']))] := by
  simp only [Regex.FindStringSubmatch, Regex.execute, List.drop_zero, Regex.searchFrom]
  rw [leading_run _ x rest hx (by simp; omega) hr]
  simp only [Option.map_some', List.range_succ, List.range_zero, List.nil_append,
    List.cons_append, List.map_cons, List.map_nil, Match.text, Match.group]
  simp [List.take_append]

theorem leading_replace (x rest : List Char) (hx : ∀ c ∈ x, c ≠ '>' ∧ c ≠ '\n')
    (hr : ∀ y ∈ rest.head?, wsChar y = false) :
    leadingIriMatcher.ReplaceAllString (String.mk ('<' :: (x ++ '>' :: ' ' :: rest))) []
      = String.mk rest := by
  have hfail : ∀ fuel p l, p ≠ 0 →
      Regex.run leadingIriMatcher fuel (fun s => some s) ⟨p, l, []⟩ = none := by
    intro fuel p l hp
    simp only [leadingIriMatcher, Regex.seq, run_cat, run_bot, hp, if_false]
  have := ReplaceAllString_segs leadingIriMatcher
    [(some [(1, 0, x.length + 2)], '<' :: (x ++ ['>', ' '])), (none, rest)] (by
      simp only [SegOK, segText, List.append_nil]
      refine ⟨by simp, ⟨⟨x.length + 3, rest, [(1, 0, x.length + 2)]⟩, ?_, ?_, rfl⟩, ?_, ?_⟩
      · have := leading_run ((('<' :: (x ++ ['>', ' '])) ++ rest).length + 1) x rest hx
          (by simp; omega) hr
        simpa using this
      · simp
      · intro i _
        exact hfail _ _ _ (by simp)
      · exact hfail _ _ _ (by simp))
  simpa [segText, keptText] using this

theorem unmarshalIri_bracket (p : TurtleParser) (ns : Namespace) (x : List Char)
    (l : List Char) (hl : l = '<' :: (x ++ ['>'])) :
    p.unmarshalIri (String.mk l) ns = Outcome.ok (String.mk x) := by
  subst hl
  have ht : trimSpaceChars ('<' :: (x ++ ['>'])) = '<' :: (x ++ ['>']) := by
    apply trimSpaceChars_id
    · simp [isSpaceChar]
    · rw [← List.cons_append, List.getLast?_append]
      simp [isSpaceChar]
  have hne : ((String.mk ('<' :: (x ++ ['>'])) : String) == "a") = false := by
    rw [beq_eq_false_iff_ne]
    intro h
    have := congrArg String.data h
    simp at this
  simp only [TurtleParser.unmarshalIri, strings.TrimSpace, ht, hne, Bool.false_eq_true, if_false,
    beq_self_eq_true, if_true, sliceChars]
  simp [Outcome.ofOption, Outcome.bind]

theorem containsChars_single (c : Char) (s : List Char) :
    containsChars s [c] = decide (c ∈ s) := by
  induction s with
  | nil => simp [containsChars, hasPrefixChars]
  | cons a as ih =>
    simp only [containsChars, hasPrefixChars, ih, Bool.and_true, List.mem_cons]
    rw [Bool.eq_iff_iff]
    simp only [Bool.or_eq_true, beq_iff_eq, decide_eq_true_eq]
    constructor
    · rintro (h | h)
      · exact Or.inl h.symm
      · exact Or.inr h
    · rintro (h | h)
      · exact Or.inl h.symm
      · exact Or.inr h

theorem containsChars_of_start (l sub : List Char) (h : hasPrefixChars l sub = true) :
    containsChars l sub = true := by
  cases l with
  | nil => simpa [containsChars] using h
  | cons a l => simp [containsChars, h]

theorem containsChars_append (xs sub ys : List Char) :
    containsChars (xs ++ sub ++ ys) sub = true := by
  induction xs with
  | nil =>
    apply containsChars_of_start
    exact (hasPrefixChars_iff _ _).mpr ⟨ys, by simp⟩
  | cons a as ih =>
    simp only [List.cons_append, containsChars, Bool.or_eq_true]
    right
    simpa using ih

theorem lastIndexChars_none (d : Char) (sub : List Char) :
    ∀ (l : List Char) (pos : Nat), d ∉ l → lastIndexChars (d :: sub) pos l = none := by
  intro l
  induction l with
  | nil => intro pos _; simp [lastIndexChars, hasPrefixChars]
  | cons a as ih =>
    intro pos h
    simp only [List.mem_cons, not_or] at h
    have hne : (a == d) = false := by
      rw [beq_eq_false_iff_ne]
      exact fun e => h.1 e.symm
    simp [lastIndexChars, ih (pos + 1) h.2, hasPrefixChars, hne]

theorem lastIndexChars_single (c : Char) (ys : List Char) (hy : c ∉ ys) :
    ∀ (xs : List Char) (pos : Nat),
      lastIndexChars [c] pos (xs ++ c :: ys) = some (pos + xs.length) := by
  intro xs
  induction xs with
  | nil =>
    intro pos
    simp [lastIndexChars, lastIndexChars_none c [] ys (pos + 1) hy, hasPrefixChars]
  | cons a as ih =>
    intro pos
    rw [List.cons_append, lastIndexChars, ih (pos + 1)]
    simp only [List.length_cons, Option.some.injEq]
    omega

theorem lastIndexChars_double (c : Char) (ys : List Char) (hy : c ∉ ys) :
    ∀ (xs : List Char) (pos : Nat),
      lastIndexChars [c, c] pos (xs ++ c :: c :: ys) = some (pos + xs.length) := by
  intro xs
  induction xs with
  | nil =>
    intro pos
    have h1 : hasPrefixChars ys [c] = false := by
      cases ys with
      | nil => simp [hasPrefixChars]
      | cons y ys2 =>
        simp only [List.mem_cons, not_or] at hy
        have : (y == c) = false := by
          rw [beq_eq_false_iff_ne]
          exact fun e => hy.1 e.symm
        simp [hasPrefixChars, this]
    simp [lastIndexChars, lastIndexChars_none c [c] ys (pos + 1 + 1) hy, hasPrefixChars, h1]
  | cons a as ih =>
    intro pos
    rw [List.cons_append, lastIndexChars, ih (pos + 1)]
    simp only [List.length_cons, Option.some.injEq]
    omega

theorem sliceChars_mid (a b c : List Char) :
    sliceChars (a ++ b ++ c) a.length (a.length + b.length) = some b := by
  simp [sliceChars]

theorem sliceChars_mid_eq (l a b c : List Char) (lo hi : Nat) (hl : l = a ++ b ++ c)
    (h1 : lo = a.length) (h2 : hi = a.length + b.length) : sliceChars l lo hi = some b := by
  subst hl h1 h2
  exact sliceChars_mid a b c

theorem String_mk_data (s : String) : String.mk s.data = s := rfl

/-- The node that `unmarshalNode` reads from the text of an admitted node, also with a blank
behind it. -/
theorem unmarshalNode_text (p : TurtleParser) (ns : Namespace) (o : Node)
    (ho : plainNode o = true) (ws : List Char) (hws : ∀ c ∈ ws, isSpaceChar c = true) :
    p.unmarshalNode (String.mk (nodeText o ++ ws)) ns = Outcome.ok o := by
  cases o with
  | named nn =>
    have ht : trimSpaceChars (nodeText (Node.named nn) ++ ws) = '<' :: (nn.iri.data ++ ['>']) := by
      have := trimSpaceChars_core [] ('<' :: (nn.iri.data ++ ['>'])) ws (by simp) hws
        (by simp [isSpaceChar])
        (by rw [← List.cons_append, List.getLast?_append]; simp [isSpaceChar])
      simpa [nodeText] using this
    have hq : (('<' : Char) == '"') = false := by decide
    simp only [TurtleParser.unmarshalNode, strings.TrimSpace, ht, hq, Bool.false_eq_true,
      if_false]
    rw [unmarshalIri_bracket p ns nn.iri.data _ rfl]
    simp [Outcome.bind, NewNamedNode, String_mk_data]
  | localized ln =>
    simp only [plainNode, Bool.and_eq_true, List.all_eq_true, bne_iff_ne, ne_eq] at ho
    obtain ⟨⟨⟨⟨⟨hv, hl⟩, hne⟩, _⟩, _⟩, _⟩ := ho
    have hlne : ln.language.data ≠ [] := by
      intro h
      apply hne
      apply String.ext
      simpa using h
    obtain ⟨lc, hlast⟩ : ∃ lc, ln.language.data.getLast? = some lc := by
      cases hg : ln.language.data.getLast? with
      | none => simp at hg; exact absurd hg hlne
      | some lc => exact ⟨lc, rfl⟩
    have hlc := hl lc (List.mem_of_getLast?_eq_some hlast)
    have hcore : ('"' :: (ln.value.data ++ '"' :: '@' :: ln.language.data)).getLast? = some lc := by
      have e : '"' :: (ln.value.data ++ '"' :: '@' :: ln.language.data)
          = ('"' :: (ln.value.data ++ ['"', '@'])) ++ ln.language.data := by simp
      rw [e, List.getLast?_append, hlast]
      rfl
    have ht : trimSpaceChars (nodeText (Node.localized ln) ++ ws)
        = '"' :: (ln.value.data ++ '"' :: '@' :: ln.language.data) := by
      have := trimSpaceChars_core [] ('"' :: (ln.value.data ++ '"' :: '@' :: ln.language.data))
        ws (by simp) hws (by simp [isSpaceChar])
        (by rw [hcore]; simpa using tokenChar_not_space lc hlc)
      simpa [nodeText] using this
    have hlq : (some lc == some '"') = false := by
      have : ¬ (lc = '"') := fun h => (tokenChar_ne _ hlc).1 h
      simpa using this
    have hat : '@' ∉ ln.language.data := fun h => (tokenChar_ne _ (hl _ h)).2.2.2.1 rfl
    have hidx : lastIndexChars ['@'] 0 ('"' :: (ln.value.data ++ '"' :: '@' :: ln.language.data))
        = some (ln.value.data.length + 2) := by
      have := lastIndexChars_single '@' ln.language.data hat ('"' :: (ln.value.data ++ ['"'])) 0
      simpa using this
    have hcont : containsChars ('"' :: (ln.value.data ++ '"' :: '@' :: ln.language.data)) ['@']
        = true := by
      rw [containsChars_single]
      simp
    have hlang : (String.mk ln.language.data == "") = false := by
      rw [beq_eq_false_iff_ne]
      exact hne
    have hs1 : sliceChars ('"' :: (ln.value.data ++ '"' :: '@' :: ln.language.data)) 1
        (ln.value.data.length + 2 - 1) = some ln.value.data :=
      sliceChars_mid_eq _ ['"'] ln.value.data ('"' :: '@' :: ln.language.data) _ _ (by simp)
        (by simp) (by simp; omega)
    have hs2 : sliceChars ('"' :: (ln.value.data ++ '"' :: '@' :: ln.language.data))
        (ln.value.data.length + 2 + 1)
        ('"' :: (ln.value.data ++ '"' :: '@' :: ln.language.data)).length
          = some ln.language.data :=
      sliceChars_mid_eq _ ('"' :: (ln.value.data ++ ['"', '@'])) ln.language.data [] _ _
        (by simp) (by simp) (by simp; omega)
    simp only [TurtleParser.unmarshalNode, strings.TrimSpace, ht, beq_self_eq_true, if_true,
      hcore, hlq, if_false, hcont, hidx, hs1, hs2, Outcome.ofOption,
      Outcome.bind, NewLocalizedLiteral, hlang, Bool.false_eq_true, String_mk_data]
  | typed tn =>
    simp only [plainNode, Bool.and_eq_true, List.all_eq_true] at ho
    obtain ⟨⟨⟨hv, ht0⟩, _⟩, htext⟩ := ho
    have hty := plainIri_chars _ ht0
    have hcore : ('"' :: (tn.value.shown.data ++ '"' :: '^' :: '^' :: '<' :: (tn.typeNode.iri.data ++ ['>']))).getLast?
        = some '>' := by
      have e : '"' :: (tn.value.shown.data ++ '"' :: '^' :: '^' :: '<' :: (tn.typeNode.iri.data ++ ['>']))
          = ('"' :: (tn.value.shown.data ++ '"' :: '^' :: '^' :: '<' :: tn.typeNode.iri.data)) ++ ['>'] := by
        simp
      rw [e, List.getLast?_append]
      rfl
    have ht : trimSpaceChars (nodeText (Node.typed tn) ++ ws)
        = '"' :: (tn.value.shown.data ++ '"' :: '^' :: '^' :: '<' :: (tn.typeNode.iri.data ++ ['>'])) := by
      have := trimSpaceChars_core []
        ('"' :: (tn.value.shown.data ++ '"' :: '^' :: '^' :: '<' :: (tn.typeNode.iri.data ++ ['>'])))
        ws (by simp) hws (by simp [isSpaceChar])
        (by rw [hcore]; simp [isSpaceChar])
      simpa [nodeText] using this
    have hlq : (some '>' == some '"') = false := by decide
    have hcont : containsChars
        ('"' :: (tn.value.shown.data ++ '"' :: '^' :: '^' :: '<' :: (tn.typeNode.iri.data ++ ['>']))) ['@']
        = false := by
      rw [containsChars_single]
      simp only [List.mem_cons, List.mem_append, List.mem_singleton, decide_eq_false_iff_not,
        not_or]
      refine ⟨by decide, ⟨fun h => (valueChar_ne _ (hv _ h)).2.2.1 rfl, by decide, by decide,
        by decide, by decide, fun h => (iriChar_ne _ (hty _ h)).2.2.2.1 rfl, by decide,
        by simp⟩⟩
    have hcont2 : containsChars
        ('"' :: (tn.value.shown.data ++ '"' :: '^' :: '^' :: '<' :: (tn.typeNode.iri.data ++ ['>'])))
        ['^', '^'] = true := by
      have := containsChars_append ('"' :: (tn.value.shown.data ++ ['"'])) ['^', '^']
        ('<' :: (tn.typeNode.iri.data ++ ['>']))
      simpa using this
    have hcar : '^' ∉ '<' :: (tn.typeNode.iri.data ++ ['>']) := by
      simp only [List.mem_cons, List.mem_append, List.mem_singleton, not_or]
      exact ⟨by decide, fun h => (iriChar_ne _ (hty _ h)).2.2.2.2.1 rfl, by decide, by simp⟩
    have hidx : lastIndexChars ['^', '^'] 0
        ('"' :: (tn.value.shown.data ++ '"' :: '^' :: '^' :: '<' :: (tn.typeNode.iri.data ++ ['>'])))
        = some (tn.value.shown.data.length + 2) := by
      have := lastIndexChars_double '^' _ hcar ('"' :: (tn.value.shown.data ++ ['"'])) 0
      simpa using this
    have hs1 : sliceChars
        ('"' :: (tn.value.shown.data ++ '"' :: '^' :: '^' :: '<' :: (tn.typeNode.iri.data ++ ['>']))) 1
        (tn.value.shown.data.length + 2 - 1) = some tn.value.shown.data :=
      sliceChars_mid_eq _ ['"'] tn.value.shown.data
        ('"' :: '^' :: '^' :: '<' :: (tn.typeNode.iri.data ++ ['>'])) _ _ (by simp)
        (by simp) (by simp; omega)
    have hs2 : sliceChars
        ('"' :: (tn.value.shown.data ++ '"' :: '^' :: '^' :: '<' :: (tn.typeNode.iri.data ++ ['>'])))
        (tn.value.shown.data.length + 2 + 2)
        ('"' :: (tn.value.shown.data ++ '"' :: '^' :: '^' :: '<' :: (tn.typeNode.iri.data ++ ['>']))).length
          = some ('<' :: (tn.typeNode.iri.data ++ ['>'])) :=
      sliceChars_mid_eq _ ('"' :: (tn.value.shown.data ++ ['"', '^', '^']))
        ('<' :: (tn.typeNode.iri.data ++ ['>'])) [] _ _
        (by simp) (by simp) (by simp; omega)
    have hval : Value.text tn.value.shown = tn.value := by
      cases hcase : tn.value with
      | text v => rfl
      | other i v => rw [hcase] at htext; cases htext
      | nan v => rw [hcase] at htext; cases htext
    simp only [TurtleParser.unmarshalNode, strings.TrimSpace, ht, beq_self_eq_true, if_true,
      hcore, hlq, if_false, hcont, hcont2, hidx, hs1, hs2, Outcome.ofOption,
      Outcome.bind, Bool.false_eq_true, unmarshalIri_bracket p ns tn.typeNode.iri.data _ rfl,
      NewTypedLiteral, NewNamedNode, String_mk_data, hval]

/-- The end `\s*?(,|$)` of an expression at the end of the text. -/
theorem end_last (i fuel pos : Nat) (caps : List (Nat × Nat × Nat)) :
    Regex.run (Regex.star Regex.space false) fuel
      (Regex.run (Regex.cap i (Regex.alt (Regex.char ',') Regex.eot)) fuel (fun s => some s))
      ⟨pos, [], caps⟩ = some ⟨pos, [], (i, pos, pos) :: caps⟩ := by
  rw [run_star]
  apply loop_lazy_done
  simp [run_cap, run_alt, run_char_nil, run_eot, orElse_none]

/-- The end `\s*?(,|$)` of an expression at a blank and a comma. -/
theorem end_comma (i fuel pos : Nat) (caps : List (Nat × Nat × Nat)) (more : List Char)
    (hf : 1 ≤ fuel) :
    Regex.run (Regex.star Regex.space false) fuel
      (Regex.run (Regex.cap i (Regex.alt (Regex.char ',') Regex.eot)) fuel (fun s => some s))
      ⟨pos, ' ' :: ',' :: more, caps⟩ = some ⟨pos + 2, more, (i, pos + 1, pos + 2) :: caps⟩ := by
  obtain ⟨f, rfl⟩ : ∃ f, fuel = f + 1 := ⟨fuel - 1, by omega⟩
  rw [run_star, loop_lazy_step]
  · rw [run_space]
    simp only [wsChar, beq_self_eq_true, Bool.or_true, if_true, Nat.lt_add_one]
    apply loop_lazy_done
    simp [run_cap, run_alt, run_char, orElse_some]
  · have h : ¬ (' ' = ',') := by decide
    simp [run_cap, run_alt, run_char, run_eot, orElse_none, h]

/-- The end `\s*?(,|$)` of an expression fails before another character. -/
theorem end_fail (i fuel pos : Nat) (caps : List (Nat × Nat × Nat)) (c : Char)
    (rest : List Char) (hw : wsChar c = false) (hc : c ≠ ',') :
    Regex.run (Regex.star Regex.space false) fuel
      (Regex.run (Regex.cap i (Regex.alt (Regex.char ',') Regex.eot)) fuel (fun s => some s))
      ⟨pos, c :: rest, caps⟩ = none := by
  have hk : Regex.run (Regex.cap i (Regex.alt (Regex.char ',') Regex.eot)) fuel
      (fun s => some s) ⟨pos, c :: rest, caps⟩ = none := by
    simp [run_cap, run_alt, run_char, run_eot, orElse_none, hc]
  rw [run_star]
  cases fuel with
  | zero => simpa [repeatLoop] using hk
  | succ f =>
    rw [loop_lazy_step _ _ _ _ hk, run_space, if_neg]
    simp [hw]

theorem end_run (i fuel pos : Nat) (caps : List (Nat × Nat × Nat)) (trail more : List Char)
    (h : objEnd trail more) (hf : 1 ≤ fuel) :
    ∃ caps2, Regex.run (Regex.star Regex.space false) fuel
      (Regex.run (Regex.cap i (Regex.alt (Regex.char ',') Regex.eot)) fuel (fun s => some s))
      ⟨pos, trail ++ more, caps⟩ = some ⟨pos + trail.length, more, caps2⟩ := by
  rcases h with ⟨rfl, rfl⟩ | rfl
  · exact ⟨_, by simpa using end_last i fuel pos caps⟩
  · exact ⟨_, by simpa using end_comma i fuel pos caps more hf⟩

theorem loop_lazy_fail (body : (MState → Option MState) → MState → Option MState)
    (fuel : Nat) (k : MState → Option MState) (s : MState) (hk : k s = none)
    (hb : ∀ k2, body k2 s = none) : repeatLoop body false fuel k s = none := by
  cases fuel with
  | zero => simpa [repeatLoop] using hk
  | succ f => rw [loop_lazy_step _ _ _ _ hk, hb]

/-- A lazy repetition of `\s` takes one blank when the rest of the expression fails at the
blank and matches behind it. -/
theorem lazy_space_one (fuel0 fuel : Nat) (k : MState → Option MState) (pos : Nat)
    (rest : List Char) (caps : List (Nat × Nat × Nat)) (r : MState) (hf : 1 ≤ fuel)
    (h0 : k ⟨pos, ' ' :: rest, caps⟩ = none) (h1 : k ⟨pos + 1, rest, caps⟩ = some r) :
    repeatLoop (Regex.run Regex.space fuel0) false fuel k ⟨pos, ' ' :: rest, caps⟩ = some r := by
  obtain ⟨f, rfl⟩ : ∃ f, fuel = f + 1 := ⟨fuel - 1, by omega⟩
  rw [loop_lazy_step _ _ _ _ h0, run_space]
  simp only [wsChar, beq_self_eq_true, Bool.or_true, if_true, Nat.lt_add_one]
  exact loop_lazy_done _ _ _ _ _ h1

/-- The alternatives of `iriToken` fail at a blank. -/
theorem iriToken_blank (fuel : Nat) (k : MState → Option MState) (pos : Nat) (rest : List Char)
    (caps : List (Nat × Nat × Nat)) :
    Regex.run iriToken fuel k ⟨pos, ' ' :: rest, caps⟩ = none := by
  have h1 : ¬ (' ' = '<') := by decide
  have h2 : ¬ (' ' = ':') := by decide
  simp only [iriToken, Regex.seq, run_alt, run_cat, run_char, h1, if_false, orElse_none, run_star]
  apply loop_lazy_fail
  · rw [run_cat, run_char, if_neg h2]
  · intro k2
    rw [run_nonSpace, if_neg]
    decide

/-- The match of `ttlIriMatcher` at an IRI in angle brackets. -/
theorem iri_run (fuel pos : Nat) (lead x trail more : List Char)
    (hlead : lead = [] ∨ lead = [' ']) (hx : ∀ c ∈ x, c ≠ '>' ∧ c ≠ '\n')
    (hend : objEnd trail more) (hf : x.length + 1 ≤ fuel) :
    ∃ caps, Regex.run ttlIriMatcher fuel (fun s => some s)
        ⟨pos, lead ++ '<' :: (x ++ '>' :: (trail ++ more)), []⟩
      = some ⟨pos + lead.length + x.length + 2 + trail.length, more, caps⟩ := by
  have hcore : ∀ p, ∃ caps, Regex.run (Regex.cap 1 iriToken) fuel
      (Regex.run (Regex.cat (Regex.star Regex.space false)
        (Regex.cap 2 (Regex.alt (Regex.char ',') Regex.eot))) fuel (fun s => some s))
      ⟨p, '<' :: (x ++ '>' :: (trail ++ more)), []⟩
      = some ⟨p + x.length + 2 + trail.length, more, caps⟩ := by
    intro p
    obtain ⟨caps2, h2⟩ := end_run 2 fuel (p + 1 + x.length + 1) [(1, p, p + 1 + x.length + 1)]
      trail more hend (by omega)
    refine ⟨caps2, ?_⟩
    simp only [iriToken, Regex.seq, run_cap, run_alt, run_cat, run_char, if_true]
    rw [run_bracket fuel _ (p + 1) x (trail ++ more) []
      ⟨p + x.length + 2 + trail.length, more, caps2⟩ hx (by omega), orElse_some]
    simp only []
    rw [h2]
    congr 2
    omega
  simp only [ttlIriMatcher, Regex.seq]
  rw [run_cat, run_star]
  rcases hlead with rfl | rfl
  all_goals simp only [List.nil_append, List.singleton_append, List.length_nil,
    List.length_singleton, Nat.add_zero]
  · obtain ⟨caps, h⟩ := hcore pos
    refine ⟨caps, ?_⟩
    apply loop_lazy_done
    rw [run_cat, h]
  · obtain ⟨caps, h⟩ := hcore (pos + 1)
    refine ⟨caps, ?_⟩
    apply lazy_space_one _ _ _ _ _ _ _ (by omega)
    · rw [run_cat, run_cap, iriToken_blank]
    · rw [run_cat, h]

/-- The search of `ttlIriMatcher` finds nothing at the end of the text. -/
theorem iri_end (fuel pos : Nat) :
    Regex.run ttlIriMatcher fuel (fun s => some s) ⟨pos, [], []⟩ = none := by
  simp only [ttlIriMatcher, Regex.seq, run_cat, run_star]
  apply loop_lazy_fail
  · simp only [run_cap, iriToken, Regex.seq, run_alt, run_cat, run_char_nil, orElse_none,
      run_star]
    apply loop_lazy_fail
    · rw [run_cat, run_char_nil]
    · intro k2
      simp [Regex.nonSpace, run_cls_nil]
  · intro k2
    simp [Regex.space, run_cls_nil]

/-- The repetition `([\S\s]*?[^\\])*?` passes over the value of a literal. -/
theorem value_run (fuel : Nat) (rest : List Char) :
    ∀ (v : List Char) (p f : Nat) (caps : List (Nat × Nat × Nat)), v.length ≤ f →
      (∀ c ∈ v, c ≠ '"' ∧ c ≠ '\\') →
      ∃ caps2, ∀ (k : MState → Option MState) (r : MState),
        (∀ c l q cs, c ≠ '"' → k ⟨q, c :: l, cs⟩ = none) →
        k ⟨p + v.length, rest, caps2⟩ = some r →
        repeatLoop (Regex.run (Regex.cap 1 (Regex.cat (Regex.star Regex.any false)
          (Regex.cls true [('\\', '\\')]))) fuel) false f k ⟨p, v ++ rest, caps⟩ = some r := by
  intro v
  induction v with
  | nil =>
    intro p f caps _ _
    exact ⟨caps, fun k r _ hk => loop_lazy_done _ _ _ _ _ (by simpa using hk)⟩
  | cons c v ih =>
    intro p f caps hf hv
    obtain ⟨f2, rfl⟩ : ∃ f2, f = f2 + 1 := ⟨f - 1, by simp at hf; omega⟩
    obtain ⟨caps2, h⟩ := ih (p + 1) f2 ((1, p, p + 1) :: caps) (by simp at hf; omega)
      (fun c2 h2 => hv c2 (List.mem_cons_of_mem _ h2))
    refine ⟨caps2, fun k r hk0 hk => ?_⟩
    rw [List.cons_append, loop_lazy_step _ _ _ _ (hk0 c _ _ _ (hv c (by simp)).1)]
    rw [run_cap, run_cat, run_star]
    apply loop_lazy_done
    rw [run_cls, if_pos (by simp [inRanges_single, (hv c (by simp)).2])]
    simp only [Nat.lt_add_one, if_true]
    apply h k r hk0
    rw [← hk]
    congr 2
    simp only [List.length_cons]
    omega

/-- The part `(((\^\^|@)(.*?))?)\s*?(,|$)` matches the text behind the value. -/
theorem tail_run (fuel p : Nat) (marker body trail more : List Char)
    (caps : List (Nat × Nat × Nat)) (hm : litMark marker body) (hend : objEnd trail more)
    (hf : body.length + 1 ≤ fuel) :
    ∃ caps2, Regex.run (Regex.cat
        (Regex.cap 2 (Regex.quest (Regex.cap 3 (Regex.cat
          (Regex.cap 4 (Regex.alt (Regex.lit "^^".data) (Regex.char '@')))
          (Regex.cap 5 (Regex.star Regex.dot false)))) true))
        (Regex.cat (Regex.star Regex.space false)
          (Regex.cap 6 (Regex.alt (Regex.char ',') Regex.eot)))) fuel (fun s => some s)
        ⟨p, marker ++ (body ++ (trail ++ more)), caps⟩
      = some ⟨p + marker.length + body.length + trail.length, more, caps2⟩ := by
  obtain ⟨hmk, hb⟩ := hm
  have hlit : Regex.lit "^^".data = Regex.cat (Regex.char '^') (Regex.char '^') := rfl
  have hskip : ∀ (q : Nat) (cs : List (Nat × Nat × Nat)) (k : MState → Option MState)
      (r : MState),
      (∀ i, i < body.length → k ⟨q + i, body.drop i ++ (trail ++ more), cs⟩ = none) →
      k ⟨q + body.length, trail ++ more, cs⟩ = some r →
      repeatLoop (Regex.run Regex.dot fuel) false fuel k ⟨q, body ++ (trail ++ more), cs⟩
        = some r := by
    intro q cs k r h1 h2
    simp only [Regex.dot]
    rw [lazy_cls_skip true [('\n', '\n')] fuel k cs (trail ++ more) body fuel q (by omega)
      (by intro c hc; simp [inRanges_single, (hb c hc).2.2]) h1]
    exact loop_lazy_done _ _ _ _ _ h2
  have hdrop : ∀ i, i < body.length → ∃ c l, body.drop i = c :: l ∧ c ∈ body := by
    intro i hi
    cases hdr : body.drop i with
    | nil => simp at hdr; omega
    | cons c l => exact ⟨c, l, rfl, List.mem_of_mem_drop (by rw [hdr]; simp)⟩
  rcases hmk with rfl | rfl
  · obtain ⟨caps2, h2⟩ := end_run 6 fuel (p + 1 + body.length)
      ((2, p, p + 1 + body.length) :: (3, p, p + 1 + body.length) ::
        (5, p + 1, p + 1 + body.length) :: (4, p, p + 1) :: caps) trail more hend (by omega)
    refine ⟨caps2, ?_⟩
    have hne : ¬ ('@' = '^') := by decide
    simp only [run_cat, run_cap, run_quest_greedy, run_alt, hlit, run_char, hne, if_false,
      orElse_none, List.singleton_append, if_true, run_star]
    rw [hskip _ _ _ ⟨p + 1 + body.length + trail.length, more, caps2⟩, orElse_some]
    · simp only [List.length_singleton]
    · intro i hi
      obtain ⟨c, l, hcl, hc⟩ := hdrop i hi
      simp only [hcl, List.cons_append]
      rw [← run_star]
      exact end_fail 6 fuel _ _ c _ (hb c hc).1 (hb c hc).2.1
    · simp only []
      rw [← run_star]
      exact h2
  · obtain ⟨caps2, h2⟩ := end_run 6 fuel (p + 1 + 1 + body.length)
      ((2, p, p + 1 + 1 + body.length) :: (3, p, p + 1 + 1 + body.length) ::
        (5, p + 1 + 1, p + 1 + 1 + body.length) :: (4, p, p + 1 + 1) :: caps) trail more hend
      (by omega)
    refine ⟨caps2, ?_⟩
    simp only [run_cat, run_cap, run_quest_greedy, run_alt, hlit, run_char, if_true,
      List.cons_append, List.nil_append, run_star]
    rw [hskip _ _ _ ⟨p + 1 + 1 + body.length + trail.length, more, caps2⟩, orElse_some,
      orElse_some]
    · simp only [List.length_cons, List.length_singleton, List.length_nil]
    · intro i hi
      obtain ⟨c, l, hcl, hc⟩ := hdrop i hi
      simp only [hcl, List.cons_append]
      rw [← run_star]
      exact end_fail 6 fuel _ _ c _ (hb c hc).1 (hb c hc).2.1
    · simp only []
      rw [← run_star]
      exact h2

/-- The match of `ttlLiteralMatcher` at a literal. -/
theorem literal_run (fuel pos : Nat) (lead v marker body trail more : List Char)
    (hlead : lead = [] ∨ lead = [' ']) (hv : ∀ c ∈ v, c ≠ '"' ∧ c ≠ '\\')
    (hm : litMark marker body) (hend : objEnd trail more)
    (hf : v.length + body.length + 1 ≤ fuel) :
    ∃ caps, Regex.run ttlLiteralMatcher fuel (fun s => some s)
        ⟨pos, lead ++ '"' :: (v ++ '"' :: (marker ++ (body ++ (trail ++ more)))), []⟩
      = some ⟨pos + lead.length + v.length + 2 + marker.length + body.length + trail.length,
          more, caps⟩ := by
  have hcore : ∀ p, ∃ caps, Regex.run (Regex.seq [Regex.char '"',
      Regex.star (Regex.cap 1 (Regex.cat (Regex.star Regex.any false)
        (Regex.cls true [('\\', '\\')]))) false,
      Regex.char '"',
      Regex.cap 2 (Regex.quest (Regex.cap 3 (Regex.cat
        (Regex.cap 4 (Regex.alt (Regex.lit "^^".data) (Regex.char '@')))
        (Regex.cap 5 (Regex.star Regex.dot false)))) true),
      Regex.star Regex.space false, Regex.cap 6 (Regex.alt (Regex.char ',') Regex.eot)])
      fuel (fun s => some s)
      ⟨p, '"' :: (v ++ '"' :: (marker ++ (body ++ (trail ++ more)))), []⟩
      = some ⟨p + v.length + 2 + marker.length + body.length + trail.length, more, caps⟩ := by
    intro p
    obtain ⟨caps1, h1⟩ := value_run fuel ('"' :: (marker ++ (body ++ (trail ++ more)))) v (p + 1)
      fuel [] (by omega) hv
    obtain ⟨caps2, h2⟩ := tail_run fuel (p + 1 + v.length + 1) marker body trail more caps1 hm
      hend (by omega)
    refine ⟨caps2, ?_⟩
    simp only [Regex.seq]
    rw [run_cat, run_char, if_pos rfl, run_cat, run_star]
    apply h1
    · intro c l q cs hc
      rw [run_cat, run_char, if_neg hc]
    · rw [run_cat, run_char, if_pos rfl, h2]
      congr 2
      omega
  simp only [Regex.seq] at hcore
  simp only [ttlLiteralMatcher, Regex.seq]
  rw [run_cat, run_star]
  rcases hlead with rfl | rfl
  all_goals simp only [List.nil_append, List.singleton_append, List.length_nil,
    List.length_singleton, Nat.add_zero]
  · obtain ⟨caps, h⟩ := hcore pos
    exact ⟨caps, loop_lazy_done _ _ _ _ _ h⟩
  · obtain ⟨caps, h⟩ := hcore (pos + 1)
    refine ⟨caps, ?_⟩
    apply lazy_space_one _ _ _ _ _ _ _ (by omega)
    · have hne : ¬ (' ' = '"') := by decide
      rw [run_cat, run_char, if_neg hne]
    · exact h

/-- No match of `ttlLiteralMatcher` starts at a character that is neither white space nor a
quotation mark. -/
theorem literal_fail (fuel pos : Nat) (c : Char) (rest : List Char) (hw : wsChar c = false)
    (hc : c ≠ '"') :
    Regex.run ttlLiteralMatcher fuel (fun s => some s) ⟨pos, c :: rest, []⟩ = none := by
  simp only [ttlLiteralMatcher, Regex.seq]
  rw [run_cat, run_star]
  apply loop_lazy_fail
  · rw [run_cat, run_char, if_neg hc]
  · intro k2
    rw [run_space, if_neg]
    simp [hw]

/-- No match of `ttlLiteralMatcher` starts at a blank before such a character. -/
theorem literal_fail_blank (fuel pos : Nat) (c : Char) (rest : List Char)
    (hw : wsChar c = false) (hc : c ≠ '"') :
    Regex.run ttlLiteralMatcher fuel (fun s => some s) ⟨pos, ' ' :: c :: rest, []⟩ = none := by
  have hne : ¬ (' ' = '"') := by decide
  have hk : ∀ q l, l = ' ' :: c :: rest ∨ l = c :: rest →
      Regex.run (Regex.seq [Regex.char '"',
      Regex.star (Regex.cap 1 (Regex.cat (Regex.star Regex.any false)
        (Regex.cls true [('\\', '\\')]))) false,
      Regex.char '"',
      Regex.cap 2 (Regex.quest (Regex.cap 3 (Regex.cat
        (Regex.cap 4 (Regex.alt (Regex.lit "^^".data) (Regex.char '@')))
        (Regex.cap 5 (Regex.star Regex.dot false)))) true),
      Regex.star Regex.space false, Regex.cap 6 (Regex.alt (Regex.char ',') Regex.eot)])
      fuel (fun s => some s) ⟨q, l, []⟩ = none := by
    intro q l hl
    simp only [Regex.seq]
    rcases hl with rfl | rfl
    · rw [run_cat, run_char, if_neg hne]
    · rw [run_cat, run_char, if_neg hc]
  simp only [Regex.seq] at hk
  simp only [ttlLiteralMatcher, Regex.seq]
  rw [run_cat, run_star]
  cases fuel with
  | zero => simpa [repeatLoop] using hk pos _ (Or.inl rfl)
  | succ f =>
    rw [loop_lazy_step _ _ _ _ (hk pos _ (Or.inl rfl)), run_space]
    simp only [wsChar, beq_self_eq_true, Bool.or_true, if_true, Nat.lt_add_one]
    apply loop_lazy_fail
    · exact hk _ _ (Or.inr rfl)
    · intro k2
      rw [run_space, if_neg]
      simp [hw]

/-- The search of `ttlLiteralMatcher` finds nothing at the end of the text. -/
theorem literal_end (fuel pos : Nat) :
    Regex.run ttlLiteralMatcher fuel (fun s => some s) ⟨pos, [], []⟩ = none := by
  simp only [ttlLiteralMatcher, Regex.seq]
  rw [run_cat, run_star]
  apply loop_lazy_fail
  · rw [run_cat, run_char_nil]
  · intro k2
    simp [Regex.space, run_cls_nil]

theorem NoStart_nil (P : List Char → Prop) (more : List Char) : NoStart P [] more := by
  intro i hi
  simp at hi

theorem NoStart_cons (P : List Char → Prop) (c : Char) (cs more : List Char)
    (h0 : P (c :: (cs ++ more))) (h : NoStart P cs more) : NoStart P (c :: cs) more := by
  intro i hi
  cases i with
  | zero => simpa using h0
  | succ j =>
    simp only [List.drop_succ_cons]
    exact h j (by simp at hi; omega)

theorem NoStart_append (P : List Char → Prop) (a b more : List Char)
    (ha : NoStart P a (b ++ more)) (hb : NoStart P b more) : NoStart P (a ++ b) more := by
  induction a with
  | nil => simpa using hb
  | cons c a ih =>
    have h0 := ha 0 (by simp)
    simp only [List.drop_zero, List.cons_append] at h0
    rw [List.cons_append]
    apply NoStart_cons
    · simpa using h0
    · apply ih
      intro i hi
      have := ha (i + 1) (by simp; omega)
      simpa using this

theorem NoStart_of_forall (P : List Char → Prop) (Q : Char → Prop) (cs more : List Char)
    (hq : ∀ c ∈ cs, Q c) (hp : ∀ c l, Q c → P (c :: l)) : NoStart P cs more := by
  induction cs with
  | nil => exact NoStart_nil P more
  | cons c cs ih =>
    apply NoStart_cons
    · exact hp c _ (hq c (by simp))
    · exact ih (fun c2 h2 => hq c2 (List.mem_cons_of_mem _ h2))

theorem segText_litSegs (fuel : Nat) (objs : List Node) :
    ∀ pos lead, segText (litSegs fuel pos lead objs) = segsPlain lead objs := by
  induction objs with
  | nil => intro pos lead; rfl
  | cons o rest ih =>
    intro pos lead
    simp only [litSegs, segText, segsPlain, ih]

theorem keptText_litSegs (fuel : Nat) (objs : List Node) :
    ∀ pos lead, keptText (litSegs fuel pos lead objs) = keptPlain lead objs := by
  induction objs with
  | nil => intro pos lead; rfl
  | cons o rest ih =>
    intro pos lead
    cases o <;> simp [litSegs, keptText, keptPlain, isLiteral, ih]

theorem segText_iriSegs (fuel : Nat) (objs : List Node) :
    ∀ pos lead, segText (iriSegs fuel pos lead objs) = keptPlain lead objs := by
  induction objs with
  | nil => intro pos lead; rfl
  | cons o rest ih =>
    intro pos lead
    cases o <;> simp [iriSegs, segText, keptPlain, isLiteral, ih]

theorem objsTail_eq (objs : List Node) : objsTail objs = objTrail objs ++ segsPlain [' '] objs := by
  induction objs with
  | nil => rfl
  | cons o rest ih => simp [objsTail, objTrail, segsPlain, ih]

theorem objsText_eq (objs : List Node) : objsText objs = segsPlain [] objs := by
  cases objs with
  | nil => rfl
  | cons o rest => simp [objsText, segsPlain, objsTail_eq]

theorem objEnd_trail (rest : List Node) (more : List Char) (h : rest = [] → more = []) :
    objEnd (objTrail rest) more := by
  cases rest with
  | nil => exact Or.inl ⟨rfl, h rfl⟩
  | cons o r => exact Or.inr rfl

theorem segsPlain_nil_iff (lead : List Char) (rest : List Node) (h : rest = []) :
    segsPlain lead rest = [] := by
  subst h
  rfl

theorem keptPlain_nil_iff (lead : List Char) (rest : List Node) (h : rest = []) :
    keptPlain lead rest = [] := by
  subst h
  rfl

theorem plainNode_localized (ln : localizedLiteral) (h : plainNode (Node.localized ln) = true) :
    (∀ c ∈ ln.value.data, valueChar c = true) ∧ (∀ c ∈ ln.language.data, tokenChar c = true) ∧
      ln.language ≠ "" ∧ ln.language ≠ "base" ∧ ln.language ≠ "prefix" := by
  simp only [plainNode, Bool.and_eq_true, List.all_eq_true, bne_iff_ne, ne_eq] at h
  tauto

theorem plainNode_typed (tn : typedLiteral) (h : plainNode (Node.typed tn) = true) :
    (∀ c ∈ tn.value.shown.data, valueChar c = true) ∧
      (∀ c ∈ tn.typeNode.iri.data, iriChar c = true) := by
  simp only [plainNode, Bool.and_eq_true, List.all_eq_true] at h
  exact ⟨h.1.1.1, plainIri_chars _ h.1.1.2⟩

theorem plainNode_typed_iri (tn : typedLiteral) (h : plainNode (Node.typed tn) = true) :
    plainIri tn.typeNode.iri = true := by
  simp only [plainNode, Bool.and_eq_true] at h
  exact h.1.1.2

theorem plainNode_value (o : Node) (h : plainNode o = true) :
    match o with
    | Node.named _ => True
    | Node.localized ln => dotSafe ln.value.data = true
    | Node.typed tn => dotSafe tn.value.shown.data = true := by
  cases o with
  | named nn => trivial
  | localized ln =>
    simp only [plainNode, Bool.and_eq_true] at h
    exact h.2
  | typed tn =>
    simp only [plainNode, Bool.and_eq_true] at h
    exact h.1.2

theorem litSegs_named (fuel : Nat) (lead x trail more : List Char)
    (hlead : lead = [] ∨ lead = [' ']) (hx : ∀ c ∈ x, iriChar c = true)
    (htrail : trail = [] ∨ trail = [' ', ',']) :
    NoStart (Fails ttlLiteralMatcher fuel) (lead ++ ('<' :: (x ++ ['>'])) ++ trail) more := by
  refine NoStart_append _ _ _ _ (NoStart_append _ _ _ _ ?_ ?_) ?_
  · rcases hlead with rfl | rfl
    · exact NoStart_nil _ _
    · refine NoStart_cons _ _ _ _ ?_ (NoStart_nil _ _)
      intro pos
      exact literal_fail_blank fuel pos '<' _ (by decide) (by decide)
  · refine NoStart_of_forall _ (fun c => wsChar c = false ∧ c ≠ '"') _ _ ?_ ?_
    · intro c hc
      simp only [List.mem_cons, List.mem_append, List.mem_singleton, List.not_mem_nil,
        or_false] at hc
      rcases hc with rfl | hc | rfl
      · exact ⟨by decide, by decide⟩
      · exact ⟨iriChar_not_ws c (hx c hc), (iriChar_ne c (hx c hc)).1⟩
      · exact ⟨by decide, by decide⟩
    · intro c l hq pos
      exact literal_fail fuel pos c l hq.1 hq.2
  · rcases htrail with rfl | rfl
    · exact NoStart_nil _ _
    · refine NoStart_cons _ _ _ _ ?_ (NoStart_cons _ _ _ _ ?_ (NoStart_nil _ _))
      · intro pos
        exact literal_fail_blank fuel pos ',' _ (by decide) (by decide)
      · intro pos
        exact literal_fail fuel pos ',' _ (by decide) (by decide)

theorem objTrail_cases (rest : List Node) : objTrail rest = [] ∨ objTrail rest = [' ', ','] := by
  cases rest with
  | nil => exact Or.inl rfl
  | cons o r => exact Or.inr rfl

theorem capsAt_eq (re : Regex) (fuel pos : Nat) (text : List Char) (s : MState)
    (h : Regex.run re fuel (fun s => some s) ⟨pos, text, []⟩ = some s) :
    capsAt re fuel pos text = s.caps := by
  simp [capsAt, h]

/-- The search of `ttlLiteralMatcher` in the text of the objects finds the literals. -/
theorem litSegs_ok (fuel : Nat) (objs : List Node) (hpl : ∀ o ∈ objs, plainNode o = true) :
    ∀ pos lead, (lead = [] ∨ lead = [' ']) → (segsPlain lead objs).length < fuel →
      SegOK ttlLiteralMatcher fuel pos (litSegs fuel pos lead objs) := by
  induction objs with
  | nil =>
    intro pos lead _ _
    exact literal_end fuel pos
  | cons o rest ih =>
    intro pos lead hlead hf
    have hrest := ih (fun o2 h2 => hpl o2 (List.mem_cons_of_mem _ h2))
      (pos + (lead ++ nodeText o ++ objTrail rest).length) [' '] (Or.inr rfl)
      (by simp only [segsPlain, List.length_append] at hf ⊢; omega)
    have hend : objEnd (objTrail rest) (segsPlain [' '] rest) :=
      objEnd_trail rest _ (fun h => segsPlain_nil_iff _ _ h)
    have ho := hpl o (by simp)
    cases o with
    | named nn =>
      simp only [litSegs, isLiteral, Bool.false_eq_true, if_false, SegOK, segText_litSegs]
      refine ⟨?_, hrest⟩
      intro i hi
      exact litSegs_named fuel lead nn.iri.data (objTrail rest) (segsPlain [' '] rest) hlead
        (plainIri_chars _ ho) (objTrail_cases rest) i hi (pos + i)
    | localized ln =>
      obtain ⟨hv, hl, _, _, _⟩ := plainNode_localized ln ho
      obtain ⟨caps, hrun⟩ := literal_run fuel pos lead ln.value.data ['@'] ln.language.data
        (objTrail rest) (segsPlain [' '] rest) hlead
        (fun c hc => ⟨(valueChar_ne c (hv c hc)).1, (valueChar_ne c (hv c hc)).2.1⟩)
        ⟨Or.inl rfl, fun c hc => ⟨tokenChar_not_ws c (hl c hc), (tokenChar_ne c (hl c hc)).2.2.2.2.2.1,
          (tokenChar_ne c (hl c hc)).2.2.2.2.2.2.2.2.1⟩⟩ hend
        (by simp only [segsPlain, nodeText, List.length_append, List.length_cons] at hf; omega)
      have htext : (lead ++ nodeText (Node.localized ln) ++ objTrail rest) ++ segsPlain [' '] rest
          = lead ++ '"' :: (ln.value.data ++ '"' :: (['@'] ++ (ln.language.data ++
            (objTrail rest ++ segsPlain [' '] rest)))) := by
        simp [nodeText]
      simp only [litSegs, isLiteral, if_true, SegOK, segText_litSegs]
      refine ⟨by simp [nodeText], ⟨⟨pos + (lead ++ nodeText (Node.localized ln) ++ objTrail rest).length,
        segsPlain [' '] rest, caps⟩, ?_, rfl, ?_⟩, hrest⟩
      · rw [htext, hrun]
        congr 2
        simp [nodeText]
        omega
      · rw [htext, capsAt_eq _ _ _ _ _ hrun]
    | typed tn =>
      obtain ⟨hv, ht⟩ := plainNode_typed tn ho
      obtain ⟨caps, hrun⟩ := literal_run fuel pos lead tn.value.shown.data ['^', '^']
        ('<' :: (tn.typeNode.iri.data ++ ['>']))
        (objTrail rest) (segsPlain [' '] rest) hlead
        (fun c hc => ⟨(valueChar_ne c (hv c hc)).1, (valueChar_ne c (hv c hc)).2.1⟩)
        ⟨Or.inr rfl, fun c hc => by
          simp only [List.mem_cons, List.mem_append, List.mem_singleton, List.not_mem_nil,
            or_false] at hc
          rcases hc with rfl | hc | rfl
          · exact ⟨by decide, by decide, by decide⟩
          · exact ⟨iriChar_not_ws c (ht c hc), (iriChar_ne c (ht c hc)).2.2.2.2.2.1,
              (iriChar_ne c (ht c hc)).2.2.2.2.2.2.2.1⟩
          · exact ⟨by decide, by decide, by decide⟩⟩ hend
        (by simp only [segsPlain, nodeText, List.length_append, List.length_cons] at hf ⊢; omega)
      have htext : (lead ++ nodeText (Node.typed tn) ++ objTrail rest) ++ segsPlain [' '] rest
          = lead ++ '"' :: (tn.value.shown.data ++ '"' :: (['^', '^'] ++
            (('<' :: (tn.typeNode.iri.data ++ ['>'])) ++
            (objTrail rest ++ segsPlain [' '] rest)))) := by
        simp [nodeText]
      simp only [litSegs, isLiteral, if_true, SegOK, segText_litSegs]
      refine ⟨by simp [nodeText], ⟨⟨pos + (lead ++ nodeText (Node.typed tn) ++ objTrail rest).length,
        segsPlain [' '] rest, caps⟩, ?_, rfl, ?_⟩, hrest⟩
      · rw [htext, hrun]
        congr 2
        simp [nodeText]
        omega
      · rw [htext, capsAt_eq _ _ _ _ _ hrun]

/-- The search of `ttlIriMatcher` in the text that is left without the literals finds the
IRIs. -/
theorem iriSegs_ok (fuel : Nat) (objs : List Node) (hpl : ∀ o ∈ objs, plainNode o = true) :
    ∀ pos lead, (lead = [] ∨ lead = [' ']) → (keptPlain lead objs).length < fuel →
      SegOK ttlIriMatcher fuel pos (iriSegs fuel pos lead objs) := by
  induction objs with
  | nil =>
    intro pos lead _ _
    exact iri_end fuel pos
  | cons o rest ih =>
    intro pos lead hlead hf
    have hend : objEnd (objTrail rest) (keptPlain [' '] rest) :=
      objEnd_trail rest _ (fun h => keptPlain_nil_iff _ _ h)
    have ho := hpl o (by simp)
    have hpl2 : ∀ o2 ∈ rest, plainNode o2 = true := fun o2 h2 => hpl o2 (List.mem_cons_of_mem _ h2)
    cases o with
    | named nn =>
      have hrest := ih hpl2
        (pos + (lead ++ nodeText (Node.named nn) ++ objTrail rest).length) [' '] (Or.inr rfl)
        (by simp only [keptPlain, isLiteral, List.length_append] at hf ⊢; simp at hf; omega)
      obtain ⟨caps, hrun⟩ := iri_run fuel pos lead nn.iri.data (objTrail rest)
        (keptPlain [' '] rest) hlead (plainIri_bracket _ ho) hend
        (by
          have hlen : nn.iri.length = nn.iri.data.length := rfl
          simp only [keptPlain, isLiteral, nodeText, List.length_append, List.length_cons]
            at hf
          simp at hf
          omega)
      have htext : (lead ++ nodeText (Node.named nn) ++ objTrail rest) ++ keptPlain [' '] rest
          = lead ++ '<' :: (nn.iri.data ++ '>' :: (objTrail rest ++ keptPlain [' '] rest)) := by
        simp [nodeText]
      simp only [iriSegs, isLiteral, Bool.false_eq_true, if_false, SegOK, segText_iriSegs]
      refine ⟨by simp [nodeText], ⟨⟨pos + (lead ++ nodeText (Node.named nn) ++ objTrail rest).length,
        keptPlain [' '] rest, caps⟩, ?_, rfl, ?_⟩, hrest⟩
      · rw [htext, hrun]
        congr 2
        simp [nodeText]
        omega
      · rw [htext, capsAt_eq _ _ _ _ _ hrun]
    | localized ln =>
      simp only [iriSegs, isLiteral, if_true]
      exact ih hpl2 pos [' '] (Or.inr rfl) (by simpa [keptPlain, isLiteral] using hf)
    | typed tn =>
      simp only [iriSegs, isLiteral, if_true]
      exact ih hpl2 pos [' '] (Or.inr rfl) (by simpa [keptPlain, isLiteral] using hf)

theorem nodeText_head (o : Node) : ∃ h l, nodeText o = h :: l ∧ isSpaceChar h = false := by
  cases o with
  | named nn => exact ⟨'<', _, rfl, by decide⟩
  | localized ln => exact ⟨'"', _, rfl, by decide⟩
  | typed tn => exact ⟨'"', _, rfl, by decide⟩

theorem nodeText_last (o : Node) (ho : plainNode o = true) :
    ∃ c l, nodeText o = l ++ [c] ∧ isSpaceChar c = false ∧ c ≠ ',' := by
  cases o with
  | named nn => exact ⟨'>', '<' :: nn.iri.data, by simp [nodeText], by decide, by decide⟩
  | localized ln =>
    obtain ⟨_, hl, hne, _, _⟩ := plainNode_localized ln ho
    have hlne : ln.language.data ≠ [] := by
      intro h
      apply hne
      apply String.ext
      simpa using h
    obtain ⟨l, c, hlc⟩ : ∃ l c, ln.language.data = l ++ [c] := by
      rcases List.eq_nil_or_concat ln.language.data with h | ⟨l, c, h⟩
      · exact absurd h hlne
      · exact ⟨l, c, by simpa using h⟩
    have hc := hl c (by rw [hlc]; simp)
    exact ⟨c, '"' :: (ln.value.data ++ '"' :: '@' :: l), by simp [nodeText, hlc],
      tokenChar_not_space c hc, (tokenChar_ne c hc).2.2.2.2.2.1⟩
  | typed tn =>
    exact ⟨'>', '"' :: (tn.value.shown.data ++ '"' :: '^' :: '^' :: '<' :: tn.typeNode.iri.data),
      by simp [nodeText], by decide, by decide⟩

/-- The text that `extractObjects` keeps of the match of an object. -/
theorem objectTexts_cons (text pre lead more : List Char) (o : Node) (rest : List Node)
    (caps : List (Nat × Nat × Nat)) (ms : List Match) (ho : plainNode o = true)
    (hlead : lead = [] ∨ lead = [' '])
    (ht : text = pre ++ (lead ++ nodeText o ++ objTrail rest) ++ more) :
    objectTexts text
        (⟨pre.length, pre.length + (lead ++ nodeText o ++ objTrail rest).length, caps⟩ :: ms)
      = (objectTexts text ms).bind (fun l => Outcome.ok
          (String.mk (nodeText o ++ objBlank rest) :: l)) := by
  have htext : Match.text ⟨pre.length,
      pre.length + (lead ++ nodeText o ++ objTrail rest).length, caps⟩ text 0
      = lead ++ nodeText o ++ objTrail rest := by
    simp only [Match.text, Match.group, beq_self_eq_true, if_true, ht]
    have e : pre.length + (lead ++ nodeText o ++ objTrail rest).length - pre.length
        = (lead ++ nodeText o ++ objTrail rest).length := by omega
    rw [e, List.append_assoc pre, List.drop_left, List.take_left]
  obtain ⟨h, l1, hh, hhs⟩ := nodeText_head o
  obtain ⟨c, l2, hl, hcs, hcc⟩ := nodeText_last o ho
  have hleadsp : ∀ x ∈ lead, isSpaceChar x = true := by
    rcases hlead with rfl | rfl
    · simp
    · simp [isSpaceChar]
  have htrim : trimSpaceChars (lead ++ nodeText o ++ objTrail rest) = nodeText o ++ objTrail rest := by
    have := trimSpaceChars_core lead (nodeText o ++ objTrail rest) [] hleadsp (by simp)
      (by rw [hh]; simpa using hhs)
      (by
        cases rest with
        | nil => simp [objTrail, hl, hcs]
        | cons o2 r => simp [objTrail, List.getLast?_append, isSpaceChar])
    simpa using this
  rw [objectTexts]
  simp only [htext, htrim]
  cases rest with
  | nil =>
    have hlast : (nodeText o).getLast? = some c := by simp [hl]
    have hne : (c == ',') = false := by simpa using hcc
    simp only [objTrail, List.append_nil, hlast, hne, Bool.false_eq_true, if_false, objBlank]
  | cons o2 r =>
    have hlast : (nodeText o ++ objTrail (o2 :: r)).getLast? = some ',' := by
      simp [objTrail, List.getLast?_append]
    have hd : (nodeText o ++ objTrail (o2 :: r)).dropLast = nodeText o ++ [' '] := by
      have : nodeText o ++ objTrail (o2 :: r) = (nodeText o ++ [' ']) ++ [','] := by
        simp [objTrail]
      rw [this, List.dropLast_concat]
    simp only [hlast, beq_self_eq_true, if_true, hd, objBlank]

theorem objectTexts_litSegs (fuel : Nat) (text : List Char) (objs : List Node)
    (hpl : ∀ o ∈ objs, plainNode o = true) :
    ∀ (pre lead : List Char), (lead = [] ∨ lead = [' ']) → text = pre ++ segsPlain lead objs →
      objectTexts text (matchesOf pre.length (litSegs fuel pre.length lead objs))
        = Outcome.ok (objPieces isLiteral objs) := by
  induction objs with
  | nil => intro pre lead _ _; rfl
  | cons o rest ih =>
    intro pre lead hlead ht
    have hpl2 : ∀ o2 ∈ rest, plainNode o2 = true := fun o2 h2 => hpl o2 (List.mem_cons_of_mem _ h2)
    have ht2 : text = (pre ++ (lead ++ nodeText o ++ objTrail rest)) ++ segsPlain [' '] rest := by
      rw [ht, segsPlain]
      simp
    have hih := ih hpl2 (pre ++ (lead ++ nodeText o ++ objTrail rest)) [' '] (Or.inr rfl) ht2
    rw [List.length_append] at hih
    by_cases hlit : isLiteral o = true
    · simp only [litSegs, hlit, if_true, matchesOf, objPieces]
      rw [objectTexts_cons text pre lead (segsPlain [' '] rest) o rest _ _ (hpl o (by simp)) hlead
        (by rw [ht2]), hih]
      rfl
    · simp only [litSegs, hlit, if_false, matchesOf, objPieces]
      exact hih

theorem objectTexts_iriSegs (fuel : Nat) (text : List Char) (objs : List Node)
    (hpl : ∀ o ∈ objs, plainNode o = true) :
    ∀ (pre lead : List Char), (lead = [] ∨ lead = [' ']) → text = pre ++ keptPlain lead objs →
      objectTexts text (matchesOf pre.length (iriSegs fuel pre.length lead objs))
        = Outcome.ok (objPieces (fun o => !isLiteral o) objs) := by
  induction objs with
  | nil => intro pre lead _ _; rfl
  | cons o rest ih =>
    intro pre lead hlead ht
    have hpl2 : ∀ o2 ∈ rest, plainNode o2 = true := fun o2 h2 => hpl o2 (List.mem_cons_of_mem _ h2)
    by_cases hlit : isLiteral o = true
    · have ht2 : text = pre ++ keptPlain [' '] rest := by
        rw [ht, keptPlain]
        simp [hlit]
      simp only [iriSegs, hlit, if_true, objPieces, Bool.not_true, Bool.false_eq_true, if_false]
      exact ih hpl2 pre [' '] (Or.inr rfl) ht2
    · have ht2 : text = (pre ++ (lead ++ nodeText o ++ objTrail rest)) ++ keptPlain [' '] rest := by
        rw [ht, keptPlain]
        simp [hlit]
      have hih := ih hpl2 (pre ++ (lead ++ nodeText o ++ objTrail rest)) [' '] (Or.inr rfl) ht2
      rw [List.length_append] at hih
      have hlit2 : isLiteral o = false := by simpa using hlit
      simp only [iriSegs, hlit2, Bool.false_eq_true, if_false, matchesOf, objPieces, Bool.not_false,
        if_true]
      rw [objectTexts_cons text pre lead (keptPlain [' '] rest) o rest _ _ (hpl o (by simp)) hlead
        (by rw [ht2]), hih]
      rfl

/-- The texts that `extractObjects` finds in the text of the objects of a predicate: the
literals first, then the IRIs. -/
theorem extractObjects_text (p : TurtleParser) (objs : List Node)
    (hpl : ∀ o ∈ objs, plainNode o = true) :
    p.extractObjects (String.mk (objsText objs))
      = Outcome.ok (objPieces isLiteral objs ++ objPieces (fun o => !isLiteral o) objs) := by
  have hseg : segText (litSegs ((objsText objs).length + 1) 0 [] objs) = objsText objs := by
    rw [segText_litSegs, objsText_eq]
  have hok := litSegs_ok ((objsText objs).length + 1) objs hpl 0 [] (Or.inl rfl)
    (by rw [← objsText_eq]; omega)
  have hm := allMatches_segs ttlLiteralMatcher (litSegs ((objsText objs).length + 1) 0 [] objs)
    (by rw [hseg]; exact hok)
  have hr := ReplaceAllString_segs ttlLiteralMatcher
    (litSegs ((objsText objs).length + 1) 0 [] objs) (by rw [hseg]; exact hok)
  rw [hseg] at hm hr
  rw [keptText_litSegs] at hr
  have hseg2 : segText (iriSegs ((keptPlain [] objs).length + 1) 0 [] objs) = keptPlain [] objs :=
    segText_iriSegs _ _ _ _
  have hok2 := iriSegs_ok ((keptPlain [] objs).length + 1) objs hpl 0 [] (Or.inl rfl) (by omega)
  have hm2 := allMatches_segs ttlIriMatcher (iriSegs ((keptPlain [] objs).length + 1) 0 [] objs)
    (by rw [hseg2]; exact hok2)
  rw [hseg2] at hm2
  have h1 := objectTexts_litSegs ((objsText objs).length + 1) (objsText objs) objs hpl [] []
    (Or.inl rfl) (by rw [objsText_eq]; rfl)
  have h2 := objectTexts_iriSegs ((keptPlain [] objs).length + 1) (keptPlain [] objs) objs hpl
    [] [] (Or.inl rfl) rfl
  simp only [List.length_nil] at h1 h2
  simp only [TurtleParser.extractObjects, hm, hr, hm2, h1, h2, Outcome.bind]

theorem getElem?_append_mid (a : List Char) (c : Char) (b : List Char) :
    (a ++ c :: b)[a.length]? = some c := by
  rw [List.getElem?_append_right (le_refl _)]
  simp

theorem getElem?_mid_eq (l a b : List Char) (c : Char) (i : Nat) (hl : l = a ++ c :: b)
    (hi : i = a.length) : l[i]? = some c := by
  subst hl hi
  exact getElem?_append_mid a c b

/-- The texts that the loop of `extractStatements` and `extractSubStatements` cuts out. -/
theorem extractClauses_marked (mark : Char) (str fin : List Char)
    (hfin : fin = [mark] ∨ fin = []) :
    ∀ (zs : List (List Char)) (z pre : List Char) (m : Match) (ms : List Match) (g e : Nat),
      str = pre ++ joinMarked mark (z :: zs) ++ fin →
      (∀ y ∈ z :: zs, y ≠ []) →
      (fin = [] → ∀ c ∈ (joinMarked mark (z :: zs)).getLast?, c ≠ mark) →
      m.group 1 = some (g, e) →
      ((g = pre.length ∧ ∀ c ∈ z.head?, c ≠ mark) ∨ (g + 1 = pre.length ∧ str[g]? = some mark)) →
      MarksAt pre.length (z :: zs) ms →
      extractClauses mark str (m :: ms)
        = Outcome.ok ((z :: zs).map (fun y => String.mk (trimSpaceChars y))) := by
  intro zs
  induction zs with
  | nil =>
    intro z pre m ms g e hstr hne hlast hg hpos hmarks
    simp only [MarksAt] at hmarks
    subst hmarks
    have hz : z ≠ [] := hne z (by simp)
    obtain ⟨zc, zl, rfl⟩ := List.exists_cons_of_ne_nil hz
    simp only [joinMarked] at hstr hlast
    have hc1 : ∃ c1, str[g]? = some c1 ∧ (if c1 == mark then g + 1 else g) = pre.length := by
      rcases hpos with ⟨h1, h2⟩ | ⟨h1, h2⟩
      · refine ⟨zc, ?_, ?_⟩
        · exact getElem?_mid_eq str pre (zl ++ fin) zc g (by rw [hstr]; simp) h1
        · have : (zc == mark) = false := by simpa using h2 zc (by simp)
          simp [this, h1]
      · exact ⟨mark, h2, by simp [h1]⟩
    obtain ⟨c1, hc1a, hc1b⟩ := hc1
    have hpiece : ∃ c2, str[str.length - 1]? = some c2 ∧
        sliceChars str pre.length ((if c2 == mark then str.length - 1 - 1 else str.length - 1) + 1)
          = some (zc :: zl) := by
      rcases hfin with rfl | rfl
      · refine ⟨mark, ?_, ?_⟩
        · exact getElem?_mid_eq str (pre ++ zc :: zl) [] mark _ (by simp [hstr])
            (by simp [hstr])
        · simp only [beq_self_eq_true, if_true]
          apply sliceChars_mid_eq str pre (zc :: zl) [mark] _ _ hstr rfl
          rw [hstr]
          simp; omega
      · obtain ⟨lc, hlc⟩ : ∃ lc, (zc :: zl).getLast? = some lc := by
          cases h : (zc :: zl).getLast? with
          | none => simp at h
          | some lc => exact ⟨lc, rfl⟩
        have hlm := hlast rfl lc hlc
        obtain ⟨ys, hys⟩ := List.getLast?_eq_some_iff.mp hlc
        refine ⟨lc, ?_, ?_⟩
        · exact getElem?_mid_eq str (pre ++ ys) [] lc _ (by simp [hstr, hys])
            (by simp [hstr, hys])
        · have : (lc == mark) = false := by simpa using hlm
          simp only [this, Bool.false_eq_true, if_false]
          apply sliceChars_mid_eq str pre (zc :: zl) [] _ _ (by simp [hstr]) rfl
          rw [hstr]
          simp; omega
    obtain ⟨c2, hc2a, hc2b⟩ := hpiece
    simp only [extractClauses, hg, Outcome.ofOption, Outcome.bind, hc1a, hc1b, hc2a, hc2b,
      List.map_cons, List.map_nil]
  | cons z2 zs ih =>
    intro z pre m ms g e hstr hne hlast hg hpos hmarks
    cases ms with
    | nil => simp [MarksAt] at hmarks
    | cons m2 ms2 =>
      simp only [MarksAt] at hmarks
      obtain ⟨⟨e2, hg2⟩, hmarks2⟩ := hmarks
      have hz : z ≠ [] := hne z (by simp)
      obtain ⟨zc, zl, rfl⟩ := List.exists_cons_of_ne_nil hz
      simp only [joinMarked] at hstr hlast
      have hstr2 : str = (pre ++ (zc :: zl) ++ [mark]) ++ joinMarked mark (z2 :: zs) ++ fin := by
        rw [hstr]
        simp
      have hc1 : ∃ c1, str[g]? = some c1 ∧ (if c1 == mark then g + 1 else g) = pre.length := by
        rcases hpos with ⟨h1, h2⟩ | ⟨h1, h2⟩
        · refine ⟨zc, ?_, ?_⟩
          · exact getElem?_mid_eq str pre (zl ++ mark :: (joinMarked mark (z2 :: zs) ++ fin)) zc g
              (by rw [hstr]; simp) h1
          · have : (zc == mark) = false := by simpa using h2 zc (by simp)
            simp [this, h1]
        · exact ⟨mark, h2, by simp [h1]⟩
      obtain ⟨c1, hc1a, hc1b⟩ := hc1
      have hmk : str[pre.length + (zc :: zl).length]? = some mark := by
        exact getElem?_mid_eq str (pre ++ (zc :: zl)) (joinMarked mark (z2 :: zs) ++ fin) mark _
          (by rw [hstr]; simp) (by simp)
      have hslice : sliceChars str pre.length (pre.length + (zc :: zl).length - 1 + 1)
          = some (zc :: zl) := by
        apply sliceChars_mid_eq str pre (zc :: zl)
          (mark :: (joinMarked mark (z2 :: zs) ++ fin)) _ _ (by simp [hstr]) rfl
        simp; omega
      have hrec := ih z2 (pre ++ (zc :: zl) ++ [mark]) m2 ms2 (pre.length + (zc :: zl).length) e2
        hstr2 (fun y hy => hne y (List.mem_cons_of_mem _ hy))
        (fun hf c hc => hlast hf c (by
          have hj : (joinMarked mark (z2 :: zs)) ≠ [] := by
            have hz2 : z2 ≠ [] := hne z2 (by simp)
            cases zs with
            | nil => simpa [joinMarked] using hz2
            | cons z3 r => simp [joinMarked]
          obtain ⟨a, l, hal⟩ := List.exists_cons_of_ne_nil hj
          rw [hal] at hc ⊢
          have e3 : zc :: zl ++ mark :: a :: l = (zc :: zl ++ [mark]) ++ a :: l := by simp
          rw [e3, List.getLast?_append]
          simp only [Option.mem_def] at hc ⊢
          rw [hc]
          rfl))
        hg2 (Or.inr ⟨by simp; omega, hmk⟩) (by simpa using hmarks2)
      rw [extractClauses]
      simp only [hg, Outcome.ofOption, Outcome.bind, hc1a, hc1b, hg2, hmk, beq_self_eq_true,
        if_true, hslice, hrec, List.map_cons]

theorem seq_cons2 (r r2 : Regex) (rest : List Regex) :
    Regex.seq (r :: r2 :: rest) = Regex.cat r (Regex.seq (r2 :: rest)) := rfl

theorem seq_single (r : Regex) : Regex.seq [r] = r := rfl

theorem orElse_of_some (a : Option MState) (b : Unit → Option MState) (r : MState)
    (h : a = some r) : orElse a b = some r := by
  subst h
  rfl

theorem orElse_both (a : Option MState) (b : Unit → Option MState) (ha : a = none)
    (hb : b () = none) : orElse a b = none := by
  subst ha
  exact hb

/-- Group 1 of a clause matcher, `(^|\n|m)`, at the start of the text. -/
theorem mark_group_first (m : Char) (fuel : Nat) (k : MState → Option MState)
    (rest : List Char) (r : MState) (hk : k ⟨0, rest, [(1, 0, 0)]⟩ = some r) :
    Regex.run (Regex.cap 1 (Regex.alt Regex.bot (Regex.alt (Regex.char '\n') (Regex.char m))))
      fuel k ⟨0, rest, []⟩ = some r := by
  rw [run_cap, run_alt, run_bot]
  simp only [if_true]
  exact orElse_of_some _ _ _ hk

/-- Group 1 of a clause matcher, `(^|\n|m)`, at the mark behind the start of the text. -/
theorem mark_group_next (m : Char) (fuel : Nat) (k : MState → Option MState) (q : Nat)
    (rest : List Char) (hq : 0 < q) (hm : m ≠ '\n') :
    Regex.run (Regex.cap 1 (Regex.alt Regex.bot (Regex.alt (Regex.char '\n') (Regex.char m))))
      fuel k ⟨q, m :: rest, []⟩ = k ⟨q + 1, rest, [(1, q, q + 1)]⟩ := by
  have hq2 : ¬ (q = 0) := by omega
  rw [run_cap, run_alt, run_bot]
  simp only [hq2, if_false, orElse_none, run_alt, run_char, hm, if_true]

/-- Group 1 of a clause matcher, `(^|\n|m)`, fails at another character behind the start. -/
theorem mark_group_fail (m : Char) (fuel : Nat) (k : MState → Option MState) (q : Nat)
    (c : Char) (rest : List Char) (hq : 0 < q) (h1 : c ≠ '\n') (h2 : c ≠ m) :
    Regex.run (Regex.cap 1 (Regex.alt Regex.bot (Regex.alt (Regex.char '\n') (Regex.char m))))
      fuel k ⟨q, c :: rest, []⟩ = none := by
  have hq2 : ¬ (q = 0) := by omega
  rw [run_cap, run_alt, run_bot]
  simp only [hq2, if_false, orElse_none, run_alt, run_char, h1, h2]

theorem mark_group_end (m : Char) (fuel : Nat) (k : MState → Option MState) (q : Nat)
    (hq : 0 < q) :
    Regex.run (Regex.cap 1 (Regex.alt Regex.bot (Regex.alt (Regex.char '\n') (Regex.char m))))
      fuel k ⟨q, [], []⟩ = none := by
  have hq2 : ¬ (q = 0) := by omega
  rw [run_cap, run_alt, run_bot]
  simp only [hq2, if_false, orElse_none, run_alt, run_char_nil]

/-- The part `(a|<.*?>|\S*?:\S+?)\s+` of `ttlSubStatementMatcher` at an IRI in angle
brackets. -/
theorem sub_token (fuel p : Nat) (x rest : List Char) (caps : List (Nat × Nat × Nat))
    (hx : ∀ c ∈ x, c ≠ '>' ∧ c ≠ '\n') (hf : x.length ≤ fuel)
    (hr : ∀ y ∈ rest.head?, wsChar y = false) :
    Regex.run (Regex.cat (Regex.cap 2 (Regex.alt (Regex.char 'a') iriToken))
        (Regex.plus Regex.space true)) fuel (fun s => some s)
        ⟨p, '<' :: (x ++ '>' :: ' ' :: rest), caps⟩
      = some ⟨p + x.length + 3, rest, (2, p, p + x.length + 2) :: caps⟩ := by
  have hne : ¬ ('<' = 'a') := by decide
  simp only [iriToken, Regex.seq, run_cat, run_cap, run_alt, run_char, hne, if_false,
    orElse_none, if_true]
  rw [run_bracket fuel _ (p + 1) x (' ' :: rest) _
    ⟨p + x.length + 3, rest, (2, p, p + x.length + 2) :: caps⟩ hx hf, orElse_some]
  simp only [run_plus, run_space]
  simp only [wsChar, beq_self_eq_true, Bool.or_true, if_true]
  have e1 : p + 1 + x.length + 1 + 1 = p + x.length + 3 := by omega
  have e2 : p + 1 + x.length + 1 = p + x.length + 2 := by omega
  rw [e1, e2]
  exact greedy_space_stop fuel fuel (fun s => some s) _ rest _ hr

theorem sub_token_blank (fuel p : Nat) (rest : List Char) (caps : List (Nat × Nat × Nat)) :
    Regex.run (Regex.cat (Regex.cap 2 (Regex.alt (Regex.char 'a') iriToken))
        (Regex.plus Regex.space true)) fuel (fun s => some s) ⟨p, ' ' :: rest, caps⟩ = none := by
  have hne : ¬ (' ' = 'a') := by decide
  rw [run_cat, run_cap, run_alt, run_char, if_neg hne, orElse_none, iriToken_blank]

/-- The first match of `ttlSubStatementMatcher`: the predicate at the start of the text. -/
theorem sub_run_first (fuel : Nat) (x rest : List Char)
    (hx : ∀ c ∈ x, c ≠ '>' ∧ c ≠ '\n') (hf : x.length ≤ fuel)
    (hr : ∀ y ∈ rest.head?, wsChar y = false) :
    Regex.run ttlSubStatementMatcher fuel (fun s => some s)
        ⟨0, '<' :: (x ++ '>' :: ' ' :: rest), []⟩
      = some ⟨x.length + 3, rest, [(2, 0, x.length + 2), (1, 0, 0)]⟩ := by
  simp only [ttlSubStatementMatcher, Regex.seq]
  rw [run_cat]
  apply mark_group_first
  rw [run_cat, run_star]
  apply loop_lazy_done
  rw [sub_token fuel 0 x rest _ hx hf hr]
  simp

/-- A further match of `ttlSubStatementMatcher`: `;`, a blank and the predicate. -/
theorem sub_run_next (fuel q : Nat) (x rest : List Char) (hq : 0 < q)
    (hx : ∀ c ∈ x, c ≠ '>' ∧ c ≠ '\n') (hf : x.length + 1 ≤ fuel)
    (hr : ∀ y ∈ rest.head?, wsChar y = false) :
    Regex.run ttlSubStatementMatcher fuel (fun s => some s)
        ⟨q, ';' :: ' ' :: '<' :: (x ++ '>' :: ' ' :: rest), []⟩
      = some ⟨q + x.length + 5, rest, [(2, q + 2, q + x.length + 4), (1, q, q + 1)]⟩ := by
  simp only [ttlSubStatementMatcher, Regex.seq]
  rw [run_cat, mark_group_next ';' fuel _ q _ hq (by decide), run_cat, run_star]
  apply lazy_space_one _ _ _ _ _ _ _ (by omega)
  · exact sub_token_blank fuel _ _ _
  · rw [sub_token fuel (q + 1 + 1) x rest _ hx (by omega) hr]
    congr 2
    · omega
    · simp only [List.cons.injEq, Prod.mk.injEq, true_and, and_true]
      omega

theorem sub_fail (fuel q : Nat) (c : Char) (rest : List Char) (hq : 0 < q) (h1 : c ≠ '\n')
    (h2 : c ≠ ';') :
    Regex.run ttlSubStatementMatcher fuel (fun s => some s) ⟨q, c :: rest, []⟩ = none := by
  simp only [ttlSubStatementMatcher, Regex.seq]
  rw [run_cat, mark_group_fail ';' fuel _ q c rest hq h1 h2]

theorem sub_end (fuel q : Nat) (hq : 0 < q) :
    Regex.run ttlSubStatementMatcher fuel (fun s => some s) ⟨q, [], []⟩ = none := by
  simp only [ttlSubStatementMatcher, Regex.seq]
  rw [run_cat, mark_group_end ';' fuel _ q hq]

/-- The part `(<.*?>|[A-Za-z0-9_-]*?:\S+?)\s+` of `ttlStatementMatcher` at an IRI in angle
brackets. -/
theorem st_token (fuel p : Nat) (x rest : List Char) (caps : List (Nat × Nat × Nat))
    (hx : ∀ c ∈ x, c ≠ '>' ∧ c ≠ '\n') (hf : x.length ≤ fuel)
    (hr : ∀ y ∈ rest.head?, wsChar y = false) :
    Regex.run (Regex.cat (Regex.cap 2 (Regex.alt
      (Regex.seq [Regex.char '<', Regex.star Regex.dot false, Regex.char '>'])
      (Regex.seq [Regex.star (Regex.cls false
          [('A', 'Z'), ('a', 'z'), ('0', '9'), ('_', '_'), ('-', '-')]) false,
        Regex.char ':', Regex.plus Regex.nonSpace false])))
        (Regex.plus Regex.space true)) fuel (fun s => some s)
        ⟨p, '<' :: (x ++ '>' :: ' ' :: rest), caps⟩
      = some ⟨p + x.length + 3, rest, (2, p, p + x.length + 2) :: caps⟩ := by
  simp only [Regex.seq, run_cat, run_cap, run_alt, run_char, if_true]
  rw [run_bracket fuel _ (p + 1) x (' ' :: rest) _
    ⟨p + x.length + 3, rest, (2, p, p + x.length + 2) :: caps⟩ hx hf, orElse_some]
  simp only [run_plus, run_space]
  simp only [wsChar, beq_self_eq_true, Bool.or_true, if_true]
  have e1 : p + 1 + x.length + 1 + 1 = p + x.length + 3 := by omega
  have e2 : p + 1 + x.length + 1 = p + x.length + 2 := by omega
  rw [e1, e2]
  exact greedy_space_stop fuel fuel (fun s => some s) _ rest _ hr

/-- The first match of `ttlStatementMatcher`: the subject at the start of the text. -/
theorem st_run_first (fuel : Nat) (x rest : List Char)
    (hx : ∀ c ∈ x, c ≠ '>' ∧ c ≠ '\n') (hf : x.length ≤ fuel)
    (hr : ∀ y ∈ rest.head?, wsChar y = false) :
    Regex.run ttlStatementMatcher fuel (fun s => some s)
        ⟨0, '<' :: (x ++ '>' :: ' ' :: rest), []⟩
      = some ⟨x.length + 3, rest, [(2, 0, x.length + 2), (1, 0, 0)]⟩ := by
  simp only [ttlStatementMatcher]
  rw [seq_cons2, run_cat]
  apply mark_group_first
  rw [seq_cons2, run_cat, run_star]
  apply loop_lazy_done
  have := st_token fuel 0 x rest [(1, 0, 0)] hx hf hr
  simp only [Nat.zero_add] at this
  rw [← this]
  rfl

/-- A further match of `ttlStatementMatcher`: `.` and the subject. -/
theorem st_run_next (fuel q : Nat) (x rest : List Char) (hq : 0 < q)
    (hx : ∀ c ∈ x, c ≠ '>' ∧ c ≠ '\n') (hf : x.length ≤ fuel)
    (hr : ∀ y ∈ rest.head?, wsChar y = false) :
    Regex.run ttlStatementMatcher fuel (fun s => some s)
        ⟨q, '.' :: '<' :: (x ++ '>' :: ' ' :: rest), []⟩
      = some ⟨q + x.length + 4, rest, [(2, q + 1, q + x.length + 3), (1, q, q + 1)]⟩ := by
  simp only [ttlStatementMatcher]
  rw [seq_cons2, run_cat, mark_group_next '.' fuel _ q _ hq (by decide), seq_cons2,
    run_cat, run_star]
  apply loop_lazy_done
  have := st_token fuel (q + 1) x rest [(1, q, q + 1)] hx hf hr
  have e1 : q + 1 + x.length + 3 = q + x.length + 4 := by omega
  have e2 : q + 1 + x.length + 2 = q + x.length + 3 := by omega
  rw [e1, e2] at this
  rw [← this]
  rfl

theorem st_fail (fuel q : Nat) (c : Char) (rest : List Char) (hq : 0 < q) (h1 : c ≠ '\n')
    (h2 : c ≠ '.') :
    Regex.run ttlStatementMatcher fuel (fun s => some s) ⟨q, c :: rest, []⟩ = none := by
  simp only [ttlStatementMatcher]
  rw [seq_cons2, run_cat, mark_group_fail '.' fuel _ q c rest hq h1 h2]

theorem st_end (fuel q : Nat) (hq : 0 < q) :
    Regex.run ttlStatementMatcher fuel (fun s => some s) ⟨q, [], []⟩ = none := by
  simp only [ttlStatementMatcher]
  rw [seq_cons2, run_cat, mark_group_end '.' fuel _ q hq]

/-- No match of `ttlStatementMatcher` starts at the `.` at the end of the text. -/
theorem st_fail_last (fuel q : Nat) (hq : 0 < q) :
    Regex.run ttlStatementMatcher fuel (fun s => some s) ⟨q, ['.'], []⟩ = none := by
  simp only [ttlStatementMatcher]
  rw [seq_cons2, run_cat, mark_group_next '.' fuel _ q _ hq (by decide), seq_cons2,
    run_cat, run_star]
  apply loop_lazy_fail
  · simp only [Regex.seq, run_cat, run_cap, run_alt, run_char_nil, orElse_none, run_star]
    apply loop_lazy_fail
    · rw [run_cat, run_char_nil]
    · intro k2
      exact run_cls_nil _ _ _ _ _ _
  · intro k2
    simp [Regex.space, run_cls_nil]

theorem nodeText_chars (o : Node) (ho : plainNode o = true) :
    ∀ c ∈ nodeText o, c ≠ '\n' ∧ c ≠ ';' := by
  intro c hc
  cases o with
  | named nn =>
    simp only [nodeText, List.mem_cons, List.mem_append, List.mem_singleton,
      List.not_mem_nil, or_false] at hc
    rcases hc with rfl | hc | rfl
    · exact ⟨by decide, by decide⟩
    · have := iriChar_ne c (plainIri_chars _ ho c hc)
      tauto
    · exact ⟨by decide, by decide⟩
  | localized ln =>
    obtain ⟨hv, hl, _, _, _⟩ := plainNode_localized ln ho
    simp only [nodeText, List.mem_cons, List.mem_append] at hc
    rcases hc with rfl | hc | rfl | rfl | hc
    · exact ⟨by decide, by decide⟩
    · have := valueChar_ne c (hv c hc)
      tauto
    · exact ⟨by decide, by decide⟩
    · exact ⟨by decide, by decide⟩
    · have := tokenChar_ne c (hl c hc)
      tauto
  | typed tn =>
    obtain ⟨hv, ht⟩ := plainNode_typed tn ho
    simp only [nodeText, List.mem_cons, List.mem_append, List.mem_singleton,
      List.not_mem_nil, or_false] at hc
    rcases hc with rfl | hc | rfl | rfl | rfl | rfl | hc | rfl
    · exact ⟨by decide, by decide⟩
    · have := valueChar_ne c (hv c hc)
      tauto
    · exact ⟨by decide, by decide⟩
    · exact ⟨by decide, by decide⟩
    · exact ⟨by decide, by decide⟩
    · exact ⟨by decide, by decide⟩
    · have := iriChar_ne c (ht c hc)
      tauto
    · exact ⟨by decide, by decide⟩

theorem objsTail_chars (objs : List Node) (h : ∀ o ∈ objs, plainNode o = true) :
    ∀ c ∈ objsTail objs, c ≠ '\n' ∧ c ≠ ';' := by
  induction objs with
  | nil => intro c hc; simp [objsTail] at hc
  | cons o rest ih =>
    intro c hc
    simp only [objsTail, List.mem_cons, List.mem_append] at hc
    rcases hc with rfl | rfl | rfl | hc | hc
    · exact ⟨by decide, by decide⟩
    · exact ⟨by decide, by decide⟩
    · exact ⟨by decide, by decide⟩
    · exact nodeText_chars o (h o (by simp)) c hc
    · exact ih (fun o2 h2 => h o2 (List.mem_cons_of_mem _ h2)) c hc

theorem objsText_chars (objs : List Node) (h : ∀ o ∈ objs, plainNode o = true) :
    ∀ c ∈ objsText objs, c ≠ '\n' ∧ c ≠ ';' := by
  cases objs with
  | nil => intro c hc; simp [objsText] at hc
  | cons o rest =>
    intro c hc
    simp only [objsText, List.mem_append] at hc
    rcases hc with hc | hc
    · exact nodeText_chars o (h o (by simp)) c hc
    · exact objsTail_chars rest (fun o2 h2 => h o2 (List.mem_cons_of_mem _ h2)) c hc

theorem objsText_head (objs : List Node) (hne : objs ≠ []) :
    ∃ h l, objsText objs = h :: l ∧ isSpaceChar h = false ∧ wsChar h = false ∧ h ≠ ';'
      ∧ h ≠ '.' := by
  obtain ⟨o, rest, rfl⟩ := List.exists_cons_of_ne_nil hne
  cases o with
  | named nn => exact ⟨'<', _, rfl, by decide, by decide, by decide, by decide⟩
  | localized ln => exact ⟨'"', _, rfl, by decide, by decide, by decide, by decide⟩
  | typed tn => exact ⟨'"', _, rfl, by decide, by decide, by decide, by decide⟩

theorem objsTail_last (objs : List Node) (h : ∀ o ∈ objs, plainNode o = true) (c0 : Char)
    (l0 : List Char) (h0 : isSpaceChar c0 = false ∧ c0 ≠ ',' ∧ c0 ≠ ';') :
    ∃ c l, l0 ++ [c0] ++ objsTail objs = l ++ [c] ∧ isSpaceChar c = false ∧ c ≠ ';' := by
  induction objs generalizing c0 l0 with
  | nil => exact ⟨c0, l0, by simp [objsTail], h0.1, h0.2.2⟩
  | cons o rest ih =>
    obtain ⟨c1, l1, hl1, hs1, hc1⟩ := nodeText_last o (h o (by simp))
    have hsemi : c1 ≠ ';' := by
      have := nodeText_chars o (h o (by simp)) c1 (by rw [hl1]; simp)
      exact this.2
    obtain ⟨c, l, hcl, hcs, hcc⟩ := ih (fun o2 h2 => h o2 (List.mem_cons_of_mem _ h2)) c1
      (l0 ++ [c0] ++ [' ', ',', ' '] ++ l1) ⟨hs1, hc1, hsemi⟩
    refine ⟨c, l, ?_, hcs, hcc⟩
    rw [← hcl]
    simp [objsTail, hl1]

theorem objsText_last (objs : List Node) (hne : objs ≠ [])
    (h : ∀ o ∈ objs, plainNode o = true) :
    ∃ c l, objsText objs = l ++ [c] ∧ isSpaceChar c = false ∧ c ≠ ';' := by
  obtain ⟨o, rest, rfl⟩ := List.exists_cons_of_ne_nil hne
  obtain ⟨c1, l1, hl1, hs1, hc1⟩ := nodeText_last o (h o (by simp))
  have hsemi : c1 ≠ ';' := by
    have := nodeText_chars o (h o (by simp)) c1 (by rw [hl1]; simp)
    exact this.2
  obtain ⟨c, l, hcl, hcs, hcc⟩ := objsTail_last rest
    (fun o2 h2 => h o2 (List.mem_cons_of_mem _ h2)) c1 l1 ⟨hs1, hc1, hsemi⟩
  exact ⟨c, l, by rw [← hcl]; simp [objsText, hl1], hcs, hcc⟩

theorem predBlank_cons (pr : String × List Node) (r : List (String × List Node)) :
    predBlank (pr :: r) = [' '] := rfl

theorem predsTail_eq (rest : List (String × List Node)) :
    ∀ q, predsTail rest = predBlank rest ++ segText (subSegsTail q rest) := by
  induction rest with
  | nil => intro q; rfl
  | cons pr r ih =>
    intro q
    simp only [predsTail, predBlank_cons, subSegsTail, segText, predText]
    rw [ih (q + pr.1.data.length + 5 + (objsText pr.2 ++ predBlank r).length)]
    simp

theorem segText_subSegs (preds : List (String × List Node)) :
    segText (subSegs preds) = predsText preds := by
  cases preds with
  | nil => rfl
  | cons pr rest =>
    simp only [subSegs, segText, predsText, predText]
    rw [predsTail_eq rest (pr.1.data.length + 3 + (objsText pr.2 ++ predBlank rest).length)]
    simp

theorem predBlank_chars (rest : List (String × List Node)) :
    ∀ c ∈ predBlank rest, c = ' ' := by
  cases rest with
  | nil => intro c hc; simp [predBlank] at hc
  | cons pr r => intro c hc; simpa [predBlank] using hc

/-- No match of `ttlSubStatementMatcher` starts in the objects of a predicate. -/
theorem sub_interior (fuel q : Nat) (objs : List Node) (rest : List (String × List Node))
    (more : List Char) (hq : 0 < q) (h : ∀ o ∈ objs, plainNode o = true) :
    ∀ i, i < (objsText objs ++ predBlank rest).length →
      Regex.run ttlSubStatementMatcher fuel (fun s => some s)
        ⟨q + i, (objsText objs ++ predBlank rest).drop i ++ more, []⟩ = none := by
  have hns : NoStart (FailsLater ttlSubStatementMatcher fuel) (objsText objs ++ predBlank rest)
      more := by
    refine NoStart_of_forall _ (fun c => c ≠ '\n' ∧ c ≠ ';') _ _ ?_ ?_
    · intro c hc
      rcases List.mem_append.mp hc with hc | hc
      · have := objsText_chars objs h c hc
        exact ⟨this.1, this.2⟩
      · rw [predBlank_chars rest c hc]
        exact ⟨by decide, by decide⟩
    · intro c l hcq pos hpos
      exact sub_fail fuel pos c l hpos hcq.1 hcq.2
  intro i hi
  exact hns i hi (q + i) (by omega)

theorem subSegsTail_ok (fuel : Nat) (rest : List (String × List Node))
    (hp : ∀ pr ∈ rest, plainIri pr.1 = true ∧ pr.2 ≠ [] ∧ ∀ o ∈ pr.2, plainNode o = true) :
    ∀ q, 0 < q → (segText (subSegsTail q rest)).length < fuel →
      SegOK ttlSubStatementMatcher fuel q (subSegsTail q rest) := by
  induction rest with
  | nil =>
    intro q hq _
    exact sub_end fuel q hq
  | cons pr r ih =>
    intro q hq hf
    obtain ⟨hiri, hne, hobj⟩ := hp pr (by simp)
    obtain ⟨h, l, hhl, _, hhw, _, _⟩ := objsText_head pr.2 hne
    simp only [subSegsTail, segText, List.length_append, List.length_cons] at hf
    simp only [subSegsTail, SegOK, segText]
    refine ⟨by simp, ⟨⟨q + pr.1.data.length + 5, (objsText pr.2 ++ predBlank r) ++
      segText (subSegsTail (q + pr.1.data.length + 5 + (objsText pr.2 ++ predBlank r).length) r),
      [(2, q + 2, q + pr.1.data.length + 4), (1, q, q + 1)]⟩, ?_, ?_, rfl⟩, ?_, ?_⟩
    · have := sub_run_next fuel q pr.1.data
        ((objsText pr.2 ++ predBlank r) ++
          segText (subSegsTail (q + pr.1.data.length + 5 + (objsText pr.2 ++ predBlank r).length) r))
        hq (plainIri_bracket _ hiri) (by omega) (by rw [hhl]; simpa using hhw)
      rw [← this]
      simp
    · simp
      omega
    · have e : q + (';' :: ' ' :: '<' :: (pr.1.data ++ ['>', ' '])).length
          = q + pr.1.data.length + 5 := by simp; omega
      rw [e]
      exact sub_interior fuel _ pr.2 r _ (by omega) hobj
    · have e : q + (';' :: ' ' :: '<' :: (pr.1.data ++ ['>', ' '])).length
            + (objsText pr.2 ++ predBlank r).length
          = q + pr.1.data.length + 5 + (objsText pr.2 ++ predBlank r).length := by simp; omega
      rw [e]
      exact ih (fun pr2 h2 => hp pr2 (List.mem_cons_of_mem _ h2)) _ (by omega)
        (by simp only [List.length_append]; omega)

theorem subSegs_ok (fuel : Nat) (preds : List (String × List Node))
    (hp : ∀ pr ∈ preds, plainIri pr.1 = true ∧ pr.2 ≠ [] ∧ ∀ o ∈ pr.2, plainNode o = true)
    (hne : preds ≠ []) (hf : (segText (subSegs preds)).length < fuel) :
    SegOK ttlSubStatementMatcher fuel 0 (subSegs preds) := by
  obtain ⟨pr, r, rfl⟩ := List.exists_cons_of_ne_nil hne
  obtain ⟨hiri, hne2, hobj⟩ := hp pr (by simp)
  obtain ⟨h, l, hhl, _, hhw, _, _⟩ := objsText_head pr.2 hne2
  simp only [subSegs, segText, List.length_append, List.length_cons] at hf
  simp only [subSegs, SegOK, segText]
  refine ⟨by simp, ⟨⟨pr.1.data.length + 3, (objsText pr.2 ++ predBlank r) ++
      segText (subSegsTail (pr.1.data.length + 3 + (objsText pr.2 ++ predBlank r).length) r),
      [(2, 0, pr.1.data.length + 2), (1, 0, 0)]⟩, ?_, ?_, rfl⟩, ?_, ?_⟩
  · have := sub_run_first fuel pr.1.data
      ((objsText pr.2 ++ predBlank r) ++
        segText (subSegsTail (pr.1.data.length + 3 + (objsText pr.2 ++ predBlank r).length) r))
      (plainIri_bracket _ hiri) (by omega) (by rw [hhl]; simpa using hhw)
    rw [← this]
    simp
  · simp
  · have e : 0 + ('<' :: (pr.1.data ++ ['>', ' '])).length = pr.1.data.length + 3 := by simp
    rw [e]
    exact sub_interior fuel _ pr.2 r _ (by omega) hobj
  · have e : 0 + ('<' :: (pr.1.data ++ ['>', ' '])).length
          + (objsText pr.2 ++ predBlank r).length
        = pr.1.data.length + 3 + (objsText pr.2 ++ predBlank r).length := by simp
    rw [e]
    exact subSegsTail_ok fuel r (fun pr2 h2 => hp pr2 (List.mem_cons_of_mem _ h2)) _ (by omega)
      (by simp only [List.length_append]; omega)

theorem group_one (a b : Nat) (c2 : Nat × Nat × Nat) (g e : Nat) (h2 : c2.1 = 2) :
    Match.group ⟨a, b, [c2, (1, g, e)]⟩ 1 = some (g, e) := by
  simp [Match.group, List.find?, h2]

theorem marks_sub (rest : List (String × List Node)) :
    ∀ (pos : Nat) (z : List Char),
      MarksAt pos (z :: subPieces rest)
        (matchesOf (pos + z.length) (subSegsTail (pos + z.length) rest)) := by
  induction rest with
  | nil => intro pos z; simp [subPieces, MarksAt, subSegsTail, matchesOf]
  | cons pr r ih =>
    intro pos z
    simp only [subPieces, subSegsTail, matchesOf, MarksAt]
    refine ⟨⟨_, group_one _ _ _ _ _ rfl⟩, ?_⟩
    have := ih (pos + z.length + 1) (' ' :: (predText pr ++ predBlank r))
    have e : pos + z.length + 1 + (' ' :: (predText pr ++ predBlank r)).length
        = pos + z.length + (';' :: ' ' :: '<' :: (pr.1.data ++ ['>', ' '])).length
          + (objsText pr.2 ++ predBlank r).length := by
      simp [predText]
      omega
    have e2 : pos + z.length + pr.1.data.length + 5 + (objsText pr.2 ++ predBlank r).length
        = pos + z.length + (';' :: ' ' :: '<' :: (pr.1.data ++ ['>', ' '])).length
          + (objsText pr.2 ++ predBlank r).length := by
      simp
      omega
    rw [e] at this
    rw [e2]
    exact this

theorem joinMarked_sub (rest : List (String × List Node)) :
    ∀ z : List Char, joinMarked ';' ((z ++ predBlank rest) :: subPieces rest)
      = z ++ predsTail rest := by
  induction rest with
  | nil => intro z; simp [subPieces, joinMarked, predBlank, predsTail]
  | cons pr r ih =>
    intro z
    have := ih (' ' :: predText pr)
    simp only [List.cons_append] at this
    simp only [subPieces, joinMarked, predBlank_cons, predsTail, this]
    simp

theorem predText_trim (pr : String × List Node) (ws1 ws2 : List Char)
    (h1 : ∀ c ∈ ws1, isSpaceChar c = true) (h2 : ∀ c ∈ ws2, isSpaceChar c = true)
    (hne : pr.2 ≠ []) (hobj : ∀ o ∈ pr.2, plainNode o = true) :
    trimSpaceChars (ws1 ++ predText pr ++ ws2) = predText pr := by
  obtain ⟨c, l, hcl, hcs, _⟩ := objsText_last pr.2 hne hobj
  apply trimSpaceChars_core ws1 (predText pr) ws2 h1 h2
  · simp [predText, isSpaceChar]
  · have : predText pr = ('<' :: (pr.1.data ++ '>' :: ' ' :: l)) ++ [c] := by
      simp [predText, hcl]
    rw [this, List.getLast?_append]
    simpa using hcs

theorem subPieces_trim (rest : List (String × List Node))
    (hp : ∀ pr ∈ rest, plainIri pr.1 = true ∧ pr.2 ≠ [] ∧ ∀ o ∈ pr.2, plainNode o = true) :
    (subPieces rest).map (fun y => String.mk (trimSpaceChars y))
      = rest.map (fun pr => String.mk (predText pr)) := by
  induction rest with
  | nil => rfl
  | cons pr r ih =>
    obtain ⟨_, hne, hobj⟩ := hp pr (by simp)
    have := predText_trim pr [' '] (predBlank r) (by simp [isSpaceChar])
      (by intro c hc; rw [predBlank_chars r c hc]; decide) hne hobj
    have h2 : trimSpaceChars (' ' :: (predText pr ++ predBlank r)) = predText pr := by
      simpa using this
    simp only [subPieces, List.map_cons, h2, ih (fun pr2 h2 => hp pr2 (List.mem_cons_of_mem _ h2))]

theorem subPieces_ne (rest : List (String × List Node)) : ∀ y ∈ subPieces rest, y ≠ [] := by
  induction rest with
  | nil => intro y hy; simp [subPieces] at hy
  | cons pr r ih =>
    intro y hy
    simp only [subPieces, List.mem_cons] at hy
    rcases hy with rfl | hy
    · simp
    · exact ih y hy

theorem predsTail_last (rest : List (String × List Node))
    (hp : ∀ pr ∈ rest, plainIri pr.1 = true ∧ pr.2 ≠ [] ∧ ∀ o ∈ pr.2, plainNode o = true)
    (c0 : Char) (l0 : List Char) (h0 : c0 ≠ ';') :
    ∃ c l, l0 ++ [c0] ++ predsTail rest = l ++ [c] ∧ c ≠ ';' := by
  induction rest generalizing c0 l0 with
  | nil => exact ⟨c0, l0, by simp [predsTail], h0⟩
  | cons pr r ih =>
    obtain ⟨_, hne, hobj⟩ := hp pr (by simp)
    obtain ⟨c1, l1, hl1, _, hc1⟩ := objsText_last pr.2 hne hobj
    obtain ⟨c, l, hcl, hcc⟩ := ih (fun pr2 h2 => hp pr2 (List.mem_cons_of_mem _ h2)) c1
      (l0 ++ [c0] ++ [' ', ';', ' '] ++ ('<' :: (pr.1.data ++ '>' :: ' ' :: l1))) hc1
    refine ⟨c, l, ?_, hcc⟩
    rw [← hcl]
    simp [predsTail, predText, hl1]

/-- The texts that `extractSubStatements` cuts out of the text of the predicates of a
subject. -/
theorem extractSubStatements_text (p : TurtleParser) (preds : List (String × List Node))
    (hp : ∀ pr ∈ preds, plainIri pr.1 = true ∧ pr.2 ≠ [] ∧ ∀ o ∈ pr.2, plainNode o = true)
    (hne : preds ≠ []) :
    p.extractSubStatements (String.mk (predsText preds))
      = Outcome.ok (preds.map (fun pr => String.mk (predText pr))) := by
  have hseg := segText_subSegs preds
  have hm := allMatches_segs ttlSubStatementMatcher (subSegs preds)
    (subSegs_ok _ preds hp hne (by omega))
  rw [hseg] at hm
  obtain ⟨pr, r, rfl⟩ := List.exists_cons_of_ne_nil hne
  obtain ⟨hiri, hne2, hobj⟩ := hp pr (by simp)
  obtain ⟨c1, l1, hl1, _, hc1⟩ := objsText_last pr.2 hne2 hobj
  have hjoin := joinMarked_sub r (predText pr)
  have hmarks := marks_sub r 0 (predText pr ++ predBlank r)
  have hlen : 0 + (predText pr ++ predBlank r).length
      = pr.1.data.length + 3 + (objsText pr.2 ++ predBlank r).length := by
    simp [predText]
    omega
  rw [hlen] at hmarks
  have htrim := predText_trim pr [] (predBlank r) (by simp)
    (by intro c hc; rw [predBlank_chars r c hc]; decide) hne2 hobj
  simp only [List.nil_append] at htrim
  obtain ⟨c, l, hcl, hcc⟩ := predsTail_last r (fun pr2 h2 => hp pr2 (List.mem_cons_of_mem _ h2))
    c1 ('<' :: (pr.1.data ++ '>' :: ' ' :: l1)) hc1
  have hms : matchesOf 0 (subSegs (pr :: r))
      = ⟨0, pr.1.data.length + 3, [(2, 0, pr.1.data.length + 2), (1, 0, 0)]⟩ ::
        matchesOf (pr.1.data.length + 3 + (objsText pr.2 ++ predBlank r).length)
          (subSegsTail (pr.1.data.length + 3 + (objsText pr.2 ++ predBlank r).length) r) := by
    simp only [subSegs, matchesOf]
    rw [show 0 + ('<' :: (pr.1.data ++ ['>', ' '])).length = pr.1.data.length + 3 from by simp]
  have hec := extractClauses_marked ';' (predsText (pr :: r)) [] (Or.inr rfl) (subPieces r)
    (predText pr ++ predBlank r) []
    ⟨0, pr.1.data.length + 3, [(2, 0, pr.1.data.length + 2), (1, 0, 0)]⟩
    (matchesOf (pr.1.data.length + 3 + (objsText pr.2 ++ predBlank r).length)
      (subSegsTail (pr.1.data.length + 3 + (objsText pr.2 ++ predBlank r).length) r)) 0 0
    (by rw [hjoin]; simp [predsText])
    (by
      intro y hy
      simp only [List.mem_cons] at hy
      rcases hy with rfl | hy
      · simp [predText]
      · exact subPieces_ne r y hy)
    (by
      intro _ c2 hc2
      rw [hjoin] at hc2
      have e : predText pr ++ predsTail r = l ++ [c] := by
        rw [← hcl]
        simp [predText, hl1]
      rw [e] at hc2
      simp at hc2
      rw [← hc2]
      exact hcc)
    (group_one 0 _ (2, 0, pr.1.data.length + 2) 0 0 rfl)
    (Or.inl ⟨rfl, by simp [predText]⟩) hmarks
  simp only [TurtleParser.extractSubStatements, hm, hms]
  rw [hec]
  simp only [List.map_cons, htrim, subPieces_trim r (fun pr2 h2 => hp pr2 (List.mem_cons_of_mem _ h2))]

/-- A lazy repetition of a class before an expression that fails in the text `v` and at the
character `e` behind it, which is not in the class, fails. -/
theorem lazy_cls_fail (neg : Bool) (rs : List (Char × Char)) (fuel0 : Nat)
    (k : MState → Option MState) (Q : Char → Prop) (e : Char) (rest : List Char)
    (caps : List (Nat × Nat × Nat))
    (hk : ∀ (v : List Char) (p : Nat), (∀ c ∈ v, Q c) → k ⟨p, v ++ e :: rest, caps⟩ = none)
    (he : (inRanges e rs != neg) = false) :
    ∀ (f : Nat) (v : List Char) (p : Nat), (∀ c ∈ v, Q c) →
      repeatLoop (Regex.run (Regex.cls neg rs) fuel0) false f k ⟨p, v ++ e :: rest, caps⟩
        = none := by
  intro f
  induction f with
  | zero =>
    intro v p hv
    simp only [repeatLoop]
    exact hk v p hv
  | succ f ih =>
    intro v p hv
    rw [loop_lazy_step _ _ _ _ (hk v p hv)]
    cases v with
    | nil =>
      rw [List.nil_append, run_cls, if_neg]
      simp [he]
    | cons c v2 =>
      rw [List.cons_append, run_cls]
      by_cases hc : (inRanges c rs != neg) = true
      · rw [if_pos hc]
        simp only [Nat.lt_add_one, if_true]
        exact ih v2 (p + 1) (fun c2 h2 => hv c2 (List.mem_cons_of_mem _ h2))
      · rw [if_neg hc]

theorem head_append_ne (v : List Char) (e : Char) (rest : List Char) (x : Char)
    (hv : ∀ c ∈ v, c ≠ x) (he : e ≠ x) :
    ∃ c l, v ++ e :: rest = c :: l ∧ c ≠ x := by
  cases v with
  | nil => exact ⟨e, rest, rfl, he⟩
  | cons c v2 => exact ⟨c, v2 ++ e :: rest, rfl, hv c (by simp)⟩

/-- No match of `ttlStatementMatcher` starts at a `.` of an IRI or of the value of a literal
when neither `:` nor `<` stands between the `.` and the `>` or `"` at the end. -/
theorem st_fail_dot (fuel q : Nat) (v : List Char) (e : Char) (rest : List Char) (hq : 0 < q)
    (hv : ∀ c ∈ v, c ≠ ':' ∧ c ≠ '<') (he : e = '>' ∨ e = '"') :
    Regex.run ttlStatementMatcher fuel (fun s => some s) ⟨q, '.' :: (v ++ e :: rest), []⟩
      = none := by
  have he1 : e ≠ '<' := by rcases he with rfl | rfl <;> decide
  have he2 : e ≠ ':' := by rcases he with rfl | rfl <;> decide
  have he3 : (inRanges e [('A', 'Z'), ('a', 'z'), ('0', '9'), ('_', '_'), ('-', '-')] != false)
      = false := by rcases he with rfl | rfl <;> decide
  have he4 : (inRanges e [('\t', '\n'), ('\x0c', '\r'), (' ', ' ')] != false) = false := by
    rcases he with rfl | rfl <;> decide
  simp only [ttlStatementMatcher]
  rw [seq_cons2, run_cat, mark_group_next '.' fuel _ q _ hq (by decide), seq_cons2,
    run_cat, run_star]
  simp only [Regex.space]
  apply lazy_cls_fail false _ fuel _ (fun c => c ≠ ':' ∧ c ≠ '<') e rest _ _ he4 fuel v _ hv
  intro v2 p hv2
  rw [seq_cons2, run_cat, run_cap, run_alt]
  apply orElse_both
  · obtain ⟨c, l, hcl, hc⟩ := head_append_ne v2 e rest '<' (fun c hc => (hv2 c hc).2) he1
    rw [hcl, seq_cons2, run_cat, run_char, if_neg hc]
  · rw [seq_cons2, run_cat, run_star]
    apply lazy_cls_fail false _ fuel _ (fun c => c ≠ ':' ∧ c ≠ '<') e rest _ _ he3 fuel v2 _ hv2
    intro v3 p3 hv3
    obtain ⟨c, l, hcl, hc⟩ := head_append_ne v3 e rest ':' (fun c hc => (hv3 c hc).1) he2
    rw [hcl, seq_cons2, run_cat, run_char, if_neg hc]

theorem dotSafe_dot (l : List Char) (h : dotSafe ('.' :: l) = true) :
    (∀ c ∈ l, c ≠ ':' ∧ c ≠ '<') ∧ dotSafe l = true := by
  have h1 : ∀ c ∈ l, c ≠ ':' ∧ c ≠ '<' := by
    intro c hc
    simp only [dotSafe, List.dropWhile, bne_self_eq_false, List.all_eq_true, Bool.and_eq_true,
      bne_iff_ne, ne_eq] at h
    exact h c (List.mem_cons_of_mem _ hc)
  refine ⟨h1, ?_⟩
  simp only [dotSafe, List.all_eq_true, Bool.and_eq_true, bne_iff_ne, ne_eq]
  intro c hc
  exact h1 c ((List.dropWhile_sublist _).subset hc)

theorem dotSafe_other (c : Char) (l : List Char) (hc : c ≠ '.') (h : dotSafe (c :: l) = true) :
    dotSafe l = true := by
  have : (c != '.') = true := by simpa using hc
  simpa [dotSafe, List.dropWhile, this] using h

/-- No match of `ttlStatementMatcher` starts in an admitted IRI or value. -/
theorem st_walk (fuel : Nat) (x : List Char) (e : Char) (more : List Char)
    (hx : ∀ c ∈ x, c ≠ '\n') (hs : dotSafe x = true) (he : e = '>' ∨ e = '"') :
    NoStart (FailsLater ttlStatementMatcher fuel) x (e :: more) := by
  induction x with
  | nil => exact NoStart_nil _ _
  | cons c x2 ih =>
    by_cases hc : c = '.'
    · subst hc
      obtain ⟨h1, h2⟩ := dotSafe_dot x2 hs
      refine NoStart_cons _ _ _ _ ?_ (ih (fun c2 h2 => hx c2 (List.mem_cons_of_mem _ h2)) h2)
      intro pos hpos
      exact st_fail_dot fuel pos x2 e more hpos h1 he
    · refine NoStart_cons _ _ _ _ ?_ (ih (fun c2 h2 => hx c2 (List.mem_cons_of_mem _ h2))
        (dotSafe_other c x2 hc hs))
      intro pos hpos
      exact st_fail fuel pos c _ hpos (hx c (by simp)) hc

theorem st_mark (fuel : Nat) (c : Char) (l : List Char) (h1 : c ≠ '\n') (h2 : c ≠ '.') :
    FailsLater ttlStatementMatcher fuel (c :: l) :=
  fun pos hpos => st_fail fuel pos c l hpos h1 h2

theorem st_bracket (fuel : Nat) (iri : String) (more : List Char) (h : plainIri iri = true) :
    NoStart (FailsLater ttlStatementMatcher fuel) ('<' :: (iri.data ++ ['>'])) more := by
  refine NoStart_cons _ _ _ _ (st_mark _ _ _ (by decide) (by decide)) ?_
  refine NoStart_append _ _ _ _ ?_
    (NoStart_cons _ _ _ _ (st_mark _ _ _ (by decide) (by decide)) (NoStart_nil _ _))
  exact st_walk fuel _ '>' _ (fun c hc => (plainIri_bracket iri h c hc).2)
    (plainIri_dotSafe iri h) (Or.inl rfl)

/-- No match of `ttlStatementMatcher` starts in the text of an admitted node. -/
theorem st_node (fuel : Nat) (o : Node) (more : List Char) (ho : plainNode o = true) :
    NoStart (FailsLater ttlStatementMatcher fuel) (nodeText o) more := by
  have hval := plainNode_value o ho
  cases o with
  | named nn => exact st_bracket fuel nn.iri more ho
  | localized ln =>
    obtain ⟨hv, hl, _, _, _⟩ := plainNode_localized ln ho
    simp only [nodeText]
    refine NoStart_cons _ _ _ _ (st_mark _ _ _ (by decide) (by decide)) ?_
    refine NoStart_append _ _ _ _
      (st_walk fuel _ '"' _ (fun c hc => (valueChar_ne c (hv c hc)).2.2.2.2) hval (Or.inr rfl)) ?_
    refine NoStart_cons _ _ _ _ (st_mark _ _ _ (by decide) (by decide)) ?_
    refine NoStart_cons _ _ _ _ (st_mark _ _ _ (by decide) (by decide)) ?_
    refine NoStart_of_forall _ (fun c => c ≠ '\n' ∧ c ≠ '.') _ _ ?_
      (fun c l h => st_mark _ _ _ h.1 h.2)
    intro c hc
    have := tokenChar_ne c (hl c hc)
    exact ⟨this.2.2.2.2.2.2.2.2.1, this.2.2.2.2.2.2.2.1⟩
  | typed tn =>
    obtain ⟨hv, _⟩ := plainNode_typed tn ho
    simp only [nodeText]
    refine NoStart_cons _ _ _ _ (st_mark _ _ _ (by decide) (by decide)) ?_
    refine NoStart_append _ _ _ _
      (st_walk fuel _ '"' _ (fun c hc => (valueChar_ne c (hv c hc)).2.2.2.2) hval (Or.inr rfl)) ?_
    refine NoStart_cons _ _ _ _ (st_mark _ _ _ (by decide) (by decide)) ?_
    refine NoStart_cons _ _ _ _ (st_mark _ _ _ (by decide) (by decide)) ?_
    refine NoStart_cons _ _ _ _ (st_mark _ _ _ (by decide) (by decide)) ?_
    exact st_bracket fuel _ more (plainNode_typed_iri tn ho)

theorem st_objsTail (fuel : Nat) (objs : List Node) (more : List Char)
    (ho : ∀ o ∈ objs, plainNode o = true) :
    NoStart (FailsLater ttlStatementMatcher fuel) (objsTail objs) more := by
  induction objs with
  | nil => exact NoStart_nil _ _
  | cons o rest ih =>
    simp only [objsTail]
    refine NoStart_cons _ _ _ _ (st_mark _ _ _ (by decide) (by decide)) ?_
    refine NoStart_cons _ _ _ _ (st_mark _ _ _ (by decide) (by decide)) ?_
    refine NoStart_cons _ _ _ _ (st_mark _ _ _ (by decide) (by decide)) ?_
    exact NoStart_append _ _ _ _ (st_node fuel o _ (ho o (by simp)))
      (ih (fun o2 h2 => ho o2 (List.mem_cons_of_mem _ h2)))

theorem st_objsText (fuel : Nat) (objs : List Node) (more : List Char)
    (ho : ∀ o ∈ objs, plainNode o = true) :
    NoStart (FailsLater ttlStatementMatcher fuel) (objsText objs) more := by
  cases objs with
  | nil => exact NoStart_nil _ _
  | cons o rest =>
    simp only [objsText]
    exact NoStart_append _ _ _ _ (st_node fuel o _ (ho o (by simp)))
      (st_objsTail fuel rest more (fun o2 h2 => ho o2 (List.mem_cons_of_mem _ h2)))

theorem st_predText (fuel : Nat) (pr : String × List Node) (more : List Char)
    (hp : plainIri pr.1 = true) (ho : ∀ o ∈ pr.2, plainNode o = true) :
    NoStart (FailsLater ttlStatementMatcher fuel) (predText pr) more := by
  have e : predText pr = ('<' :: (pr.1.data ++ ['>'])) ++ (' ' :: objsText pr.2) := by
    simp [predText]
  rw [e]
  refine NoStart_append _ _ _ _ (st_bracket fuel pr.1 _ hp) ?_
  exact NoStart_cons _ _ _ _ (st_mark _ _ _ (by decide) (by decide)) (st_objsText fuel _ _ ho)

theorem st_predsTail (fuel : Nat) (preds : List (String × List Node)) (more : List Char)
    (hp : ∀ pr ∈ preds, plainIri pr.1 = true ∧ pr.2 ≠ [] ∧ ∀ o ∈ pr.2, plainNode o = true) :
    NoStart (FailsLater ttlStatementMatcher fuel) (predsTail preds) more := by
  induction preds with
  | nil => exact NoStart_nil _ _
  | cons pr rest ih =>
    obtain ⟨h1, _, h3⟩ := hp pr (by simp)
    simp only [predsTail]
    refine NoStart_cons _ _ _ _ (st_mark _ _ _ (by decide) (by decide)) ?_
    refine NoStart_cons _ _ _ _ (st_mark _ _ _ (by decide) (by decide)) ?_
    refine NoStart_cons _ _ _ _ (st_mark _ _ _ (by decide) (by decide)) ?_
    exact NoStart_append _ _ _ _ (st_predText fuel pr _ h1 h3)
      (ih (fun o2 h2 => hp o2 (List.mem_cons_of_mem _ h2)))

theorem st_predsText (fuel : Nat) (preds : List (String × List Node)) (more : List Char)
    (hp : ∀ pr ∈ preds, plainIri pr.1 = true ∧ pr.2 ≠ [] ∧ ∀ o ∈ pr.2, plainNode o = true) :
    NoStart (FailsLater ttlStatementMatcher fuel) (predsText preds) more := by
  cases preds with
  | nil => exact NoStart_nil _ _
  | cons pr rest =>
    obtain ⟨h1, _, h3⟩ := hp pr (by simp)
    simp only [predsText]
    exact NoStart_append _ _ _ _ (st_predText fuel pr _ h1 h3)
      (st_predsTail fuel rest more (fun o2 h2 => hp o2 (List.mem_cons_of_mem _ h2)))

theorem predText_chars (pr : String × List Node)
    (hp : plainIri pr.1 = true ∧ pr.2 ≠ [] ∧ ∀ o ∈ pr.2, plainNode o = true) :
    ∀ c ∈ predText pr, c ≠ '\n' := by
  intro c hc
  simp only [predText, List.mem_cons, List.mem_append] at hc
  rcases hc with rfl | hc | rfl | rfl | hc
  · decide
  · exact (iriChar_ne c (plainIri_chars _ hp.1 c hc)).2.2.2.2.2.2.2.1
  · decide
  · decide
  · exact (objsText_chars pr.2 hp.2.2 c hc).1

theorem predsTail_chars (rest : List (String × List Node))
    (hp : ∀ pr ∈ rest, plainIri pr.1 = true ∧ pr.2 ≠ [] ∧ ∀ o ∈ pr.2, plainNode o = true) :
    ∀ c ∈ predsTail rest, c ≠ '\n' := by
  induction rest with
  | nil => intro c hc; simp [predsTail] at hc
  | cons pr r ih =>
    intro c hc
    simp only [predsTail, List.mem_cons, List.mem_append] at hc
    rcases hc with rfl | rfl | rfl | hc | hc
    · decide
    · decide
    · decide
    · exact predText_chars pr (hp pr (by simp)) c hc
    · exact ih (fun pr2 h2 => hp pr2 (List.mem_cons_of_mem _ h2)) c hc

theorem predsText_chars (preds : List (String × List Node))
    (hp : ∀ pr ∈ preds, plainIri pr.1 = true ∧ pr.2 ≠ [] ∧ ∀ o ∈ pr.2, plainNode o = true) :
    ∀ c ∈ predsText preds, c ≠ '\n' := by
  cases preds with
  | nil => intro c hc; simp [predsText] at hc
  | cons pr r =>
    intro c hc
    simp only [predsText, List.mem_append] at hc
    rcases hc with hc | hc
    · exact predText_chars pr (hp pr (by simp)) c hc
    · exact predsTail_chars r (fun pr2 h2 => hp pr2 (List.mem_cons_of_mem _ h2)) c hc

theorem predsText_last (preds : List (String × List Node)) (hne : preds ≠ [])
    (hp : ∀ pr ∈ preds, plainIri pr.1 = true ∧ pr.2 ≠ [] ∧ ∀ o ∈ pr.2, plainNode o = true) :
    ∃ c l, predsText preds = l ++ [c] ∧ isSpaceChar c = false := by
  induction preds with
  | nil => exact absurd rfl hne
  | cons pr r ih =>
    obtain ⟨_, hne2, hobj⟩ := hp pr (by simp)
    cases r with
    | nil =>
      obtain ⟨c, l, hcl, hcs, _⟩ := objsText_last pr.2 hne2 hobj
      exact ⟨c, '<' :: (pr.1.data ++ '>' :: ' ' :: l), by simp [predsText, predText, predsTail, hcl],
        hcs⟩
    | cons pr2 r2 =>
      obtain ⟨c, l, hcl, hcs⟩ := ih (by simp) (fun pr3 h3 => hp pr3 (List.mem_cons_of_mem _ h3))
      refine ⟨c, predText pr ++ [' ', ';', ' '] ++ l, ?_, hcs⟩
      simp only [predsText] at hcl
      simp only [predsText, predsTail, List.append_assoc, List.cons_append, List.nil_append]
      rw [hcl]

theorem predsText_head (preds : List (String × List Node)) (hne : preds ≠ []) :
    ∃ l, predsText preds = '<' :: l := by
  obtain ⟨pr, r, rfl⟩ := List.exists_cons_of_ne_nil hne
  exact ⟨_, rfl⟩

theorem bodyText_eq (rest : List (String × List (String × List Node))) :
    ∀ q, '.' :: bodyText rest = segText (stSegsTail q rest) := by
  induction rest with
  | nil => intro q; rfl
  | cons cl r ih =>
    intro q
    simp only [bodyText, stSegsTail, segText, clauseText]
    rw [← ih (q + cl.1.data.length + 4 + (predsText cl.2 ++ [' ']).length)]
    simp

theorem segText_stSegs (doc : List (String × List (String × List Node))) :
    segText (stSegs doc) = bodyText doc := by
  cases doc with
  | nil => rfl
  | cons cl rest =>
    simp only [stSegs, segText, bodyText, clauseText]
    rw [← bodyText_eq rest (cl.1.data.length + 3 + (predsText cl.2 ++ [' ']).length)]
    simp

/-- No match of `ttlStatementMatcher` starts in the predicates of a subject. -/
theorem st_interior (fuel q : Nat) (preds : List (String × List Node)) (more : List Char)
    (hq : 0 < q)
    (hp : ∀ pr ∈ preds, plainIri pr.1 = true ∧ pr.2 ≠ [] ∧ ∀ o ∈ pr.2, plainNode o = true) :
    ∀ i, i < (predsText preds ++ [' ']).length →
      Regex.run ttlStatementMatcher fuel (fun s => some s)
        ⟨q + i, (predsText preds ++ [' ']).drop i ++ more, []⟩ = none := by
  have hns : NoStart (FailsLater ttlStatementMatcher fuel) (predsText preds ++ [' ']) more :=
    NoStart_append _ _ _ _ (st_predsText fuel preds _ hp)
      (NoStart_cons _ _ _ _ (st_mark _ _ _ (by decide) (by decide)) (NoStart_nil _ _))
  intro i hi
  exact hns i hi (q + i) (by omega)

theorem stSegsTail_ok (fuel : Nat) (rest : List (String × List (String × List Node)))
    (hd : plainDoc rest) :
    ∀ q, 0 < q → (segText (stSegsTail q rest)).length < fuel →
      SegOK ttlStatementMatcher fuel q (stSegsTail q rest) := by
  induction rest with
  | nil =>
    intro q hq _
    simp only [stSegsTail, SegOK, segText]
    refine ⟨?_, st_end fuel _ (by omega)⟩
    intro i hi
    simp only [List.length_singleton, Nat.lt_one_iff] at hi
    subst hi
    simpa using st_fail_last fuel q hq
  | cons cl r ih =>
    intro q hq hf
    obtain ⟨hiri, hne, hpr⟩ := hd cl (by simp)
    obtain ⟨l, hl⟩ := predsText_head cl.2 hne
    simp only [stSegsTail, segText] at hf
    simp only [stSegsTail, SegOK, segText]
    generalize hq2 : q + cl.1.data.length + 4 + (predsText cl.2 ++ [' ']).length = q2 at hf ⊢
    simp only [List.length_append, List.length_cons, List.length_nil] at hf
    refine ⟨by simp, ⟨⟨q + cl.1.data.length + 4, (predsText cl.2 ++ [' ']) ++
      segText (stSegsTail q2 r),
      [(2, q + 1, q + cl.1.data.length + 3), (1, q, q + 1)]⟩, ?_, ?_, rfl⟩, ?_, ?_⟩
    · have := st_run_next fuel q cl.1.data
        ((predsText cl.2 ++ [' ']) ++ segText (stSegsTail q2 r))
        hq (plainIri_bracket _ hiri) (by omega) (by rw [hl]; simp [wsChar])
      rw [← this]
      simp
    · simp
      omega
    · have e : q + ('.' :: '<' :: (cl.1.data ++ ['>', ' '])).length
          = q + cl.1.data.length + 4 := by simp; omega
      rw [e]
      exact st_interior fuel _ cl.2 _ (by omega) hpr
    · have e : q + ('.' :: '<' :: (cl.1.data ++ ['>', ' '])).length
            + (predsText cl.2 ++ [' ']).length = q2 := by rw [← hq2]; simp; omega
      rw [e]
      exact ih (fun cl2 h2 => hd cl2 (List.mem_cons_of_mem _ h2)) _ (by omega) (by omega)

theorem stSegs_ok (fuel : Nat) (doc : List (String × List (String × List Node)))
    (hd : plainDoc doc) (hne : doc ≠ []) (hf : (segText (stSegs doc)).length < fuel) :
    SegOK ttlStatementMatcher fuel 0 (stSegs doc) := by
  obtain ⟨cl, r, rfl⟩ := List.exists_cons_of_ne_nil hne
  obtain ⟨hiri, hne2, hpr⟩ := hd cl (by simp)
  obtain ⟨l, hl⟩ := predsText_head cl.2 hne2
  simp only [stSegs, segText] at hf
  simp only [stSegs, SegOK, segText]
  generalize hq2 : cl.1.data.length + 3 + (predsText cl.2 ++ [' ']).length = q2 at hf ⊢
  simp only [List.length_append, List.length_cons, List.length_nil] at hf
  refine ⟨by simp, ⟨⟨cl.1.data.length + 3, (predsText cl.2 ++ [' ']) ++
      segText (stSegsTail q2 r),
      [(2, 0, cl.1.data.length + 2), (1, 0, 0)]⟩, ?_, ?_, rfl⟩, ?_, ?_⟩
  · have := st_run_first fuel cl.1.data
      ((predsText cl.2 ++ [' ']) ++ segText (stSegsTail q2 r))
      (plainIri_bracket _ hiri) (by omega) (by rw [hl]; simp [wsChar])
    rw [← this]
    simp
  · simp
  · have e : 0 + ('<' :: (cl.1.data ++ ['>', ' '])).length = cl.1.data.length + 3 := by simp
    rw [e]
    exact st_interior fuel _ cl.2 _ (by omega) hpr
  · have e : 0 + ('<' :: (cl.1.data ++ ['>', ' '])).length + (predsText cl.2 ++ [' ']).length
        = q2 := by rw [← hq2]; simp
    rw [e]
    exact stSegsTail_ok fuel r (fun cl2 h2 => hd cl2 (List.mem_cons_of_mem _ h2)) _
      (by rw [← hq2]; omega) (by omega)

theorem marks_st (rest : List (String × List (String × List Node))) :
    ∀ (pos : Nat) (z : List Char),
      MarksAt pos (z :: rest.map (fun cl => clauseText cl ++ [' ']))
        (matchesOf (pos + z.length) (stSegsTail (pos + z.length) rest)) := by
  induction rest with
  | nil => intro pos z; simp [MarksAt, stSegsTail, matchesOf]
  | cons cl r ih =>
    intro pos z
    simp only [List.map_cons, stSegsTail, matchesOf, MarksAt]
    refine ⟨⟨_, group_one _ _ _ _ _ rfl⟩, ?_⟩
    have := ih (pos + z.length + 1) (clauseText cl ++ [' '])
    have e : pos + z.length + 1 + (clauseText cl ++ [' ']).length
        = pos + z.length + ('.' :: '<' :: (cl.1.data ++ ['>', ' '])).length
          + (predsText cl.2 ++ [' ']).length := by
      simp [clauseText]
      omega
    have e2 : pos + z.length + cl.1.data.length + 4 + (predsText cl.2 ++ [' ']).length
        = pos + z.length + ('.' :: '<' :: (cl.1.data ++ ['>', ' '])).length
          + (predsText cl.2 ++ [' ']).length := by
      simp
      omega
    rw [e] at this
    rw [e2]
    exact this

theorem joinMarked_st (rest : List (String × List (String × List Node))) :
    ∀ z : List Char, joinMarked '.' (z :: rest.map (fun cl => clauseText cl ++ [' '])) ++ ['.']
      = z ++ '.' :: bodyText rest := by
  induction rest with
  | nil => intro z; simp [joinMarked, bodyText]
  | cons cl r ih =>
    intro z
    have := ih (clauseText cl ++ [' '])
    simp only [List.map_cons, joinMarked, bodyText, List.append_assoc, List.cons_append]
    rw [this]
    simp

theorem clauseText_trim (cl : String × List (String × List Node))
    (hne : cl.2 ≠ [])
    (hp : ∀ pr ∈ cl.2, plainIri pr.1 = true ∧ pr.2 ≠ [] ∧ ∀ o ∈ pr.2, plainNode o = true) :
    trimSpaceChars (clauseText cl ++ [' ']) = clauseText cl := by
  obtain ⟨c, l, hcl, hcs⟩ := predsText_last cl.2 hne hp
  have := trimSpaceChars_core [] (clauseText cl) [' '] (by simp) (by simp [isSpaceChar])
    (by simp [clauseText, isSpaceChar])
    (by
      have : clauseText cl = ('<' :: (cl.1.data ++ '>' :: ' ' :: l)) ++ [c] := by
        simp [clauseText, hcl]
      rw [this, List.getLast?_append]
      simpa using hcs)
  simpa using this

/-- The texts that `extractStatements` cuts out of the text of the clauses. -/
theorem extractStatements_text (p : TurtleParser)
    (doc : List (String × List (String × List Node))) (hd : plainDoc doc) (hne : doc ≠ []) :
    p.extractStatements (String.mk (bodyText doc))
      = Outcome.ok (doc.map (fun cl => String.mk (clauseText cl))) := by
  have hseg := segText_stSegs doc
  have hm := allMatches_segs ttlStatementMatcher (stSegs doc)
    (stSegs_ok _ doc hd hne (by omega))
  rw [hseg] at hm
  obtain ⟨cl, r, rfl⟩ := List.exists_cons_of_ne_nil hne
  obtain ⟨hiri, hne2, hpr⟩ := hd cl (by simp)
  have hjoin := joinMarked_st r (clauseText cl ++ [' '])
  have hmarks := marks_st r 0 (clauseText cl ++ [' '])
  have hlen : 0 + (clauseText cl ++ [' ']).length
      = cl.1.data.length + 3 + (predsText cl.2 ++ [' ']).length := by
    simp [clauseText]
    omega
  rw [hlen] at hmarks
  have hms : matchesOf 0 (stSegs (cl :: r))
      = ⟨0, cl.1.data.length + 3, [(2, 0, cl.1.data.length + 2), (1, 0, 0)]⟩ ::
        matchesOf (cl.1.data.length + 3 + (predsText cl.2 ++ [' ']).length)
          (stSegsTail (cl.1.data.length + 3 + (predsText cl.2 ++ [' ']).length) r) := by
    simp only [stSegs, matchesOf]
    rw [show 0 + ('<' :: (cl.1.data ++ ['>', ' '])).length = cl.1.data.length + 3 from by simp]
  have hec := extractClauses_marked '.' (bodyText (cl :: r)) ['.'] (Or.inl rfl)
    (r.map (fun cl => clauseText cl ++ [' ']))
    (clauseText cl ++ [' ']) []
    ⟨0, cl.1.data.length + 3, [(2, 0, cl.1.data.length + 2), (1, 0, 0)]⟩
    (matchesOf (cl.1.data.length + 3 + (predsText cl.2 ++ [' ']).length)
      (stSegsTail (cl.1.data.length + 3 + (predsText cl.2 ++ [' ']).length) r)) 0 0
    (by rw [List.nil_append, hjoin]; simp [bodyText])
    (by
      intro y hy
      simp only [List.mem_cons, List.mem_map] at hy
      rcases hy with rfl | ⟨cl2, _, rfl⟩
      · simp [clauseText]
      · simp [clauseText])
    (by intro h; exact absurd h (by simp))
    (group_one 0 _ (2, 0, cl.1.data.length + 2) 0 0 rfl)
    (Or.inl ⟨rfl, by simp [clauseText]⟩) hmarks
  simp only [TurtleParser.extractStatements, hm, hms]
  rw [hec]
  simp only [List.map_cons, List.map_map, clauseText_trim cl hne2 hpr]
  congr 2
  apply List.map_congr_left
  intro cl2 h2
  obtain ⟨_, hne3, hpr3⟩ := hd cl2 (List.mem_cons_of_mem _ h2)
  simp only [Function.comp_apply, clauseText_trim cl2 hne3 hpr3]

theorem Good_inert (c : Char) (l : List Char) (h : wsChar c = false ∧ c ≠ '@' ∧ c ≠ '.') :
    Good (c :: l) := by
  refine ⟨?_, ?_, ?_⟩
  · intro hc
    subst hc
    exact absurd h.1 (by decide)
  · rintro (hc | hc)
    · rw [h.1] at hc
      exact absurd hc (by decide)
    · exact absurd hc h.2.2
  · intro hc
    exact absurd hc h.2.1

theorem noAtNext_cons (d : Char) (l : List Char) (h : wsChar d = false) (hd : d ≠ '@') :
    noAtNext (d :: l) := by
  intro x hx
  simp only [List.dropWhile, h, List.head?_cons, Option.mem_def, Option.some.injEq] at hx
  rw [← hx]
  exact hd

theorem noAtNext_nil : noAtNext [] := by
  intro x hx
  simp at hx

theorem noAtNext_ws (c : Char) (l : List Char) (h : noAtNext l) (hc : c ≠ '@') :
    noAtNext (c :: l) := by
  by_cases hw : wsChar c = true
  · intro x hx
    simp only [List.dropWhile, hw] at hx
    exact h x hx
  · exact noAtNext_cons c l (by simpa using hw) hc

/-- A blank before a character that is neither white space nor `@`. -/
theorem Good_blank (d : Char) (l : List Char) (h : wsChar d = false) (hd : d ≠ '@') :
    Good (' ' :: d :: l) := by
  refine ⟨fun hc => absurd hc (by decide), fun _ => noAtNext_cons d l h hd,
    fun hc => absurd hc (by decide)⟩

theorem noAtNext_value (v : List Char) (more : List Char) (hv : ∀ c ∈ v, c ≠ '@') :
    noAtNext (v ++ '"' :: more) := by
  induction v with
  | nil => exact noAtNext_cons '"' more (by decide) (by decide)
  | cons c v ih =>
    exact noAtNext_ws c _ (ih (fun c2 h2 => hv c2 (List.mem_cons_of_mem _ h2))) (hv c (by simp))

/-- The characters of the value of a literal, before the closing quotation mark. -/
theorem Good_value (v more : List Char) (hv : ∀ c ∈ v, valueChar c = true) :
    NoStart Good v ('"' :: more) := by
  induction v with
  | nil => exact NoStart_nil _ _
  | cons c v ih =>
    have hc := valueChar_ne c (hv c (by simp))
    refine NoStart_cons _ _ _ _ ?_ (ih (fun c2 h2 => hv c2 (List.mem_cons_of_mem _ h2)))
    refine ⟨fun h => absurd h hc.2.2.2.2, fun _ => ?_, fun h => absurd h hc.2.2.1⟩
    exact noAtNext_value v more
      (fun c2 h2 => (valueChar_ne c2 (hv c2 (List.mem_cons_of_mem _ h2))).2.2.1)

theorem hasPrefixChars_append_space (word lang more : List Char)
    (hl : ∀ c ∈ lang, wsChar c = false) (hw : ∀ c ∈ word, wsChar c = false)
    (hne : lang ≠ word) :
    wordThenSpace word (lang ++ ' ' :: more) = false := by
  induction word generalizing lang with
  | nil =>
    cases lang with
    | nil => exact absurd rfl hne
    | cons c l => simp [wordThenSpace, hasPrefixChars, hl c (by simp)]
  | cons w ws ih =>
    cases lang with
    | nil =>
      have : ((' ' : Char) == w) = false := by
        rw [beq_eq_false_iff_ne]
        intro h
        have := hw w (by simp)
        rw [← h] at this
        exact absurd this (by decide)
      simp [wordThenSpace, hasPrefixChars, this]
    | cons c l =>
      by_cases hcw : c = w
      · subst hcw
        have := ih l (fun c2 h2 => hl c2 (List.mem_cons_of_mem _ h2))
          (fun c2 h2 => hw c2 (List.mem_cons_of_mem _ h2)) (fun h => hne (by rw [h]))
        simp only [wordThenSpace, Bool.and_eq_false_imp] at this ⊢
        intro hp
        simp only [List.cons_append, hasPrefixChars, beq_self_eq_true, Bool.true_and] at hp
        have := this hp
        simpa using this
      · have : (c == w) = false := by simpa using hcw
        simp [wordThenSpace, hasPrefixChars, this]

/-- The `@` before a language tag. -/
theorem Good_at (lang more : List Char) (hl : ∀ c ∈ lang, tokenChar c = true)
    (h1 : lang ≠ ['p', 'r', 'e', 'f', 'i', 'x']) (h2 : lang ≠ ['b', 'a', 's', 'e']) :
    Good ('@' :: (lang ++ ' ' :: more)) := by
  refine ⟨fun h => absurd h (by decide), ?_, fun _ => ?_⟩
  · rintro (h | h)
    · exact absurd h (by decide)
    · exact absurd h (by decide)
  · simp only [kwNext, Bool.or_eq_false_iff]
    exact ⟨hasPrefixChars_append_space _ lang more (fun c hc => tokenChar_not_ws c (hl c hc))
        (by decide) h1,
      hasPrefixChars_append_space _ lang more (fun c hc => tokenChar_not_ws c (hl c hc))
        (by decide) h2⟩

theorem Good_token (x more : List Char) (hx : ∀ c ∈ x, tokenChar c = true) :
    NoStart Good x more := by
  refine NoStart_of_forall _ (fun c => wsChar c = false ∧ c ≠ '@' ∧ c ≠ '.') _ _ ?_
    (fun c l h => Good_inert c l h)
  intro c hc
  have := tokenChar_ne c (hx c hc)
  exact ⟨tokenChar_not_ws c (hx c hc), this.2.2.2.1, this.2.2.2.2.2.2.2.1⟩

theorem noAtNext_iri (x more : List Char) (hx : ∀ c ∈ x, iriChar c = true) :
    noAtNext (x ++ '>' :: more) := by
  cases x with
  | nil => exact noAtNext_cons '>' more (by decide) (by decide)
  | cons d x2 =>
    exact noAtNext_cons d _ (iriChar_not_ws d (hx d (by simp)))
      (iriChar_ne d (hx d (by simp))).2.2.2.1

/-- The characters of an IRI, before the closing angle bracket. -/
theorem Good_iri (x more : List Char) (hx : ∀ c ∈ x, iriChar c = true) :
    NoStart Good x ('>' :: more) := by
  induction x with
  | nil => exact NoStart_nil _ _
  | cons c x2 ih =>
    have hc := iriChar_ne c (hx c (by simp))
    refine NoStart_cons _ _ _ _ ?_ (ih (fun c2 h2 => hx c2 (List.mem_cons_of_mem _ h2)))
    refine ⟨fun h => absurd h hc.2.2.2.2.2.2.2.1, fun _ => ?_, fun h => absurd h hc.2.2.2.1⟩
    exact noAtNext_iri x2 more (fun c2 h2 => hx c2 (List.mem_cons_of_mem _ h2))

theorem Good_bracket (x more : List Char) (hx : ∀ c ∈ x, iriChar c = true) :
    NoStart Good ('<' :: (x ++ ['>'])) more := by
  refine NoStart_cons _ _ _ _ (Good_inert _ _ ⟨by decide, by decide, by decide⟩) ?_
  refine NoStart_append _ _ _ _ (Good_iri x _ hx) ?_
  exact NoStart_cons _ _ _ _ (Good_inert _ _ ⟨by decide, by decide, by decide⟩) (NoStart_nil _ _)

/-- The text of a node, before a blank. -/
theorem Good_node (o : Node) (more : List Char) (ho : plainNode o = true) :
    NoStart Good (nodeText o) (' ' :: more) := by
  cases o with
  | named nn => exact Good_bracket nn.iri.data _ (plainIri_chars _ ho)
  | localized ln =>
    obtain ⟨hv, hl, hne, hb, hp⟩ := plainNode_localized ln ho
    simp only [nodeText]
    refine NoStart_cons _ _ _ _ (Good_inert _ _ ⟨by decide, by decide, by decide⟩) ?_
    refine NoStart_append _ _ _ _ (Good_value _ _ hv) ?_
    refine NoStart_cons _ _ _ _ (Good_inert _ _ ⟨by decide, by decide, by decide⟩) ?_
    refine NoStart_cons _ _ _ _ ?_ (Good_token _ _ hl)
    apply Good_at _ _ hl
    · intro h
      apply hp
      apply String.ext
      rw [h]
    · intro h
      apply hb
      apply String.ext
      rw [h]
  | typed tn =>
    obtain ⟨hv, ht⟩ := plainNode_typed tn ho
    simp only [nodeText]
    refine NoStart_cons _ _ _ _ (Good_inert _ _ ⟨by decide, by decide, by decide⟩) ?_
    refine NoStart_append _ _ _ _ (Good_value _ _ hv) ?_
    refine NoStart_cons _ _ _ _ (Good_inert _ _ ⟨by decide, by decide, by decide⟩) ?_
    refine NoStart_cons _ _ _ _ (Good_inert _ _ ⟨by decide, by decide, by decide⟩) ?_
    refine NoStart_cons _ _ _ _ (Good_inert _ _ ⟨by decide, by decide, by decide⟩) ?_
    exact Good_bracket _ _ ht

theorem Good_blank_node (o : Node) (l : List Char) : Good (' ' :: (nodeText o ++ l)) := by
  cases o with
  | named nn => exact Good_blank '<' _ (by decide) (by decide)
  | localized ln => exact Good_blank '"' _ (by decide) (by decide)
  | typed tn => exact Good_blank '"' _ (by decide) (by decide)

theorem objsTail_blank (objs : List Node) (more : List Char) :
    ∃ l, objsTail objs ++ ' ' :: more = ' ' :: l := by
  cases objs with
  | nil => exact ⟨more, rfl⟩
  | cons o rest => exact ⟨_, rfl⟩

theorem Good_objsTail (objs : List Node) (more : List Char)
    (ho : ∀ o ∈ objs, plainNode o = true) :
    NoStart Good (objsTail objs) (' ' :: more) := by
  induction objs with
  | nil => exact NoStart_nil _ _
  | cons o rest ih =>
    have ih2 := ih (fun o2 h2 => ho o2 (List.mem_cons_of_mem _ h2))
    simp only [objsTail]
    refine NoStart_cons _ _ _ _ (Good_blank ',' _ (by decide) (by decide)) ?_
    refine NoStart_cons _ _ _ _ (Good_inert _ _ ⟨by decide, by decide, by decide⟩) ?_
    refine NoStart_cons _ _ _ _ ?_ ?_
    · rw [List.append_assoc]
      exact Good_blank_node o _
    · refine NoStart_append _ _ _ _ ?_ ih2
      obtain ⟨l, hl⟩ := objsTail_blank rest more
      rw [hl]
      exact Good_node o l (ho o (by simp))

theorem Good_objsText (objs : List Node) (more : List Char)
    (ho : ∀ o ∈ objs, plainNode o = true) :
    NoStart Good (objsText objs) (' ' :: more) := by
  cases objs with
  | nil => exact NoStart_nil _ _
  | cons o rest =>
    simp only [objsText]
    refine NoStart_append _ _ _ _ ?_ (Good_objsTail rest more
      (fun o2 h2 => ho o2 (List.mem_cons_of_mem _ h2)))
    obtain ⟨l, hl⟩ := objsTail_blank rest more
    rw [hl]
    exact Good_node o l (ho o (by simp))

theorem Good_blank_objs (objs : List Node) (hne : objs ≠ []) (l : List Char) :
    Good (' ' :: (objsText objs ++ l)) := by
  obtain ⟨o, rest, rfl⟩ := List.exists_cons_of_ne_nil hne
  simp only [objsText, List.append_assoc]
  exact Good_blank_node o _

theorem Good_predText (pr : String × List Node) (more : List Char)
    (hp : plainIri pr.1 = true) (hne : pr.2 ≠ []) (ho : ∀ o ∈ pr.2, plainNode o = true) :
    NoStart Good (predText pr) (' ' :: more) := by
  simp only [predText]
  refine NoStart_cons _ _ _ _ (Good_inert _ _ ⟨by decide, by decide, by decide⟩) ?_
  refine NoStart_append _ _ _ _ (Good_iri _ _ (plainIri_chars _ hp)) ?_
  refine NoStart_cons _ _ _ _ (Good_inert _ _ ⟨by decide, by decide, by decide⟩) ?_
  refine NoStart_cons _ _ _ _ (Good_blank_objs _ hne _) ?_
  exact Good_objsText _ _ ho

theorem predsTail_blank (preds : List (String × List Node)) (more : List Char) :
    ∃ l, predsTail preds ++ ' ' :: more = ' ' :: l := by
  cases preds with
  | nil => exact ⟨more, rfl⟩
  | cons o rest => exact ⟨_, rfl⟩

theorem Good_predsTail (preds : List (String × List Node)) (more : List Char)
    (hp : ∀ pr ∈ preds, plainIri pr.1 = true ∧ pr.2 ≠ [] ∧ ∀ o ∈ pr.2, plainNode o = true) :
    NoStart Good (predsTail preds) (' ' :: more) := by
  induction preds with
  | nil => exact NoStart_nil _ _
  | cons pr rest ih =>
    have ih2 := ih (fun o2 h2 => hp o2 (List.mem_cons_of_mem _ h2))
    obtain ⟨h1, h2, h3⟩ := hp pr (by simp)
    simp only [predsTail]
    refine NoStart_cons _ _ _ _ (Good_blank ';' _ (by decide) (by decide)) ?_
    refine NoStart_cons _ _ _ _ (Good_inert _ _ ⟨by decide, by decide, by decide⟩) ?_
    refine NoStart_cons _ _ _ _ (Good_blank '<' _ (by decide) (by decide)) ?_
    refine NoStart_append _ _ _ _ ?_ ih2
    obtain ⟨l, hl⟩ := predsTail_blank rest more
    rw [hl]
    exact Good_predText pr l h1 h2 h3

theorem Good_predsText (preds : List (String × List Node)) (more : List Char)
    (hp : ∀ pr ∈ preds, plainIri pr.1 = true ∧ pr.2 ≠ [] ∧ ∀ o ∈ pr.2, plainNode o = true) :
    NoStart Good (predsText preds) (' ' :: more) := by
  cases preds with
  | nil => exact NoStart_nil _ _
  | cons pr rest =>
    obtain ⟨h1, h2, h3⟩ := hp pr (by simp)
    simp only [predsText]
    refine NoStart_append _ _ _ _ ?_ (Good_predsTail rest more
      (fun o2 h2 => hp o2 (List.mem_cons_of_mem _ h2)))
    obtain ⟨l, hl⟩ := predsTail_blank rest more
    rw [hl]
    exact Good_predText pr l h1 h2 h3

theorem Good_clauseText (cl : String × List (String × List Node)) (more : List Char)
    (hs : plainIri cl.1 = true) (hne : cl.2 ≠ [])
    (hp : ∀ pr ∈ cl.2, plainIri pr.1 = true ∧ pr.2 ≠ [] ∧ ∀ o ∈ pr.2, plainNode o = true) :
    NoStart Good (clauseText cl) (' ' :: more) := by
  simp only [clauseText]
  refine NoStart_cons _ _ _ _ (Good_inert _ _ ⟨by decide, by decide, by decide⟩) ?_
  refine NoStart_append _ _ _ _ (Good_iri _ _ (plainIri_chars _ hs)) ?_
  refine NoStart_cons _ _ _ _ (Good_inert _ _ ⟨by decide, by decide, by decide⟩) ?_
  refine NoStart_cons _ _ _ _ ?_ (Good_predsText _ _ hp)
  obtain ⟨l, hl⟩ := predsText_head cl.2 hne
  rw [hl]
  exact Good_blank '<' _ (by decide) (by decide)

theorem docText_head (doc : List (String × List (String × List Node))) :
    docText doc = [] ∨ ∃ l, docText doc = '<' :: l := by
  cases doc with
  | nil => exact Or.inl rfl
  | cons cl rest => exact Or.inr ⟨_, rfl⟩

theorem noAtNext_doc (doc : List (String × List (String × List Node))) :
    noAtNext (docText doc) := by
  rcases docText_head doc with h | ⟨l, h⟩
  · rw [h]
    exact noAtNext_nil
  · rw [h]
    exact noAtNext_cons _ _ (by decide) (by decide)

/-- The `.` and the line feed at the end of a clause. -/
theorem Good_clause_end (doc : List (String × List (String × List Node))) :
    NoStart Good ['.', '\n'] (docText doc) := by
  refine NoStart_cons _ _ _ _ ?_ (NoStart_cons _ _ _ _ ?_ (NoStart_nil _ _))
  · refine ⟨fun h => absurd h (by decide), fun _ => ?_, fun h => absurd h (by decide)⟩
    exact noAtNext_ws _ _ (noAtNext_doc doc) (by decide)
  · refine ⟨fun _ => ?_, fun _ => noAtNext_doc doc, fun h => absurd h (by decide)⟩
    rcases docText_head doc with h | ⟨l, h⟩
    · rw [h]
      intro d hd
      simp at hd
    · rw [h]
      intro d hd
      simp only [List.nil_append, List.head?_cons, Option.mem_def, Option.some.injEq] at hd
      exact hd.symm

theorem Good_docText (doc : List (String × List (String × List Node))) (hd : plainDoc doc) :
    NoStart Good (docText doc) [] := by
  induction doc with
  | nil => exact NoStart_nil _ _
  | cons cl rest ih =>
    have ih2 := ih (fun c hc => hd c (List.mem_cons_of_mem _ hc))
    obtain ⟨h1, h2, h3⟩ := hd cl (by simp)
    have e : docText (cl :: rest)
        = clauseText cl ++ ([' '] ++ (['.', '\n'] ++ docText rest)) := by
      simp [docText]
    rw [e]
    refine NoStart_append _ _ _ _ ?_ (NoStart_append _ _ _ _ ?_ (NoStart_append _ _ _ _ ?_ ih2))
    · have := Good_clauseText cl ('.' :: '\n' :: docText rest ++ []) h1 h2 h3
      simpa using this
    · exact NoStart_cons _ _ _ _ (Good_blank '.' _ (by decide) (by decide)) (NoStart_nil _ _)
    · have := Good_clause_end rest
      simpa [NoStart] using this

/-- Proof auxiliary statement: at no place behind its first character the text that
`Marshal` writes lets a comment or a directive start. -/
theorem Good_text (g : String) (doc : List (String × List (String × List Node)))
    (hg : plainIri g = true) (hd : plainDoc doc) :
    NoStart Good (['b', 'a', 's', 'e', ' ', '<'] ++ (g.data ++ (['>', ' '] ++ (['.', '\n'] ++ docText doc)))) [] := by
  refine NoStart_append _ _ _ _ ?_ (NoStart_append _ _ _ _ (Good_iri _ _ (plainIri_chars _ hg))
    (NoStart_append _ _ _ _ ?_ (NoStart_append _ _ _ _ ?_ (Good_docText doc hd))))
  · refine NoStart_cons _ _ _ _ (Good_inert _ _ ⟨by decide, by decide, by decide⟩) ?_
    refine NoStart_cons _ _ _ _ (Good_inert _ _ ⟨by decide, by decide, by decide⟩) ?_
    refine NoStart_cons _ _ _ _ (Good_inert _ _ ⟨by decide, by decide, by decide⟩) ?_
    refine NoStart_cons _ _ _ _ (Good_inert _ _ ⟨by decide, by decide, by decide⟩) ?_
    refine NoStart_cons _ _ _ _ (Good_blank '<' _ (by decide) (by decide)) ?_
    exact NoStart_cons _ _ _ _ (Good_inert _ _ ⟨by decide, by decide, by decide⟩) (NoStart_nil _ _)
  · refine NoStart_cons _ _ _ _ (Good_inert _ _ ⟨by decide, by decide, by decide⟩) ?_
    exact NoStart_cons _ _ _ _ (Good_blank '.' _ (by decide) (by decide)) (NoStart_nil _ _)
  · have := Good_clause_end doc
    simpa [NoStart] using this

theorem noAtNext_head (l : List Char) (h : noAtNext l) : ∀ d ∈ l.head?, d ≠ '@' := by
  cases l with
  | nil => intro d hd; simp at hd
  | cons c l =>
    intro d hd
    simp only [List.head?_cons, Option.mem_def, Option.some.injEq] at hd
    subst hd
    by_cases hw : wsChar c = true
    · intro hc
      subst hc
      exact absurd hw (by decide)
    · apply h
      simp [List.dropWhile, hw]

theorem noAtNext_tail (c : Char) (l : List Char) (h : noAtNext (c :: l)) (hw : wsChar c = true) :
    noAtNext l := by
  intro d hd
  apply h
  simpa [List.dropWhile, hw] using hd

theorem run_space_nil (fuel : Nat) (k : MState → Option MState) (pos : Nat)
    (caps : List (Nat × Nat × Nat)) :
    Regex.run Regex.space fuel k ⟨pos, [], caps⟩ = none := by
  simp [Regex.space, run_cls_nil]

/-- The expression `\s*`, greedy or not, before an expression that starts with `@` fails
where the characters behind the white space are no `@`. -/
theorem spaces_fail (g : Bool) (fuel0 : Nat) (k : MState → Option MState)
    (hk : ∀ s : MState, (∀ d ∈ s.rest.head?, d ≠ '@') → k s = none) :
    ∀ (fuel : Nat) (l : List Char) (pos : Nat) (caps : List (Nat × Nat × Nat)), noAtNext l →
      repeatLoop (Regex.run Regex.space fuel0) g fuel k ⟨pos, l, caps⟩ = none := by
  intro fuel
  induction fuel with
  | zero =>
    intro l pos caps h
    simp only [repeatLoop]
    exact hk _ (noAtNext_head l h)
  | succ f ih =>
    intro l pos caps h
    have hks : k ⟨pos, l, caps⟩ = none := hk _ (noAtNext_head l h)
    have hbody : Regex.run Regex.space fuel0
        (fun s2 => if (MState.mk pos l caps).pos < s2.pos
          then repeatLoop (Regex.run Regex.space fuel0) g f k s2 else none) ⟨pos, l, caps⟩
        = none := by
      cases l with
      | nil => exact run_space_nil _ _ _ _
      | cons c l =>
        rw [run_space]
        by_cases hw : wsChar c = true
        · rw [if_pos hw]
          simp only [Nat.lt_add_one, if_true]
          exact ih l (pos + 1) caps (noAtNext_tail c l h hw)
        · rw [if_neg hw]
    cases g
    · simp only [repeatLoop, Bool.false_eq_true, if_false, hks, orElse_none]
      exact hbody
    · simp only [repeatLoop, if_true, hks]
      rw [hbody]
      rfl

theorem lit_cons2 (c c2 : Char) (cs : List Char) :
    Regex.lit (c :: c2 :: cs) = Regex.cat (Regex.char c) (Regex.lit (c2 :: cs)) := rfl

theorem lit_run (w : List Char) : ∀ (fuel : Nat) (k : MState → Option MState) (pos : Nat)
    (l : List Char) (caps : List (Nat × Nat × Nat)),
    Regex.run (Regex.lit w) fuel k ⟨pos, l, caps⟩
      = if hasPrefixChars l w = true then k ⟨pos + w.length, l.drop w.length, caps⟩
        else none := by
  induction w with
  | nil =>
    intro fuel k pos l caps
    simp [Regex.lit, run_empty, hasPrefixChars]
  | cons c w ih =>
    intro fuel k pos l caps
    cases w with
    | nil =>
      cases l with
      | nil => simp [Regex.lit, run_char_nil, hasPrefixChars]
      | cons x xs => simp [Regex.lit, run_char, hasPrefixChars]
    | cons c2 cs =>
      cases l with
      | nil => simp [Regex.lit, run_cat, run_char_nil, hasPrefixChars]
      | cons x xs =>
        rw [lit_cons2, run_cat, run_char]
        by_cases hx : x = c
        · subst hx
          rw [if_pos rfl, ih]
          simp only [hasPrefixChars, beq_self_eq_true, Bool.true_and, List.length_cons,
            List.drop_succ_cons]
          congr 3
          omega
        · rw [if_neg hx]
          simp [hasPrefixChars, hx]

/-- An expression that starts with `@` fails where the text does not. -/
theorem at_fail (r : Regex) (fuel : Nat) (k : MState → Option MState) (s : MState)
    (h : ∀ d ∈ s.rest.head?, d ≠ '@') :
    Regex.run (Regex.cat (Regex.char '@') r) fuel k s = none := by
  obtain ⟨pos, l, caps⟩ := s
  cases l with
  | nil => rw [run_cat, run_char_nil]
  | cons d l =>
    rw [run_cat, run_char, if_neg]
    exact h d (by simp)

/-- Group 1 of the directive expressions, `(^|\s|\.)`, behind the start of the text. -/
theorem dir_group (fuel : Nat) (k : MState → Option MState) (pos : Nat) (c : Char)
    (more : List Char) (hq : 0 < pos)
    (hk : (wsChar c = true ∨ c = '.') → k ⟨pos + 1, more, [(1, pos, pos + 1)]⟩ = none) :
    Regex.run (Regex.cap 1 (Regex.alt Regex.bot (Regex.alt Regex.space (Regex.char '.'))))
      fuel k ⟨pos, c :: more, []⟩ = none := by
  have hq2 : ¬ (pos = 0) := by omega
  rw [run_cap, run_alt, run_bot]
  simp only [hq2, if_false, orElse_none, run_alt, run_space, run_char]
  by_cases hw : wsChar c = true
  · simp only [hw, if_true]
    rw [hk (Or.inl hw), orElse_none]
    by_cases hc : c = '.'
    · rw [if_pos hc]
    · rw [if_neg hc]
  · simp only [hw, Bool.false_eq_true, if_false, orElse_none]
    by_cases hc : c = '.'
    · rw [if_pos hc]
      exact hk (Or.inr hc)
    · rw [if_neg hc]

theorem dir_group_end (fuel : Nat) (k : MState → Option MState) (pos : Nat) (hq : 0 < pos) :
    Regex.run (Regex.cap 1 (Regex.alt Regex.bot (Regex.alt Regex.space (Regex.char '.'))))
      fuel k ⟨pos, [], []⟩ = none := by
  have hq2 : ¬ (pos = 0) := by omega
  rw [run_cap, run_alt, run_bot]
  simp only [hq2, if_false, orElse_none, run_alt, run_space_nil, run_char_nil]

/-- No match of `ttlBaseDirective` starts at a good place behind the start of the text. -/
theorem base_fail (fuel : Nat) (l : List Char) (h : Good l) :
    FailsLater ttlBaseDirective fuel l := by
  intro pos hq
  simp only [ttlBaseDirective, seq_cons2]
  rw [run_cat]
  cases l with
  | nil => exact dir_group_end _ _ _ hq
  | cons c more =>
    apply dir_group _ _ _ _ _ hq
    intro hc
    rw [run_cat, run_star]
    apply spaces_fail
    · intro s hs
      have e : Regex.lit "@base".data = Regex.cat (Regex.char '@') (Regex.lit "base".data) := rfl
      rw [run_cat, e]
      exact at_fail _ _ _ _ hs
    · exact h.2.1 hc

/-- No match of `ttlPrefixDirective` starts at a good place behind the start of the text. -/
theorem pfx_fail (fuel : Nat) (l : List Char) (h : Good l) :
    FailsLater ttlPrefixDirective fuel l := by
  intro pos hq
  simp only [ttlPrefixDirective, seq_cons2]
  rw [run_cat]
  cases l with
  | nil => exact dir_group_end _ _ _ hq
  | cons c more =>
    apply dir_group _ _ _ _ _ hq
    intro hc
    rw [run_cat, run_star]
    apply spaces_fail
    · intro s hs
      have e : Regex.lit "@prefix".data
          = Regex.cat (Regex.char '@') (Regex.lit "prefix".data) := rfl
      rw [run_cat, e]
      exact at_fail _ _ _ _ hs
    · exact h.2.1 hc

/-- No match of `ttlCommentMatcher` starts at a good place behind the start of the text. -/
theorem comment_fail (fuel : Nat) (l : List Char) (h : Good l) :
    FailsLater ttlCommentMatcher fuel l := by
  intro pos hq
  have hq2 : ¬ (pos = 0) := by omega
  simp only [ttlCommentMatcher, seq_cons2]
  rw [run_cat, run_cap, run_alt, run_bot]
  simp only [hq2, if_false, orElse_none]
  cases l with
  | nil => rw [run_char_nil]
  | cons c more =>
    rw [run_char]
    by_cases hc : c = '\n'
    · rw [if_pos hc, run_cat, run_star]
      have hm := h.1 hc
      apply loop_lazy_fail
      · rw [run_cat]
        cases more with
        | nil => exact run_char_nil _ _ _ _ _
        | cons d more =>
          rw [run_char, if_neg]
          rw [hm d (by simp)]
          decide
      · intro k2
        cases more with
        | nil => exact run_space_nil _ _ _ _
        | cons d more =>
          rw [run_space, if_neg]
          rw [hm d (by simp)]
          decide
    · rw [if_neg hc]

/-- A directive name fails where the text behind the `@` is no name with white space. -/
theorem word_fail (w : List Char) (fuel : Nat) (K : MState → Option MState) (pos : Nat)
    (more : List Char) (caps : List (Nat × Nat × Nat)) (h : wordThenSpace w more = false)
    (hK : ∀ s : MState, (∀ d ∈ s.rest.head?, wsChar d = false) → K s = none) :
    Regex.run (Regex.lit w) fuel K ⟨pos, more, caps⟩ = none := by
  rw [lit_run]
  by_cases hp : hasPrefixChars more w = true
  · rw [if_pos hp]
    apply hK
    intro d hd
    simp only [wordThenSpace, hp, Bool.true_and] at h
    cases hdr : more.drop w.length with
    | nil => simp [hdr] at hd
    | cons x xs =>
      rw [hdr] at h
      simp only [hdr, List.head?_cons, Option.mem_def, Option.some.injEq] at hd
      rw [← hd]
      exact h
  · rw [if_neg hp]

/-- No match of `ttlDirectiveMatcher` starts at a good place. -/
theorem directive_fail (fuel : Nat) (l : List Char) (h : Good l) :
    Fails ttlDirectiveMatcher fuel l := by
  intro pos
  simp only [ttlDirectiveMatcher, seq_cons2]
  rw [run_cat, run_star]
  cases l with
  | nil =>
    rw [greedy_space_stop _ _ _ _ _ _ (by intro y hy; simp at hy), run_cat, run_char_nil]
  | cons c more =>
    by_cases hw : wsChar c = true
    · apply spaces_fail
      · intro s hs
        exact at_fail _ _ _ _ hs
      · exact noAtNext_ws c more (h.2.1 (Or.inl hw))
          (fun hc => absurd hw (by rw [hc]; decide))
    · rw [greedy_space_stop _ _ _ _ _ _ (by intro y hy; simp at hy; rw [← hy]; simpa using hw),
        run_cat, run_char]
      by_cases hc : c = '@'
      · have hkw := h.2.2 hc
        simp only [kwNext, Bool.or_eq_false_iff] at hkw
        have hK : ∀ (K : MState → Option MState) (s : MState),
            (∀ d ∈ s.rest.head?, wsChar d = false) →
            (∀ (r : Regex) (s2 : MState), (∀ d ∈ s2.rest.head?, wsChar d = false) →
              Regex.run (Regex.cat (Regex.plus Regex.space true) r) fuel (fun s => some s) s2
                = none) := by
          intro _ _ _ r s hs
          obtain ⟨p, rest, caps⟩ := s
          rw [run_cat, run_plus]
          cases rest with
          | nil => exact run_space_nil _ _ _ _
          | cons d rest =>
            rw [run_space, if_neg]
            simpa using hs d (by simp)
        have hR := hK (fun s => some s) ⟨0, [], []⟩ (by intro d hd; simp at hd)
        rw [if_pos hc, run_cat, run_cap, run_alt]
        apply orElse_both
        · apply word_fail _ _ _ _ _ _ hkw.1
          intro s hs
          exact hR _ _ hs
        · apply word_fail _ _ _ _ _ _ hkw.2
          intro s hs
          exact hR _ _ hs
      · rw [if_neg hc]

theorem NoStart_mono (P Q : List Char → Prop) (cs more : List Char) (hpq : ∀ l, P l → Q l)
    (h : NoStart P cs more) : NoStart Q cs more :=
  fun i hi => hpq _ (h i hi)

theorem NoStart_suffix (P : List Char → Prop) (a b more : List Char)
    (h : NoStart P (a ++ b) more) : NoStart P b more := by
  intro i hi
  have := h (a.length + i) (by simp only [List.length_append]; omega)
  rwa [List.drop_append] at this

/-- A text in which no match starts is one segment. -/
theorem SegOK_miss (re : Regex) (fuel : Nat) (c : Char) (t : List Char)
    (h0 : Regex.run re fuel (fun s => some s) ⟨0, c :: t, []⟩ = none)
    (h : NoStart (FailsLater re fuel) t []) (hend : FailsLater re fuel []) :
    SegOK re fuel 0 [(none, c :: t)] := by
  simp only [SegOK, segText, List.append_nil, Nat.zero_add]
  refine ⟨?_, hend _ (by simp)⟩
  intro i hi
  cases i with
  | zero => simpa using h0
  | succ j =>
    have := h j (by simpa using hi) (j + 1) (by omega)
    simpa using this

/-- A text with one match at its start and none behind it is two segments. -/
theorem SegOK_hit (re : Regex) (fuel : Nat) (hit rest : List Char)
    (caps : List (Nat × Nat × Nat)) (hne : hit ≠ [])
    (hrun : Regex.run re fuel (fun s => some s) ⟨0, hit ++ rest, []⟩
      = some ⟨hit.length, rest, caps⟩)
    (h : NoStart (FailsLater re fuel) rest []) (hend : FailsLater re fuel []) :
    SegOK re fuel 0 [(some caps, hit), (none, rest)] := by
  simp only [SegOK, segText, List.append_nil, Nat.zero_add]
  refine ⟨hne, ⟨_, hrun, rfl, rfl⟩, ?_, hend _ (by
    have : 0 < hit.length := List.length_pos.mpr hne
    omega)⟩
  intro i hi
  have := h i hi (hit.length + i) (by
    have : 0 < hit.length := List.length_pos.mpr hne
    omega)
  simpa using this

theorem greedy_space_one (fuel0 fuel : Nat) (k : MState → Option MState) (pos : Nat)
    (rest : List Char) (caps : List (Nat × Nat × Nat)) (r : MState) (hf : 1 ≤ fuel)
    (hr : ∀ y ∈ rest.head?, wsChar y = false)
    (hk : k ⟨pos + 1, rest, caps⟩ = some r) :
    repeatLoop (Regex.run Regex.space fuel0) true fuel k ⟨pos, ' ' :: rest, caps⟩ = some r := by
  obtain ⟨f, rfl⟩ : ∃ f, fuel = f + 1 := ⟨fuel - 1, by omega⟩
  apply loop_greedy_step
  rw [run_space]
  simp only [wsChar, beq_self_eq_true, Bool.or_true, if_true, Nat.lt_add_one]
  rw [greedy_space_stop _ _ _ _ _ _ hr]
  exact hk

/-- A lazy repetition of `.` passes over the characters at which the rest of the expression
fails. -/
theorem lazy_dot_until (fuel : Nat) (K : MState → Option MState) (pos : Nat)
    (x rest : List Char) (caps : List (Nat × Nat × Nat)) (r : MState)
    (hx : ∀ c ∈ x, c ≠ '\n') (hf : x.length ≤ fuel)
    (hK : ∀ i, i < x.length → K ⟨pos + i, x.drop i ++ rest, caps⟩ = none)
    (hk : K ⟨pos + x.length, rest, caps⟩ = some r) :
    repeatLoop (Regex.run Regex.dot fuel) false fuel K ⟨pos, x ++ rest, caps⟩ = some r := by
  simp only [Regex.dot]
  rw [lazy_cls_skip true [('\n', '\n')] fuel _ caps rest x fuel pos hf _ hK]
  · exact loop_lazy_done _ _ _ _ _ hk
  · intro c hc
    simp [inRanges_single, hx c hc]

theorem drop_head_mem (x : List Char) (i : Nat) (hi : i < x.length) :
    ∃ c l, x.drop i = c :: l ∧ c ∈ x := by
  cases hdr : x.drop i with
  | nil => simp at hdr; omega
  | cons c l => exact ⟨c, l, rfl, List.mem_of_mem_drop (by rw [hdr]; simp)⟩

/-- The match of `ttlDirectiveMatcher` at the directive `@base` that `Marshal` writes. -/
theorem directive_run (fuel : Nat) (g rest : List Char)
    (hg : ∀ c ∈ g, c ≠ '>' ∧ c ≠ '\n') (hf : g.length + 1 ≤ fuel) :
    Regex.run ttlDirectiveMatcher fuel (fun s => some s)
        ⟨0, '@' :: 'b' :: 'a' :: 's' :: 'e' :: ' ' :: '<' :: (g ++ '>' :: ' ' :: '.' :: rest), []⟩
      = some ⟨g.length + 10, rest, [(1, 1, 5)]⟩ := by
  simp only [ttlDirectiveMatcher, seq_cons2, seq_single]
  rw [run_cat, run_star, greedy_space_stop _ _ _ _ _ _ (by intro y hy; simp at hy; rw [← hy]; decide),
    run_cat, run_char, if_pos rfl, run_cat, run_cap, run_alt, lit_run, lit_run]
  have hp : hasPrefixChars ('b' :: 'a' :: 's' :: 'e' :: ' ' :: '<' ::
      (g ++ '>' :: ' ' :: '.' :: rest)) "prefix".data = false := by
    simp [hasPrefixChars]
  have hb : hasPrefixChars ('b' :: 'a' :: 's' :: 'e' :: ' ' :: '<' ::
      (g ++ '>' :: ' ' :: '.' :: rest)) "base".data = true := by
    simp [hasPrefixChars]
  rw [hp, hb]
  simp only [Bool.false_eq_true, if_false, orElse_none, if_true]
  have hd : List.drop "base".data.length ('b' :: 'a' :: 's' :: 'e' :: ' ' :: '<' ::
      (g ++ '>' :: ' ' :: '.' :: rest)) = ' ' :: '<' :: (g ++ '>' :: ' ' :: '.' :: rest) := rfl
  rw [hd, run_cat, run_plus, run_space]
  simp only [wsChar, beq_self_eq_true, Bool.or_true, if_true]
  rw [greedy_space_stop _ _ _ _ _ _ (by intro y hy; simp at hy; rw [← hy]; decide),
    run_cat, run_plus, run_dot, if_pos (by decide)]
  apply lazy_dot_until fuel _ _ g _ _ _ (fun c hc => (hg c hc).2) (by omega)
  · intro i hi
    obtain ⟨c, l, hcl, hc⟩ := drop_head_mem g i hi
    rw [hcl, List.cons_append, run_cat, run_char, if_neg (hg c hc).1]
  · rw [run_cat, run_char, if_pos rfl, run_cat, run_star]
    apply greedy_space_one _ _ _ _ _ _ _ (by omega)
    · intro y hy
      simp only [List.head?_cons, Option.mem_def, Option.some.injEq] at hy
      rw [← hy]
      decide
    · rw [run_char, if_pos rfl]
      have e : ("base".data.length) = 4 := rfl
      simp only [e, MState.mk.injEq, Option.some.injEq, true_and, List.cons.injEq, Prod.mk.injEq,
        and_true]
      omega

/-- The match of `ttlBaseDirective` at the directive `@base` that `Marshal` writes. -/
theorem base_run (fuel : Nat) (g rest : List Char) (hne : g ≠ [])
    (hg : ∀ c ∈ g, c ≠ '>' ∧ c ≠ '\n') (hf : g.length + 1 ≤ fuel) :
    Regex.run ttlBaseDirective fuel (fun s => some s)
        ⟨0, '@' :: 'b' :: 'a' :: 's' :: 'e' :: ' ' :: '<' :: (g ++ '>' :: ' ' :: '.' :: rest), []⟩
      = some ⟨g.length + 10, rest, [(2, 7, g.length + 7), (1, 0, 0)]⟩ := by
  obtain ⟨c0, g1, rfl⟩ := List.exists_cons_of_ne_nil hne
  simp only [ttlBaseDirective, seq_cons2, seq_single]
  rw [run_cat, run_cap, run_alt, run_bot]
  simp only [if_true]
  apply orElse_of_some
  rw [run_cat, run_star,
    greedy_space_stop _ _ _ _ _ _ (by intro y hy; simp at hy; rw [← hy]; decide),
    run_cat, lit_run]
  have hb : hasPrefixChars ('@' :: 'b' :: 'a' :: 's' :: 'e' :: ' ' :: '<' ::
      (c0 :: g1 ++ '>' :: ' ' :: '.' :: rest)) "@base".data = true := by
    simp [hasPrefixChars]
  have hd : List.drop "@base".data.length ('@' :: 'b' :: 'a' :: 's' :: 'e' :: ' ' :: '<' ::
      (c0 :: g1 ++ '>' :: ' ' :: '.' :: rest)) = ' ' :: '<' :: (c0 :: g1 ++ '>' :: ' ' :: '.' :: rest) :=
    rfl
  have e : ("@base".data.length) = 5 := rfl
  rw [hb, if_pos rfl, hd, e, run_cat, run_star]
  apply lazy_space_one _ _ _ _ _ _ _ (by omega)
  · rw [run_cat, run_char, if_neg (by decide)]
  · rw [run_cat, run_char, if_pos rfl, run_cat, run_cap, run_plus, List.cons_append, run_dot,
      if_pos (hg c0 (by simp)).2]
    apply lazy_dot_until fuel _ _ g1 _ _ _
      (fun c hc => (hg c (List.mem_cons_of_mem _ hc)).2) (by simp at hf; omega)
    · intro i hi
      obtain ⟨c, l, hcl, hc⟩ := drop_head_mem g1 i hi
      simp only []
      rw [hcl, List.cons_append, run_cat, run_char, if_neg (hg c (List.mem_cons_of_mem _ hc)).1]
    · simp only []
      rw [run_cat, run_char, if_pos rfl, run_cat, run_star]
      apply lazy_space_one _ _ _ _ _ _ _ (by omega)
      · rw [run_char, if_neg (by decide)]
      · rw [run_char, if_pos rfl]
        simp only [List.length_cons, MState.mk.injEq, Option.some.injEq, true_and,
          List.cons.injEq, Prod.mk.injEq, and_true]
        omega

/-- No match of `ttlPrefixDirective` starts at the `@base` at the start of the text. -/
theorem pfx_first (fuel : Nat) (rest : List Char) :
    Regex.run ttlPrefixDirective fuel (fun s => some s) ⟨0, '@' :: 'b' :: rest, []⟩ = none := by
  simp only [ttlPrefixDirective, seq_cons2, seq_single]
  rw [run_cat, run_cap, run_alt, run_bot]
  simp only [if_true]
  apply orElse_both
  · rw [run_cat, run_star]
    apply loop_lazy_fail
    · rw [run_cat, lit_run, if_neg]
      simp [hasPrefixChars]
    · intro k2
      rw [run_space, if_neg (by decide)]
  · rw [run_alt, run_space, if_neg (by decide), orElse_none, run_char, if_neg (by decide)]

/-- No match of `ttlCommentMatcher` starts at the `@` at the start of the text. -/
theorem comment_first (fuel : Nat) (rest : List Char) :
    Regex.run ttlCommentMatcher fuel (fun s => some s) ⟨0, '@' :: rest, []⟩ = none := by
  simp only [ttlCommentMatcher, seq_cons2, seq_single]
  rw [run_cat, run_cap, run_alt, run_bot]
  simp only [if_true]
  apply orElse_both
  · rw [run_cat, run_star]
    apply loop_lazy_fail
    · rw [run_cat, run_char, if_neg (by decide)]
    · intro k2
      rw [run_space, if_neg (by decide)]
  · rw [run_char, if_neg (by decide)]

theorem text_shape (g : String) (doc : List (String × List (String × List Node))) :
    baseText g ++ docText doc
      = '@' :: (['b', 'a', 's', 'e', ' ', '<'] ++
          (g.data ++ (['>', ' '] ++ (['.', '\n'] ++ docText doc)))) := by
  simp [baseText]

theorem text_hit (g : String) (doc : List (String × List (String × List Node))) :
    baseText g ++ docText doc
      = ('@' :: 'b' :: 'a' :: 's' :: 'e' :: ' ' :: '<' :: (g.data ++ ['>', ' ', '.']))
        ++ '\n' :: docText doc := by
  simp [baseText]

theorem Good_nil_fails (re : Regex) (fuel : Nat) (h : ∀ l, Good l → FailsLater re fuel l) :
    FailsLater re fuel [] :=
  h [] trivial

/-- Behind the directive `@base` the text that `Marshal` writes has good places only. -/
theorem Good_rest (g : String) (doc : List (String × List (String × List Node)))
    (hg : plainIri g = true) (hd : plainDoc doc) :
    NoStart Good ('\n' :: docText doc) [] := by
  have h := Good_text g doc hg hd
  have e : ['b', 'a', 's', 'e', ' ', '<'] ++ (g.data ++ (['>', ' '] ++ (['.', '\n'] ++ docText doc)))
      = (['b', 'a', 's', 'e', ' ', '<'] ++ g.data ++ ['>', ' ', '.']) ++ '\n' :: docText doc := by
    simp
  rw [e] at h
  exact NoStart_suffix _ _ _ _ h

/-- Method `stripComments` leaves the text that `Marshal` writes as it is. -/
theorem stripComments_text (p : TurtleParser) (g : String)
    (doc : List (String × List (String × List Node)))
    (hg : plainIri g = true) (hd : plainDoc doc) :
    p.stripComments (String.mk (baseText g ++ docText doc))
      = String.mk (baseText g ++ docText doc) := by
  rw [text_shape]
  have := ReplaceAllString_segs ttlCommentMatcher [(none, '@' :: (['b', 'a', 's', 'e', ' ', '<'] ++
      (g.data ++ (['>', ' '] ++ (['.', '\n'] ++ docText doc)))))]
    (SegOK_miss _ _ _ _ (comment_first _ _)
      (NoStart_mono _ _ _ _ (fun l hl => comment_fail _ l hl) (Good_text g doc hg hd))
      (comment_fail _ [] trivial))
  simpa [segText, keptText, TurtleParser.stripComments] using this

/-- The directive `@base` is removed from the text that `Marshal` writes. -/
theorem directive_text (g : String) (doc : List (String × List (String × List Node)))
    (hg : plainIri g = true) (hd : plainDoc doc) :
    ttlDirectiveMatcher.ReplaceAllString (String.mk (baseText g ++ docText doc)) []
      = String.mk ('\n' :: docText doc) := by
  rw [text_hit]
  have hrun := directive_run
    ((segText [(some [(1, 1, 5)],
        '@' :: 'b' :: 'a' :: 's' :: 'e' :: ' ' :: '<' :: (g.data ++ ['>', ' ', '.'])),
      (none, '\n' :: docText doc)]).length + 1) g.data ('\n' :: docText doc)
    (plainIri_bracket g hg) (by simp [segText]; omega)
  have := ReplaceAllString_segs ttlDirectiveMatcher
    [(some [(1, 1, 5)], '@' :: 'b' :: 'a' :: 's' :: 'e' :: ' ' :: '<' :: (g.data ++ ['>', ' ', '.'])),
      (none, '\n' :: docText doc)]
    (SegOK_hit _ _ _ _ _ (by simp) (by simpa using hrun)
      (NoStart_mono _ _ _ _ (fun l hl pos _ => directive_fail _ l hl pos) (Good_rest g doc hg hd))
      (fun pos _ => directive_fail _ [] trivial pos))
  simpa [segText, keptText] using this

/-- Method `extractNamespace` finds no prefix in the text that `Marshal` writes. -/
theorem extractNamespace_text (p : TurtleParser) (g : String)
    (doc : List (String × List (String × List Node)))
    (hg : plainIri g = true) (hd : plainDoc doc) :
    p.extractNamespace (String.mk (baseText g ++ docText doc)) = Outcome.ok NewEmptyNamespace := by
  rw [text_shape]
  have := allMatches_segs ttlPrefixDirective [(none, '@' :: (['b', 'a', 's', 'e', ' ', '<'] ++
      (g.data ++ (['>', ' '] ++ (['.', '\n'] ++ docText doc)))))]
    (SegOK_miss _ _ _ _ (pfx_first _ _)
      (NoStart_mono _ _ _ _ (fun l hl => pfx_fail _ l hl) (Good_text g doc hg hd))
      (pfx_fail _ [] trivial))
  simp only [segText, List.append_nil, matchesOf] at this
  simp only [TurtleParser.extractNamespace, Regex.FindAllStringSubmatch, this, List.map_nil,
    setPrefixes]

/-- Method `extractBaseIri` finds the IRI of the directive `@base` that `Marshal` writes. -/
theorem extractBaseIri_text (p : TurtleParser) (ns : Namespace) (fb : Bool) (g : String)
    (doc : List (String × List (String × List Node)))
    (hne : g ≠ "") (hg : plainIri g = true) (hd : plainDoc doc) :
    p.extractBaseIri (String.mk (baseText g ++ docText doc)) ns fb = Outcome.ok g := by
  rw [text_hit]
  have hgne : g.data ≠ [] := by
    intro h
    apply hne
    apply String.ext
    rw [h]
  have hrun := base_run
    ((segText [(some [(2, 7, g.data.length + 7), (1, 0, 0)],
        '@' :: 'b' :: 'a' :: 's' :: 'e' :: ' ' :: '<' :: (g.data ++ ['>', ' ', '.'])),
      (none, '\n' :: docText doc)]).length + 1) g.data ('\n' :: docText doc) hgne
    (plainIri_bracket g hg) (by simp [segText]; omega)
  have := allMatches_segs ttlBaseDirective
    [(some [(2, 7, g.data.length + 7), (1, 0, 0)],
        '@' :: 'b' :: 'a' :: 's' :: 'e' :: ' ' :: '<' :: (g.data ++ ['>', ' ', '.'])),
      (none, '\n' :: docText doc)]
    (SegOK_hit _ _ _ _ _ (by simp) (by simpa using hrun)
      (NoStart_mono _ _ _ _ (fun l hl => base_fail _ l hl) (Good_rest g doc hg hd))
      (base_fail _ [] trivial))
  simp only [segText, List.append_nil, matchesOf] at this
  simp only [TurtleParser.extractBaseIri, Regex.FindAllStringSubmatch, this, List.map_cons,
    List.map_nil, List.length_singleton, gt_iff_lt, Nat.lt_irrefl, if_false]
  have hr : List.range (2 + 1) = [0, 1, 2] := rfl
  rw [hr]
  simp only [List.map_cons, List.map_nil, List.getElem?_cons_succ, List.getElem?_cons_zero,
    Outcome.ofOption]
  congr 1
  apply String.ext
  simp only [Match.text, Match.group]
  simp

/-- The loop over the objects of a predicate, for texts that `unmarshalNode` reads: the
result holds what it held before and the statements of the objects. -/
theorem unmarshalObjects_mem (p : TurtleParser) (ns : Namespace) (subj pred : namedNode)
    (graph : Option namedNode) :
    ∀ (strs : List String) (result : List statement),
      (∀ s ∈ strs, ∃ o, p.unmarshalNode s ns = Outcome.ok o) →
      ∃ out, unmarshalObjects p ns subj pred graph strs result = Outcome.ok out ∧
        ∀ st, st ∈ out ↔ st ∈ result ∨
          ∃ s ∈ strs, ∃ o, p.unmarshalNode s ns = Outcome.ok o ∧
            st = NewStatement subj pred o graph := by
  intro strs
  induction strs with
  | nil =>
    intro result _
    exact ⟨result, rfl, fun st => by simp⟩
  | cons s rest ih =>
    intro result hs
    obtain ⟨o, ho⟩ := hs s (by simp)
    obtain ⟨out, hout, hmem⟩ := ih
      (if (!(result.any (fun r => r.Equals (some (NewStatement subj pred o graph))))) = true
        then result ++ [NewStatement subj pred o graph] else result)
      (fun s2 h2 => hs s2 (List.mem_cons_of_mem _ h2))
    refine ⟨out, ?_, ?_⟩
    · rw [unmarshalObjects, ho]
      exact hout
    · intro st
      rw [hmem st]
      have hres : st ∈ (if (!(result.any
            (fun r => r.Equals (some (NewStatement subj pred o graph))))) = true
          then result ++ [NewStatement subj pred o graph] else result)
          ↔ st ∈ result ∨ st = NewStatement subj pred o graph := by
        by_cases hany : result.any (fun r => r.Equals (some (NewStatement subj pred o graph)))
            = true
        · simp only [hany, Bool.not_true, Bool.false_eq_true, if_false]
          constructor
          · exact Or.inl
          · rintro (h | h)
            · exact h
            · rw [List.any_eq_true] at hany
              obtain ⟨r, hr, he⟩ := hany
              have he2 := ((statement_Equals_iff _ _).mp he).1
              rw [h, ← he2]
              exact hr
        · simp only [hany, Bool.not_false, if_true, List.mem_append, List.mem_singleton]
      rw [hres]
      constructor
      · rintro ((h | h) | ⟨s2, hs2, o2, ho2, he⟩)
        · exact Or.inl h
        · exact Or.inr ⟨s, by simp, o, ho, h⟩
        · exact Or.inr ⟨s2, List.mem_cons_of_mem _ hs2, o2, ho2, he⟩
      · rintro (h | ⟨s2, hs2, o2, ho2, he⟩)
        · exact Or.inl (Or.inl h)
        · rcases List.mem_cons.mp hs2 with rfl | hs3
          · rw [ho] at ho2
            cases ho2
            exact Or.inl (Or.inr he)
          · exact Or.inr ⟨s2, hs3, o2, ho2, he⟩

theorem objBlank_space (rest : List Node) : ∀ c ∈ objBlank rest, isSpaceChar c = true := by
  cases rest with
  | nil => intro c hc; simp [objBlank] at hc
  | cons o r =>
    intro c hc
    simp only [objBlank, List.mem_singleton] at hc
    subst hc
    decide

theorem objPieces_sound (keep : Node → Bool) (objs : List Node) (s : String)
    (h : s ∈ objPieces keep objs) :
    ∃ o ∈ objs, ∃ ws, (∀ c ∈ ws, isSpaceChar c = true) ∧ s = String.mk (nodeText o ++ ws) := by
  induction objs with
  | nil => simp [objPieces] at h
  | cons o rest ih =>
    simp only [objPieces] at h
    by_cases hk : keep o = true
    · rw [if_pos hk] at h
      rcases List.mem_cons.mp h with rfl | h2
      · exact ⟨o, by simp, objBlank rest, objBlank_space rest, rfl⟩
      · obtain ⟨o2, ho2, ws, hws, he⟩ := ih h2
        exact ⟨o2, List.mem_cons_of_mem _ ho2, ws, hws, he⟩
    · rw [if_neg hk] at h
      obtain ⟨o2, ho2, ws, hws, he⟩ := ih h
      exact ⟨o2, List.mem_cons_of_mem _ ho2, ws, hws, he⟩

theorem objPieces_complete (keep : Node → Bool) (objs : List Node) (o : Node)
    (h : o ∈ objs) (hk : keep o = true) :
    ∃ ws, (∀ c ∈ ws, isSpaceChar c = true) ∧
      String.mk (nodeText o ++ ws) ∈ objPieces keep objs := by
  induction objs with
  | nil => simp at h
  | cons o1 rest ih =>
    rcases List.mem_cons.mp h with rfl | h2
    · refine ⟨objBlank rest, objBlank_space rest, ?_⟩
      simp [objPieces, hk]
    · obtain ⟨ws, hws, hm⟩ := ih h2
      refine ⟨ws, hws, ?_⟩
      simp only [objPieces]
      by_cases hk1 : keep o1 = true
      · rw [if_pos hk1]
        exact List.mem_cons_of_mem _ hm
      · rw [if_neg hk1]
        exact hm

/-- The loop over the objects of a predicate on the texts that `extractObjects` returns. -/
theorem objects_stage (p : TurtleParser) (ns : Namespace) (subj pred : namedNode)
    (graph : Option namedNode) (objs : List Node) (hpl : ∀ o ∈ objs, plainNode o = true)
    (result : List statement) :
    ∃ out, unmarshalObjects p ns subj pred graph
        (objPieces isLiteral objs ++ objPieces (fun o => !isLiteral o) objs) result
        = Outcome.ok out ∧
      ∀ st, st ∈ out ↔ st ∈ result ∨ ∃ o ∈ objs, st = NewStatement subj pred o graph := by
  have hread : ∀ s ∈ objPieces isLiteral objs ++ objPieces (fun o => !isLiteral o) objs,
      ∃ o ∈ objs, p.unmarshalNode s ns = Outcome.ok o := by
    intro s hs
    rcases List.mem_append.mp hs with h | h
    · obtain ⟨o, ho, ws, hws, rfl⟩ := objPieces_sound _ objs s h
      exact ⟨o, ho, unmarshalNode_text p ns o (hpl o ho) ws hws⟩
    · obtain ⟨o, ho, ws, hws, rfl⟩ := objPieces_sound _ objs s h
      exact ⟨o, ho, unmarshalNode_text p ns o (hpl o ho) ws hws⟩
  obtain ⟨out, hout, hmem⟩ := unmarshalObjects_mem p ns subj pred graph _ result
    (fun s hs => (hread s hs).imp (fun o h => h.2))
  refine ⟨out, hout, ?_⟩
  intro st
  rw [hmem st]
  constructor
  · rintro (h | ⟨s, hs, o, ho, he⟩)
    · exact Or.inl h
    · obtain ⟨o2, ho2, hr⟩ := hread s hs
      rw [ho] at hr
      cases hr
      exact Or.inr ⟨o, ho2, he⟩
  · rintro (h | ⟨o, ho, he⟩)
    · exact Or.inl h
    · by_cases hl : isLiteral o = true
      · obtain ⟨ws, hws, hm⟩ := objPieces_complete isLiteral objs o ho hl
        exact Or.inr ⟨_, List.mem_append_left _ hm, o,
          unmarshalNode_text p ns o (hpl o ho) ws hws, he⟩
      · obtain ⟨ws, hws, hm⟩ := objPieces_complete (fun o => !isLiteral o) objs o ho
          (by simpa using hl)
        exact Or.inr ⟨_, List.mem_append_right _ hm, o,
          unmarshalNode_text p ns o (hpl o ho) ws hws, he⟩

theorem wsChar_of_isSpaceChar_false (c : Char) (h : isSpaceChar c = false) :
    wsChar c = false := by
  simp only [isSpaceChar, Bool.or_eq_false_iff] at h
  simp only [wsChar, Bool.or_eq_false_iff]
  tauto

/-- The loop over the predicates of a subject on the texts that `extractSubStatements`
returns. -/
theorem subStatements_stage (p : TurtleParser) (ns : Namespace) (subj : namedNode)
    (graph : Option namedNode) :
    ∀ (preds : List (String × List Node)),
      (∀ pr ∈ preds, plainIri pr.1 = true ∧ pr.2 ≠ [] ∧ ∀ o ∈ pr.2, plainNode o = true) →
      ∀ (result : List statement),
      ∃ out, unmarshalSubStatements p ns subj graph
          (preds.map (fun pr => String.mk (predText pr))) result = Outcome.ok out ∧
        ∀ st, st ∈ out ↔ st ∈ result ∨
          ∃ pr ∈ preds, ∃ o ∈ pr.2, st = NewStatement subj (NewNamedNode pr.1) o graph := by
  intro preds
  induction preds with
  | nil =>
    intro _ result
    exact ⟨result, rfl, fun st => by simp⟩
  | cons pr rest ih =>
    intro hp result
    obtain ⟨hiri, hne, hobj⟩ := hp pr (by simp)
    obtain ⟨h0, l0, hl0, hs0, hw0, _, _⟩ := objsText_head pr.2 hne
    obtain ⟨c1, l1, hl1, hs1, _⟩ := objsText_last pr.2 hne hobj
    have hr : ∀ y ∈ (objsText pr.2).head?, wsChar y = false := by
      intro y hy
      rw [hl0] at hy
      simp only [List.head?_cons, Option.mem_def, Option.some.injEq] at hy
      rw [← hy]
      exact hw0
    have htrim : trimSpaceChars (objsText pr.2) = objsText pr.2 := by
      apply trimSpaceChars_id
      · intro c hc
        rw [hl0] at hc
        simp only [List.head?_cons, Option.mem_def, Option.some.injEq] at hc
        rw [← hc]
        exact hs0
      · intro c hc
        rw [hl1] at hc
        simp at hc
        rw [← hc]
        exact hs1
    obtain ⟨out1, hout1, hmem1⟩ := objects_stage p ns subj (NewNamedNode pr.1) graph pr.2 hobj
      result
    obtain ⟨out, hout, hmem⟩ := ih (fun q hq => hp q (List.mem_cons_of_mem _ hq)) out1
    refine ⟨out, ?_, ?_⟩
    · simp only [List.map_cons, unmarshalSubStatements, predText]
      rw [leading_find _ _ (plainIri_bracket _ hiri) hr,
        leading_replace _ _ (plainIri_bracket _ hiri) hr]
      simp only [List.getElem?_cons_succ, List.getElem?_cons_zero, Outcome.ofOption,
        Outcome.bind, strings.TrimSpace, htrim]
      rw [unmarshalIri_bracket p ns pr.1.data _ rfl]
      simp only [String_mk_data, extractObjects_text p pr.2 hobj, hout1]
      exact hout
    · intro st
      rw [hmem st, hmem1 st]
      constructor
      · rintro ((h | ⟨o, ho, he⟩) | ⟨q, hq, o, ho, he⟩)
        · exact Or.inl h
        · exact Or.inr ⟨pr, by simp, o, ho, he⟩
        · exact Or.inr ⟨q, List.mem_cons_of_mem _ hq, o, ho, he⟩
      · rintro (h | ⟨q, hq, o, ho, he⟩)
        · exact Or.inl (Or.inl h)
        · rcases List.mem_cons.mp hq with rfl | hq2
          · exact Or.inl (Or.inr ⟨o, ho, he⟩)
          · exact Or.inr ⟨q, hq2, o, ho, he⟩

/-- The loop over the clauses on the texts that `extractStatements` returns. -/
theorem statements_stage (p : TurtleParser) (ns : Namespace) (graph : Option namedNode) :
    ∀ (doc : List (String × List (String × List Node))), plainDoc doc →
      ∀ (result : List statement),
      ∃ out, unmarshalStatements p ns graph
          (doc.map (fun cl => String.mk (clauseText cl))) result = Outcome.ok out ∧
        ∀ st, st ∈ out ↔ st ∈ result ∨
          ∃ cl ∈ doc, ∃ pr ∈ cl.2, ∃ o ∈ pr.2,
            st = NewStatement (NewNamedNode cl.1) (NewNamedNode pr.1) o graph := by
  intro doc
  induction doc with
  | nil =>
    intro _ result
    exact ⟨result, rfl, fun st => by simp⟩
  | cons cl rest ih =>
    intro hd result
    obtain ⟨hiri, hne, hpr⟩ := hd cl (by simp)
    obtain ⟨l0, hl0⟩ := predsText_head cl.2 hne
    obtain ⟨c1, l1, hl1, hs1⟩ := predsText_last cl.2 hne hpr
    have hr : ∀ y ∈ (predsText cl.2).head?, wsChar y = false := by
      intro y hy
      rw [hl0] at hy
      simp only [List.head?_cons, Option.mem_def, Option.some.injEq] at hy
      rw [← hy]
      decide
    have htrim : trimSpaceChars (predsText cl.2) = predsText cl.2 := by
      apply trimSpaceChars_id
      · intro c hc
        rw [hl0] at hc
        simp only [List.head?_cons, Option.mem_def, Option.some.injEq] at hc
        rw [← hc]
        decide
      · intro c hc
        rw [hl1] at hc
        simp at hc
        rw [← hc]
        exact hs1
    obtain ⟨out1, hout1, hmem1⟩ := subStatements_stage p ns (NewNamedNode cl.1) graph cl.2 hpr
      result
    obtain ⟨out, hout, hmem⟩ := ih (fun q hq => hd q (List.mem_cons_of_mem _ hq)) out1
    refine ⟨out, ?_, ?_⟩
    · simp only [List.map_cons, unmarshalStatements, clauseText]
      rw [leading_find _ _ (plainIri_bracket _ hiri) hr,
        leading_replace _ _ (plainIri_bracket _ hiri) hr]
      simp only [List.getElem?_cons_succ, List.getElem?_cons_zero, Outcome.ofOption,
        Outcome.bind, strings.TrimSpace, htrim]
      rw [unmarshalIri_bracket p ns cl.1.data _ rfl]
      simp only [String_mk_data, extractSubStatements_text p cl.2 hpr hne, hout1]
      exact hout
    · intro st
      rw [hmem st, hmem1 st]
      constructor
      · rintro ((h | ⟨pr, hp, o, ho, he⟩) | ⟨q, hq, pr, hp, o, ho, he⟩)
        · exact Or.inl h
        · exact Or.inr ⟨cl, by simp, pr, hp, o, ho, he⟩
        · exact Or.inr ⟨q, List.mem_cons_of_mem _ hq, pr, hp, o, ho, he⟩
      · rintro (h | ⟨q, hq, pr, hp, o, ho, he⟩)
        · exact Or.inl (Or.inl h)
        · rcases List.mem_cons.mp hq with rfl | hq2
          · exact Or.inl (Or.inr ⟨pr, hp, o, ho, he⟩)
          · exact Or.inr ⟨q, hq2, pr, hp, o, ho, he⟩

theorem clauseText_chars (cl : String × List (String × List Node))
    (hs : plainIri cl.1 = true)
    (hp : ∀ pr ∈ cl.2, plainIri pr.1 = true ∧ pr.2 ≠ [] ∧ ∀ o ∈ pr.2, plainNode o = true) :
    ∀ c ∈ clauseText cl, c ≠ '\n' := by
  intro c hc
  simp only [clauseText, List.mem_cons, List.mem_append] at hc
  rcases hc with rfl | hc | rfl | rfl | hc
  · decide
  · exact (plainIri_bracket _ hs c hc).2
  · decide
  · decide
  · exact predsText_chars cl.2 hp c hc

theorem filter_docText (doc : List (String × List (String × List Node))) (hd : plainDoc doc) :
    (docText doc).filter (fun c => c != '\n') = bodyText doc := by
  induction doc with
  | nil => rfl
  | cons cl rest ih =>
    obtain ⟨h1, _, h3⟩ := hd cl (by simp)
    have hcl : (clauseText cl).filter (fun c => c != '\n') = clauseText cl := by
      rw [List.filter_eq_self]
      intro c hc
      simpa using clauseText_chars cl h1 h3 c hc
    simp only [docText, bodyText, List.filter_append, hcl, List.filter_cons]
    rw [ih (fun c hc => hd c (List.mem_cons_of_mem _ hc))]
    simp

/-- The line feeds are removed from the text behind the directive. -/
theorem removeNewlines_rest (doc : List (String × List (String × List Node)))
    (hd : plainDoc doc) :
    removeNewlines (String.mk ('\n' :: docText doc)) = String.mk (bodyText doc) := by
  simp only [removeNewlines, List.filter_cons]
  rw [filter_docText doc hd]
  simp

theorem removeNewlines_doc (doc : List (String × List (String × List Node)))
    (hd : plainDoc doc) :
    removeNewlines (String.mk (docText doc)) = String.mk (bodyText doc) := by
  simp only [removeNewlines]
  rw [filter_docText doc hd]

/-- No match of `ttlCommentMatcher` starts at a `<` at the start of the text. -/
theorem comment_start (fuel : Nat) (rest : List Char) :
    Regex.run ttlCommentMatcher fuel (fun s => some s) ⟨0, '<' :: rest, []⟩ = none := by
  simp only [ttlCommentMatcher, seq_cons2, seq_single]
  rw [run_cat, run_cap, run_alt, run_bot]
  simp only [if_true]
  apply orElse_both
  · rw [run_cat, run_star]
    apply loop_lazy_fail
    · rw [run_cat, run_char, if_neg (by decide)]
    · intro k2
      rw [run_space, if_neg (by decide)]
  · rw [run_char, if_neg (by decide)]

/-- No match of `ttlPrefixDirective` starts at a `<` at the start of the text. -/
theorem pfx_start (fuel : Nat) (rest : List Char) :
    Regex.run ttlPrefixDirective fuel (fun s => some s) ⟨0, '<' :: rest, []⟩ = none := by
  simp only [ttlPrefixDirective, seq_cons2, seq_single]
  rw [run_cat, run_cap, run_alt, run_bot]
  simp only [if_true]
  apply orElse_both
  · rw [run_cat, run_star]
    apply loop_lazy_fail
    · rw [run_cat, lit_run, if_neg]
      simp [hasPrefixChars]
    · intro k2
      rw [run_space, if_neg (by decide)]
  · rw [run_alt, run_space, if_neg (by decide), orElse_none, run_char, if_neg (by decide)]

/-- No match of `ttlBaseDirective` starts at a `<` at the start of the text. -/
theorem base_start (fuel : Nat) (rest : List Char) :
    Regex.run ttlBaseDirective fuel (fun s => some s) ⟨0, '<' :: rest, []⟩ = none := by
  simp only [ttlBaseDirective, seq_cons2, seq_single]
  rw [run_cat, run_cap, run_alt, run_bot]
  simp only [if_true]
  apply orElse_both
  · rw [run_cat, run_star,
      greedy_space_stop _ _ _ _ _ _ (by intro y hy; simp at hy; rw [← hy]; decide),
      run_cat, lit_run, if_neg]
    simp [hasPrefixChars]
  · rw [run_alt, run_space, if_neg (by decide), orElse_none, run_char, if_neg (by decide)]

theorem docText_cons (doc : List (String × List (String × List Node))) (hne : doc ≠ []) :
    ∃ l, docText doc = '<' :: l := by
  obtain ⟨cl, rest, rfl⟩ := List.exists_cons_of_ne_nil hne
  exact ⟨_, rfl⟩

/-- Method `stripComments` leaves the text of the clauses as it is. -/
theorem stripComments_doc (p : TurtleParser)
    (doc : List (String × List (String × List Node))) (hd : plainDoc doc) (hne : doc ≠ []) :
    p.stripComments (String.mk (docText doc)) = String.mk (docText doc) := by
  obtain ⟨l, hl⟩ := docText_cons doc hne
  have hgood := Good_docText doc hd
  rw [hl] at hgood ⊢
  have := ReplaceAllString_segs ttlCommentMatcher [(none, '<' :: l)]
    (SegOK_miss _ _ _ _ (comment_start _ _)
      (NoStart_mono _ _ _ _ (fun l hl => comment_fail _ l hl)
        (NoStart_suffix _ ['<'] l [] hgood))
      (comment_fail _ [] trivial))
  simpa [segText, keptText, TurtleParser.stripComments] using this

/-- No directive is removed from the text of the clauses. -/
theorem directive_doc (doc : List (String × List (String × List Node))) (hd : plainDoc doc)
    (hne : doc ≠ []) :
    ttlDirectiveMatcher.ReplaceAllString (String.mk (docText doc)) []
      = String.mk (docText doc) := by
  obtain ⟨l, hl⟩ := docText_cons doc hne
  have hgood := Good_docText doc hd
  rw [hl] at hgood ⊢
  have := ReplaceAllString_segs ttlDirectiveMatcher [(none, '<' :: l)]
    (SegOK_miss _ _ _ _
      (directive_fail _ _ (Good_inert _ _ ⟨by decide, by decide, by decide⟩) 0)
      (NoStart_mono _ _ _ _ (fun l hl pos _ => directive_fail _ l hl pos)
        (NoStart_suffix _ ['<'] l [] hgood))
      (fun pos _ => directive_fail _ [] trivial pos))
  simpa [segText, keptText] using this

/-- Method `extractNamespace` finds no prefix in the text of the clauses. -/
theorem extractNamespace_doc (p : TurtleParser)
    (doc : List (String × List (String × List Node))) (hd : plainDoc doc) (hne : doc ≠ []) :
    p.extractNamespace (String.mk (docText doc)) = Outcome.ok NewEmptyNamespace := by
  obtain ⟨l, hl⟩ := docText_cons doc hne
  have hgood := Good_docText doc hd
  rw [hl] at hgood ⊢
  have := allMatches_segs ttlPrefixDirective [(none, '<' :: l)]
    (SegOK_miss _ _ _ _ (pfx_start _ _)
      (NoStart_mono _ _ _ _ (fun l hl => pfx_fail _ l hl)
        (NoStart_suffix _ ['<'] l [] hgood))
      (pfx_fail _ [] trivial))
  simp only [segText, List.append_nil, matchesOf] at this
  simp only [TurtleParser.extractNamespace, Regex.FindAllStringSubmatch, this, List.map_nil,
    setPrefixes]

/-- Method `extractBaseIri` with the default options finds no base IRI in the text of the
clauses. -/
theorem extractBaseIri_doc (ns : Namespace)
    (doc : List (String × List (String × List Node))) (hd : plainDoc doc) (hne : doc ≠ []) :
    (NewTurtleParser none).extractBaseIri (String.mk (docText doc)) ns false = Outcome.ok "" := by
  obtain ⟨l, hl⟩ := docText_cons doc hne
  have hgood := Good_docText doc hd
  rw [hl] at hgood ⊢
  have := allMatches_segs ttlBaseDirective [(none, '<' :: l)]
    (SegOK_miss _ _ _ _ (base_start _ _)
      (NoStart_mono _ _ _ _ (fun l hl => base_fail _ l hl)
        (NoStart_suffix _ ['<'] l [] hgood))
      (base_fail _ [] trivial))
  simp only [segText, List.append_nil, matchesOf] at this
  simp only [TurtleParser.extractBaseIri, Regex.FindAllStringSubmatch, this, List.map_nil,
    List.length_nil, gt_iff_lt, Nat.not_lt_zero, if_false, Bool.false_eq_true]
  rfl

/-- The text of `Marshal` with the default options for admitted statements without graph. -/
theorem Marshal_text_nil (ord : MapOrder) (stmts : List statement)
    (hall : ∀ st ∈ stmts, st.graph = none ∧ plainStatement st = true) :
    (NewTurtleParser none).Marshal ord stmts
      = Except.ok (String.mk (docText (docOf ord stmts))) := by
  have hscan := scanGraphs_same "" stmts
    (fun st hst x hx => by rw [(hall st hst).1] at hx; cases hx) "" true (Or.inl rfl)
  have hs : scanGraphs stmts ("", true) = ("", true) := by
    rw [hscan]
    simp
  rw [Marshal_default_eq, hs]
  congr 1
  apply String.ext
  have hdoc := docOf_plain ord stmts (fun st hst => (hall st hst).2)
  have := doc_join_data (fun cl => "<" ++ cl.1 ++ "> " ++
      String.intercalate "; " (cl.2.map (fun pr => "<" ++ pr.1 ++ "> " ++
        String.intercalate ", " (pr.2.map (fun o => plainText o ++ " ")))) ++ ".\n")
    (docOf ord stmts) (by
      intro cl hcl
      obtain ⟨_, hne2, hpr⟩ := hdoc cl hcl
      have := preds_intercalate_data (fun pr => "<" ++ pr.1 ++ "> " ++
        String.intercalate ", " (pr.2.map (fun o => plainText o ++ " "))) cl.2 hne2 (by
          intro pr hp
          obtain ⟨_, hne3, ho⟩ := hpr pr hp
          simp only [String.data_append, objs_intercalate_data pr.2 hne3 ho, predText]
          simp)
      simp only [String.data_append, this, clauseText]
      simp)
  simp only [String.data_append]
  rw [← this]
  simp only [docOf, List.map_map, Function.comp_def]
  simp

/-- Method `Unmarshal` on the empty text. -/
theorem Unmarshal_empty (ord : MapOrder) :
    (NewTurtleParser none).Unmarshal ord "" = Outcome.ok [] := by
  have h1 : (NewTurtleParser none).stripComments "" = "" := by decide
  have h2 : removeNewlines (ttlDirectiveMatcher.ReplaceAllString "" []) = "" := by decide
  have h3 : (NewTurtleParser none).extractNamespace "" = Outcome.ok NewEmptyNamespace := by decide
  have h4 : ttlBaseDirective.FindAllStringSubmatch 2 "" = [] := by decide
  have h5 : (NewTurtleParser none).extractStatements "" = Outcome.ok [] := by decide
  have h6 : (NewTurtleParser none).options.FallbackToFirstSubjectForBaseIri = false := rfl
  have h7 : (NewTurtleParser none).options.RequireBaseIri = false := rfl
  simp only [TurtleParser.Unmarshal, h1, h2, h3, h5, h6, Outcome.bind,
    TurtleParser.extractBaseIri, h4, h7]
  simp [unmarshalStatements]

/-- Method `Unmarshal` on the text that `Marshal` writes for a graph. -/
theorem Unmarshal_text (ord : MapOrder) (g : String)
    (doc : List (String × List (String × List Node)))
    (hgne : g ≠ "") (hg : plainIri g = true) (hd : plainDoc doc) (hne : doc ≠ []) :
    ∃ out, (NewTurtleParser none).Unmarshal ord (String.mk (baseText g ++ docText doc))
        = Outcome.ok out ∧
      ∀ st, st ∈ out ↔ ∃ cl ∈ doc, ∃ pr ∈ cl.2, ∃ o ∈ pr.2,
        st = NewStatement (NewNamedNode cl.1) (NewNamedNode pr.1) o (some (NewNamedNode g)) := by
  have hgb : (g != "") = true := by simpa using hgne
  obtain ⟨out, hout, hmem⟩ := statements_stage (NewTurtleParser none)
    (((TurtleParserDefaultNamespace.Copy ord).Include ord NewEmptyNamespace).Set "" g)
    (some (NewNamedNode g)) doc hd []
  refine ⟨out, ?_, fun st => by simpa using hmem st⟩
  simp only [TurtleParser.Unmarshal, stripComments_text _ g doc hg hd,
    extractNamespace_text _ g doc hg hd, Outcome.bind,
    extractBaseIri_text _ _ _ g doc hgne hg hd, directive_text g doc hg hd,
    removeNewlines_rest doc hd, extractStatements_text _ doc hd hne, hgb, if_true]
  exact hout

/-- Method `Unmarshal` on the text that `Marshal` writes without graph. -/
theorem Unmarshal_text_nil (ord : MapOrder)
    (doc : List (String × List (String × List Node))) (hd : plainDoc doc) (hne : doc ≠ []) :
    ∃ out, (NewTurtleParser none).Unmarshal ord (String.mk (docText doc)) = Outcome.ok out ∧
      ∀ st, st ∈ out ↔ ∃ cl ∈ doc, ∃ pr ∈ cl.2, ∃ o ∈ pr.2,
        st = NewStatement (NewNamedNode cl.1) (NewNamedNode pr.1) o none := by
  obtain ⟨out, hout, hmem⟩ := statements_stage (NewTurtleParser none)
    ((TurtleParserDefaultNamespace.Copy ord).Include ord NewEmptyNamespace)
    none doc hd []
  refine ⟨out, ?_, fun st => by simpa using hmem st⟩
  have h6 : (NewTurtleParser none).options.FallbackToFirstSubjectForBaseIri = false := rfl
  have hb : (("" : String) != "") = false := by decide
  simp only [TurtleParser.Unmarshal, stripComments_doc _ doc hd hne,
    extractNamespace_doc _ doc hd hne, Outcome.bind, h6,
    extractBaseIri_doc _ doc hd hne, directive_doc doc hd hne,
    removeNewlines_doc doc hd, extractStatements_text _ doc hd hne, hb, Bool.false_eq_true,
    if_false]
  exact hout

theorem docOf_nil (ord : MapOrder) (stmts : List statement) (h : docOf ord stmts = []) :
    stmts = [] := by
  cases stmts with
  | nil => rfl
  | cons st rest =>
    obtain ⟨cl, hcl, _⟩ := docOf_complete ord (st :: rest) st (by simp)
    rw [h] at hcl
    simp at hcl

/-- The statements that are read from the clauses of `docOf` are the statements. -/
theorem docOf_statements (ord : MapOrder) (stmts : List statement) (og : Option namedNode)
    (hall : ∀ st ∈ stmts, st.graph = og) (st : statement) :
    (∃ cl ∈ docOf ord stmts, ∃ pr ∈ cl.2, ∃ o ∈ pr.2,
        st = NewStatement (NewNamedNode cl.1) (NewNamedNode pr.1) o og) ↔ st ∈ stmts := by
  constructor
  · rintro ⟨cl, hcl, pr, hp, o, ho, rfl⟩
    obtain ⟨_, _, hpr⟩ := docOf_mem ord stmts cl hcl
    obtain ⟨st2, hst2, h1, h2, h3⟩ := ((hpr pr hp).2 o).mp ho
    have : NewStatement (NewNamedNode cl.1) (NewNamedNode pr.1) o og = st2 := by
      obtain ⟨⟨s⟩, ⟨q⟩, ob, gr⟩ := st2
      simp only [NewStatement, NewNamedNode, statement.mk.injEq, namedNode.mk.injEq]
      exact ⟨h1.symm, h2.symm, h3.symm, (hall _ hst2).symm⟩
    rw [this]
    exact hst2
  · intro hst
    obtain ⟨cl, hcl, h1, pr, hp, h2, ho⟩ := docOf_complete ord stmts st hst
    refine ⟨cl, hcl, pr, hp, st.object, ho, ?_⟩
    obtain ⟨⟨s⟩, ⟨q⟩, ob, gr⟩ := st
    simp only [NewStatement, NewNamedNode, statement.mk.injEq, namedNode.mk.injEq]
    exact ⟨h1.symm, h2.symm, trivial, hall _ hst⟩

/-- Proof auxiliary statement: the round trip for admitted statements, with the statements of
the result as those of the argument. -/
theorem roundtrip_mem (ord1 ord2 : MapOrder) (stmts : List statement) (og : Option namedNode)
    (hg : ∀ g, og = some g → g.iri ≠ "" ∧ plainIri g.iri = true)
    (hall : ∀ st ∈ stmts, st.graph = og ∧ plainStatement st = true) :
    ∃ text out, (NewTurtleParser none).Marshal ord1 stmts = Except.ok text ∧
      (NewTurtleParser none).Unmarshal ord2 text = Outcome.ok out ∧
      ∀ st, st ∈ out ↔ st ∈ stmts := by
  have hplain := docOf_plain ord1 stmts (fun st hst => (hall st hst).2)
  by_cases hne : stmts = []
  · subst hne
    refine ⟨_, [], Marshal_text_nil ord1 [] (by simp), ?_, fun st => Iff.rfl⟩
    have : docOf ord1 [] = [] := by
      cases h : docOf ord1 [] with
      | nil => rfl
      | cons cl rest =>
        obtain ⟨⟨st, hst, _⟩, _⟩ := docOf_mem ord1 [] cl (by rw [h]; simp)
        simp at hst
    rw [this]
    exact Unmarshal_empty ord2
  · have hdne : docOf ord1 stmts ≠ [] := fun h => hne (docOf_nil ord1 stmts h)
    cases og with
    | none =>
      obtain ⟨out, hout, hmem⟩ := Unmarshal_text_nil ord2 (docOf ord1 stmts) hplain hdne
      refine ⟨_, out, Marshal_text_nil ord1 stmts hall, hout, fun st => ?_⟩
      rw [hmem st]
      exact docOf_statements ord1 stmts none (fun s hs => (hall s hs).1) st
    | some g =>
      obtain ⟨hgne, hgp⟩ := hg g rfl
      obtain ⟨out, hout, hmem⟩ := Unmarshal_text ord2 g.iri (docOf ord1 stmts) hgne hgp hplain
        hdne
      refine ⟨_, out, Marshal_text ord1 stmts g hne hgne hall, hout, fun st => ?_⟩
      rw [hmem st]
      have e : (NewNamedNode g.iri) = g := rfl
      rw [e]
      exact docOf_statements ord1 stmts (some g) (fun s hs => (hall s hs).1) st

/-- A statement that the round trip admits `Equals` itself. -/
theorem plainStatement_Equals (st : statement) (h : plainStatement st = true) :
    st.Equals (some st) = true := by
  rw [statement_Equals_self]
  apply Node_Equals_textValued
  simp only [plainStatement, Bool.and_eq_true] at h
  cases ho : st.object with
  | named x => rfl
  | localized x => rfl
  | typed x =>
    have h2 := h.2
    rw [ho] at h2
    simp only [plainNode, Bool.and_eq_true] at h2
    exact h2.2

/-- C14: the Turtle round trip fails on ordinary data. Each statement below stands alone in
its list, carries the graph `g`, and its literal value, if it has one, holds no double quote;
`Marshal` with the default options writes it. For the object IRI `http://a.org:80/o`,
`Unmarshal` of that text returns an error. For the predicate IRI `http://a.org:80/p`,
`Unmarshal` returns no statement. For the typed literal with the value `http://a.org:80/x`,
`Unmarshal` returns an error. For the typed literal whose value is the number 42, `Unmarshal`
returns one statement, with the text `42` as value, and the argument does not `Equals` it. For
the localized literal with the value `a`, line feed, `b`, `Unmarshal` returns one statement,
with the value `ab`, and the argument does not `Equals` it. -/
theorem C14_roundtrip_fails :
    (NewTurtleParser none).Marshal MapOrder.stored [exStatementPortObject]
      = Except.ok "@base <g> .\n<s> <p> <http://a.org:80/o> .\n" ∧
    (NewTurtleParser none).Unmarshal MapOrder.stored
        "@base <g> .\n<s> <p> <http://a.org:80/o> .\n"
      = Outcome.error "Unable to extract subject from statement: org:80/o>" ∧
    (NewTurtleParser none).Marshal MapOrder.stored [exStatementPortPredicate]
      = Except.ok "@base <g> .\n<s> <http://a.org:80/p> <o> .\n" ∧
    (NewTurtleParser none).Unmarshal MapOrder.stored
        "@base <g> .\n<s> <http://a.org:80/p> <o> .\n"
      = Outcome.ok [] ∧
    '"' ∉ "http://a.org:80/x".data ∧
    (NewTurtleParser none).Marshal MapOrder.stored [exStatementPortValue]
      = Except.ok "@base <g> .\n<s> <p> \"http://a.org:80/x\"^^<t> .\n" ∧
    (NewTurtleParser none).Unmarshal MapOrder.stored
        "@base <g> .\n<s> <p> \"http://a.org:80/x\"^^<t> .\n"
      = Outcome.error "Unable to unmarshal object string: \"http://a" ∧
    '"' ∉ (Value.other 42 "42").shown.data ∧
    (NewTurtleParser none).Marshal MapOrder.stored [exStatementNumber]
      = Except.ok "@base <g> .\n<s> <p> \"42\"^^<t> .\n" ∧
    (NewTurtleParser none).Unmarshal MapOrder.stored "@base <g> .\n<s> <p> \"42\"^^<t> .\n"
      = Outcome.ok [NewStatement (NewNamedNode "s") (NewNamedNode "p")
          (Node.typed (NewTypedLiteral (Value.text "42") (NewNamedNode "t")))
          (some (NewNamedNode "g"))] ∧
    exStatementNumber.Equals (some (NewStatement (NewNamedNode "s") (NewNamedNode "p")
          (Node.typed (NewTypedLiteral (Value.text "42") (NewNamedNode "t")))
          (some (NewNamedNode "g")))) = false ∧
    '"' ∉ "a\nb".data ∧
    (NewTurtleParser none).Marshal MapOrder.stored [exStatementLineFeed]
      = Except.ok "@base <g> .\n<s> <p> \"a\nb\"@en .\n" ∧
    (NewTurtleParser none).Unmarshal MapOrder.stored "@base <g> .\n<s> <p> \"a\nb\"@en .\n"
      = Outcome.ok [NewStatement (NewNamedNode "s") (NewNamedNode "p")
          (Node.localized (NewLocalizedLiteral "ab" "en")) (some (NewNamedNode "g"))] ∧
    exStatementLineFeed.Equals (some (NewStatement (NewNamedNode "s") (NewNamedNode "p")
          (Node.localized (NewLocalizedLiteral "ab" "en")) (some (NewNamedNode "g"))))
      = false := by
  decide!

/-- Where the Turtle round trip with the default options holds. The statements all carry
the same graph, which is nil or has an IRI that is not empty. Every IRI is free of white space
and of the characters `"`, `<`, `>`, `@`, `^`, `,`, `;` and has no `:` behind a `.`; every
language tag is not empty, is neither `base` nor `prefix`, and is free of white space and of
the characters `"`, `<`, `>`, `@`, `^`, `,`, `;`, `.`; every value of a literal is free of the
characters `"`, backslash, `@`, `;` and line feed and has neither `:` nor `<` behind a `.`.
Then `Marshal` returns a text, `Unmarshal` of that text returns statements, every statement of
the argument has a statement of the result that it `Equals`, and every statement of the result
has a statement of the argument that it `Equals`; this holds for every order in which the maps
are visited. -/
theorem roundtrip_plain (ord1 ord2 : MapOrder) (stmts : List statement)
    (og : Option namedNode)
    (hg : ∀ g, og = some g → g.iri ≠ "" ∧ plainIri g.iri = true)
    (hall : ∀ st ∈ stmts, st.graph = og ∧ plainStatement st = true) :
    ∃ text out, (NewTurtleParser none).Marshal ord1 stmts = Except.ok text ∧
      (NewTurtleParser none).Unmarshal ord2 text = Outcome.ok out ∧
      (∀ st ∈ stmts, ∃ r ∈ out, st.Equals (some r) = true) ∧
      (∀ r ∈ out, ∃ st ∈ stmts, r.Equals (some st) = true) := by
  obtain ⟨text, out, hm, hu, hmem⟩ := roundtrip_mem ord1 ord2 stmts og hg hall
  refine ⟨text, out, hm, hu, ?_, ?_⟩
  · intro st hst
    exact ⟨st, (hmem st).mpr hst, plainStatement_Equals st (hall st hst).2⟩
  · intro r hr
    exact ⟨r, (hmem r).mp hr, plainStatement_Equals r (hall r ((hmem r).mp hr)).2⟩

/-- Example of the round trip: three statements in the graph `http://example.org/g`, written with the
maps visited in the stored order and read with the maps visited in the reversed order. -/
theorem roundtrip_plain_example :
    ((∀ g, some (NewNamedNode "http://example.org/g") = some g →
        g.iri ≠ "" ∧ plainIri g.iri = true) ∧
      (∀ st ∈ exRoundTrip, st.graph = some (NewNamedNode "http://example.org/g") ∧
        plainStatement st = true)) ∧
    ∃ text out, (NewTurtleParser none).Marshal MapOrder.stored exRoundTrip = Except.ok text ∧
      (NewTurtleParser none).Unmarshal MapOrder.reversed text = Outcome.ok out ∧
      (∀ st ∈ exRoundTrip, ∃ r ∈ out, st.Equals (some r) = true) ∧
      (∀ r ∈ out, ∃ st ∈ exRoundTrip, r.Equals (some st) = true) :=
  ⟨⟨by
      intro g hg
      cases hg
      decide, by
      intro st hst
      simp only [exRoundTrip, List.mem_cons, List.mem_singleton, List.not_mem_nil,
        or_false] at hst
      rcases hst with rfl | rfl | rfl <;> decide⟩,
    roundtrip_plain MapOrder.stored MapOrder.reversed exRoundTrip
      (some (NewNamedNode "http://example.org/g"))
      (by
        intro g hg
        cases hg
        decide)
      (by
        intro st hst
        simp only [exRoundTrip, List.mem_cons, List.mem_singleton, List.not_mem_nil,
          or_false] at hst
        rcases hst with rfl | rfl | rfl <;> decide)⟩

/-! ## Namespace.Include -/

theorem mapSet_find_ne (key value k : String) (m : List (String × String)) (h : k ≠ key) :
    ((mapSet key value m).find? (fun e => e.1 == k)).map (fun e => e.2)
      = (m.find? (fun e => e.1 == k)).map (fun e => e.2) := by
  induction m with
  | nil =>
    have : (key == k) = false := by simpa using fun e => h e.symm
    simp [mapSet, this]
  | cons e rest ih =>
    obtain ⟨k2, v2⟩ := e
    by_cases hk : k2 = key
    · subst hk
      have : (k2 == k) = false := by simpa using fun e => h e.symm
      simp [mapSet, this]
    · have hk2 : (k2 == key) = false := by simpa using hk
      simp only [mapSet, hk2, Bool.false_eq_true, if_false, List.find?_cons]
      split
      · rfl
      · exact ih

theorem Namespace_Get_Set_same (ns : Namespace) (key value : String) :
    (ns.Set key value).Get key = some value :=
  mapSet_find key value ns.ns

theorem Namespace_Get_Set_ne (ns : Namespace) (key value k : String) (h : k ≠ key) :
    (ns.Set key value).Get k = ns.Get k :=
  mapSet_find_ne key value k ns.ns h

theorem Namespace_Contains_iff (ns : Namespace) (k : String) :
    ns.Contains k = true ↔ k ∈ ns.ns.map (fun e => e.1) := by
  simp only [Namespace.Contains, Namespace.Get, Option.isSome_map', List.find?_isSome,
    List.mem_map, beq_iff_eq]

theorem Namespace_MustGet_of_Contains (ns : Namespace) (k : String) (h : ns.Contains k = true) :
    some (ns.MustGet k) = ns.Get k := by
  simp only [Namespace.Contains] at h
  simp only [Namespace.MustGet]
  cases hg : ns.Get k with
  | none => simp [hg] at h
  | some v => rfl

/-- The loop `for _, k := range keys { copy.Set(k, src.MustGet(k)) }` leaves a key that is
not among `keys` as it is and gives a key among them the value of `src`. -/
theorem copyEntries_Get (src : Namespace) (k : String) :
    ∀ (keys : List String) (copy : Namespace),
      (copyEntries src keys copy).Get k
        = if k ∈ keys then some (src.MustGet k) else copy.Get k := by
  intro keys
  induction keys with
  | nil => intro copy; simp [copyEntries]
  | cons k2 rest ih =>
    intro copy
    rw [copyEntries, ih]
    by_cases hr : k ∈ rest
    · simp [hr]
    · by_cases hk : k = k2
      · subst hk
        simp [hr, Namespace_Get_Set_same]
      · simp [hr, hk, Namespace_Get_Set_ne _ _ _ _ hk]

theorem mem_ListKeys (ns : Namespace) (ord : MapOrder) (k : String) :
    k ∈ ns.ListKeys ord ↔ ns.Contains k = true := by
  rw [Namespace_Contains_iff, Namespace.ListKeys, (ord.perm _).mem_iff]

theorem Copy_Get (ns : Namespace) (ord : MapOrder) (k : String) :
    (ns.Copy ord).Get k = if ns.Contains k = true then ns.Get k else NewNamespace.Get k := by
  rw [Namespace.Copy, copyEntries_Get]
  by_cases h : ns.Contains k = true
  · rw [if_pos ((mem_ListKeys ns ord k).mpr h), if_pos h, Namespace_MustGet_of_Contains ns k h]
  · rw [if_neg (fun hm => h ((mem_ListKeys ns ord k).mp hm)), if_neg h]

/-- C30: `Namespace.Include` is a merge in which the argument wins: a key of `other` has the
value of `other` in the result, also when the receiver has the key, a key of the receiver
alone has the value of the receiver, and any other key has what `NewNamespace` gives it
(`Copy` starts from the default namespace); this holds for every order in which the maps are
visited. -/
theorem C30_include_right_biased (ns other : Namespace) (ord : MapOrder) (k : String) :
    (ns.Include ord other).Get k
      = if other.Contains k = true then other.Get k
        else if ns.Contains k = true then ns.Get k
        else NewNamespace.Get k := by
  rw [Namespace.Include, copyEntries_Get, Copy_Get]
  by_cases h : other.Contains k = true
  · rw [if_pos ((mem_ListKeys other ord k).mpr h), if_pos h,
      Namespace_MustGet_of_Contains other k h]
  · rw [if_neg (fun hm => h ((mem_ListKeys other ord k).mp hm)), if_neg h]

/-! ## unmarshalIri -/

theorem splitChars_none (sep : Char) (l : List Char) (h : sep ∉ l) : splitChars sep l = [l] := by
  induction l with
  | nil => rfl
  | cons c cs ih =>
    have hc : (c == sep) = false := by
      rw [beq_eq_false_iff_ne]
      intro e
      exact h (by simp [e])
    simp only [splitChars, hc, Bool.false_eq_true, if_false]
    rw [ih (fun hm => h (List.mem_cons_of_mem _ hm))]

theorem splitChars_ne_nil (sep : Char) (l : List Char) : splitChars sep l ≠ [] := by
  induction l with
  | nil => simp [splitChars]
  | cons c cs ih =>
    simp only [splitChars]
    split
    · simp
    · split
      · simp
      · simp

theorem splitChars_append (sep : Char) (pre rest : List Char) (h : sep ∉ pre) :
    splitChars sep (pre ++ sep :: rest) = pre :: splitChars sep rest := by
  induction pre with
  | nil => simp [splitChars]
  | cons c cs ih =>
    have hc : (c == sep) = false := by
      rw [beq_eq_false_iff_ne]
      intro e
      exact h (by simp [e])
    have e := ih (fun hm => h (List.mem_cons_of_mem _ hm))
    simp only [List.cons_append, splitChars, hc, Bool.false_eq_true, if_false, List.append_eq, e]

theorem splitChars_length_mem (sep : Char) (l : List Char) (h : sep ∈ l) :
    2 ≤ (splitChars sep l).length := by
  obtain ⟨pre, rest, rfl, hpre⟩ : ∃ pre rest, l = pre ++ sep :: rest ∧ sep ∉ pre := by
    induction l with
    | nil => simp at h
    | cons c cs ih =>
      by_cases hc : c = sep
      · exact ⟨[], cs, by simp [hc], by simp⟩
      · have : sep ∈ cs := by
          rcases List.mem_cons.mp h with e | e
          · exact absurd e.symm hc
          · exact e
        obtain ⟨pre, rest, e, hp⟩ := ih this
        refine ⟨c :: pre, rest, by simp [e], ?_⟩
        simp only [List.mem_cons, not_or]
        exact ⟨fun e => hc e.symm, hp⟩
  rw [splitChars_append sep pre rest hpre]
  have := splitChars_ne_nil sep rest
  cases hs : splitChars sep rest with
  | nil => exact absurd hs this
  | cons a b => simp

/-- C27 (counterexample): `xsd` is a key of the default namespace, but `unmarshalIri` returns
the token `xsd:a:b`, whose local part holds a `:`, unchanged, and not the stem of `xsd`
followed by `#a:b`. -/
theorem C27_unmarshalIri_counterexample :
    NewNamespace.Get "xsd" = some "http://www.w3.org/2001/XMLSchema" ∧
    (NewTurtleParser none).unmarshalIri "xsd:a:b" NewNamespace = Outcome.ok "xsd:a:b" ∧
    (NewTurtleParser none).unmarshalIri "xsd:a:b" NewNamespace
      ≠ Outcome.ok ("http://www.w3.org/2001/XMLSchema" ++ "#" ++ "a:b") := by
  decide

/-- The method `unmarshalIri` on a token `prefix:local` without white space whose prefix holds
no `:` and does not start with `<`. -/
theorem unmarshalIri_shorthand (p : TurtleParser) (ns : Namespace) (pd ld : List Char)
    (hp : ∀ c ∈ pd, isSpaceChar c = false ∧ c ≠ ':')
    (hl : ∀ c ∈ ld, isSpaceChar c = false)
    (hlt : pd.head? ≠ some '<') :
    p.unmarshalIri (String.mk (pd ++ ':' :: ld)) ns
      = Outcome.ok (match ns.Get (String.mk pd) with
          | some stem => if ':' ∈ ld then String.mk (pd ++ ':' :: ld)
            else stem ++ "#" ++ String.mk ld
          | none => String.mk (pd ++ ':' :: ld)) := by
  have htrim : trimSpaceChars (pd ++ ':' :: ld) = pd ++ ':' :: ld := by
    apply trimSpaceChars_id
    · intro c hc
      cases pd with
      | nil =>
        simp only [List.nil_append, List.head?_cons, Option.mem_def, Option.some.injEq] at hc
        rw [← hc]
        decide
      | cons a l =>
        simp only [List.cons_append, List.head?_cons, Option.mem_def, Option.some.injEq] at hc
        rw [← hc]
        exact (hp a (by simp)).1
    · intro c hc
      rcases List.eq_nil_or_concat ld with hld | ⟨l, a, hld⟩
      · rw [hld, List.getLast?_append] at hc
        simp at hc
        rw [← hc]
        decide
      · rw [List.concat_eq_append] at hld
        have e : pd ++ ':' :: (l ++ [a]) = (pd ++ ':' :: l) ++ [a] := by simp
        rw [hld, e, List.getLast?_append] at hc
        simp at hc
        rw [← hc]
        exact hl a (by rw [hld]; simp)
  have hne : ((String.mk (pd ++ ':' :: ld) : String) == "a") = false := by
    rw [beq_eq_false_iff_ne]
    intro h
    have h2 := congrArg String.data h
    have h3 : ':' ∈ pd ++ ':' :: ld := by simp
    rw [show (String.mk (pd ++ ':' :: ld)).data = pd ++ ':' :: ld from rfl] at h2
    rw [h2] at h3
    simp at h3
  have hsplit : splitChars ':' (pd ++ ':' :: ld) = pd :: splitChars ':' ld :=
    splitChars_append ':' _ _ (fun hm => (hp ':' hm).2 rfl)
  obtain ⟨c0, l0, hc0, hlt0⟩ : ∃ c0 l0, pd ++ ':' :: ld = c0 :: l0 ∧ c0 ≠ '<' := by
    cases pd with
    | nil => exact ⟨':', ld, rfl, by decide⟩
    | cons a l =>
      refine ⟨a, l ++ ':' :: ld, rfl, ?_⟩
      intro e
      apply hlt
      rw [e]
      rfl
  have hlt1 : (c0 == '<') = false := by simpa using hlt0
  simp only [TurtleParser.unmarshalIri, strings.TrimSpace, htrim, hne,
    Bool.false_eq_true, if_false]
  rw [hc0]
  simp only [hlt1, Bool.false_eq_true, if_false]
  rw [← hc0, hsplit]
  simp only []
  cases hg : ns.Get (String.mk pd) with
  | none => rfl
  | some stem =>
    simp only []
    by_cases hcol : ':' ∈ ld
    · have h2 := splitChars_length_mem ':' ld hcol
      have hlen : ((pd :: splitChars ':' ld).length == 2) = false := by
        simp only [List.length_cons, beq_eq_false_iff_ne, ne_eq]
        omega
      rw [hlen, if_pos hcol]
      rfl
    · rw [splitChars_none ':' ld hcol, if_neg hcol]
      rfl

/-- C27 (amended): the method `unmarshalIri` on the tokens of the three shapes, for every
namespace. The token `a` gives `http://www.w3.org/1999/02/22-rdf-syntax-ns#type`; the token
`<iri>` gives `iri`; a token `prefix:local` without white space, whose prefix holds no `:` and
does not start with `<`, gives the stem of the prefix, `#` and the local part when the prefix
is a key of the namespace and the local part holds no `:`, and is returned unchanged when the
prefix is no key or the local part holds a `:`. -/
theorem C27_unmarshalIri_cases (p : TurtleParser) (ns : Namespace) (pfx loc : String)
    (hp : ∀ c ∈ pfx.data, isSpaceChar c = false ∧ c ≠ ':')
    (hl : ∀ c ∈ loc.data, isSpaceChar c = false)
    (hlt : pfx.data.head? ≠ some '<') :
    p.unmarshalIri "a" ns = Outcome.ok "http://www.w3.org/1999/02/22-rdf-syntax-ns#type" ∧
    (∀ iri : String, p.unmarshalIri ("<" ++ iri ++ ">") ns = Outcome.ok iri) ∧
    p.unmarshalIri (pfx ++ ":" ++ loc) ns
      = Outcome.ok (match ns.Get pfx with
          | some stem => if ':' ∈ loc.data then pfx ++ ":" ++ loc else stem ++ "#" ++ loc
          | none => pfx ++ ":" ++ loc) := by
  refine ⟨by rfl, ?_, ?_⟩
  · intro iri
    have := unmarshalIri_bracket p ns iri.data ("<" ++ iri ++ ">").data (by simp)
    simpa using this
  · obtain ⟨pd⟩ := pfx
    obtain ⟨ld⟩ := loc
    have e : (String.mk pd ++ ":" ++ String.mk ld) = String.mk (pd ++ ':' :: ld) := by
      apply String.ext
      simp
    rw [e]
    exact unmarshalIri_shorthand p ns pd ld hp hl hlt

/-- Witness of C27: the token `xsd:string` in the default namespace. -/
theorem C27_unmarshalIri_cases_witness :
    ((∀ c ∈ "xsd".data, isSpaceChar c = false ∧ c ≠ ':') ∧
      (∀ c ∈ "string".data, isSpaceChar c = false) ∧ "xsd".data.head? ≠ some '<') ∧
    ((NewTurtleParser none).unmarshalIri "a" NewNamespace
        = Outcome.ok "http://www.w3.org/1999/02/22-rdf-syntax-ns#type" ∧
      (∀ iri : String, (NewTurtleParser none).unmarshalIri ("<" ++ iri ++ ">") NewNamespace
        = Outcome.ok iri) ∧
      (NewTurtleParser none).unmarshalIri ("xsd" ++ ":" ++ "string") NewNamespace
        = Outcome.ok (match NewNamespace.Get "xsd" with
            | some stem => if ':' ∈ "string".data then "xsd" ++ ":" ++ "string"
              else stem ++ "#" ++ "string"
            | none => "xsd" ++ ":" ++ "string")) :=
  ⟨⟨by decide, by decide, by decide⟩,
    C27_unmarshalIri_cases (NewTurtleParser none) NewNamespace "xsd" "string"
      (by decide) (by decide) (by decide)⟩

/-! ## Marshal with a node of another type -/

theorem marshalSubjectsAny_ok (p : TurtleParser) (ord : MapOrder) (ns : Namespace)
    (grouped : List (String × List (String × List MarshalNode))) :
    ∀ (subjects : List String) (ttl : String),
      ∃ text, marshalSubjectsAny p ord ns grouped subjects ttl = Except.ok text := by
  intro subjects
  induction subjects with
  | nil => intro ttl; exact ⟨ttl, rfl⟩
  | cons s rest ih =>
    intro ttl
    simp only [marshalSubjectsAny, TurtleParser.marshalNodeAny, TurtleParser.marshalNode]
    exact ih _

/-- C21: the method `Marshal` never returns an error, whatever the statements are: the error
of `marshalNode` for an object is dropped (`vs, _ := p.marshalNode(obj, ...)`), and the subject
and the predicate are named nodes, for which `marshalNode` has no error. For the statement
`s - p - x` with an object `x` that is none of the three kinds of node, `Marshal` returns the
text `<s> <p>  .` with nothing in the place of the object. -/
theorem C21_marshal_drops_node_error (p : TurtleParser) (ord : MapOrder)
    (stmts : List MarshalStatement) :
    (∃ text, p.MarshalAny ord stmts = Except.ok text) ∧
    (NewTurtleParser none).marshalNodeAny MapOrder.stored exStatementForeign.object false none
      = Except.error "Unable to marshal Node" ∧
    (NewTurtleParser none).MarshalAny MapOrder.stored [exStatementForeign]
      = Except.ok "<s> <p>  .\n" := by
  refine ⟨?_, by decide, by decide⟩
  simp only [TurtleParser.MarshalAny]
  exact marshalSubjectsAny_ok p ord _ _ _ _

theorem scanGraphsAny_ofStatement (stmts : List statement) (st : String × Bool) :
    scanGraphsAny (stmts.map MarshalStatement.ofStatement) st = scanGraphs stmts st := by
  induction stmts generalizing st with
  | nil => rfl
  | cons s rest ih =>
    obtain ⟨b, u⟩ := st
    cases hg : s.graph with
    | none => simp [scanGraphsAny, scanGraphs, MarshalStatement.ofStatement, hg, ih]
    | some g => simp [scanGraphsAny, scanGraphs, MarshalStatement.ofStatement, hg, ih]

theorem mapGet_map {β γ : Type} (f : List β → List γ) (hf : f [] = []) (k : String)
    (m : List (String × List β)) :
    mapGet k (m.map (fun e => (e.1, f e.2))) = f (mapGet k m) := by
  induction m with
  | nil => simp [mapGet, hf]
  | cons e rest ih =>
    obtain ⟨k2, v⟩ := e
    simp only [List.map_cons, mapGet]
    split
    · rfl
    · exact ih

theorem mapPut_map {β γ : Type} (f : β → γ) (k : String) (v : β) (m : List (String × β)) :
    mapPut k (f v) (m.map (fun e => (e.1, f e.2))) = (mapPut k v m).map (fun e => (e.1, f e.2)) := by
  induction m with
  | nil => simp [mapPut]
  | cons e rest ih =>
    obtain ⟨k2, v2⟩ := e
    simp only [List.map_cons, mapPut]
    split
    · simp
    · simp [ih]

theorem groupStatementsAny_ofStatement (stmts : List statement) :
    ∀ grouped : List (String × List (String × List Node)),
    groupStatementsAny (stmts.map MarshalStatement.ofStatement)
        (grouped.map (fun e => (e.1, e.2.map (fun i => (i.1, i.2.map MarshalNode.known)))))
      = (groupStatements stmts grouped).map
          (fun e => (e.1, e.2.map (fun i => (i.1, i.2.map MarshalNode.known)))) := by
  induction stmts with
  | nil => intro grouped; rfl
  | cons s rest ih =>
    intro grouped
    simp only [List.map_cons, groupStatementsAny, groupStatements, MarshalStatement.ofStatement]
    rw [← ih]
    congr 1
    rw [mapGet_map (fun (l : List (String × List Node)) =>
          l.map (fun i => (i.1, i.2.map MarshalNode.known))) rfl,
      mapGet_map (fun (l : List Node) => l.map MarshalNode.known) rfl,
      ← mapPut_map (fun (l : List (String × List Node)) =>
          l.map (fun i => (i.1, i.2.map MarshalNode.known))),
      ← mapPut_map (fun (l : List Node) => l.map MarshalNode.known)]
    simp

theorem orderedInsert_map_known (a : Node) (l : List Node) :
    (l.map MarshalNode.known).orderedInsert
        (fun a b => stringLess (MarshalNode.String b) (MarshalNode.String a) = false)
        (MarshalNode.known a)
      = (l.orderedInsert (fun a b => stringLess (Node.String b) (Node.String a) = false) a).map
          MarshalNode.known := by
  induction l with
  | nil => rfl
  | cons b rest ih =>
    have e : (stringLess (MarshalNode.String (MarshalNode.known b))
        (MarshalNode.String (MarshalNode.known a)) = false)
        = (stringLess (Node.String b) (Node.String a) = false) := rfl
    simp only [List.map_cons, List.orderedInsert, e]
    split
    · rfl
    · simp [ih]

theorem sortObjectsAny_known (objs : List Node) :
    sortObjectsAny (objs.map MarshalNode.known) = (sortObjects objs).map MarshalNode.known := by
  induction objs with
  | nil => rfl
  | cons a rest ih =>
    simp only [sortObjectsAny, sortObjects, List.map_cons, List.insertionSort] at ih ⊢
    rw [ih, orderedInsert_map_known]

theorem marshalObjectsAny_known (p : TurtleParser) (ord : MapOrder) (ns : Namespace)
    (objs : List Node) :
    ∀ (idx : Nat) (ttl : String),
      marshalObjectsAny p ord ns idx (objs.map MarshalNode.known) ttl
        = marshalObjects p ord ns idx objs ttl := by
  induction objs with
  | nil => intro idx ttl; rfl
  | cons o rest ih =>
    intro idx ttl
    simp only [List.map_cons, marshalObjectsAny, marshalObjects, TurtleParser.marshalNodeAny, ih]
    try rfl

theorem marshalPredicatesAny_known (p : TurtleParser) (ord : MapOrder) (ns : Namespace)
    (inner : List (String × List Node)) (preds : List String) :
    ∀ (idx : Nat) (ttl : String),
      marshalPredicatesAny p ord ns (inner.map (fun i => (i.1, i.2.map MarshalNode.known)))
          idx preds ttl
        = marshalPredicates p ord ns inner idx preds ttl := by
  induction preds with
  | nil => intro idx ttl; rfl
  | cons pr rest ih =>
    intro idx ttl
    simp only [marshalPredicatesAny, marshalPredicates, TurtleParser.marshalNodeAny, ih,
      mapGet_map (fun (l : List Node) => l.map MarshalNode.known) rfl, sortObjectsAny_known,
      marshalObjectsAny_known]
    try rfl

theorem marshalSubjectsAny_known (p : TurtleParser) (ord : MapOrder) (ns : Namespace)
    (grouped : List (String × List (String × List Node))) (subjects : List String) :
    ∀ (ttl : String),
      marshalSubjectsAny p ord ns
          (grouped.map (fun e => (e.1, e.2.map (fun i => (i.1, i.2.map MarshalNode.known)))))
          subjects ttl
        = marshalSubjects p ord ns grouped subjects ttl := by
  induction subjects with
  | nil => intro ttl; rfl
  | cons s rest ih =>
    intro ttl
    simp only [marshalSubjectsAny, marshalSubjects, TurtleParser.marshalNodeAny,
      TurtleParser.marshalNode, ih,
      mapGet_map (fun (l : List (String × List Node)) =>
        l.map (fun i => (i.1, i.2.map MarshalNode.known))) rfl,
      marshalPredicatesAny_known, List.map_map, Function.comp_def]

/-- On statements of the package the method `Marshal` with objects of any type is the method
`Marshal`. -/
theorem MarshalAny_ofStatement (p : TurtleParser) (ord : MapOrder) (stmts : List statement) :
    p.MarshalAny ord (stmts.map MarshalStatement.ofStatement) = p.Marshal ord stmts := by
  have hg := groupStatementsAny_ofStatement stmts []
  simp only [List.map_nil] at hg
  simp only [TurtleParser.MarshalAny, TurtleParser.Marshal, scanGraphsAny_ofStatement, hg,
    marshalSubjectsAny_known, List.map_map, Function.comp_def]

/-- C23: two directives `@base` that stand side by side without white space are not seen as
two: of the text `@base <a> .@base <b> .` the method `extractBaseIri` returns the base IRI `a`
and no error, and `Unmarshal` returns the statement in the graph `a`, because the match of
the first directive takes the `.` that the expression `(^|\s|\.)` needs before the second.
With a blank or a line feed between the directives the error is returned. -/
theorem C23_adjacent_base_directives :
    (NewTurtleParser none).extractBaseIri "@base <a> .@base <b> ." NewEmptyNamespace false
      = Outcome.ok "a" ∧
    (NewTurtleParser none).Unmarshal MapOrder.stored "@base <a> .@base <b> .\n<s> <p> <o> ."
      = Outcome.ok [NewStatement (NewNamedNode "s") (NewNamedNode "p")
          (Node.named (NewNamedNode "o")) (some (NewNamedNode "a"))] ∧
    (NewTurtleParser none).extractBaseIri "@base <a> . @base <b> ." NewEmptyNamespace false
      = Outcome.error "More than one '@base <...> .' directive found in ttl data." ∧
    (NewTurtleParser none).Unmarshal MapOrder.stored "@base <a> .\n@base <b> .\n<s> <p> <o> ."
      = Outcome.error "More than one '@base <...> .' directive found in ttl data." := by
  decide!

/-- C28: the method `unmarshalNode` tests for `@` before it tests for `^^`: the token
`"a@b"^^<t>` is read as a localized literal with the empty value and the language `b"^^<t>`,
and the token `"ab"^^<mailto:a@b>` as a localized literal with the language `b>`; without `@`
the token `"ab"^^<t>` is read as the typed literal with the value `ab` and the type `t`. -/
theorem C28_typed_literal_with_at :
    (NewTurtleParser none).unmarshalNode "\"a@b\"^^<t>" NewNamespace
      = Outcome.ok (Node.localized (NewLocalizedLiteral "" "b\"^^<t>")) ∧
    (NewTurtleParser none).unmarshalNode "\"ab\"^^<mailto:a@b>" NewNamespace
      = Outcome.ok (Node.localized (NewLocalizedLiteral "ab\"^^<mailto:" "b>")) ∧
    (NewTurtleParser none).unmarshalNode "\"ab\"^^<t>" NewNamespace
      = Outcome.ok (Node.typed (NewTypedLiteral (Value.text "ab") (NewNamedNode "t"))) := by
  decide!

/-- C29: a bare word in the place of an object is dropped without an error: `Unmarshal` of
`<s> <p> foo .` returns no statement and no error, and `Unmarshal` of `<s> <p> foo , <o> .`
returns the statement with the object `o` alone, because `extractObjects` returns only what
its two expressions match; the error of `unmarshalNode` is reached by the token `"abc"x:y`. -/
theorem C29_bare_word_dropped :
    (NewTurtleParser none).Unmarshal MapOrder.stored "<s> <p> foo ." = Outcome.ok [] ∧
    (NewTurtleParser none).extractObjects "foo" = Outcome.ok [] ∧
    (NewTurtleParser none).Unmarshal MapOrder.stored "<s> <p> foo , <o> ."
      = Outcome.ok [NewStatement (NewNamedNode "s") (NewNamedNode "p")
          (Node.named (NewNamedNode "o")) none] ∧
    (NewTurtleParser none).Unmarshal MapOrder.stored "<s> <p> \"abc\"x:y ."
      = Outcome.error "Unable to unmarshal object string: \"abc\"x:y" := by
  decide!

/-! ## The loops of Unmarshal and the statements that it forms -/

theorem Outcome_bind_assoc {α β γ : Type} (x : Outcome α) (f : α → Outcome β)
    (g : β → Outcome γ) : (x.bind f).bind g = x.bind (fun a => (f a).bind g) := by
  cases x <;> rfl

theorem Outcome_bind_ok {α β : Type} (a : α) (f : α → Outcome β) :
    (Outcome.ok a).bind f = f a := rfl

theorem Outcome_bind_eq_ok {α β : Type} (x : Outcome α) (f : α → Outcome β) (b : β)
    (h : x.bind f = Outcome.ok b) : ∃ a, x = Outcome.ok a ∧ f a = Outcome.ok b := by
  cases x with
  | ok a => exact ⟨a, rfl, h⟩
  | error e => cases h
  | panic => cases h

theorem Outcome_bind_congr {α β : Type} (x : Outcome α) (f g : α → Outcome β)
    (h : ∀ a, f a = g a) : x.bind f = x.bind g := by
  cases x with
  | ok a => exact h a
  | error e => rfl
  | panic => rfl

/-- The innermost loop of `Unmarshal` is the fold of `keepNew` over the statements that it
forms. -/
theorem unmarshalObjects_formed (p : TurtleParser) (ns : Namespace) (subject predicate : namedNode)
    (graph : Option namedNode) :
    ∀ (strs : List String) (result : List statement),
      unmarshalObjects p ns subject predicate graph strs result
        = (formedObjects p ns subject predicate graph strs).bind
            (fun formed => Outcome.ok (formed.foldl keepNew result)) := by
  intro strs
  induction strs with
  | nil => intro result; rfl
  | cons s rest ih =>
    intro result
    rw [unmarshalObjects, formedObjects]
    cases hn : p.unmarshalNode s ns with
    | panic => rfl
    | error e => rfl
    | ok object =>
      simp only []
      rw [Outcome_bind_assoc]
      have e : (if (!(result.any (fun r => r.Equals
            (some (NewStatement subject predicate object graph)))) ) = true
          then result ++ [NewStatement subject predicate object graph] else result)
          = keepNew result (NewStatement subject predicate object graph) := by
        simp only [keepNew]
        cases result.any (fun r => r.Equals (some (NewStatement subject predicate object graph)))
          <;> simp
      rw [e, ih]
      rfl

/-- The middle loop of `Unmarshal` is the fold of `keepNew` over the statements that it
forms. -/
theorem unmarshalSubStatements_formed (p : TurtleParser) (ns : Namespace) (subject : namedNode)
    (graph : Option namedNode) :
    ∀ (strs : List String) (result : List statement),
      unmarshalSubStatements p ns subject graph strs result
        = (formedSubStatements p ns subject graph strs).bind
            (fun formed => Outcome.ok (formed.foldl keepNew result)) := by
  intro strs
  induction strs with
  | nil => intro result; rfl
  | cons s rest ih =>
    intro result
    rw [unmarshalSubStatements, formedSubStatements]
    cases leadingIriMatcher.FindStringSubmatch 1 s with
    | none => rfl
    | some pm =>
      simp only [Outcome_bind_assoc]
      apply Outcome_bind_congr
      intro tok
      apply Outcome_bind_congr
      intro predIri
      apply Outcome_bind_congr
      intro objs
      rw [unmarshalObjects_formed, Outcome_bind_assoc]
      apply Outcome_bind_congr
      intro first
      rw [Outcome_bind_ok, ih]
      apply Outcome_bind_congr
      intro more
      rw [Outcome_bind_ok, List.foldl_append]

/-- The outer loop of `Unmarshal` is the fold of `keepNew` over the statements that it
forms. -/
theorem unmarshalStatements_formed (p : TurtleParser) (ns : Namespace)
    (graph : Option namedNode) :
    ∀ (strs : List String) (result : List statement),
      unmarshalStatements p ns graph strs result
        = (formedStatements p ns graph strs).bind
            (fun formed => Outcome.ok (formed.foldl keepNew result)) := by
  intro strs
  induction strs with
  | nil => intro result; rfl
  | cons s rest ih =>
    intro result
    rw [unmarshalStatements, formedStatements]
    cases leadingIriMatcher.FindStringSubmatch 1 s with
    | none => rfl
    | some pm =>
      simp only [Outcome_bind_assoc]
      apply Outcome_bind_congr
      intro tok
      apply Outcome_bind_congr
      intro subjIri
      apply Outcome_bind_congr
      intro subs
      rw [unmarshalSubStatements_formed, Outcome_bind_assoc]
      apply Outcome_bind_congr
      intro first
      rw [Outcome_bind_ok, ih]
      apply Outcome_bind_congr
      intro more
      rw [Outcome_bind_ok, List.foldl_append]

/-- The method `Unmarshal` is the fold of `keepNew` over the statements that it forms. -/
theorem Unmarshal_formed (p : TurtleParser) (ord : MapOrder) (text : String) :
    p.Unmarshal ord text
      = (p.formedAll ord text).bind (fun formed => Outcome.ok (formed.foldl keepNew [])) := by
  simp only [TurtleParser.Unmarshal, TurtleParser.formedAll, Outcome_bind_assoc]
  apply Outcome_bind_congr
  intro extractedNs
  apply Outcome_bind_congr
  intro baseIri
  apply Outcome_bind_congr
  intro stmts
  rw [unmarshalStatements_formed]

/-- Every statement that `Unmarshal` forms has the graph of the call. -/
theorem formedObjects_graph (p : TurtleParser) (ns : Namespace) (subject predicate : namedNode)
    (graph : Option namedNode) :
    ∀ (strs : List String) (formed : List statement),
      formedObjects p ns subject predicate graph strs = Outcome.ok formed →
      ∀ st ∈ formed, st.graph = graph := by
  intro strs
  induction strs with
  | nil =>
    intro formed h st hst
    cases h
    simp at hst
  | cons s rest ih =>
    intro formed h st hst
    rw [formedObjects] at h
    cases hn : p.unmarshalNode s ns with
    | panic => rw [hn] at h; cases h
    | error e => rw [hn] at h; cases h
    | ok object =>
      rw [hn] at h
      obtain ⟨more, hmore, hf⟩ := Outcome_bind_eq_ok _ _ _ h
      cases hf
      rcases List.mem_cons.mp hst with rfl | hm
      · rfl
      · exact ih more hmore st hm

theorem formedSubStatements_graph (p : TurtleParser) (ns : Namespace) (subject : namedNode)
    (graph : Option namedNode) :
    ∀ (strs : List String) (formed : List statement),
      formedSubStatements p ns subject graph strs = Outcome.ok formed →
      ∀ st ∈ formed, st.graph = graph := by
  intro strs
  induction strs with
  | nil =>
    intro formed h st hst
    cases h
    simp at hst
  | cons s rest ih =>
    intro formed h st hst
    rw [formedSubStatements] at h
    cases hf : leadingIriMatcher.FindStringSubmatch 1 s with
    | none => rw [hf] at h; cases h
    | some pm =>
      rw [hf] at h
      obtain ⟨tok, _, h⟩ := Outcome_bind_eq_ok _ _ _ h
      obtain ⟨predIri, _, h⟩ := Outcome_bind_eq_ok _ _ _ h
      obtain ⟨objs, _, h⟩ := Outcome_bind_eq_ok _ _ _ h
      obtain ⟨first, hfirst, h⟩ := Outcome_bind_eq_ok _ _ _ h
      obtain ⟨more, hmore, h⟩ := Outcome_bind_eq_ok _ _ _ h
      cases h
      rcases List.mem_append.mp hst with hm | hm
      · exact formedObjects_graph p ns subject _ graph objs first hfirst st hm
      · exact ih more hmore st hm

theorem formedStatements_graph (p : TurtleParser) (ns : Namespace) (graph : Option namedNode) :
    ∀ (strs : List String) (formed : List statement),
      formedStatements p ns graph strs = Outcome.ok formed →
      ∀ st ∈ formed, st.graph = graph := by
  intro strs
  induction strs with
  | nil =>
    intro formed h st hst
    cases h
    simp at hst
  | cons s rest ih =>
    intro formed h st hst
    rw [formedStatements] at h
    cases hf : leadingIriMatcher.FindStringSubmatch 1 s with
    | none => rw [hf] at h; cases h
    | some pm =>
      rw [hf] at h
      obtain ⟨tok, _, h⟩ := Outcome_bind_eq_ok _ _ _ h
      obtain ⟨subjIri, _, h⟩ := Outcome_bind_eq_ok _ _ _ h
      obtain ⟨subs, _, h⟩ := Outcome_bind_eq_ok _ _ _ h
      obtain ⟨first, hfirst, h⟩ := Outcome_bind_eq_ok _ _ _ h
      obtain ⟨more, hmore, h⟩ := Outcome_bind_eq_ok _ _ _ h
      cases h
      rcases List.mem_append.mp hst with hm | hm
      · exact formedSubStatements_graph p ns _ graph subs first hfirst st hm
      · exact ih more hmore st hm

/-! ## No statement twice in the result of Unmarshal -/

/-- A node that `unmarshalNode` returns has a text in its value slot. -/
theorem unmarshalNode_textValued (p : TurtleParser) (str : String) (ns : Namespace) (n : Node)
    (h : p.unmarshalNode str ns = Outcome.ok n) : n.textValued = true := by
  simp only [TurtleParser.unmarshalNode] at h
  split at h
  · cases h
  · split at h
    · split at h
      · obtain ⟨v, _, h⟩ := Outcome_bind_eq_ok _ _ _ h
        cases h
        rfl
      · split at h
        · obtain ⟨idx, _, h⟩ := Outcome_bind_eq_ok _ _ _ h
          obtain ⟨v, _, h⟩ := Outcome_bind_eq_ok _ _ _ h
          obtain ⟨l, _, h⟩ := Outcome_bind_eq_ok _ _ _ h
          cases h
          rfl
        · split at h
          · obtain ⟨idx, _, h⟩ := Outcome_bind_eq_ok _ _ _ h
            obtain ⟨t, _, h⟩ := Outcome_bind_eq_ok _ _ _ h
            obtain ⟨tpIri, _, h⟩ := Outcome_bind_eq_ok _ _ _ h
            obtain ⟨v, _, h⟩ := Outcome_bind_eq_ok _ _ _ h
            cases h
            rfl
          · cases h
    · obtain ⟨iri, _, h⟩ := Outcome_bind_eq_ok _ _ _ h
      cases h
      rfl

theorem formedObjects_textValued (p : TurtleParser) (ns : Namespace)
    (subject predicate : namedNode) (graph : Option namedNode) :
    ∀ (strs : List String) (formed : List statement),
      formedObjects p ns subject predicate graph strs = Outcome.ok formed →
      ∀ st ∈ formed, st.object.textValued = true := by
  intro strs
  induction strs with
  | nil =>
    intro formed h st hst
    cases h
    simp at hst
  | cons s rest ih =>
    intro formed h st hst
    rw [formedObjects] at h
    cases hn : p.unmarshalNode s ns with
    | panic => rw [hn] at h; cases h
    | error e => rw [hn] at h; cases h
    | ok object =>
      rw [hn] at h
      obtain ⟨more, hmore, hf⟩ := Outcome_bind_eq_ok _ _ _ h
      cases hf
      rcases List.mem_cons.mp hst with rfl | hm
      · exact unmarshalNode_textValued p s ns object hn
      · exact ih more hmore st hm

theorem formedSubStatements_textValued (p : TurtleParser) (ns : Namespace)
    (subject : namedNode) (graph : Option namedNode) :
    ∀ (strs : List String) (formed : List statement),
      formedSubStatements p ns subject graph strs = Outcome.ok formed →
      ∀ st ∈ formed, st.object.textValued = true := by
  intro strs
  induction strs with
  | nil =>
    intro formed h st hst
    cases h
    simp at hst
  | cons s rest ih =>
    intro formed h st hst
    rw [formedSubStatements] at h
    cases hf : leadingIriMatcher.FindStringSubmatch 1 s with
    | none => rw [hf] at h; cases h
    | some pm =>
      rw [hf] at h
      obtain ⟨tok, _, h⟩ := Outcome_bind_eq_ok _ _ _ h
      obtain ⟨predIri, _, h⟩ := Outcome_bind_eq_ok _ _ _ h
      obtain ⟨objs, _, h⟩ := Outcome_bind_eq_ok _ _ _ h
      obtain ⟨first, hfirst, h⟩ := Outcome_bind_eq_ok _ _ _ h
      obtain ⟨more, hmore, h⟩ := Outcome_bind_eq_ok _ _ _ h
      cases h
      rcases List.mem_append.mp hst with hm | hm
      · exact formedObjects_textValued p ns subject _ graph objs first hfirst st hm
      · exact ih more hmore st hm

theorem formedStatements_textValued (p : TurtleParser) (ns : Namespace)
    (graph : Option namedNode) :
    ∀ (strs : List String) (formed : List statement),
      formedStatements p ns graph strs = Outcome.ok formed →
      ∀ st ∈ formed, st.object.textValued = true := by
  intro strs
  induction strs with
  | nil =>
    intro formed h st hst
    cases h
    simp at hst
  | cons s rest ih =>
    intro formed h st hst
    rw [formedStatements] at h
    cases hf : leadingIriMatcher.FindStringSubmatch 1 s with
    | none => rw [hf] at h; cases h
    | some pm =>
      rw [hf] at h
      obtain ⟨tok, _, h⟩ := Outcome_bind_eq_ok _ _ _ h
      obtain ⟨subjIri, _, h⟩ := Outcome_bind_eq_ok _ _ _ h
      obtain ⟨subs, _, h⟩ := Outcome_bind_eq_ok _ _ _ h
      obtain ⟨first, hfirst, h⟩ := Outcome_bind_eq_ok _ _ _ h
      obtain ⟨more, hmore, h⟩ := Outcome_bind_eq_ok _ _ _ h
      cases h
      rcases List.mem_append.mp hst with hm | hm
      · exact formedSubStatements_textValued p ns _ graph subs first hfirst st hm
      · exact ih more hmore st hm

/-- Every statement that `Unmarshal` forms has an object with a text in its value slot. -/
theorem formedAll_textValued (p : TurtleParser) (ord : MapOrder) (text : String)
    (formed : List statement) (h : p.formedAll ord text = Outcome.ok formed) :
    ∀ st ∈ formed, st.object.textValued = true := by
  simp only [TurtleParser.formedAll] at h
  obtain ⟨extractedNs, _, h⟩ := Outcome_bind_eq_ok _ _ _ h
  obtain ⟨baseIri, _, h⟩ := Outcome_bind_eq_ok _ _ _ h
  obtain ⟨stmts, _, h⟩ := Outcome_bind_eq_ok _ _ _ h
  exact formedStatements_textValued p _ _ stmts formed h

theorem keepNew_eq (result : List statement) (s : statement)
    (hs : s.object.textValued = true) :
    keepNew result s = if s ∈ result then result else result ++ [s] := by
  have hself := Node_Equals_textValued s.object hs
  have : result.any (fun r => r.Equals (some s)) = decide (s ∈ result) := by
    rw [Bool.eq_iff_iff]
    simp only [List.any_eq_true, statement_Equals_iff, decide_eq_true_eq]
    constructor
    · rintro ⟨r, hr, rfl, _⟩
      exact hr
    · intro h
      exact ⟨s, h, rfl, hself⟩
  simp only [keepNew, this, decide_eq_true_eq]

/-- The fold of `keepNew` keeps the first of the statements that are equal, in the order in
which they come. -/
theorem foldl_keepNew_spec :
    ∀ (rest pre acc : List statement), (∀ s ∈ rest, s.object.textValued = true) →
      acc.Nodup → (∀ x, x ∈ acc ↔ x ∈ pre) →
      acc.Pairwise (fun a b => pre.indexOf a < pre.indexOf b) →
      (rest.foldl keepNew acc).Nodup ∧
      (∀ x, x ∈ rest.foldl keepNew acc ↔ x ∈ pre ++ rest) ∧
      (rest.foldl keepNew acc).Pairwise
        (fun a b => (pre ++ rest).indexOf a < (pre ++ rest).indexOf b) := by
  intro rest
  induction rest with
  | nil =>
    intro pre acc _ h1 h2 h3
    simpa using ⟨h1, h2, h3⟩
  | cons s rest ih =>
    intro pre acc ht h1 h2 h3
    have hs : s.object.textValued = true := ht s (List.mem_cons_self _ _)
    have e : pre ++ s :: rest = (pre ++ [s]) ++ rest := by simp
    rw [List.foldl_cons, e]
    apply ih
    · exact fun x hx => ht x (List.mem_cons_of_mem _ hx)
    · rw [keepNew_eq _ _ hs]
      by_cases hs : s ∈ acc
      · rw [if_pos hs]
        exact h1
      · rw [if_neg hs]
        exact List.Nodup.append h1 (List.nodup_singleton s) (by simpa using hs)
    · intro x
      rw [keepNew_eq _ _ hs]
      by_cases hs : s ∈ acc
      · rw [if_pos hs, h2 x, List.mem_append, List.mem_singleton]
        constructor
        · exact Or.inl
        · rintro (h | rfl)
          · exact h
          · exact (h2 x).mp hs
      · rw [if_neg hs, List.mem_append, List.mem_append, h2 x]
    · rw [keepNew_eq _ _ hs]
      have hidx : ∀ a ∈ acc, (pre ++ [s]).indexOf a = pre.indexOf a := by
        intro a ha
        exact List.indexOf_append_of_mem ((h2 a).mp ha)
      by_cases hs : s ∈ acc
      · rw [if_pos hs]
        refine h3.imp_of_mem ?_
        intro a b ha hb hab
        rw [hidx a ha, hidx b hb]
        exact hab
      · rw [if_neg hs, List.pairwise_append]
        refine ⟨?_, List.pairwise_singleton _ _, ?_⟩
        · refine h3.imp_of_mem ?_
          intro a b ha hb hab
          rw [hidx a ha, hidx b hb]
          exact hab
        · intro a ha b hb
          rw [List.mem_singleton] at hb
          subst hb
          have hnp : b ∉ pre := fun hm => hs ((h2 b).mpr hm)
          rw [hidx a ha, List.indexOf_append_of_not_mem hnp]
          have := List.indexOf_lt_length.mpr ((h2 a).mp ha)
          omega

/-- C26: in the result of `Unmarshal` no statement `Equals` a statement at another position,
and the result holds the statements that `Unmarshal` forms, each once, in the order of their
first occurrence: a statement stands before another in the result when its first occurrence
among the formed statements is before that of the other. -/
theorem C26_unmarshal_keeps_first (p : TurtleParser) (ord : MapOrder) (text : String)
    (out : List statement) (h : p.Unmarshal ord text = Outcome.ok out) :
    out.Pairwise (fun a b => a.Equals (some b) = false ∧ b.Equals (some a) = false) ∧
    ∃ formed, p.formedAll ord text = Outcome.ok formed ∧
      (∀ s, s ∈ out ↔ s ∈ formed) ∧
      out.Pairwise (fun a b => formed.indexOf a < formed.indexOf b) := by
  rw [Unmarshal_formed] at h
  obtain ⟨formed, hformed, hout⟩ := Outcome_bind_eq_ok _ _ _ h
  cases hout
  have htext := formedAll_textValued p ord text formed hformed
  obtain ⟨h1, h2, h3⟩ := foldl_keepNew_spec formed [] [] htext List.nodup_nil (by simp)
    List.Pairwise.nil
  simp only [List.nil_append] at h2 h3
  refine ⟨?_, formed, hformed, h2, h3⟩
  rw [List.Nodup] at h1
  refine h1.imp_of_mem ?_
  intro a b ha hb hab
  rw [statement_Equals_some a b (Node_Equals_textValued _ (htext a ((h2 a).mp ha))),
    statement_Equals_some b a (Node_Equals_textValued _ (htext b ((h2 b).mp hb)))]
  simp only [decide_eq_false_iff_not]
  exact ⟨hab, fun e => hab e.symm⟩

/-- Witness of C26: a text in which the object `o` of the predicate comes twice. -/
theorem C26_unmarshal_keeps_first_witness :
    (NewTurtleParser none).Unmarshal MapOrder.stored "<s> <p> <o> , <o2> , <o> ."
      = Outcome.ok [NewStatement (NewNamedNode "s") (NewNamedNode "p")
          (Node.named (NewNamedNode "o")) none,
        NewStatement (NewNamedNode "s") (NewNamedNode "p")
          (Node.named (NewNamedNode "o2")) none] ∧
    ([NewStatement (NewNamedNode "s") (NewNamedNode "p") (Node.named (NewNamedNode "o")) none,
        NewStatement (NewNamedNode "s") (NewNamedNode "p")
          (Node.named (NewNamedNode "o2")) none].Pairwise
        (fun a b => a.Equals (some b) = false ∧ b.Equals (some a) = false) ∧
      ∃ formed, (NewTurtleParser none).formedAll MapOrder.stored "<s> <p> <o> , <o2> , <o> ."
          = Outcome.ok formed ∧
        (∀ s, s ∈ [NewStatement (NewNamedNode "s") (NewNamedNode "p")
              (Node.named (NewNamedNode "o")) none,
            NewStatement (NewNamedNode "s") (NewNamedNode "p")
              (Node.named (NewNamedNode "o2")) none] ↔ s ∈ formed) ∧
        [NewStatement (NewNamedNode "s") (NewNamedNode "p") (Node.named (NewNamedNode "o")) none,
          NewStatement (NewNamedNode "s") (NewNamedNode "p")
            (Node.named (NewNamedNode "o2")) none].Pairwise
          (fun a b => formed.indexOf a < formed.indexOf b)) :=
  ⟨by decide!,
    C26_unmarshal_keeps_first (NewTurtleParser none) MapOrder.stored
      "<s> <p> <o> , <o2> , <o> ." _ (by decide!)⟩

/-! ## What a successful search of the backtracking engine went through -/

/-- A repetition that succeeds hands a state to its continuation that lies at or behind the
start, when its body does so. -/
theorem repeatLoop_inv (body : (MState → Option MState) → MState → Option MState) (g c : Bool)
    (hbody : ∀ (k : MState → Option MState) (s res : MState), body k s = some res →
      ∃ s2, k s2 = some res ∧ s.pos ≤ s2.pos ∧
        s2.pos + s2.rest.length = s.pos + s.rest.length ∧ (c = true → s2.caps = s.caps)) :
    ∀ (fuel : Nat) (k : MState → Option MState) (s res : MState),
      repeatLoop body g fuel k s = some res →
      ∃ s2, k s2 = some res ∧ s.pos ≤ s2.pos ∧
        s2.pos + s2.rest.length = s.pos + s.rest.length ∧ (c = true → s2.caps = s.caps) := by
  intro fuel
  induction fuel with
  | zero =>
    intro k s res h
    exact ⟨s, h, le_refl _, rfl, fun _ => rfl⟩
  | succ fuel ih =>
    intro k s res h
    have hstep : ∀ res, body (fun s2 => if s.pos < s2.pos then repeatLoop body g fuel k s2
        else none) s = some res →
        ∃ s2, k s2 = some res ∧ s.pos ≤ s2.pos ∧
          s2.pos + s2.rest.length = s.pos + s.rest.length ∧ (c = true → s2.caps = s.caps) := by
      intro res hb
      obtain ⟨s2, hk, h1, h2, h3⟩ := hbody _ _ _ hb
      by_cases hlt : s.pos < s2.pos
      · rw [if_pos hlt] at hk
        obtain ⟨s3, hk3, h4, h5, h6⟩ := ih k s2 res hk
        exact ⟨s3, hk3, by omega, by omega, fun hc => (h6 hc).trans (h3 hc)⟩
      · rw [if_neg hlt] at hk
        cases hk
    cases g with
    | true =>
      simp only [repeatLoop, if_true] at h
      cases hb : body (fun s2 => if s.pos < s2.pos then repeatLoop body true fuel k s2
          else none) s with
      | some x =>
        rw [hb, orElse_some] at h
        rw [h] at hb
        exact hstep res hb
      | none =>
        rw [hb, orElse_none] at h
        exact ⟨s, h, le_refl _, rfl, fun _ => rfl⟩
    | false =>
      simp only [repeatLoop, Bool.false_eq_true, if_false] at h
      cases hk : k s with
      | some x =>
        rw [hk, orElse_some] at h
        rw [h] at hk
        exact ⟨s, hk, le_refl _, rfl, fun _ => rfl⟩
      | none =>
        rw [hk, orElse_none] at h
        exact hstep res h

/-- A search for an expression that succeeds hands a state to its continuation that lies at or
behind the start, with the same groups when the expression has none. -/
theorem run_inv : ∀ (r : Regex) (fuel : Nat) (k : MState → Option MState) (s res : MState),
    r.run fuel k s = some res →
    ∃ s2, k s2 = some res ∧ s.pos ≤ s2.pos ∧
      s2.pos + s2.rest.length = s.pos + s.rest.length ∧ (r.noCap = true → s2.caps = s.caps) := by
  intro r
  induction r with
  | empty =>
    intro fuel k s res h
    rw [run_empty] at h
    exact ⟨s, h, le_refl _, rfl, fun _ => rfl⟩
  | char c =>
    intro fuel k s res h
    obtain ⟨pos, rest, caps⟩ := s
    cases rest with
    | nil => simp [Regex.run] at h
    | cons x xs =>
      simp only [Regex.run] at h
      by_cases hx : (x == c) = true
      · rw [if_pos hx] at h
        exact ⟨_, h, by simp, by simp; omega, fun _ => rfl⟩
      · rw [if_neg hx] at h
        cases h
  | cls neg ranges =>
    intro fuel k s res h
    obtain ⟨pos, rest, caps⟩ := s
    cases rest with
    | nil => simp [Regex.run] at h
    | cons x xs =>
      simp only [Regex.run] at h
      by_cases hx : (inRanges x ranges != neg) = true
      · rw [if_pos hx] at h
        exact ⟨_, h, by simp, by simp; omega, fun _ => rfl⟩
      · rw [if_neg hx] at h
        cases h
  | bot =>
    intro fuel k s res h
    simp only [Regex.run] at h
    by_cases hx : (s.pos == 0) = true
    · rw [if_pos hx] at h
      exact ⟨s, h, le_refl _, rfl, fun _ => rfl⟩
    · rw [if_neg hx] at h
      cases h
  | eot =>
    intro fuel k s res h
    simp only [Regex.run] at h
    by_cases hx : s.rest.isEmpty = true
    · rw [if_pos hx] at h
      exact ⟨s, h, le_refl _, rfl, fun _ => rfl⟩
    · rw [if_neg hx] at h
      cases h
  | cat r1 r2 ih1 ih2 =>
    intro fuel k s res h
    rw [run_cat] at h
    obtain ⟨s2, hk, h1, h2, h3⟩ := ih1 _ _ _ _ h
    obtain ⟨s3, hk3, h4, h5, h6⟩ := ih2 _ _ _ _ hk
    refine ⟨s3, hk3, by omega, by omega, ?_⟩
    intro hc
    simp only [Regex.noCap, Bool.and_eq_true] at hc
    exact (h6 hc.2).trans (h3 hc.1)
  | alt r1 r2 ih1 ih2 =>
    intro fuel k s res h
    rw [run_alt] at h
    cases hb : r1.run fuel k s with
    | some x =>
      rw [hb, orElse_some] at h
      rw [h] at hb
      obtain ⟨s2, hk, h1, h2, h3⟩ := ih1 _ _ _ _ hb
      refine ⟨s2, hk, h1, h2, ?_⟩
      intro hc
      simp only [Regex.noCap, Bool.and_eq_true] at hc
      exact h3 hc.1
    | none =>
      rw [hb, orElse_none] at h
      obtain ⟨s2, hk, h1, h2, h3⟩ := ih2 _ _ _ _ h
      refine ⟨s2, hk, h1, h2, ?_⟩
      intro hc
      simp only [Regex.noCap, Bool.and_eq_true] at hc
      exact h3 hc.2
  | star r g ih =>
    intro fuel k s res h
    rw [run_star] at h
    obtain ⟨s2, hk, h1, h2, h3⟩ := repeatLoop_inv (r.run fuel) g r.noCap
      (fun k s res hb => ih fuel k s res hb) fuel k s res h
    exact ⟨s2, hk, h1, h2, fun hc => h3 (by simpa [Regex.noCap] using hc)⟩
  | plus r g ih =>
    intro fuel k s res h
    rw [run_plus] at h
    obtain ⟨s2, hk, h1, h2, h3⟩ := ih _ _ _ _ h
    obtain ⟨s3, hk3, h4, h5, h6⟩ := repeatLoop_inv (r.run fuel) g r.noCap
      (fun k s res hb => ih fuel k s res hb) fuel k s2 res hk
    refine ⟨s3, hk3, by omega, by omega, ?_⟩
    intro hc
    simp only [Regex.noCap] at hc
    exact (h6 hc).trans (h3 hc)
  | quest r g ih =>
    intro fuel k s res h
    simp only [Regex.run] at h
    have hr : ∀ res, r.run fuel k s = some res → ∃ s2, k s2 = some res ∧ s.pos ≤ s2.pos ∧
        s2.pos + s2.rest.length = s.pos + s.rest.length ∧
        ((Regex.quest r g).noCap = true → s2.caps = s.caps) := by
      intro res hb
      obtain ⟨s2, hk, h1, h2, h3⟩ := ih _ _ _ _ hb
      exact ⟨s2, hk, h1, h2, fun hc => h3 (by simpa [Regex.noCap] using hc)⟩
    cases g with
    | true =>
      simp only [if_true] at h
      cases hb : r.run fuel k s with
      | some x =>
        rw [hb, orElse_some] at h
        rw [h] at hb
        exact hr res hb
      | none =>
        rw [hb, orElse_none] at h
        exact ⟨s, h, le_refl _, rfl, fun _ => rfl⟩
    | false =>
      simp only [Bool.false_eq_true, if_false] at h
      cases hk : k s with
      | some x =>
        rw [hk, orElse_some] at h
        rw [h] at hk
        exact ⟨s, hk, le_refl _, rfl, fun _ => rfl⟩
      | none =>
        rw [hk, orElse_none] at h
        exact hr res h
  | cap i r ih =>
    intro fuel k s res h
    rw [run_cap] at h
    obtain ⟨s2, hk, h1, h2, _⟩ := ih _ _ _ _ h
    exact ⟨_, hk, h1, h2, fun hc => by simp [Regex.noCap] at hc⟩

/-- A search that finds a match found it by a run at a position of the text. -/
theorem searchFrom_inv (re : Regex) (fuel : Nat) :
    ∀ (rest : List Char) (pos : Nat) (m : Match), re.searchFrom fuel pos rest = some m →
      ∃ (pos2 : Nat) (tail : List Char) (s : MState),
        pos2 + tail.length = pos + rest.length ∧
        re.run fuel (fun s => some s) ⟨pos2, tail, []⟩ = some s ∧ m = ⟨pos2, s.pos, s.caps⟩ := by
  intro rest
  induction rest with
  | nil =>
    intro pos m h
    simp only [Regex.searchFrom, Option.map_eq_some'] at h
    obtain ⟨s, hs, hm⟩ := h
    exact ⟨pos, [], s, rfl, hs, hm.symm⟩
  | cons c cs ih =>
    intro pos m h
    simp only [Regex.searchFrom] at h
    cases hr : re.run fuel (fun s => some s) ⟨pos, c :: cs, []⟩ with
    | some s =>
      rw [hr] at h
      simp only [Option.some.injEq] at h
      exact ⟨pos, c :: cs, s, rfl, hr, h.symm⟩
    | none =>
      rw [hr] at h
      obtain ⟨pos2, tail, s, h1, h2, h3⟩ := ih (pos + 1) m h
      exact ⟨pos2, tail, s, by simp only [List.length_cons]; omega, h2, h3⟩

/-- Every match of `allMatches` is the result of a search from a position of the text. -/
theorem allMatchesLoop_mem (re : Regex) (text : List Char) :
    ∀ (fuel pos : Nat) (prev : Option Nat) (m : Match),
      m ∈ allMatchesLoop re text fuel pos prev →
      ∃ p, p ≤ text.length ∧ re.execute text p = some m := by
  intro fuel
  induction fuel with
  | zero =>
    intro pos prev m h
    simp [allMatchesLoop] at h
  | succ fuel ih =>
    intro pos prev m h
    simp only [allMatchesLoop] at h
    by_cases hp : pos ≤ text.length
    · rw [if_pos hp] at h
      cases he : re.execute text pos with
      | none =>
        rw [he] at h
        simp at h
      | some m2 =>
        rw [he] at h
        simp only [] at h
        split at h
        · rw [List.mem_cons] at h
          rcases h with h | h
          · subst h
            exact ⟨pos, hp, he⟩
          · exact ih _ _ _ h
        · exact ih _ _ _ h
    · rw [if_neg hp] at h
      simp at h

/-- Group 2 of a match of the expression of the base directive, the IRI of the directive, is
the group that the match closed last and holds one character or more. -/
theorem baseDirective_run_inv (fuel : Nat) (s res : MState)
    (h : ttlBaseDirective.run fuel (fun s => some s) s = some res) :
    ∃ a b rest, res.caps = (2, a, b) :: rest ∧ a < b ∧ b ≤ res.pos ∧
      res.pos + res.rest.length = s.pos + s.rest.length := by
  simp only [ttlBaseDirective, Regex.seq] at h
  rw [run_cat] at h
  obtain ⟨s1, h, p1, l1, _⟩ := run_inv _ _ _ _ _ h
  rw [run_cat] at h
  obtain ⟨s2, h, p2, l2, _⟩ := run_inv _ _ _ _ _ h
  rw [run_cat] at h
  obtain ⟨s3, h, p3, l3, _⟩ := run_inv _ _ _ _ _ h
  rw [run_cat] at h
  obtain ⟨s4, h, p4, l4, _⟩ := run_inv _ _ _ _ _ h
  rw [run_cat] at h
  obtain ⟨s5, h, p5, l5, _⟩ := run_inv _ _ _ _ _ h
  rw [run_cat, run_cap, run_plus] at h
  have hstrict : ∃ s6, s5.pos < s6.pos ∧ s6.pos + s6.rest.length = s5.pos + s5.rest.length ∧
      repeatLoop (Regex.dot.run fuel) false fuel
        (fun s2 => ((Regex.char '>').cat ((Regex.space.star false).cat (Regex.char '.'))).run fuel
          (fun s => some s) { s2 with caps := (2, s5.pos, s2.pos) :: s2.caps }) s6 = some res := by
    obtain ⟨pos, rest, caps⟩ := s5
    cases rest with
    | nil => simp [Regex.dot, Regex.run] at h
    | cons x xs =>
      simp only [Regex.dot, Regex.run] at h
      split at h
      · exact ⟨_, by simp, by simp; omega, h⟩
      · cases h
  obtain ⟨s6, p6, l6, h⟩ := hstrict
  obtain ⟨s7, h, p7, l7, _⟩ := repeatLoop_inv (Regex.dot.run fuel) false true
    (fun k s res hb => by
      obtain ⟨s2, hk, h1, h2, h3⟩ := run_inv _ _ _ _ _ hb
      exact ⟨s2, hk, h1, h2, fun _ => h3 rfl⟩) fuel _ s6 res h
  obtain ⟨s8, h, p8, l8, c8⟩ := run_inv _ _ _ _ _ h
  simp only [Option.some.injEq] at h
  subst h
  refine ⟨s5.pos, s7.pos, s7.caps, c8 rfl, by omega, ?_, ?_⟩
  · simpa using p8
  · simp only at l8
    omega

/-- The text of group 2 of a match of the expression of the base directive is not empty. -/
theorem baseDirective_group2 (text : List Char) (m : Match)
    (h : m ∈ ttlBaseDirective.allMatches text) : m.text text 2 ≠ [] := by
  obtain ⟨p, hp, he⟩ := allMatchesLoop_mem _ _ _ _ _ _ h
  obtain ⟨pos2, tail, s, hl, hr, hm⟩ := searchFrom_inv _ _ _ _ _ he
  obtain ⟨a, b, rest, hc, hab, hb, hlen⟩ := baseDirective_run_inv _ _ _ hr
  simp only [List.length_drop] at hl
  simp only at hlen
  have hbl : b ≤ text.length := by omega
  subst hm
  simp only [Match.text, Match.group, hc]
  simp only [Nat.succ_ne_zero, beq_iff_eq, if_false, List.find?, beq_self_eq_true,
    Option.map_some', OfNat.ofNat_ne_zero]
  intro hnil
  have hlen2 := congrArg List.length hnil
  simp only [List.length_take, List.length_drop, List.length_nil] at hlen2
  omega

/-- The statements that `Unmarshal` returns carry the graph of the base IRI that
`extractBaseIri` resolves. -/
theorem Unmarshal_graph (p : TurtleParser) (ord : MapOrder) (text : String)
    (out : List statement) (h : p.Unmarshal ord text = Outcome.ok out) :
    ∃ (ns : Namespace) (baseIri : String),
      p.extractBaseIri (p.stripComments text) ns p.options.FallbackToFirstSubjectForBaseIri
        = Outcome.ok baseIri ∧
      ∀ s ∈ out, s.graph = if baseIri != "" then some (NewNamedNode baseIri) else none := by
  rw [Unmarshal_formed] at h
  obtain ⟨formed, hformed, hout⟩ := Outcome_bind_eq_ok _ _ _ h
  cases hout
  obtain ⟨_, hmem, _⟩ := foldl_keepNew_spec formed [] []
    (formedAll_textValued p ord text formed hformed) List.nodup_nil (by simp)
    List.Pairwise.nil
  simp only [List.nil_append] at hmem
  simp only [TurtleParser.formedAll] at hformed
  obtain ⟨extractedNs, _, hformed⟩ := Outcome_bind_eq_ok _ _ _ hformed
  obtain ⟨baseIri, hbase, hformed⟩ := Outcome_bind_eq_ok _ _ _ hformed
  obtain ⟨stmts, _, hformed⟩ := Outcome_bind_eq_ok _ _ _ hformed
  refine ⟨_, baseIri, hbase, ?_⟩
  intro s hs
  exact formedStatements_graph p _ _ stmts formed hformed s ((hmem s).mp hs)

/-- C22: when `Unmarshal` succeeds, all statements of the result carry the same graph. When
the expression of the base directive has exactly one match in the text without its comments,
with the IRI `iri` in its group 2, that graph is the named node of `iri`; when it has no match
and the fallback to the first subject is off, the graph is absent. -/
theorem C22_unmarshal_one_graph (p : TurtleParser) (ord : MapOrder) (text : String)
    (out : List statement) (h : p.Unmarshal ord text = Outcome.ok out) :
    (∃ og : Option namedNode, ∀ s ∈ out, s.graph = og) ∧
    (∀ (m : List String) (iri : String),
      ttlBaseDirective.FindAllStringSubmatch 2 (p.stripComments text) = [m] →
      m[2]? = some iri → ∀ s ∈ out, s.graph = some (NewNamedNode iri)) ∧
    (ttlBaseDirective.FindAllStringSubmatch 2 (p.stripComments text) = [] →
      p.options.FallbackToFirstSubjectForBaseIri = false → ∀ s ∈ out, s.graph = none) := by
  obtain ⟨ns, baseIri, hbase, hgraph⟩ := Unmarshal_graph p ord text out h
  refine ⟨⟨_, hgraph⟩, ?_, ?_⟩
  · intro m iri hres hm s hs
    have hne : iri ≠ "" := by
      have hres2 := hres
      simp only [Regex.FindAllStringSubmatch] at hres2
      obtain ⟨mm, hall, hmm⟩ : ∃ mm, ttlBaseDirective.allMatches (p.stripComments text).data
          = [mm] ∧ (List.range (2 + 1)).map
            (fun i => String.mk (mm.text (p.stripComments text).data i)) = m := by
        cases hl : ttlBaseDirective.allMatches (p.stripComments text).data with
        | nil =>
          rw [hl] at hres2
          cases hres2
        | cons mm more =>
          rw [hl] at hres2
          cases more with
          | nil =>
            simp only [List.map_cons, List.map_nil, List.cons.injEq, and_true] at hres2
            exact ⟨mm, rfl, hres2⟩
          | cons m3 more2 =>
            simp at hres2
      have hmem : mm ∈ ttlBaseDirective.allMatches (p.stripComments text).data := by
        rw [hall]
        exact List.mem_singleton_self mm
      have hg := baseDirective_group2 _ _ hmem
      subst hmm
      simp only [List.range_succ, List.range_zero, List.nil_append, List.map_cons,
        List.map_nil, List.cons_append] at hm
      simp only [List.getElem?_cons_succ, List.getElem?_cons_zero, Option.some.injEq] at hm
      subst hm
      intro hcon
      apply hg
      exact congrArg String.data hcon
    simp only [TurtleParser.extractBaseIri, hres, List.length_singleton, gt_iff_lt,
      Nat.lt_irrefl, if_false, hm, Outcome.ofOption, Outcome.ok.injEq] at hbase
    subst hbase
    rw [hgraph s hs]
    simp [hne]
  · intro hres hfb s hs
    simp only [TurtleParser.extractBaseIri, hres, hfb, List.length_nil, gt_iff_lt,
      Nat.not_lt_zero, if_false, Bool.false_eq_true, Bool.not_false, if_true] at hbase
    by_cases hreq : p.options.RequireBaseIri = true
    · simp [hreq] at hbase
    · simp only [hreq, Bool.false_eq_true, if_false, Outcome.ok.injEq] at hbase
      subst hbase
      rw [hgraph s hs]
      simp

/-- Witness of C22: a text with one base directive and two statements. -/
theorem C22_unmarshal_one_graph_witness :
    (NewTurtleParser none).Unmarshal MapOrder.stored "@base <g> .\n<s> <p> <o> , <o2> ."
      = Outcome.ok [NewStatement (NewNamedNode "s") (NewNamedNode "p")
          (Node.named (NewNamedNode "o")) (some (NewNamedNode "g")),
        NewStatement (NewNamedNode "s") (NewNamedNode "p")
          (Node.named (NewNamedNode "o2")) (some (NewNamedNode "g"))] ∧
    ttlBaseDirective.FindAllStringSubmatch 2
      ((NewTurtleParser none).stripComments "@base <g> .\n<s> <p> <o> , <o2> .")
      = [["@base <g> .", "", "g"]] ∧
    ((∃ og : Option namedNode, ∀ s ∈ [NewStatement (NewNamedNode "s") (NewNamedNode "p")
          (Node.named (NewNamedNode "o")) (some (NewNamedNode "g")),
        NewStatement (NewNamedNode "s") (NewNamedNode "p")
          (Node.named (NewNamedNode "o2")) (some (NewNamedNode "g"))], s.graph = og) ∧
    (∀ (m : List String) (iri : String),
      ttlBaseDirective.FindAllStringSubmatch 2
        ((NewTurtleParser none).stripComments "@base <g> .\n<s> <p> <o> , <o2> .") = [m] →
      m[2]? = some iri → ∀ s ∈ [NewStatement (NewNamedNode "s") (NewNamedNode "p")
          (Node.named (NewNamedNode "o")) (some (NewNamedNode "g")),
        NewStatement (NewNamedNode "s") (NewNamedNode "p")
          (Node.named (NewNamedNode "o2")) (some (NewNamedNode "g"))],
        s.graph = some (NewNamedNode iri)) ∧
    (ttlBaseDirective.FindAllStringSubmatch 2
        ((NewTurtleParser none).stripComments "@base <g> .\n<s> <p> <o> , <o2> .") = [] →
      (NewTurtleParser none).options.FallbackToFirstSubjectForBaseIri = false →
      ∀ s ∈ [NewStatement (NewNamedNode "s") (NewNamedNode "p")
          (Node.named (NewNamedNode "o")) (some (NewNamedNode "g")),
        NewStatement (NewNamedNode "s") (NewNamedNode "p")
          (Node.named (NewNamedNode "o2")) (some (NewNamedNode "g"))], s.graph = none)) :=
  ⟨by decide!, by decide!,
    C22_unmarshal_one_graph (NewTurtleParser none) MapOrder.stored
      "@base <g> .\n<s> <p> <o> , <o2> ." _ (by decide!)⟩

/-! ## The base IRI of a text without a base directive -/

theorem wsChar_isSpaceChar (c : Char) (h : wsChar c = true) : isSpaceChar c = true := by
  simp only [wsChar, Bool.or_eq_true, beq_iff_eq] at h
  rcases h with (((h | h) | h) | h) | h <;> subst h <;> decide

theorem not_ws_of_not_space (c : Char) (h : isSpaceChar c = false) : wsChar c = false := by
  cases hw : wsChar c with
  | false => rfl
  | true => rw [wsChar_isSpaceChar c hw] at h; cases h

theorem ws_ne_colon (d : Char) (h : wsChar d = true) : d ≠ ':' := by
  intro e
  subst e
  revert h
  decide

/-- The rest `:\S+?` of the second alternative of `iriToken` fails at the end of a word and
at a character of it that is no `:` with a character of the word behind it. -/
theorem colon_rest_fail (fuel : Nat) (k : MState → Option MState) (after : List Char)
    (caps : List (Nat × Nat × Nat)) (ha : ∀ d ∈ after.head?, wsChar d = true)
    (word : List Char) (pos : Nat) (hc : ':' ∉ word.dropLast) :
    Regex.run (Regex.cat (Regex.char ':') (Regex.plus Regex.nonSpace false)) fuel k
      ⟨pos, word ++ after, caps⟩ = none := by
  have hafter : ∀ (p : Nat) (k2 : MState → Option MState),
      Regex.run Regex.nonSpace fuel k2 ⟨p, after, caps⟩ = none := by
    intro p k2
    cases after with
    | nil => exact run_cls_nil _ _ _ _ _ _
    | cons d r =>
      rw [run_nonSpace, if_neg]
      rw [ha d (by simp)]
      simp
  cases word with
  | nil =>
    cases after with
    | nil => rw [List.append_nil, run_cat, run_char_nil]
    | cons d r =>
      rw [List.nil_append, run_cat, run_char, if_neg (ws_ne_colon d (ha d (by simp)))]
  | cons c cs =>
    rw [List.cons_append, run_cat, run_char]
    by_cases hcc : c = ':'
    · have hcs : cs = [] := by
        cases cs with
        | nil => rfl
        | cons c2 cs2 =>
          exfalso
          apply hc
          rw [hcc]
          simp [List.dropLast]
      rw [if_pos hcc, hcs, List.nil_append, run_plus, hafter]
    · rw [if_neg hcc]

/-- The second alternative `\S*?:\S+?` of `iriToken` fails at a word that has no `:` before
its last character. -/
theorem colon_word_fail (fuel : Nat) (k : MState → Option MState) (after : List Char)
    (caps : List (Nat × Nat × Nat)) (ha : ∀ d ∈ after.head?, wsChar d = true) :
    ∀ (word : List Char) (f pos : Nat), ':' ∉ word.dropLast →
      repeatLoop (Regex.run Regex.nonSpace fuel) false f
        (Regex.run (Regex.cat (Regex.char ':') (Regex.plus Regex.nonSpace false)) fuel k)
        ⟨pos, word ++ after, caps⟩ = none := by
  intro word
  induction word with
  | nil =>
    intro f pos hc
    apply loop_lazy_fail
    · exact colon_rest_fail fuel k after caps ha [] pos hc
    · intro k2
      rw [List.nil_append]
      cases after with
      | nil => exact run_cls_nil _ _ _ _ _ _
      | cons d r =>
        rw [run_nonSpace, if_neg]
        rw [ha d (by simp)]
        simp
  | cons c cs ih =>
    intro f pos hc
    have hk := colon_rest_fail fuel k after caps ha (c :: cs) pos hc
    cases f with
    | zero => simpa [repeatLoop] using hk
    | succ f =>
      rw [loop_lazy_step _ _ _ _ hk, List.cons_append, run_nonSpace]
      split
      · simp only [Nat.lt_add_one, if_true]
        apply ih
        intro hmem
        apply hc
        cases cs with
        | nil => simp at hmem
        | cons c2 cs2 =>
          rw [List.dropLast_cons₂]
          exact List.mem_cons_of_mem _ hmem
      · rfl

theorem head_dropWhile_ws (l : List Char) :
    ∀ d ∈ (l.dropWhile (fun c => !wsChar c)).head?, wsChar d = true := by
  induction l with
  | nil => simp
  | cons c cs ih =>
    intro d hd
    rw [List.dropWhile_cons] at hd
    cases hw : wsChar c with
    | true =>
      simp only [hw, Bool.not_true, Bool.false_eq_true, if_false, List.head?_cons,
        Option.mem_def, Option.some.injEq] at hd
      rw [← hd]
      exact hw
    | false =>
      simp only [hw, Bool.not_false, if_true] at hd
      exact ih d hd

/-- The expression `iriToken` fails at a text that does not start like a subject. -/
theorem iriToken_fail (fuel : Nat) (k : MState → Option MState) (pos : Nat) (txt : List Char)
    (caps : List (Nat × Nat × Nat)) (h : subjectLike txt = false) :
    Regex.run iriToken fuel k ⟨pos, txt, caps⟩ = none := by
  simp only [subjectLike, Bool.or_eq_false_iff, beq_eq_false_iff_ne, ne_eq] at h
  obtain ⟨h1, h2⟩ := h
  have hfirst : Regex.run (Regex.char '<') fuel
      (Regex.run (Regex.cat (Regex.star Regex.dot false) (Regex.char '>')) fuel k)
      ⟨pos, txt, caps⟩ = none := by
    cases txt with
    | nil => exact run_char_nil _ _ _ _ _
    | cons c cs =>
      rw [run_char, if_neg]
      intro e
      apply h1
      rw [e]
      rfl
  simp only [iriToken, Regex.seq, run_alt, run_cat, hfirst, orElse_none, run_star]
  have e := List.takeWhile_append_dropWhile (fun c => !wsChar c) txt
  rw [← e]
  apply colon_word_fail fuel k _ caps (head_dropWhile_ws txt)
  intro hmem
  simp [hmem] at h2

theorem drop_cons_of_lt (x : List Char) (i : Nat) (hi : i < x.length) :
    ∃ c l, x.drop i = c :: l ∧ c ∈ x := by
  cases hdr : x.drop i with
  | nil => simp at hdr; omega
  | cons c l => exact ⟨c, l, rfl, List.mem_of_mem_drop (by rw [hdr]; simp)⟩

/-- A lazy repetition of `\S` goes over the characters of a word at which the rest of the
expression fails. -/
theorem lazy_nonSpace_skip (fuel0 : Nat) (k : MState → Option MState)
    (caps : List (Nat × Nat × Nat)) (ys xs : List Char) (fuel pos : Nat) (r : MState)
    (hf : xs.length ≤ fuel) (hx : ∀ c ∈ xs, wsChar c = false)
    (hk : ∀ i, i < xs.length → k ⟨pos + i, xs.drop i ++ ys, caps⟩ = none)
    (hr : k ⟨pos + xs.length, ys, caps⟩ = some r) :
    repeatLoop (Regex.run Regex.nonSpace fuel0) false fuel k ⟨pos, xs ++ ys, caps⟩ = some r := by
  simp only [Regex.nonSpace]
  rw [lazy_cls_skip true _ fuel0 k caps ys xs fuel pos hf _ hk]
  · exact loop_lazy_done _ _ _ _ _ hr
  · intro c hc
    rw [inRanges_space, hx c hc]
    rfl

/-- The match of `iriToken` at a word `prefix:local`: the whole word, when the rest of the
expression fails inside the word and matches behind it. -/
theorem iriToken_short (fuel : Nat) (K : MState → Option MState) (pos : Nat)
    (pd ld rest : List Char) (caps : List (Nat × Nat × Nat)) (r : MState)
    (hp : ∀ c ∈ pd, wsChar c = false ∧ c ≠ ':') (hld : ld ≠ [])
    (hl : ∀ c ∈ ld, wsChar c = false) (hlt : pd.head? ≠ some '<')
    (hf : pd.length + ld.length ≤ fuel)
    (hK : ∀ (q : Nat) (c : Char) (v : List Char), wsChar c = false →
      K ⟨q, c :: v ++ rest, caps⟩ = none)
    (hk : K ⟨pos + (pd ++ ':' :: ld).length, rest, caps⟩ = some r) :
    Regex.run iriToken fuel K ⟨pos, (pd ++ ':' :: ld) ++ rest, caps⟩ = some r := by
  have hfirst : Regex.run (Regex.char '<') fuel
      (Regex.run (Regex.cat (Regex.star Regex.dot false) (Regex.char '>')) fuel K)
      ⟨pos, (pd ++ ':' :: ld) ++ rest, caps⟩ = none := by
    cases pd with
    | nil =>
      rw [List.nil_append, List.cons_append, run_char, if_neg (by decide)]
    | cons c cs =>
      rw [List.cons_append, List.cons_append, run_char, if_neg]
      intro e
      apply hlt
      rw [e]
      rfl
  simp only [iriToken, Regex.seq, run_alt, run_cat, hfirst, orElse_none, run_star]
  rw [List.append_assoc]
  obtain ⟨l0, ls, rfl⟩ : ∃ l0 ls, ld = l0 :: ls := by
    cases ld with
    | nil => exact absurd rfl hld
    | cons l0 ls => exact ⟨l0, ls, rfl⟩
  simp only [List.length_append, List.length_cons] at hk hf
  apply lazy_nonSpace_skip fuel _ caps _ pd fuel pos r (by omega) (fun c hc => (hp c hc).1)
  · intro i hi
    obtain ⟨c, l, hcl, hc⟩ := drop_cons_of_lt pd i hi
    rw [hcl, List.cons_append, run_cat, run_char, if_neg (hp c hc).2]
  · rw [List.cons_append, run_cat, run_char, if_pos rfl, List.cons_append, run_plus,
      run_nonSpace, if_pos (hl l0 (by simp))]
    apply lazy_nonSpace_skip fuel _ caps _ ls fuel _ r (by omega)
      (fun c hc => hl c (List.mem_cons_of_mem _ hc))
    · intro i hi
      obtain ⟨c, l, hcl, hc⟩ := drop_cons_of_lt ls i hi
      rw [hcl]
      exact hK _ c l (hl c (List.mem_cons_of_mem _ hc))
    · rw [← hk]
      congr 2
      omega

/-- The match of `iriToken` at an IRI in angle brackets. -/
theorem iriToken_bracket (fuel : Nat) (K : MState → Option MState) (pos : Nat)
    (x rest : List Char) (caps : List (Nat × Nat × Nat)) (r : MState)
    (hx : ∀ c ∈ x, c ≠ '>' ∧ c ≠ '\n') (hf : x.length ≤ fuel)
    (hk : K ⟨pos + ('<' :: (x ++ ['>'])).length, rest, caps⟩ = some r) :
    Regex.run iriToken fuel K ⟨pos, ('<' :: (x ++ ['>'])) ++ rest, caps⟩ = some r := by
  simp only [iriToken, Regex.seq, run_alt, run_cat]
  have e : ('<' :: (x ++ ['>'])) ++ rest = '<' :: (x ++ '>' :: rest) := by simp
  rw [e, run_char, if_pos rfl, run_cat,
    run_bracket fuel K (pos + 1) x rest caps r hx hf]
  · rfl
  · rw [← hk]
    congr 2
    simp only [List.length_cons, List.length_append, List.length_nil]
    omega

/-- A repetition in front of the end of the expression matches. -/
theorem loop_accept (body : (MState → Option MState) → MState → Option MState) (g : Bool)
    (fuel : Nat) (s : MState) :
    ∃ r, repeatLoop body g fuel (fun s => some s) s = some r := by
  cases fuel with
  | zero => exact ⟨s, rfl⟩
  | succ f =>
    cases g with
    | true =>
      simp only [repeatLoop, if_true]
      cases body (fun s2 => if s.pos < s2.pos then repeatLoop body true f (fun s => some s) s2
          else none) s with
      | some x => exact ⟨x, rfl⟩
      | none => exact ⟨s, rfl⟩
    | false =>
      exact ⟨s, by simp [repeatLoop, orElse]⟩

/-- The end `\s+` of the expression matches at a white space character and leaves the groups
as they are. -/
theorem spaces_end (fuel : Nat) (pos : Nat) (w : Char) (rest : List Char)
    (caps : List (Nat × Nat × Nat)) (hw : wsChar w = true) :
    ∃ r, Regex.run (Regex.plus Regex.space true) fuel (fun s => some s) ⟨pos, w :: rest, caps⟩
      = some r ∧ r.caps = caps := by
  rw [run_plus, run_space, if_pos hw]
  obtain ⟨r, hr⟩ := loop_accept (Regex.run Regex.space fuel) true fuel ⟨pos + 1, rest, caps⟩
  refine ⟨r, hr, ?_⟩
  obtain ⟨s2, hs2, _, _, hc⟩ := repeatLoop_inv (Regex.run Regex.space fuel) true true
    (fun k s res hb => by
      obtain ⟨s2, hk, h1, h2, h3⟩ := run_inv _ _ _ _ _ hb
      exact ⟨s2, hk, h1, h2, fun _ => h3 rfl⟩) fuel _ _ r hr
  simp only [Option.some.injEq] at hs2
  subst hs2
  exact hc rfl

/-- Proof auxiliary statement: the part `(<.*?>|\S*?:\S+?)\s+` of `ttlFirstSubjectMatcher`
at a subject token that white space follows: group 2 is the token. -/
theorem subject_run (fuel pos : Nat) (t rest : List Char) (w : Char)
    (caps : List (Nat × Nat × Nat)) (ht : subjectToken t) (hw : wsChar w = true)
    (hf : t.length ≤ fuel) :
    ∃ r, Regex.run (Regex.cat (Regex.cap 2 iriToken) (Regex.plus Regex.space true)) fuel
        (fun s => some s) ⟨pos, t ++ w :: rest, caps⟩ = some r ∧
      r.caps = (2, pos, pos + t.length) :: caps := by
  obtain ⟨r, hr, hcaps⟩ := spaces_end fuel (pos + t.length) w rest
    ((2, pos, pos + t.length) :: caps) hw
  refine ⟨r, ?_, hcaps⟩
  rw [run_cat, run_cap]
  rcases ht with ⟨x, rfl, hx⟩ | ⟨pd, ld, rfl, hp, hld, hl, hlt⟩
  · apply iriToken_bracket fuel _ pos x (w :: rest) caps r hx
    · simp only [List.length_cons, List.length_append] at hf
      omega
    · exact hr
  · apply iriToken_short fuel _ pos pd ld (w :: rest) caps r
      (fun c hc => ⟨not_ws_of_not_space c (hp c hc).1, (hp c hc).2⟩) hld
      (fun c hc => not_ws_of_not_space c (hl c hc)) hlt
    · simp only [List.length_cons, List.length_append] at hf
      omega
    · intro q c v hc
      simp only [List.cons_append]
      rw [run_plus, run_space, if_neg]
      rw [hc]
      simp
    · exact hr

theorem subjectLike_ws (c : Char) (x : List Char) (hc : wsChar c = true) :
    subjectLike (c :: x) = false := by
  have h1 : c ≠ '<' := by
    intro e
    subst e
    revert hc
    decide
  simp [subjectLike, hc, h1]

theorem takeWhile_append_stop (p : Char → Bool) (w : Char) (rest : List Char)
    (hw : p w = false) : ∀ x : List Char, (x ++ w :: rest).takeWhile p = x.takeWhile p := by
  intro x
  induction x with
  | nil => simp [List.takeWhile, hw]
  | cons c cs ih =>
    simp only [List.cons_append, List.takeWhile_cons]
    split
    · rw [ih]
    · rfl

theorem subjectLike_append_ws (c : Char) (x rest : List Char) (w : Char)
    (hw : wsChar w = true) :
    subjectLike (c :: x ++ w :: rest) = subjectLike (c :: x) := by
  simp only [subjectLike]
  rw [takeWhile_append_stop _ w rest (by simp [hw])]
  rfl

/-- The rest of the expression behind the white space fails at a text that does not start like
a subject. -/
theorem subject_fail (fuel pos : Nat) (txt : List Char) (caps : List (Nat × Nat × Nat))
    (h : subjectLike txt = false) :
    Regex.run (Regex.cat (Regex.cap 2 iriToken) (Regex.plus Regex.space true)) fuel
      (fun s => some s) ⟨pos, txt, caps⟩ = none := by
  rw [run_cat, run_cap, iriToken_fail fuel _ pos txt caps h]

/-- The search for a subject from a place of a safe lead at which the expression looks for
one: no match, or a match with the subject token behind the lead. -/
theorem walk_lead (fuel : Nat) (t rest : List Char) (w : Char) (ht : subjectToken t)
    (hw : wsChar w = true) (hf : t.length ≤ fuel) :
    ∀ (l : List Char) (f pos : Nat) (caps : List (Nat × Nat × Nat)),
      safeLead true l t = true →
      hitsToken (pos + l.length) (pos + l.length + t.length)
        (repeatLoop (Regex.run Regex.space fuel) false f
          (Regex.run (Regex.cat (Regex.cap 2 iriToken) (Regex.plus Regex.space true)) fuel
            (fun s => some s)) ⟨pos, l ++ (t ++ w :: rest), caps⟩) := by
  intro l
  induction l with
  | nil =>
    intro f pos caps _
    obtain ⟨r, hr, hcaps⟩ := subject_run fuel pos t rest w caps ht hw hf
    right
    exact ⟨r, loop_lazy_done _ _ _ _ _ hr, caps, by simpa using hcaps⟩
  | cons c cs ih =>
    intro f pos caps hsafe
    rw [safeLead] at hsafe
    by_cases hc : wsChar c = true
    · rw [if_pos hc, Bool.true_or] at hsafe
      have hfail := subject_fail fuel pos (c :: cs ++ (t ++ w :: rest)) caps
        (subjectLike_ws c _ hc)
      cases f with
      | zero =>
        left
        simpa [repeatLoop] using hfail
      | succ f =>
        rw [loop_lazy_step _ _ _ _ hfail, List.cons_append, run_space, if_pos hc]
        simp only [Nat.lt_add_one, if_true]
        have := ih f (pos + 1) caps hsafe
        simp only [List.length_cons]
        have e : pos + (cs.length + 1) = pos + 1 + cs.length := by omega
        rw [e]
        exact this
    · rw [if_neg hc] at hsafe
      simp only [Bool.not_true, Bool.false_or, Bool.and_eq_true, Bool.not_eq_true'] at hsafe
      left
      apply loop_lazy_fail
      · apply subject_fail
        have e : c :: cs ++ (t ++ w :: rest) = (c :: (cs ++ t)) ++ w :: rest := by simp
        rw [e, subjectLike_append_ws c (cs ++ t) rest w hw]
        exact hsafe.1
      · intro k2
        rw [List.cons_append, run_space, if_neg hc]

/-- The search for a subject over white space in front of the subject token finds the
token. -/
theorem walk_ws (fuel : Nat) (t rest : List Char) (w : Char) (ht : subjectToken t)
    (hw : wsChar w = true) (hf : t.length ≤ fuel) :
    ∀ (l : List Char) (f pos : Nat) (caps : List (Nat × Nat × Nat)),
      (∀ c ∈ l, wsChar c = true) → l.length ≤ f →
      ∃ r, repeatLoop (Regex.run Regex.space fuel) false f
          (Regex.run (Regex.cat (Regex.cap 2 iriToken) (Regex.plus Regex.space true)) fuel
            (fun s => some s)) ⟨pos, l ++ (t ++ w :: rest), caps⟩ = some r := by
  intro l
  induction l with
  | nil =>
    intro f pos caps _ _
    obtain ⟨r, hr, _⟩ := subject_run fuel pos t rest w caps ht hw hf
    exact ⟨r, loop_lazy_done _ _ _ _ _ hr⟩
  | cons c cs ih =>
    intro f pos caps hl hlen
    have hc := hl c (by simp)
    have hfail := subject_fail fuel pos (c :: cs ++ (t ++ w :: rest)) caps
      (subjectLike_ws c _ hc)
    obtain ⟨f2, rfl⟩ : ∃ f2, f = f2 + 1 := ⟨f - 1, by simp at hlen; omega⟩
    rw [loop_lazy_step _ _ _ _ hfail, List.cons_append, run_space, if_pos hc]
    simp only [Nat.lt_add_one, if_true]
    exact ih f2 (pos + 1) caps (fun d hd => hl d (List.mem_cons_of_mem _ hd))
      (by simp at hlen; omega)

theorem safeLead_suffix (t : List Char) (c : Char) (cs : List Char)
    (hc : c = '\n' ∨ c = '.') :
    ∀ (l1 : List Char) (a : Bool), safeLead a (l1 ++ c :: cs) t = true →
      safeLead true cs t = true := by
  intro l1
  induction l1 with
  | nil =>
    intro a h
    rw [List.nil_append, safeLead] at h
    rcases hc with rfl | rfl
    · simpa [wsChar] using h
    · have hd : wsChar '.' = false := by decide
      simp only [hd, Bool.false_eq_true, if_false, Bool.and_eq_true, beq_self_eq_true] at h
      exact h.2
  | cons d l1 ih =>
    intro a h
    rw [List.cons_append, safeLead] at h
    split at h
    · exact ih _ h
    · simp only [Bool.and_eq_true] at h
      exact ih _ h.2

/-- A safe lead is white space, or ends in a line feed or a `.` and white space behind it. -/
theorem safeLead_anchor (t : List Char) :
    ∀ (l : List Char) (a : Bool), safeLead a l t = true →
      (a = true ∧ ∀ c ∈ l, wsChar c = true) ∨
      ∃ l1 sep ws, l = l1 ++ sep :: ws ∧ (sep = '\n' ∨ sep = '.') ∧
        ∀ c ∈ ws, wsChar c = true := by
  intro l
  induction l with
  | nil =>
    intro a h
    left
    exact ⟨by simpa [safeLead] using h, by simp⟩
  | cons c cs ih =>
    intro a h
    rw [safeLead] at h
    by_cases hc : wsChar c = true
    · rw [if_pos hc] at h
      rcases ih _ h with ⟨ha, hws⟩ | ⟨l1, sep, ws, hl, hsep, hws⟩
      · cases a with
        | true =>
          left
          refine ⟨rfl, ?_⟩
          intro d hd
          rcases List.mem_cons.mp hd with rfl | hd
          · exact hc
          · exact hws d hd
        | false =>
          right
          simp only [Bool.false_or, beq_iff_eq] at ha
          exact ⟨[], c, cs, rfl, Or.inl ha, hws⟩
      · right
        exact ⟨c :: l1, sep, ws, by rw [hl]; rfl, hsep, hws⟩
    · rw [if_neg hc] at h
      simp only [Bool.and_eq_true] at h
      rcases ih _ h.2 with ⟨ha, hws⟩ | ⟨l1, sep, ws, hl, hsep, hws⟩
      · right
        simp only [beq_iff_eq] at ha
        exact ⟨[], c, cs, rfl, Or.inr ha, hws⟩
      · right
        exact ⟨c :: l1, sep, ws, by rw [hl]; rfl, hsep, hws⟩

theorem hitsToken_orElse (a b : Nat) (x : Option MState) (y : Unit → Option MState)
    (hx : hitsToken a b x) (hy : hitsToken a b (y ())) : hitsToken a b (orElse x y) := by
  rcases hx with rfl | ⟨r, rfl, h⟩
  · exact hy
  · right
    exact ⟨r, rfl, h⟩

theorem hitsToken_ite (a b : Nat) (c : Prop) [Decidable c] (x : Option MState)
    (hx : c → hitsToken a b x) : hitsToken a b (if c then x else none) := by
  by_cases h : c
  · rw [if_pos h]
    exact hx h
  · rw [if_neg h]
    left
    rfl

theorem orElse_some_right (x : Option MState) (y : Unit → Option MState) (r : MState)
    (hy : y () = some r) : ∃ r2, orElse x y = some r2 := by
  cases x with
  | none => exact ⟨r, hy⟩
  | some v => exact ⟨v, rfl⟩

/-- The expression `ttlFirstSubjectMatcher` from a position of a safe lead: no match, or a
match with the subject token behind the lead. -/
theorem start_lead (fuel : Nat) (t rest : List Char) (w : Char) (ht : subjectToken t)
    (hw : wsChar w = true) (hf : t.length ≤ fuel) (lead : List Char)
    (hsafe : safeLead true lead t = true) (l1 l2 : List Char) (hl : lead = l1 ++ l2)
    (hl2 : l2 ≠ []) :
    hitsToken lead.length (lead.length + t.length)
      (Regex.run ttlFirstSubjectMatcher fuel (fun s => some s)
        ⟨l1.length, l2 ++ (t ++ w :: rest), []⟩) := by
  obtain ⟨c, cs, rfl⟩ : ∃ c cs, l2 = c :: cs := by
    cases l2 with
    | nil => exact absurd rfl hl2
    | cons c cs => exact ⟨c, cs, rfl⟩
  simp only [ttlFirstSubjectMatcher, Regex.seq, run_cat, run_cap, run_alt, run_bot,
    List.cons_append, run_char, run_star]
  have hlen : lead.length = l1.length + 1 + cs.length := by
    rw [hl]
    simp only [List.length_append, List.length_cons]
    omega
  have hsep : c = '\n' ∨ c = '.' → hitsToken lead.length (lead.length + t.length)
      (repeatLoop (Regex.run Regex.space fuel) false fuel
        (Regex.run (Regex.cat (Regex.cap 2 iriToken) (Regex.plus Regex.space true)) fuel
          (fun s => some s))
        ⟨l1.length + 1, cs ++ (t ++ w :: rest), [(1, l1.length, l1.length + 1)]⟩) := by
    intro hc
    have hs := safeLead_suffix t c cs hc l1 true (by rw [← hl]; exact hsafe)
    rw [hlen]
    exact walk_lead fuel t rest w ht hw hf cs fuel (l1.length + 1) _ hs
  apply hitsToken_orElse
  · apply hitsToken_ite
    intro h0
    have hl1 : l1 = [] := List.length_eq_zero.mp h0
    subst hl1
    subst hl
    have := walk_lead fuel t rest w ht hw hf (c :: cs) fuel 0 [(1, 0, 0)] hsafe
    simpa using this
  · apply hitsToken_orElse
    · apply hitsToken_ite
      intro hc
      exact hsep (Or.inl hc)
    · apply hitsToken_ite
      intro hc
      exact hsep (Or.inr hc)

/-- The expression `ttlFirstSubjectMatcher` matches from a line feed or a `.` with white space
and the subject token behind it. -/
theorem anchor_match (fuel : Nat) (t rest : List Char) (w : Char) (ht : subjectToken t)
    (hw : wsChar w = true) (hf : t.length ≤ fuel) (pos : Nat) (sep : Char) (ws : List Char)
    (hsep : sep = '\n' ∨ sep = '.') (hws : ∀ c ∈ ws, wsChar c = true) (hlen : ws.length ≤ fuel) :
    ∃ r, Regex.run ttlFirstSubjectMatcher fuel (fun s => some s)
      ⟨pos, sep :: ws ++ (t ++ w :: rest), []⟩ = some r := by
  simp only [ttlFirstSubjectMatcher, Regex.seq, run_cat, run_cap, run_alt, run_bot,
    List.cons_append, run_char, run_star]
  obtain ⟨r, hr⟩ := walk_ws fuel t rest w ht hw hf ws fuel (pos + 1) [(1, pos, pos + 1)]
    hws hlen
  apply orElse_some_right _ _ r
  rcases hsep with rfl | rfl
  · simp only [if_true, orElse]
    rw [hr]
  · rw [if_neg (by decide), orElse_none, if_pos rfl]
    exact hr

/-- The expression `ttlFirstSubjectMatcher` matches at the start of a text of white space and
the subject token behind it. -/
theorem start_match (fuel : Nat) (t rest : List Char) (w : Char) (ht : subjectToken t)
    (hw : wsChar w = true) (hf : t.length ≤ fuel) (ws : List Char)
    (hws : ∀ c ∈ ws, wsChar c = true) (hlen : ws.length ≤ fuel) :
    ∃ r, Regex.run ttlFirstSubjectMatcher fuel (fun s => some s)
      ⟨0, ws ++ (t ++ w :: rest), []⟩ = some r := by
  simp only [ttlFirstSubjectMatcher, Regex.seq, run_cat, run_cap, run_alt, run_bot,
    if_true, run_star]
  obtain ⟨r, hr⟩ := walk_ws fuel t rest w ht hw hf ws fuel 0 [(1, 0, 0)] hws hlen
  rw [hr]
  exact ⟨r, rfl⟩

/-- The search finds a match with a given group 2 when the attempts in front of a position
find no match or such a one, and the attempt at the position finds a match. -/
theorem searchFrom_hits (re : Regex) (fuel a b : Nat) (post : List Char) :
    ∀ (pre : List Char) (pos : Nat),
      (∀ l1 l2, pre = l1 ++ l2 →
        hitsToken a b (re.run fuel (fun s => some s) ⟨pos + l1.length, l2 ++ post, []⟩)) →
      (∃ r, re.run fuel (fun s => some s) ⟨pos + pre.length, post, []⟩ = some r) →
      ∃ m tail, re.searchFrom fuel pos (pre ++ post) = some m ∧ m.caps = (2, a, b) :: tail := by
  intro pre
  induction pre with
  | nil =>
    intro pos hall hhit
    obtain ⟨r, hr⟩ := hhit
    have h0 := hall [] [] rfl
    simp only [List.length_nil, Nat.add_zero, List.nil_append] at h0 hr
    rcases h0 with h0 | ⟨r2, h2, tail, hcaps⟩
    · rw [h0] at hr
      cases hr
    · rw [List.nil_append]
      cases post with
      | nil =>
        refine ⟨⟨pos, r2.pos, r2.caps⟩, tail, ?_, hcaps⟩
        simp only [Regex.searchFrom, h2, Option.map_some']
      | cons c cs =>
        refine ⟨⟨pos, r2.pos, r2.caps⟩, tail, ?_, hcaps⟩
        simp only [Regex.searchFrom, h2]
  | cons c cs ih =>
    intro pos hall hhit
    have h0 := hall [] (c :: cs) rfl
    simp only [List.length_nil, Nat.add_zero] at h0
    rcases h0 with h0 | ⟨r2, h2, tail, hcaps⟩
    · rw [List.cons_append] at h0
      rw [List.cons_append, Regex.searchFrom, h0]
      apply ih (pos + 1)
      · intro l1 l2 hl
        have := hall (c :: l1) l2 (by rw [hl]; rfl)
        simp only [List.length_cons] at this
        have e : pos + 1 + l1.length = pos + (l1.length + 1) := by omega
        rw [e]
        exact this
      · obtain ⟨r, hr⟩ := hhit
        simp only [List.length_cons] at hr
        have e : pos + 1 + cs.length = pos + (cs.length + 1) := by omega
        rw [e]
        exact ⟨r, hr⟩
    · rw [List.cons_append] at h2
      refine ⟨⟨pos, r2.pos, r2.caps⟩, tail, ?_, hcaps⟩
      rw [List.cons_append, Regex.searchFrom, h2]

/-- The first match of `ttlFirstSubjectMatcher` in a text with a safe lead in front of a
subject token has the token as its group 2. -/
theorem firstSubject_find (lead t rest : List Char) (w : Char) (ht : subjectToken t)
    (hw : wsChar w = true) (hsafe : safeLead true lead t = true) :
    ∃ m : List String,
      ttlFirstSubjectMatcher.FindStringSubmatch 2 (String.mk (lead ++ (t ++ w :: rest)))
        = some m ∧ m[2]? = some (String.mk t) := by
  have hfuel : (lead ++ (t ++ w :: rest)).length + 1
      = lead.length + t.length + rest.length + 2 := by
    simp only [List.length_append, List.length_cons]
    omega
  have hsearch : ∃ m tail, ttlFirstSubjectMatcher.searchFrom
      ((lead ++ (t ++ w :: rest)).length + 1) 0 (lead ++ (t ++ w :: rest)) = some m ∧
      m.caps = (2, lead.length, lead.length + t.length) :: tail := by
    rcases safeLead_anchor t lead true hsafe with ⟨_, hws⟩ | ⟨l1, sep, ws, hl, hsep, hws⟩
    · have := searchFrom_hits ttlFirstSubjectMatcher ((lead ++ (t ++ w :: rest)).length + 1)
        lead.length (lead.length + t.length) (lead ++ (t ++ w :: rest)) [] 0
      simp only [List.nil_append, List.length_nil, Nat.add_zero] at this
      apply this
      · intro l1 l2 hl
        have h1 : l1 = [] := by
          cases l1 with
          | nil => rfl
          | cons c cs => cases hl
        have h2 : l2 = [] := by
          subst h1
          exact hl.symm
        subst h1
        subst h2
        simp only [List.length_nil, Nat.add_zero, List.nil_append]
        cases hlead : lead with
        | nil =>
          obtain ⟨r, hr, hcaps⟩ : ∃ r, Regex.run ttlFirstSubjectMatcher
              (([] ++ (t ++ w :: rest)).length + 1) (fun s => some s)
              ⟨0, t ++ w :: rest, []⟩ = some r ∧
              r.caps = (2, 0, 0 + t.length) :: [(1, 0, 0)] := by
            simp only [ttlFirstSubjectMatcher, Regex.seq, run_cat, run_cap, run_alt, run_bot,
              if_true, run_star]
            obtain ⟨r, hr, hcaps⟩ := subject_run (([] ++ (t ++ w :: rest)).length + 1) 0 t rest w
              [(1, 0, 0)] ht hw (by simp; omega)
            refine ⟨r, ?_, hcaps⟩
            rw [loop_lazy_done _ _ _ _ _ hr]
            rfl
          right
          exact ⟨r, hr, _, by simpa using hcaps⟩
        | cons c cs =>
          rw [← hlead]
          have := start_lead ((lead ++ (t ++ w :: rest)).length + 1) t rest w ht hw
            (by omega) lead hsafe [] lead rfl (by rw [hlead]; simp)
          simpa using this
      · exact start_match _ t rest w ht hw (by omega) lead hws (by omega)
    · have := searchFrom_hits ttlFirstSubjectMatcher ((lead ++ (t ++ w :: rest)).length + 1)
        lead.length (lead.length + t.length) (sep :: ws ++ (t ++ w :: rest)) l1 0
      have e : lead ++ (t ++ w :: rest) = l1 ++ (sep :: ws ++ (t ++ w :: rest)) := by
        rw [hl]
        simp
      rw [← e] at this
      apply this
      · intro a b hab
        have := start_lead ((lead ++ (t ++ w :: rest)).length + 1) t rest w ht hw
          (by omega) lead hsafe a (b ++ sep :: ws) (by rw [hl, hab]; simp) (by simp)
        simpa using this
      · have hlw : ws.length ≤ lead.length := by
          rw [hl]
          simp only [List.length_append, List.length_cons]
          omega
        exact anchor_match _ t rest w ht hw (by omega) _ sep ws hsep hws (by omega)
  obtain ⟨m, tail, hm, hcaps⟩ := hsearch
  refine ⟨(List.range (2 + 1)).map
    (fun i => String.mk (m.text (lead ++ (t ++ w :: rest)) i)), ?_, ?_⟩
  · simp only [Regex.FindStringSubmatch, Regex.execute, List.drop_zero, hm, Option.map_some']
  · have ht2 : m.text (lead ++ (t ++ w :: rest)) 2 = t := by
      simp only [Match.text, Match.group, hcaps]
      simp
    simp only [List.range_succ, List.range_zero, List.nil_append, List.map_cons,
      List.map_nil, List.cons_append]
    simp only [List.getElem?_cons_succ, List.getElem?_cons_zero, ht2]

/-- C25: the fallback does not return the first subject. The text has no base directive, and
its first clause starts with the subject `ex:s`, behind a prefix directive with a port in its
IRI. With the fallback to the first subject, `extractBaseIri` returns `b:80/x#>`, a piece of
the IRI of the prefix directive, where `unmarshalIri` makes `http://a.b:80/x#s` of the
subject `ex:s`. -/
theorem C25_fallback_not_first_subject :
    ttlBaseDirective.FindAllStringSubmatch 2 exPortText = [] ∧
    (NewTurtleParser none).extractBaseIri exPortText
        (NewEmptyNamespace.Set "ex" "http://a.b:80/x") true = Outcome.ok "b:80/x#>" ∧
    (NewTurtleParser none).unmarshalIri "ex:s" (NewEmptyNamespace.Set "ex" "http://a.b:80/x")
      = Outcome.ok "http://a.b:80/x#s" := by
  decide!

/-- Where the fallback returns the first subject: for a text without a match of the
expression of the base directive that consists of a lead, a subject token `t`, a white space
character and a rest, `extractBaseIri` returns what `unmarshalIri` makes of `t`, without an
error. The token is `<iri>` with neither `>` nor a line feed in `iri`, or a word
`prefix:local` without white space whose `local` is not empty and whose `prefix` has no `:`
and does not start with `<`. The lead is safe: the token stands at the start of the text or
behind a line feed or a `.`, with nothing but white space between, and no word of the lead
that stands so starts with `<` or has a `:` before its last character. -/
theorem fallback_first_subject (p : TurtleParser) (ns : Namespace)
    (lead t rest : List Char) (w : Char)
    (hbase : ttlBaseDirective.FindAllStringSubmatch 2 (String.mk (lead ++ (t ++ w :: rest)))
      = [])
    (ht : subjectToken t) (hw : wsChar w = true) (hsafe : safeLead true lead t = true) :
    p.extractBaseIri (String.mk (lead ++ (t ++ w :: rest))) ns true
      = p.unmarshalIri (String.mk t) ns ∧
    ∃ iri, p.unmarshalIri (String.mk t) ns = Outcome.ok iri := by
  constructor
  · obtain ⟨m, hm, hm2⟩ := firstSubject_find lead t rest w ht hw hsafe
    simp only [TurtleParser.extractBaseIri, hbase, List.length_nil, gt_iff_lt,
      Nat.not_lt_zero, if_false, if_true, hm, hm2, Outcome.ofOption, Outcome.bind]
  · rcases ht with ⟨x, hx, _⟩ | ⟨pd, ld, rfl, hp, _, hl, hlt⟩
    · exact ⟨_, unmarshalIri_bracket p ns x t hx⟩
    · exact ⟨_, unmarshalIri_shorthand p ns pd ld hp hl hlt⟩

/-- Example of the fallback: the subject `ex:User1` behind a prefix directive and a comment
line. -/
theorem fallback_first_subject_example :
    String.mk ("@prefix ex: <http://www.test.de/test#> .\n# the first: user\n".data ++
      ("ex:User1".data ++ ' ' :: "ex:name ex:Max .".data)) = exFallbackText ∧
    ((NewTurtleParser none).extractBaseIri
        (String.mk ("@prefix ex: <http://www.test.de/test#> .\n# the first: user\n".data ++
          ("ex:User1".data ++ ' ' :: "ex:name ex:Max .".data)))
        (NewEmptyNamespace.Set "ex" "http://www.test.de/test") true
      = (NewTurtleParser none).unmarshalIri (String.mk "ex:User1".data)
          (NewEmptyNamespace.Set "ex" "http://www.test.de/test") ∧
    ∃ iri, (NewTurtleParser none).unmarshalIri (String.mk "ex:User1".data)
      (NewEmptyNamespace.Set "ex" "http://www.test.de/test") = Outcome.ok iri) :=
  ⟨by decide,
    fallback_first_subject (NewTurtleParser none)
      (NewEmptyNamespace.Set "ex" "http://www.test.de/test")
      "@prefix ex: <http://www.test.de/test#> .\n# the first: user\n".data "ex:User1".data
      "ex:name ex:Max .".data ' ' (by decide!)
      (Or.inr ⟨"ex".data, "User1".data, rfl, by decide, by decide, by decide, by decide⟩)
      (by decide) (by decide)⟩

/-! ## Namespace: Include and Copy (C31, C32) -/

/-- C31 (counterexample): receiver and argument both define the key `k`, with the values `a`
and `b`; `Include` maps `k` to `b`, the value of the argument, not to the value of the
receiver. -/
theorem C31_include_counterexample :
    (NewEmptyNamespace.Set "k" "a").Get "k" = some "a" ∧
    (NewEmptyNamespace.Set "k" "b").Get "k" = some "b" ∧
    ((NewEmptyNamespace.Set "k" "a").Include MapOrder.stored (NewEmptyNamespace.Set "k" "b")).Get
      "k" = some "b" ∧
    ((NewEmptyNamespace.Set "k" "a").Include MapOrder.stored (NewEmptyNamespace.Set "k" "b")).Get
      "k" ≠ some "a" := by
  decide

/-- C31 (amended): `Namespace.Include` lets the argument win: when the receiver `ns` and the
argument `other` both define the key `k`, `ns.Include(other)` maps `k` to the value of
`other`, which is not the value that the receiver has for `k` when the two values differ; for
every order in which the maps are visited. -/
theorem C31_include_argument_wins (ns other : Namespace) (ord : MapOrder) (k v w : String)
    (hv : ns.Get k = some v) (hw : other.Get k = some w) :
    (ns.Include ord other).Get k = some w ∧
    (v ≠ w → (ns.Include ord other).Get k ≠ ns.Get k) := by
  have hc : other.Contains k = true := by simp [Namespace.Contains, hw]
  have h : (ns.Include ord other).Get k = some w := by
    rw [Namespace.Include, copyEntries_Get, if_pos ((mem_ListKeys other ord k).mpr hc),
      Namespace_MustGet_of_Contains other k hc, hw]
  refine ⟨h, ?_⟩
  intro hne hcon
  rw [h, hv] at hcon
  exact hne (Option.some.inj hcon).symm

/-- Witness of C31 (amended): the key `k` with the values `a` and `b`. -/
theorem C31_include_argument_wins_witness :
    ((NewEmptyNamespace.Set "k" "a").Include MapOrder.reversed
        (NewEmptyNamespace.Set "k" "b")).Get "k" = some "b" ∧
    ("a" ≠ "b" → ((NewEmptyNamespace.Set "k" "a").Include MapOrder.reversed
        (NewEmptyNamespace.Set "k" "b")).Get "k" ≠ (NewEmptyNamespace.Set "k" "a").Get "k") :=
  C31_include_argument_wins (NewEmptyNamespace.Set "k" "a") (NewEmptyNamespace.Set "k" "b")
    MapOrder.reversed "k" "a" "b" (by decide) (by decide)

/-- C32: `Namespace.Copy` starts from `NewNamespace()`, not from an empty namespace: the copy
has the value of `ns` for a key of `ns`, and for every other key what the default namespace
has. The copy of the empty namespace has the eleven default keys, among them `xsd`, which the
empty namespace does not have. -/
theorem C32_copy_adds_defaults (ns : Namespace) (ord : MapOrder) (k : String) :
    (ns.Copy ord).Get k = (if ns.Contains k = true then ns.Get k else NewNamespace.Get k) ∧
    NewEmptyNamespace.Contains "xsd" = false ∧
    (NewEmptyNamespace.Copy MapOrder.stored).Contains "xsd" = true ∧
    (NewEmptyNamespace.Copy MapOrder.stored).ListKeys MapOrder.stored
      = ["xsd", "rdf", "rdfs", "owl", "sesame", "fn", "foaf", "dc", "hint", "bd", "bds"] := by
  refine ⟨Copy_Get ns ord k, by decide, by decide, by decide⟩

/-! ## The namespace of the options after Unmarshal (C33) -/

/-- C33: `Unmarshal` does not update the namespace of the options. Of the text `exPrefixText`,
which declares the prefix `ex`, `Unmarshal` returns the statement with the resolved IRIs, and
`extractNamespace` finds the prefix with its stem; but the parser after the call is the parser
before the call, for every parser and text, and the namespace of its options does not contain
`ex`. -/
theorem C33_options_namespace_not_updated (p : TurtleParser) (ord : MapOrder) (text : String) :
    (p.afterUnmarshal ord text).optionsNamespace = p.optionsNamespace ∧
    (NewTurtleParser none).Unmarshal MapOrder.stored exPrefixText
      = Outcome.ok [NewStatement (NewNamedNode "http://x.org/v#s")
          (NewNamedNode "http://x.org/v#p") (Node.named (NewNamedNode "http://x.org/v#o"))
          none] ∧
    (NewTurtleParser none).extractNamespace exPrefixText
      = Outcome.ok (NewEmptyNamespace.Set "ex" "http://x.org/v") ∧
    (((NewTurtleParser none).afterUnmarshal MapOrder.stored exPrefixText).optionsNamespace).Contains
      "ex" = false := by
  refine ⟨rfl, by decide!, by decide!, by decide⟩

/-! ## Index and slice expressions out of range (C36) -/

/-- C36: `Unmarshal` is not total. Of the text `<s> <p> "x"^^ .`, whose object is a quoted
literal followed by `^^` and an empty type, `extractObjects` returns the token `"x"^^`,
`unmarshalNode` passes the empty text behind `^^` to `unmarshalIri`, and the index expression
`str[0]` there is out of range: the call panics. The typed literal `"@"^^xsd:string` panics
in the slice `str[1:idx - 1]` of `unmarshalNode`, whose bounds are 1 and 0. A token that
starts with a quote and has no closing quote is dropped without an error. -/
theorem C36_unmarshal_panics :
    (NewTurtleParser none).Unmarshal MapOrder.stored "<s> <p> \"x\"^^ ." = Outcome.panic ∧
    (NewTurtleParser none).extractObjects "\"x\"^^" = Outcome.ok ["\"x\"^^"] ∧
    (NewTurtleParser none).unmarshalNode "\"x\"^^" NewNamespace = Outcome.panic ∧
    (NewTurtleParser none).unmarshalIri "" NewNamespace = Outcome.panic ∧
    (NewTurtleParser none).Unmarshal MapOrder.stored "<s> <p> \"@\"^^xsd:string ."
      = Outcome.panic ∧
    (NewTurtleParser none).unmarshalNode "\"@\"^^xsd:string" NewNamespace = Outcome.panic ∧
    (NewTurtleParser none).Unmarshal MapOrder.stored "<s> <p> \"x ." = Outcome.ok [] := by
  decide!

/-! ## Insert followed by Delete (C39) -/

/-- A statement whose object `Equals` itself and that shares subject, predicate and object
with no statement of the sequence: one round of `Insert` appends it, and one round of `Delete`
behind it gives the sequence back. -/
theorem deletePure_insertPure_new (dg : namedNode) (L : List statement) (s : statement)
    (hs : s.object.Equals (some s.object) = true)
    (hnew : ∀ t ∈ L, ¬ (t.subject = s.subject ∧ t.predicate = s.predicate ∧
      t.object = s.object)) :
    insertPure dg L s = L ++ [stored dg s] ∧ deletePure (insertPure dg L s) s = L := by
  have hany : L.any (fun t => t.Equals (some (stored dg s))) = false := by
    rw [List.any_eq_false]
    intro t ht he
    have e := ((statement_Equals_iff _ _).mp he).1
    exact hnew t ht ⟨by rw [e]; rfl, by rw [e]; rfl, by rw [e]; rfl⟩
  have hins : insertPure dg L s = L ++ [stored dg s] := by
    simp [insertPure, hany]
  refine ⟨hins, ?_⟩
  have hkeep : ∀ t ∈ L, deleteTest s t = false := by
    intro t ht
    have hn := hnew t ht
    rw [← Bool.not_eq_true]
    intro h
    simp only [deleteTest] at h
    cases hg : s.graph with
    | none =>
      rw [hg] at h
      simp only [Bool.and_eq_true, namedNode_Equals_named, decide_eq_true_eq] at h
      exact hn ⟨h.1.1, h.1.2, ((Node_Equals_iff _ _).mp h.2).1⟩
    | some g =>
      rw [hg] at h
      have e := ((statement_Equals_iff _ _).mp h).1
      exact hn ⟨by rw [e], by rw [e], by rw [e]⟩
  have hdrop : deleteTest s (stored dg s) = true := by
    simp only [deleteTest]
    cases hg : s.graph with
    | none =>
      simp only [stored, NewStatement, namedNode_Equals_named, decide_True, Bool.true_and]
      exact hs
    | some g =>
      simp only [statement_Equals_iff]
      refine ⟨?_, hs⟩
      obtain ⟨s1, s2, s3, s4⟩ := s
      simp only at hg
      subst hg
      rfl
  rw [hins, deletePure, List.filter_append]
  have h1 : L.filter (fun t => !(deleteTest s t)) = L := by
    rw [List.filter_eq_self]
    intro t ht
    simp [hkeep t ht]
  rw [h1]
  simp [hdrop]

/-- C39 (counterexample): the statement `a - b - NaN` in graph `g`, whose object is a typed
literal with the value NaN, does not `Equals` itself; no statement of the knowledge base of
`exWorld` has its subject, predicate and object; `Insert` appends it, and `Delete` behind it
removes nothing, so that the stored sequence is the one before the two calls with the
statement behind it. -/
theorem C39_insert_then_delete_counterexample :
    exStatementNaN.Equals (some exStatementNaN) = false ∧
    (∀ t ∈ exBase.statements, ¬ (t.subject = exStatementNaN.subject ∧
      t.predicate = exStatementNaN.predicate ∧ t.object = exStatementNaN.object)) ∧
    ((knowledgeBase.Insert 0 [exStatementNaN] exWorld).bind
      (fun w1 => knowledgeBase.Statements 0 w1)) = some (exBase.statements ++ [exStatementNaN]) ∧
    ((knowledgeBase.Insert 0 [exStatementNaN] exWorld).bind
      (fun w1 => (knowledgeBase.Delete 0 [exStatementNaN] w1).bind
        (fun w2 => knowledgeBase.Statements 0 w2)))
      = some (exBase.statements ++ [exStatementNaN]) := by
  decide

/-- C39 (amended): when the object of `s` `Equals` itself and no stored statement has the
subject, predicate and object of `s`, in whatever graph, `Insert([s])` returns and appends the
statement that it stores for `s` (with the graph of `s`, or the default graph when `s` has
none), and `Delete([s])` behind it returns and leaves the knowledge bases as they were before
the two calls, whether `s` has a graph or not. -/
theorem C39_insert_then_delete (w : World) (kb : Nat) (k : knowledgeBase) (s : statement)
    (hk : w.kbs[kb]? = some k)
    (hs : s.object.Equals (some s.object) = true)
    (hnew : ∀ t ∈ k.statements, ¬ (t.subject = s.subject ∧ t.predicate = s.predicate ∧
      t.object = s.object)) :
    ∃ w1 w2 k1, knowledgeBase.Insert kb [s] w = some w1 ∧
      w1.kbs[kb]? = some k1 ∧
      k1.statements = k.statements ++
        [NewStatement s.subject s.predicate s.object (some (s.graph.getD k.defaultGraph))] ∧
      knowledgeBase.Delete kb [s] w1 = some w2 ∧
      w2.kbs = w.kbs ∧ knowledgeBase.Statements kb w2 = some k.statements := by
  obtain ⟨K, qs⟩ := w
  simp only at hk
  obtain ⟨hins, hdel⟩ := deletePure_insertPure_new k.defaultGraph k.statements s hs hnew
  obtain ⟨qs2, h1⟩ := Insert_pure kb [s] K qs k hk
  simp only [List.foldl_cons, List.foldl_nil] at h1
  have hk1 := getElem?_set_self_of_some K kb k
    { k with statements := insertPure k.defaultGraph k.statements s } hk
  obtain ⟨qs3, h2⟩ := Delete_pure kb [s] _ qs2 _ hk1
  simp only [List.foldl_cons, List.foldl_nil, hdel, List.set_set] at h2
  have hself : K.set kb { k with statements := k.statements } = K :=
    set_getElem?_self _ _ _ hk
  refine ⟨_, _, _, h1, hk1, ?_, h2, ?_, ?_⟩
  · rw [hins]
    rfl
  · exact hself
  · simp only [knowledgeBase.Statements, hself, hk, Option.map_some']

/-- Witness of C39: the statement `a - b - c` without a graph, inserted into and deleted from
a knowledge base that holds `a - b - d`. -/
theorem C39_insert_then_delete_witness :
    ∃ w1 w2 k1, knowledgeBase.Insert 0 [exStatementNoGraph]
        ⟨[⟨"kb", [exStatementD], NewNamedNode "default-graph"⟩], []⟩ = some w1 ∧
      w1.kbs[0]? = some k1 ∧
      k1.statements = (⟨"kb", [exStatementD], NewNamedNode "default-graph"⟩ :
          knowledgeBase).statements ++
        [NewStatement exStatementNoGraph.subject exStatementNoGraph.predicate
          exStatementNoGraph.object (some (exStatementNoGraph.graph.getD
            (⟨"kb", [exStatementD], NewNamedNode "default-graph"⟩ :
              knowledgeBase).defaultGraph))] ∧
      knowledgeBase.Delete 0 [exStatementNoGraph] w1 = some w2 ∧
      w2.kbs = (⟨[⟨"kb", [exStatementD], NewNamedNode "default-graph"⟩], []⟩ : World).kbs ∧
      knowledgeBase.Statements 0 w2
        = some (⟨"kb", [exStatementD], NewNamedNode "default-graph"⟩ :
            knowledgeBase).statements :=
  C39_insert_then_delete ⟨[⟨"kb", [exStatementD], NewNamedNode "default-graph"⟩], []⟩ 0
    ⟨"kb", [exStatementD], NewNamedNode "default-graph"⟩ exStatementNoGraph rfl (by decide)
    (by decide)

/-! ## `Or()` before the first leaf (C37) -/

/-- A query that holds the seed joined by `or` with another matcher is true on every
statement. -/
theorem evalConjuncts_or_seed (grp : Nat → statement → Option Bool) (m : matcher)
    (ms : List matcher) (s : statement) :
    evalConjuncts grp (matcher.or matcher.seed m :: ms) s = evalConjuncts grp ms s := rfl

/-- C37: an `Or()` before the first leaf joins the leaf with the seed, which is always true:
for every leaf `A` (a call of `Graph`, `Subject`, `Predicate` or `Object` with any argument)
and every statement, `NewQuery().Or().A` evaluates to true; so does the group query of
`NewQuery().Group().Or().A`, and the parent query after `EndGroup()`. -/
theorem C37_or_before_first_leaf (w : World) (A : Leaf) (s : statement) :
    thenCall (thenCall (thenCall (some (NewQuery w)) query.Or) A.build)
      (fun q => query.Evaluate q s) = some true ∧
    thenCall (thenCall (thenCall (thenCall (some (NewQuery w)) query.Group) query.Or) A.build)
      (fun q => query.Evaluate q s) = some true ∧
    thenCall (thenCall (thenCall (thenCall (thenCall (some (NewQuery w)) query.Group) query.Or)
      A.build) query.EndGroup) (fun q => query.Evaluate q s) = some true := by
  obtain ⟨K, qs⟩ := w
  have h1 : NewQuery ⟨K, qs⟩ = (⟨K, qs ++ [⟨none, none, [matcher.seed], "and"⟩]⟩, qs.length) :=
    rfl
  refine ⟨?_, ?_, ?_⟩
  · have h2 := query_Or_last K qs ⟨none, none, [matcher.seed], "and"⟩
    have h3 := Leaf_build_last_or A K qs ⟨none, none, [matcher.seed], "or"⟩ matcher.seed []
      rfl rfl
    simp only at h2 h3
    simp only [h1, thenCall_some, h2, h3, query_Evaluate_last, List.nil_append,
      evalConjuncts_or_seed, evalConjuncts_nil]
  · have h2 := query_Group_last_and K qs ⟨none, none, [matcher.seed], "and"⟩ rfl
    have h3 := query_Or_mid K
      (qs ++ [⟨none, none, [matcher.seed] ++ [matcher.group (qs.length + 1)], "and"⟩,
        ⟨none, some qs.length, [matcher.seed], "and"⟩])
      (qs ++ [⟨none, none, [matcher.seed] ++ [matcher.group (qs.length + 1)], "and"⟩]) []
      (qs.length + 1) ⟨none, some qs.length, [matcher.seed], "and"⟩ (by simp) (by simp)
    have h4 := Leaf_build_mid_or A K
      ((qs ++ [⟨none, none, [matcher.seed] ++ [matcher.group (qs.length + 1)], "and"⟩]) ++
        [⟨none, some qs.length, [matcher.seed], "or"⟩])
      (qs ++ [⟨none, none, [matcher.seed] ++ [matcher.group (qs.length + 1)], "and"⟩]) []
      (qs.length + 1) ⟨none, some qs.length, [matcher.seed], "or"⟩ matcher.seed []
      rfl (by simp) rfl rfl
    simp only at h2 h3 h4
    simp only [h1, thenCall_some, h2, h3, h4]
    unfold query.Evaluate
    simp only [List.length_append, List.length_singleton, List.nil_append]
    have e1 := evaluateFuel_mid (qs.length + 1)
      (qs ++ [⟨none, none, [matcher.seed] ++ [matcher.group (qs.length + 1)], "and"⟩] ++
        [⟨none, some qs.length, [matcher.or matcher.seed A.toMatcher], "and"⟩])
      (qs ++ [⟨none, none, [matcher.seed] ++ [matcher.group (qs.length + 1)], "and"⟩]) []
      (qs.length + 1) ⟨none, some qs.length, [matcher.or matcher.seed A.toMatcher], "and"⟩
      s rfl (by simp)
    rw [e1]
    rfl
  · have h2 := query_Group_last_and K qs ⟨none, none, [matcher.seed], "and"⟩ rfl
    have h3 := query_Or_mid K
      (qs ++ [⟨none, none, [matcher.seed] ++ [matcher.group (qs.length + 1)], "and"⟩,
        ⟨none, some qs.length, [matcher.seed], "and"⟩])
      (qs ++ [⟨none, none, [matcher.seed] ++ [matcher.group (qs.length + 1)], "and"⟩]) []
      (qs.length + 1) ⟨none, some qs.length, [matcher.seed], "and"⟩ (by simp) (by simp)
    have h4 := Leaf_build_mid_or A K
      ((qs ++ [⟨none, none, [matcher.seed] ++ [matcher.group (qs.length + 1)], "and"⟩]) ++
        [⟨none, some qs.length, [matcher.seed], "or"⟩])
      (qs ++ [⟨none, none, [matcher.seed] ++ [matcher.group (qs.length + 1)], "and"⟩]) []
      (qs.length + 1) ⟨none, some qs.length, [matcher.seed], "or"⟩ matcher.seed []
      rfl (by simp) rfl rfl
    have h5 := query_EndGroup_mid K
      ((qs ++ [⟨none, none, [matcher.seed] ++ [matcher.group (qs.length + 1)], "and"⟩]) ++
        [⟨none, some qs.length, [] ++ [matcher.or matcher.seed A.toMatcher], "and"⟩])
      (qs ++ [⟨none, none, [matcher.seed] ++ [matcher.group (qs.length + 1)], "and"⟩]) []
      (qs.length + 1) qs.length
      ⟨none, some qs.length, [] ++ [matcher.or matcher.seed A.toMatcher], "and"⟩
      rfl (by simp) rfl
    simp only at h2 h3 h4 h5
    simp only [h1, thenCall_some, h2, h3, h4, h5]
    unfold query.Evaluate
    simp only [List.length_append, List.length_singleton, List.nil_append]
    have e1 := evaluateFuel_mid (qs.length + 1)
      (qs ++ [⟨none, none, [matcher.seed] ++ [matcher.group (qs.length + 1)], "and"⟩] ++
        [⟨none, some qs.length, [matcher.or matcher.seed A.toMatcher], "and"⟩]) qs
      [⟨none, some qs.length, [matcher.or matcher.seed A.toMatcher], "and"⟩]
      qs.length ⟨none, none, [matcher.seed] ++ [matcher.group (qs.length + 1)], "and"⟩
      s (by simp) rfl
    rw [e1]
    have e2 := evaluateFuel_mid qs.length
      (qs ++ [⟨none, none, [matcher.seed] ++ [matcher.group (qs.length + 1)], "and"⟩] ++
        [⟨none, some qs.length, [matcher.or matcher.seed A.toMatcher], "and"⟩])
      (qs ++ [⟨none, none, [matcher.seed] ++ [matcher.group (qs.length + 1)], "and"⟩]) []
      (qs.length + 1) ⟨none, some qs.length, [matcher.or matcher.seed A.toMatcher], "and"⟩
      s rfl (by simp)
    simp only [List.nil_append, evalConjuncts_or_seed, evalConjuncts_nil] at e2
    simp only [List.cons_append, List.nil_append] at e2 ⊢
    rw [evalConjuncts_seed]
    rw [evalConjuncts_cons _ _ _ _ true (matcher_call_group_some _ _ _ _ e2)]
    rfl

/-! ## The query that `Group()` returns has no base (C38) -/

/-- A chain of leaves and `Or()` calls on the last query of the world changes the conjuncts
and the flag of that query only: its base and its parent stay. -/
theorem buildChain_last (K : List knowledgeBase) (pre : List query) :
    ∀ (calls : List ChainCall) (qq : query), qq.query ≠ [] →
      (qq.nextOp = "and" ∨ qq.nextOp = "or") →
      ∃ qq2, buildChain calls (some (⟨K, pre ++ [qq]⟩, pre.length))
          = some (⟨K, pre ++ [qq2]⟩, pre.length) ∧
        qq2.base = qq.base ∧ qq2.parent = qq.parent := by
  intro calls
  induction calls with
  | nil =>
    intro qq _ _
    exact ⟨qq, rfl, rfl, rfl⟩
  | cons c rest ih =>
    intro qq hne hop
    cases c with
    | leaf l =>
      rcases hop with hop | hop
      · have h := Leaf_build_last_and l K pre qq hop
        obtain ⟨qq2, h2, hb, hp⟩ := ih ⟨qq.base, qq.parent, qq.query ++ [l.toMatcher], "and"⟩
          (by simp) (Or.inl rfl)
        refine ⟨qq2, ?_, hb, hp⟩
        rw [buildChain, thenCall_some, ChainCall.build, h, h2]
      · obtain ⟨ms, prev, hq⟩ : ∃ ms prev, qq.query = ms ++ [prev] :=
          ⟨qq.query.dropLast, qq.query.getLast hne, (List.dropLast_append_getLast hne).symm⟩
        have h := Leaf_build_last_or l K pre qq prev ms hop hq
        obtain ⟨qq2, h2, hb, hp⟩ := ih
          ⟨qq.base, qq.parent, ms ++ [matcher.or prev l.toMatcher], "and"⟩ (by simp)
          (Or.inl rfl)
        refine ⟨qq2, ?_, hb, hp⟩
        rw [buildChain, thenCall_some, ChainCall.build, h, h2]
    | or =>
      have h := query_Or_last K pre qq
      obtain ⟨qq2, h2, hb, hp⟩ := ih ⟨qq.base, qq.parent, qq.query, "or"⟩ hne (Or.inr rfl)
      refine ⟨qq2, ?_, hb, hp⟩
      rw [buildChain, thenCall_some, ChainCall.build, h, h2]

/-- C38: the query that `Group()` returns has no knowledge base, also when its parent has one:
for every knowledge base handle and every chain of leaves and `Or()` calls,
`kb.Select().Group()...Results()` and `...ResultIndexes()` on the group query return, and
return the empty sequence, whatever the knowledge base holds. -/
theorem C38_group_query_unbound (w : World) (kb : Nat) (calls : List ChainCall) :
    thenCall (buildChain calls (thenCall (knowledgeBase.Select kb w) query.Group))
      query.Results = some [] ∧
    thenCall (buildChain calls (thenCall (knowledgeBase.Select kb w) query.Group))
      query.ResultIndexes = some [] := by
  obtain ⟨K, qs⟩ := w
  have h2 := query_Group_last_and K qs ⟨some kb, none, [matcher.seed], "and"⟩ rfl
  simp only at h2
  obtain ⟨qq2, h3, hb, _⟩ := buildChain_last K
    (qs ++ [⟨some kb, none, [matcher.seed] ++ [matcher.group (qs.length + 1)], "and"⟩]) calls
    ⟨none, some qs.length, [matcher.seed], "and"⟩ (by simp) (Or.inl rfl)
  simp only [List.length_append, List.length_singleton, List.append_assoc,
    List.singleton_append] at h3
  simp only at hb
  have hbound : boundStatements (qs.length + 1)
      ⟨K, qs ++ [⟨some kb, none, [matcher.seed] ++ [matcher.group (qs.length + 1)], "and"⟩,
        qq2]⟩ = some [] := by
    have hget : (qs ++ [(⟨some kb, none, [matcher.seed] ++ [matcher.group (qs.length + 1)],
        "and"⟩ : query), qq2])[qs.length + 1]? = some qq2 := by
      rw [List.getElem?_append_right (by omega)]
      simp
    simp only [boundStatements, hget, hb]
  simp only [List.singleton_append] at h2 hbound
  simp only [knowledgeBase_Select_eq, thenCall_some, h2, h3, query.Results, query.ResultIndexes,
    hbound, query.ResultsFrom, query.ResultIndexesFrom, resultIndexesLoop, and_self]

/-! ## stripComments, for every text (C34) -/

theorem ws_ne_hash (d : Char) (h : wsChar d = true) : d ≠ '#' := by
  intro e
  subst e
  revert h
  decide

/-- The part `#.*` of `ttlCommentMatcher` fails where no `#` stands. -/
theorem hash_fail (fuel : Nat) (s : MState) (h : ∀ d ∈ s.rest.head?, d ≠ '#') :
    Regex.run (Regex.cat (Regex.char '#') (Regex.star Regex.dot true)) fuel (fun s => some s) s
      = none := by
  obtain ⟨pos, rest, caps⟩ := s
  cases rest with
  | nil => rw [run_cat, run_char_nil]
  | cons c cs => rw [run_cat, run_char, if_neg (h c (by simp))]

/-- The part `#.*` of `ttlCommentMatcher` matches from a `#` to the end of the line. -/
theorem hash_run (fuel pos : Nat) (body rest : List Char) (caps : List (Nat × Nat × Nat))
    (hb : ∀ c ∈ body, c ≠ '\n') (hr : ∀ d ∈ rest.head?, d = '\n') (hf : body.length ≤ fuel) :
    Regex.run (Regex.cat (Regex.char '#') (Regex.star Regex.dot true)) fuel (fun s => some s)
      ⟨pos, '#' :: (body ++ rest), caps⟩ = some ⟨pos + 1 + body.length, rest, caps⟩ := by
  rw [run_cat, run_char, if_pos rfl, run_star]
  simp only [Regex.dot]
  apply greedy_cls_all true [('\n', '\n')] fuel _ caps rest _ _ body fuel (pos + 1) hf
  · intro c hc
    simp [inRanges_single, hb c hc]
  · rfl
  · intro y hy
    simp [inRanges_single, hr y hy]

/-- The part `\s*?#.*` fails at white space behind which no `#` stands. -/
theorem skip_fail (fuel : Nat) (tail : List Char) (caps : List (Nat × Nat × Nat))
    (ht : ∀ d ∈ tail.head?, wsChar d = false ∧ d ≠ '#') :
    ∀ (ws : List Char) (f pos : Nat), (∀ c ∈ ws, wsChar c = true) →
      repeatLoop (Regex.run Regex.space fuel) false f
        (Regex.run (Regex.cat (Regex.char '#') (Regex.star Regex.dot true)) fuel
          (fun s => some s)) ⟨pos, ws ++ tail, caps⟩ = none := by
  intro ws
  induction ws with
  | nil =>
    intro f pos _
    apply loop_lazy_fail
    · apply hash_fail
      intro d hd
      exact (ht d hd).2
    · intro k2
      rw [List.nil_append]
      cases tail with
      | nil => exact run_space_nil _ _ _ _
      | cons d r => rw [run_space, if_neg (by simp [(ht d (by simp)).1])]
  | cons c cs ih =>
    intro f pos hws
    have hc := hws c (by simp)
    have hfail := hash_fail fuel ⟨pos, c :: cs ++ tail, caps⟩
      (by intro d hd; simp at hd; subst hd; exact ws_ne_hash _ hc)
    cases f with
    | zero => simpa [repeatLoop] using hfail
    | succ f =>
      rw [loop_lazy_step _ _ _ _ hfail, List.cons_append, run_space, if_pos hc]
      simp only [Nat.lt_add_one, if_true]
      exact ih f (pos + 1) (fun d hd => hws d (List.mem_cons_of_mem _ hd))

/-- The part `\s*?#.*` matches over white space and from the `#` behind it to the end of the
line. -/
theorem skip_hit (fuel : Nat) (body rest : List Char) (caps : List (Nat × Nat × Nat))
    (hb : ∀ c ∈ body, c ≠ '\n') (hr : ∀ d ∈ rest.head?, d = '\n') (hf : body.length ≤ fuel) :
    ∀ (ws : List Char) (f pos : Nat), (∀ c ∈ ws, wsChar c = true) → ws.length ≤ f →
      repeatLoop (Regex.run Regex.space fuel) false f
        (Regex.run (Regex.cat (Regex.char '#') (Regex.star Regex.dot true)) fuel
          (fun s => some s)) ⟨pos, ws ++ '#' :: (body ++ rest), caps⟩
        = some ⟨pos + ws.length + 1 + body.length, rest, caps⟩ := by
  intro ws
  induction ws with
  | nil =>
    intro f pos _ _
    apply loop_lazy_done
    rw [List.nil_append, hash_run fuel pos body rest caps hb hr hf]
    rfl
  | cons c cs ih =>
    intro f pos hws hlen
    have hc := hws c (by simp)
    have hfail := hash_fail fuel ⟨pos, c :: cs ++ '#' :: (body ++ rest), caps⟩
      (by intro d hd; simp at hd; subst hd; exact ws_ne_hash _ hc)
    obtain ⟨f2, rfl⟩ : ∃ f2, f = f2 + 1 := ⟨f - 1, by simp at hlen; omega⟩
    rw [loop_lazy_step _ _ _ _ hfail, List.cons_append, run_space, if_pos hc]
    simp only [Nat.lt_add_one, if_true]
    rw [ih f2 (pos + 1) (fun d hd => hws d (List.mem_cons_of_mem _ hd))
      (by simp at hlen; omega)]
    simp only [List.length_cons]
    congr 2
    omega

/-- No match of `ttlCommentMatcher` starts at white space behind which no `#` stands. -/
theorem comment_none (fuel pos : Nat) (ws tail : List Char)
    (hws : ∀ c ∈ ws, wsChar c = true) (ht : ∀ d ∈ tail.head?, wsChar d = false ∧ d ≠ '#') :
    Regex.run ttlCommentMatcher fuel (fun s => some s) ⟨pos, ws ++ tail, []⟩ = none := by
  simp only [ttlCommentMatcher, Regex.seq, run_cat, run_cap, run_alt, run_bot, run_star]
  apply orElse_both
  · split
    · exact skip_fail fuel tail _ ht ws fuel pos hws
    · rfl
  · cases ws with
    | nil =>
      cases tail with
      | nil => exact run_char_nil _ _ _ _ _
      | cons d r =>
        rw [List.nil_append, run_char, if_neg]
        intro e
        have := (ht d (by simp)).1
        rw [e] at this
        revert this
        decide
    | cons c cs =>
      rw [List.cons_append, run_char]
      split
      · exact skip_fail fuel tail _ ht cs fuel (pos + 1)
          (fun d hd => hws d (List.mem_cons_of_mem _ hd))
      · rfl

/-- No match of `ttlCommentMatcher` starts behind the start of the text at a character that is
no line feed. -/
theorem comment_mid (fuel pos : Nat) (l : List Char) (hpos : 0 < pos)
    (hl : ∀ d ∈ l.head?, d ≠ '\n') :
    Regex.run ttlCommentMatcher fuel (fun s => some s) ⟨pos, l, []⟩ = none := by
  simp only [ttlCommentMatcher, Regex.seq, run_cat, run_cap, run_alt, run_bot, run_star]
  rw [if_neg (by omega), orElse_none]
  cases l with
  | nil => exact run_char_nil _ _ _ _ _
  | cons d r => rw [run_char, if_neg (hl d (by simp))]

/-- The match of `ttlCommentMatcher` from the start of the text or from a line feed, over
white space, and from a `#` to the end of the line. -/
theorem comment_hit (fuel pos : Nat) (lead body rest : List Char)
    (hlead : ∀ c ∈ lead, wsChar c = true) (hstart : pos = 0 ∨ lead.head? = some '\n')
    (hb : ∀ c ∈ body, c ≠ '\n') (hr : ∀ d ∈ rest.head?, d = '\n')
    (hf : lead.length + body.length ≤ fuel) :
    Regex.run ttlCommentMatcher fuel (fun s => some s)
      ⟨pos, lead ++ '#' :: (body ++ rest), []⟩
      = some ⟨pos + lead.length + 1 + body.length, rest, commentCaps pos⟩ := by
  simp only [ttlCommentMatcher, Regex.seq, run_cat, run_cap, run_alt, run_bot, run_star]
  by_cases h0 : pos = 0
  · rw [if_pos h0, skip_hit fuel body rest _ hb hr (by omega) lead fuel pos hlead (by omega)]
    simp [commentCaps, h0, orElse]
  · rw [if_neg h0, orElse_none]
    rcases hstart with h | h
    · exact absurd h h0
    · obtain ⟨cs, rfl⟩ : ∃ cs, lead = '\n' :: cs := by
        cases lead with
        | nil => simp at h
        | cons c cs =>
          simp only [List.head?_cons, Option.some.injEq] at h
          exact ⟨cs, by rw [h]⟩
      rw [List.cons_append, run_char, if_pos rfl]
      simp only
      rw [skip_hit fuel body rest _ hb hr (by simp at hf; omega) cs fuel (pos + 1)
        (fun d hd => hlead d (List.mem_cons_of_mem _ hd)) (by simp at hf; omega)]
      simp only [commentCaps, h0, if_false, List.length_cons]
      congr 2
      omega

theorem comment_line_split (l : List Char) (h : isCommentLine l = true) :
    ∃ lw body, l = lw ++ '#' :: body ∧ ∀ c ∈ lw, wsChar c = true := by
  simp only [isCommentLine, beq_iff_eq] at h
  refine ⟨l.takeWhile wsChar, (l.dropWhile wsChar).tail, ?_, ?_⟩
  · have e := List.takeWhile_append_dropWhile wsChar l
    cases hd : l.dropWhile wsChar with
    | nil => simp [hd] at h
    | cons d r =>
      rw [hd] at h e
      simp only [List.head?_cons, Option.some.injEq] at h
      subst h
      exact e.symm
  · intro c hc
    exact List.mem_takeWhile_imp hc

theorem other_line_split (l : List Char) (hc : isCommentLine l = false)
    (hb : isBlankLine l = false) :
    ∃ lw c l2, l = lw ++ c :: l2 ∧ (∀ d ∈ lw, wsChar d = true) ∧ wsChar c = false ∧ c ≠ '#' := by
  have e := List.takeWhile_append_dropWhile wsChar l
  cases hd : l.dropWhile wsChar with
  | nil =>
    exfalso
    have hall : ∀ d ∈ l, wsChar d = true := by
      rw [hd, List.append_nil] at e
      intro d hdm
      rw [← e] at hdm
      exact List.mem_takeWhile_imp hdm
    simp only [isBlankLine, List.all_eq_false] at hb
    obtain ⟨x, hx, hxw⟩ := hb
    exact hxw (hall x hx)
  | cons d r =>
    refine ⟨l.takeWhile wsChar, d, r, ?_, fun x hx => List.mem_takeWhile_imp hx, ?_, ?_⟩
    · rw [hd] at e
      exact e.symm
    · have := List.head_dropWhile_not wsChar l (by rw [hd]; simp)
      simpa [hd] using this
    · intro e2
      simp [isCommentLine, hd, e2] at hc

theorem joinLines_head (rest : List (List Char)) :
    ∀ d ∈ (joinLines false rest).head?, d = '\n' := by
  intro d hd
  cases rest with
  | nil => simp [joinLines] at hd
  | cons l r => simpa [joinLines] using hd.symm

theorem segText_commentSegs : ∀ (lines : List (List Char)) (first : Bool) (pos : Nat)
    (pend : List Char),
    segText (commentSegs first pos pend lines) = pend ++ joinLines first lines := by
  intro lines
  induction lines with
  | nil => intro first pos pend; simp [commentSegs, segText, joinLines]
  | cons l rest ih =>
    intro first pos pend
    simp only [commentSegs, joinLines]
    split
    · simp [segText, ih]
    · split
      · simp [ih]
      · simp [segText, ih]

theorem commentRemoved_cons_blank (l : List Char) (rest : List (List Char))
    (hc : isCommentLine l = false) (hb : isBlankLine l = true) :
    commentRemoved (l :: rest) = commentRemoved rest := by
  simp [commentRemoved, hc, hb]

theorem keptText_commentSegs : ∀ (lines : List (List Char)) (first : Bool) (pos : Nat)
    (pend : List Char),
    keptText (commentSegs first pos pend lines)
      = (if commentRemoved lines then [] else pend) ++ keptLines first lines := by
  intro lines
  induction lines with
  | nil => intro first pos pend; simp [commentSegs, keptText, keptLines, commentRemoved]
  | cons l rest ih =>
    intro first pos pend
    by_cases hc : isCommentLine l = true
    · have hr : commentRemoved (l :: rest) = true := by simp [commentRemoved, hc]
      simp only [commentSegs, hc, if_true, keptText, ih, keptLines, hr]
      simp
    · simp only [Bool.not_eq_true] at hc
      by_cases hb : isBlankLine l = true
      · have hr := commentRemoved_cons_blank l rest hc hb
        simp only [commentSegs, hc, hb, Bool.false_eq_true, if_false, if_true, ih, keptLines, hr]
        cases commentRemoved rest <;> simp
      · simp only [Bool.not_eq_true] at hb
        have hr : commentRemoved (l :: rest) = false := by simp [commentRemoved, hc, hb]
        simp only [commentSegs, hc, hb, Bool.false_eq_true, if_false, keptText, ih, keptLines,
          hr]
        simp

/-- The search for `ttlCommentMatcher` behaves on the parts of a text as `commentSegs` marks
them. -/
theorem commentSegs_ok (fuel : Nat) : ∀ (lines : List (List Char)) (first : Bool) (pos : Nat)
    (pend : List Char),
    (∀ l ∈ lines, ∀ c ∈ l, c ≠ '\n') → (∀ c ∈ pend, wsChar c = true) →
    (first = true → pos = 0) → (pos = 0 ∨ pend = [] ∨ pend.head? = some '\n') →
    (pend ++ joinLines first lines).length ≤ fuel →
    SegOK ttlCommentMatcher fuel pos (commentSegs first pos pend lines) := by
  intro lines
  induction lines with
  | nil =>
    intro first pos pend _ hpend _ _ _
    simp only [commentSegs, SegOK, segText, List.append_nil]
    refine ⟨?_, ?_⟩
    · intro i _
      have := comment_none fuel (pos + i) (pend.drop i) []
        (fun c hc => hpend c (List.mem_of_mem_drop hc)) (by simp)
      simpa using this
    · have := comment_none fuel (pos + pend.length) [] [] (by simp) (by simp)
      simpa using this
  | cons l rest ih =>
    intro first pos pend hlines hpend hfirst hinv hfuel
    have hl := hlines l (by simp)
    have hrest : ∀ l2 ∈ rest, ∀ c ∈ l2, c ≠ '\n' :=
      fun l2 h2 => hlines l2 (List.mem_cons_of_mem _ h2)
    have hunit : ∀ x : List Char, (∀ c ∈ x, wsChar c = true) →
        ∀ c ∈ pend ++ (if first = true then x else '\n' :: x), wsChar c = true := by
      intro x hx c hc
      rw [List.mem_append] at hc
      rcases hc with hc | hc
      · exact hpend c hc
      · cases first with
        | true => exact hx c (by simpa using hc)
        | false =>
          simp only [Bool.false_eq_true, if_false, List.mem_cons] at hc
          rcases hc with rfl | hc
          · decide
          · exact hx c hc
    have hhead : ∀ x y : List Char, pos = 0 ∨
        (pend ++ (if first = true then x else '\n' :: x) ++ y).head? = some '\n' := by
      intro x y
      rcases hinv with h | h | h
      · exact Or.inl h
      · cases first with
        | true => exact Or.inl (hfirst rfl)
        | false =>
          right
          simp [h]
      · right
        cases pend with
        | nil => simp at h
        | cons c cs => simpa using h
    simp only [joinLines] at hfuel
    have hlen : (pend ++ (if first = true then l else '\n' :: l)).length
          + (joinLines false rest).length ≤ fuel := by
      simp only [List.length_append] at hfuel ⊢
      omega
    by_cases hc : isCommentLine l = true
    · obtain ⟨lw, body, rfl, hlw⟩ := comment_line_split l hc
      simp only [commentSegs, hc, if_true, SegOK, segText_commentSegs, List.nil_append]
      refine ⟨?_, ?_, ?_⟩
      · cases first <;> simp
      · have hrun := comment_hit fuel pos (pend ++ (if first = true then lw else '\n' :: lw))
          body (joinLines false rest) (hunit lw hlw)
          (by
            rcases hhead lw [] with h | h
            · exact Or.inl h
            · right
              simpa using h)
          (fun c hcm => hl c (by simp [hcm])) (joinLines_head rest)
          (by
            simp only [List.length_append] at hlen ⊢
            cases first <;> simp at hlen ⊢ <;> omega)
        refine ⟨⟨pos + (pend ++ (if first = true then lw else '\n' :: lw)).length + 1
          + body.length, joinLines false rest, commentCaps pos⟩, ?_, ?_, rfl⟩
        · rw [← hrun]
          congr 2
          cases first <;> simp
        · simp only [List.length_append]
          cases first <;> simp <;> omega
      · apply ih false _ [] hrest (by simp) (by simp) (Or.inr (Or.inl rfl))
        simp only [List.nil_append]
        omega
    · simp only [Bool.not_eq_true] at hc
      by_cases hb : isBlankLine l = true
      · simp only [commentSegs, hc, hb, Bool.false_eq_true, if_false, if_true]
        have hlw : ∀ c ∈ l, wsChar c = true := by
          simpa [isBlankLine] using hb
        apply ih false pos _ hrest (hunit l hlw) (by simp)
        · rcases hhead l [] with h | h
          · exact Or.inl h
          · right
            right
            simpa using h
        · simp only [List.length_append] at hlen ⊢
          omega
      · simp only [Bool.not_eq_true] at hb
        obtain ⟨lw, c, l2, rfl, hlw, hcw, hch⟩ := other_line_split l hc hb
        simp only [commentSegs, hc, hb, Bool.false_eq_true, if_false, SegOK,
          segText_commentSegs, List.nil_append]
        refine ⟨?_, ?_⟩
        · intro i hi
          have hsplit : pend ++ (if first = true then lw ++ c :: l2 else '\n' :: (lw ++ c :: l2))
              = (pend ++ (if first = true then lw else '\n' :: lw)) ++ c :: l2 := by
            cases first <;> simp
          rw [hsplit] at hi ⊢
          by_cases hiw : i ≤ (pend ++ (if first = true then lw else '\n' :: lw)).length
          · rw [List.drop_append_of_le_length hiw, List.append_assoc]
            apply comment_none
            · intro d hd
              exact hunit lw hlw d (List.mem_of_mem_drop hd)
            · intro d hd
              simp only [List.cons_append, List.head?_cons, Option.mem_def,
                Option.some.injEq] at hd
              subst hd
              exact ⟨hcw, hch⟩
          · apply comment_mid
            · omega
            · intro d hd
              have hmem : d ∈ l2 := by
                rw [List.drop_append_eq_append_drop, List.drop_of_length_le (by omega),
                  List.nil_append] at hd
                obtain ⟨j, hj⟩ : ∃ j, i - (pend ++ (if first = true then lw
                    else '\n' :: lw)).length = j + 1 := ⟨_, (Nat.succ_pred_eq_of_pos
                      (by omega)).symm⟩
                rw [hj, List.drop_succ_cons] at hd
                have hlt : j < l2.length := by
                  rw [List.length_append, List.length_cons] at hi
                  omega
                obtain ⟨e, r, hdr, hmem⟩ := drop_cons_of_lt l2 j hlt
                rw [hdr] at hd
                simp only [List.cons_append, List.head?_cons, Option.mem_def,
                  Option.some.injEq] at hd
                rw [← hd]
                exact hmem
              exact hl d (by simp [hmem])
        · apply ih false _ [] hrest (by simp) (by simp) (Or.inr (Or.inl rfl))
          simp only [List.nil_append]
          omega

theorem joinLines_false (S : List (List Char)) (h : S ≠ []) :
    joinLines false S = '\n' :: joinLines true S := by
  cases S with
  | nil => exact absurd rfl h
  | cons l r => simp [joinLines]

theorem joinLines_split : ∀ cs : List Char, joinLines true (splitChars '\n' cs) = cs := by
  intro cs
  induction cs with
  | nil => simp [splitChars, joinLines]
  | cons c cs ih =>
    by_cases hc : c = '\n'
    · subst hc
      simp only [splitChars, beq_self_eq_true, if_true, joinLines, List.nil_append]
      rw [joinLines_false _ (splitChars_ne_nil _ _), ih]
    · have hb : (c == '\n') = false := by simpa using hc
      simp only [splitChars, hb, Bool.false_eq_true, if_false]
      cases hs : splitChars '\n' cs with
      | nil => exact absurd hs (splitChars_ne_nil _ _)
      | cons first rest =>
        rw [hs] at ih
        simp only [joinLines, if_true, List.cons_append] at ih ⊢
        rw [ih]

theorem splitChars_lines : ∀ cs : List Char, ∀ l ∈ splitChars '\n' cs, ∀ c ∈ l, c ≠ '\n' := by
  intro cs
  induction cs with
  | nil =>
    intro l hl c hc
    simp only [splitChars, List.mem_singleton] at hl
    subst hl
    simp at hc
  | cons d cs ih =>
    intro l hl c hc
    by_cases hd : d = '\n'
    · subst hd
      simp only [splitChars, beq_self_eq_true, if_true, List.mem_cons] at hl
      rcases hl with rfl | hl
      · simp at hc
      · exact ih l hl c hc
    · have hb : (d == '\n') = false := by simpa using hd
      simp only [splitChars, hb, Bool.false_eq_true, if_false] at hl
      cases hs : splitChars '\n' cs with
      | nil => exact absurd hs (splitChars_ne_nil _ _)
      | cons first rest =>
        rw [hs] at hl ih
        simp only [List.mem_cons] at hl
        rcases hl with rfl | hl
        · simp only [List.mem_cons] at hc
          rcases hc with rfl | hc
          · exact hd
          · exact ih first (by simp) c hc
        · exact ih l (by simp [hl]) c hc

/-- C34 (counterexample): in `a`, an empty line, `#c`, `b` the empty line is no comment line,
but `stripComments` removes it with the comment line; and of `#c`, `foo` it leaves the line
feed of the comment line in the text. -/
theorem C34_stripComments_counterexample :
    (NewTurtleParser none).stripComments "a\n\n#c\nb" = "a\nb" ∧
    (NewTurtleParser none).stripComments "#c\nfoo" = "\nfoo" := by
  decide!

/-- C34 (amended): for every text, `stripComments` returns the text without its comment lines
(the lines whose first character that is no white space is `#`) and without the lines of
nothing but white space that stand directly in front of a comment line; a removed line goes
with the line feed in front of it, so that a comment in the first line leaves the line feed
behind it; every other line stays as it is, in its place. -/
theorem C34_stripComments_by_lines (p : TurtleParser) (str : String) :
    p.stripComments str = stripCommentsByLines str := by
  have hseg : segText (commentSegs true 0 [] (splitChars '\n' str.data)) = str.data := by
    rw [segText_commentSegs, List.nil_append, joinLines_split]
  have hok := commentSegs_ok ((segText (commentSegs true 0 [] (splitChars '\n' str.data))).length
    + 1) (splitChars '\n' str.data) true 0 [] (splitChars_lines str.data) (by simp)
    (fun _ => rfl) (Or.inl rfl) (by rw [hseg, List.nil_append, joinLines_split]; omega)
  have h := ReplaceAllString_segs ttlCommentMatcher _ hok
  rw [hseg, keptText_commentSegs] at h
  simp only [TurtleParser.stripComments, stripCommentsByLines]
  have e : str = String.mk str.data := rfl
  rw [e, h]
  simp

/-! ## extractObjects on lists of object tokens (C35) -/

theorem ws_ne_quote (d : Char) (h : wsChar d = true) : d ≠ '"' := by
  intro e
  subst e
  revert h
  decide

theorem ws_ne_comma (d : Char) (h : wsChar d = true) : d ≠ ',' := by
  intro e
  subst e
  revert h
  decide

/-- A lazy repetition of `\s` goes over white space at which the rest of the expression
fails. -/
theorem lazy_space_skip (fuel0 : Nat) (k : MState → Option MState)
    (caps : List (Nat × Nat × Nat)) (ys xs : List Char) (fuel pos : Nat) (r : MState)
    (hf : xs.length ≤ fuel) (hx : ∀ c ∈ xs, wsChar c = true)
    (hk : ∀ i, i < xs.length → k ⟨pos + i, xs.drop i ++ ys, caps⟩ = none)
    (hr : k ⟨pos + xs.length, ys, caps⟩ = some r) :
    repeatLoop (Regex.run Regex.space fuel0) false fuel k ⟨pos, xs ++ ys, caps⟩ = some r := by
  simp only [Regex.space]
  rw [lazy_cls_skip false _ fuel0 k caps ys xs fuel pos hf _ hk]
  · exact loop_lazy_done _ _ _ _ _ hr
  · intro c hc
    rw [inRanges_space, hx c hc]
    rfl

/-- A lazy repetition of `\s` fails when the rest of the expression fails at the white space
and at what stands behind it. -/
theorem lazy_space_fail (fuel0 : Nat) (k : MState → Option MState)
    (caps : List (Nat × Nat × Nat)) (tail : List Char)
    (ht : ∀ d ∈ tail.head?, wsChar d = false)
    (hk : ∀ (ws : List Char) (q : Nat), (∀ c ∈ ws, wsChar c = true) →
      k ⟨q, ws ++ tail, caps⟩ = none) :
    ∀ (ws : List Char) (f pos : Nat), (∀ c ∈ ws, wsChar c = true) →
      repeatLoop (Regex.run Regex.space fuel0) false f k ⟨pos, ws ++ tail, caps⟩ = none := by
  intro ws
  induction ws with
  | nil =>
    intro f pos _
    apply loop_lazy_fail
    · exact hk [] pos (by simp)
    · intro k2
      rw [List.nil_append]
      cases tail with
      | nil => exact run_space_nil _ _ _ _
      | cons d r => rw [run_space, if_neg (by simp [ht d (by simp)])]
  | cons c cs ih =>
    intro f pos hws
    have hc := hws c (by simp)
    have hfail := hk (c :: cs) pos hws
    cases f with
    | zero => simpa [repeatLoop] using hfail
    | succ f =>
      rw [loop_lazy_step _ _ _ _ hfail, List.cons_append, run_space, if_pos hc]
      simp only [Nat.lt_add_one, if_true]
      exact ih f (pos + 1) (fun d hd => hws d (List.mem_cons_of_mem _ hd))

/-- The end `(,|$)` of an expression fails before a character that is no comma. -/
theorem comma_fail (i fuel pos : Nat) (caps : List (Nat × Nat × Nat)) (c : Char)
    (rest : List Char) (hc : c ≠ ',') :
    Regex.run (Regex.cap i (Regex.alt (Regex.char ',') Regex.eot)) fuel
      (fun s => some s) ⟨pos, c :: rest, caps⟩ = none := by
  simp [run_cap, run_alt, run_char, run_eot, orElse_none, hc]

/-- The end `\s*?(,|$)` of an expression fails at white space before a character that is no
comma. -/
theorem end_ws_fail (i fuel pos : Nat) (caps : List (Nat × Nat × Nat)) (ws : List Char)
    (d : Char) (rest : List Char) (hws : ∀ c ∈ ws, wsChar c = true) (hw : wsChar d = false)
    (hd : d ≠ ',') :
    Regex.run (Regex.star Regex.space false) fuel
      (Regex.run (Regex.cap i (Regex.alt (Regex.char ',') Regex.eot)) fuel (fun s => some s))
      ⟨pos, ws ++ d :: rest, caps⟩ = none := by
  rw [run_star]
  apply lazy_space_fail fuel _ caps (d :: rest) (by simpa using hw) _ ws fuel pos hws
  intro ws2 q hws2
  cases ws2 with
  | nil => exact comma_fail i fuel q caps d rest hd
  | cons c cs => exact comma_fail i fuel q caps c _ (ws_ne_comma c (hws2 c (by simp)))

/-- The end `\s*?(,|$)` of an expression matches the white space behind a token, and the comma
behind it. -/
theorem end_ws (i fuel pos : Nat) (caps : List (Nat × Nat × Nat)) (trail more : List Char)
    (h : tokenEnd trail more) (hf : trail.length ≤ fuel) :
    ∃ caps2, Regex.run (Regex.star Regex.space false) fuel
      (Regex.run (Regex.cap i (Regex.alt (Regex.char ',') Regex.eot)) fuel (fun s => some s))
      ⟨pos, trail ++ more, caps⟩ = some ⟨pos + trail.length, more, caps2⟩ := by
  obtain ⟨ws, hws, h⟩ := h
  have hskip : ∀ j, j < ws.length → ∀ ys,
      Regex.run (Regex.cap i (Regex.alt (Regex.char ',') Regex.eot)) fuel (fun s => some s)
        ⟨pos + j, ws.drop j ++ ys, caps⟩ = none := by
    intro j hj ys
    obtain ⟨c, l, hcl, hc⟩ := drop_cons_of_lt ws j hj
    rw [hcl, List.cons_append]
    exact comma_fail i fuel _ caps c _ (ws_ne_comma c (hws c hc))
  rcases h with ⟨rfl, rfl⟩ | rfl
  · refine ⟨(i, pos + trail.length, pos + trail.length) :: caps, ?_⟩
    rw [run_star]
    apply lazy_space_skip fuel _ caps [] trail fuel pos _ hf hws (fun j hj => hskip j hj [])
    simp [run_cap, run_alt, run_char_nil, run_eot, orElse_none]
  · refine ⟨(i, pos + ws.length, pos + ws.length + 1) :: caps, ?_⟩
    rw [run_star, List.append_assoc]
    apply lazy_space_skip fuel _ caps _ ws fuel pos _
      (by simp only [List.length_append, List.length_singleton] at hf; omega) hws
      (fun j hj => hskip j hj _)
    simp [run_cap, run_alt, run_char, orElse_some]
    omega

/-- A text that does not end in white space starts with white space and another character. -/
theorem ws_split (x : List Char) (hne : x ≠ []) (hl : ∀ c ∈ x.getLast?, wsChar c = false) :
    ∃ ws d l, x = ws ++ d :: l ∧ (∀ c ∈ ws, wsChar c = true) ∧ wsChar d = false := by
  induction x with
  | nil => exact absurd rfl hne
  | cons c cs ih =>
    cases hw : wsChar c with
    | false => exact ⟨[], c, cs, rfl, by simp, hw⟩
    | true =>
      cases cs with
      | nil =>
        have := hl c (by simp)
        rw [hw] at this
        cases this
      | cons c2 cs2 =>
        obtain ⟨ws, d, l, e, hws, hd⟩ := ih (by simp) (by simpa using hl)
        refine ⟨c :: ws, d, l, by rw [e]; rfl, ?_, hd⟩
        intro x hx
        simp only [List.mem_cons] at hx
        rcases hx with rfl | hx
        · exact hw
        · exact hws x hx

theorem getLast?_drop_lt (x : List Char) (i : Nat) (hi : i < x.length) :
    (x.drop i).getLast? = x.getLast? := by
  induction x generalizing i with
  | nil => simp at hi
  | cons c cs ih =>
    cases i with
    | zero => rfl
    | succ j =>
      simp only [List.length_cons] at hi
      have hj : j < cs.length := by omega
      rw [List.drop_succ_cons, ih j hj]
      cases cs with
      | nil => simp at hj
      | cons c2 cs2 => simp

/-- The part `(((\^\^|@)(.*?))?)\s*?(,|$)` matches a suffix `@lang` or `^^type` and what
stands behind it. -/
theorem tail_ws (fuel p : Nat) (marker body trail more : List Char)
    (caps : List (Nat × Nat × Nat)) (hmk : marker = ['@'] ∨ marker = ['^', '^'])
    (hb : ∀ c ∈ body, c ≠ ',' ∧ c ≠ '\n') (hl : ∀ c ∈ body.getLast?, wsChar c = false)
    (hend : tokenEnd trail more) (hf : body.length + trail.length + 1 ≤ fuel) :
    ∃ caps2, Regex.run (Regex.cat
        (Regex.cap 2 (Regex.quest (Regex.cap 3 (Regex.cat
          (Regex.cap 4 (Regex.alt (Regex.lit "^^".data) (Regex.char '@')))
          (Regex.cap 5 (Regex.star Regex.dot false)))) true))
        (Regex.cat (Regex.star Regex.space false)
          (Regex.cap 6 (Regex.alt (Regex.char ',') Regex.eot)))) fuel (fun s => some s)
        ⟨p, (marker ++ body) ++ (trail ++ more), caps⟩
      = some ⟨p + (marker ++ body).length + trail.length, more, caps2⟩ := by
  have hlit : Regex.lit "^^".data = Regex.cat (Regex.char '^') (Regex.char '^') := rfl
  have hskip : ∀ (q : Nat) (cs : List (Nat × Nat × Nat)) (k : MState → Option MState)
      (r : MState),
      (∀ i, i < body.length → k ⟨q + i, body.drop i ++ (trail ++ more), cs⟩ = none) →
      k ⟨q + body.length, trail ++ more, cs⟩ = some r →
      repeatLoop (Regex.run Regex.dot fuel) false fuel k ⟨q, body ++ (trail ++ more), cs⟩
        = some r := by
    intro q cs k r h1 h2
    simp only [Regex.dot]
    rw [lazy_cls_skip true [('\n', '\n')] fuel k cs (trail ++ more) body fuel q (by omega)
      (by intro c hc; simp [inRanges_single, (hb c hc).2]) h1]
    exact loop_lazy_done _ _ _ _ _ h2
  have hfail : ∀ (q i : Nat) (cs : List (Nat × Nat × Nat)), i < body.length →
      Regex.run (Regex.star Regex.space false) fuel
        (Regex.run (Regex.cap 6 (Regex.alt (Regex.char ',') Regex.eot)) fuel (fun s => some s))
        ⟨q, body.drop i ++ (trail ++ more), cs⟩ = none := by
    intro q i cs hi
    obtain ⟨ws, d, l, e, hws, hd⟩ := ws_split (body.drop i)
      (by intro h; simp at h; omega) (by rw [getLast?_drop_lt body i hi]; exact hl)
    have hmem : d ∈ body := List.mem_of_mem_drop (by rw [e]; simp)
    rw [e, List.append_assoc, List.cons_append]
    exact end_ws_fail 6 fuel q cs ws d _ hws hd (hb d hmem).1
  rcases hmk with rfl | rfl
  · obtain ⟨caps2, h2⟩ := end_ws 6 fuel (p + 1 + body.length)
      ((2, p, p + 1 + body.length) :: (3, p, p + 1 + body.length) ::
        (5, p + 1, p + 1 + body.length) :: (4, p, p + 1) :: caps) trail more hend (by omega)
    refine ⟨caps2, ?_⟩
    have hne : ¬ ('@' = '^') := by decide
    simp only [run_cat, run_cap, run_quest_greedy, run_alt, hlit, run_char, hne, if_false,
      orElse_none, List.singleton_append, List.cons_append, List.nil_append, List.append_assoc,
      if_true, run_star]
    rw [hskip _ _ _ ⟨p + 1 + body.length + trail.length, more, caps2⟩, orElse_some]
    · simp only [List.length_cons]
      congr 2
      omega
    · intro i hi
      simp only []
      rw [← run_star]
      exact hfail _ i _ hi
    · simp only []
      rw [← run_star]
      exact h2
  · obtain ⟨caps2, h2⟩ := end_ws 6 fuel (p + 1 + 1 + body.length)
      ((2, p, p + 1 + 1 + body.length) :: (3, p, p + 1 + 1 + body.length) ::
        (5, p + 1 + 1, p + 1 + 1 + body.length) :: (4, p, p + 1 + 1) :: caps) trail more hend
      (by omega)
    refine ⟨caps2, ?_⟩
    simp only [run_cat, run_cap, run_quest_greedy, run_alt, hlit, run_char, if_true,
      List.cons_append, List.nil_append, List.append_assoc, run_star]
    rw [hskip _ _ _ ⟨p + 1 + 1 + body.length + trail.length, more, caps2⟩, orElse_some,
      orElse_some]
    · simp only [List.length_cons]
      congr 2
      omega
    · intro i hi
      simp only []
      rw [← run_star]
      exact hfail _ i _ hi
    · simp only []
      rw [← run_star]
      exact h2

/-- The part `(((\^\^|@)(.*?))?)\s*?(,|$)` matches what stands behind a literal without a
suffix. -/
theorem tail_plain (fuel p : Nat) (trail more : List Char)
    (caps : List (Nat × Nat × Nat)) (hend : tokenEnd trail more) (hf : trail.length ≤ fuel) :
    ∃ caps2, Regex.run (Regex.cat
        (Regex.cap 2 (Regex.quest (Regex.cap 3 (Regex.cat
          (Regex.cap 4 (Regex.alt (Regex.lit "^^".data) (Regex.char '@')))
          (Regex.cap 5 (Regex.star Regex.dot false)))) true))
        (Regex.cat (Regex.star Regex.space false)
          (Regex.cap 6 (Regex.alt (Regex.char ',') Regex.eot)))) fuel (fun s => some s)
        ⟨p, [] ++ (trail ++ more), caps⟩
      = some ⟨p + ([] : List Char).length + trail.length, more, caps2⟩ := by
  have hlit : Regex.lit "^^".data = Regex.cat (Regex.char '^') (Regex.char '^') := rfl
  obtain ⟨caps2, h2⟩ := end_ws 6 fuel p ((2, p, p) :: caps) trail more hend hf
  refine ⟨caps2, ?_⟩
  have hhead : ∀ d ∈ (trail ++ more).head?, d ≠ '^' ∧ d ≠ '@' := by
    obtain ⟨ws, hws, h⟩ := hend
    have hwsne : ∀ d, wsChar d = true → d ≠ '^' ∧ d ≠ '@' := by
      intro d hd
      constructor <;> (intro e; subst e; revert hd; decide)
    intro d hd
    rcases h with ⟨rfl, rfl⟩ | rfl
    · cases trail with
      | nil => simp at hd
      | cons c cs =>
        simp only [List.cons_append, List.head?_cons, Option.mem_def, Option.some.injEq] at hd
        subst hd
        exact hwsne _ (hws _ (by simp))
    · cases ws with
      | nil =>
        simp only [List.nil_append, List.cons_append, List.head?_cons, Option.mem_def,
          Option.some.injEq] at hd
        subst hd
        exact ⟨by decide, by decide⟩
      | cons c cs =>
        simp only [List.cons_append, List.head?_cons, Option.mem_def, Option.some.injEq] at hd
        subst hd
        exact hwsne _ (hws _ (by simp))
  simp only [List.nil_append, List.length_nil, Nat.add_zero]
  rw [run_cat, run_cap, run_quest_greedy]
  have hnone : Regex.run (Regex.cap 3 (Regex.cat
      (Regex.cap 4 (Regex.alt (Regex.lit "^^".data) (Regex.char '@')))
      (Regex.cap 5 (Regex.star Regex.dot false)))) fuel
      (fun s2 => Regex.run (Regex.cat (Regex.star Regex.space false)
        (Regex.cap 6 (Regex.alt (Regex.char ',') Regex.eot))) fuel (fun s => some s)
        { s2 with caps := (2, (⟨p, trail ++ more, caps⟩ : MState).pos, s2.pos) :: s2.caps })
      ⟨p, trail ++ more, caps⟩ = none := by
    cases hc : trail ++ more with
    | nil => simp [run_cap, run_cat, run_alt, hlit, run_char_nil, orElse_none]
    | cons d r =>
      have hd := hhead d (by rw [hc]; simp)
      simp [run_cap, run_cat, run_alt, hlit, run_char, orElse_none, hd.1, hd.2]
  rw [hnone, orElse_none]
  simp only []
  rw [run_cat]
  exact h2

/-- The value of a literal in which every `"` stands behind a backslash and that does not end
in a backslash consists of runs of backslashes with one other character behind each. -/
theorem valueOK_units :
    ∀ (v bs : List Char), (∀ b ∈ bs, b = '\\') → valueOK (bs != []) v = true →
      ∃ units, bs ++ v = escUnits units ∧
        ∀ u ∈ units, (∀ b ∈ u.1, b = '\\') ∧ u.2 ≠ '\\' ∧ (u.2 = '"' → u.1 ≠ []) := by
  intro v
  induction v with
  | nil =>
    intro bs _ h
    simp only [valueOK, Bool.not_eq_true', bne_eq_false_iff_eq] at h
    subst h
    exact ⟨[], rfl, by simp⟩
  | cons c cs ih =>
    intro bs hbs h
    rw [valueOK] at h
    by_cases h1 : c = '\\'
    · subst h1
      simp only [beq_self_eq_true, if_true] at h
      obtain ⟨units, e, hu⟩ := ih (bs ++ ['\\'])
        (by
          intro b hb
          simp only [List.mem_append, List.mem_singleton] at hb
          rcases hb with hb | hb
          · exact hbs b hb
          · exact hb)
        (by
          have hne : (bs ++ ['\\'] != []) = true := by simp
          rw [hne]
          exact h)
      exact ⟨units, by rw [← e]; simp, hu⟩
    · have h1b : (c == '\\') = false := by simpa using h1
      simp only [h1b, Bool.false_eq_true, if_false] at h
      have hrest : valueOK false cs = true := by
        by_cases h2 : c = '"'
        · subst h2
          simp only [beq_self_eq_true, if_true, Bool.and_eq_true] at h
          exact h.2
        · have h2b : (c == '"') = false := by simpa using h2
          simpa [h2b] using h
      obtain ⟨units, e, hu⟩ := ih [] (by simp) (by simpa using hrest)
      refine ⟨(bs, c) :: units, by rw [escUnits, ← e]; simp, ?_⟩
      intro u hmem
      simp only [List.mem_cons] at hmem
      rcases hmem with rfl | hmem
      · refine ⟨hbs, h1, ?_⟩
        intro h2
        simp only at h2
        subst h2
        simp only [beq_self_eq_true, if_true, Bool.and_eq_true, bne_iff_ne, ne_eq] at h
        exact h.1
      · exact hu u hmem

/-- The repetition `([\S\s]*?[^\\])*?` passes over the value of a literal, one run of
backslashes with the character behind it at a time. -/
theorem value_units_run (fuel : Nat) (rest : List Char) :
    ∀ (units : List (List Char × Char)) (p f : Nat) (caps : List (Nat × Nat × Nat)),
      (escUnits units).length ≤ f → (escUnits units).length ≤ fuel →
      (∀ u ∈ units, (∀ b ∈ u.1, b = '\\') ∧ u.2 ≠ '\\' ∧ (u.2 = '"' → u.1 ≠ [])) →
      ∃ caps2, ∀ (k : MState → Option MState) (r : MState),
        (∀ c l q cs, c ≠ '"' → k ⟨q, c :: l, cs⟩ = none) →
        k ⟨p + (escUnits units).length, rest, caps2⟩ = some r →
        repeatLoop (Regex.run (Regex.cap 1 (Regex.cat (Regex.star Regex.any false)
          (Regex.cls true [('\\', '\\')]))) fuel) false f k ⟨p, escUnits units ++ rest, caps⟩
          = some r := by
  intro units
  induction units with
  | nil =>
    intro p f caps _ _ _
    exact ⟨caps, fun k r _ hk => loop_lazy_done _ _ _ _ _ (by simpa [escUnits] using hk)⟩
  | cons u us ih =>
    intro p f caps hf hfuel hu
    obtain ⟨bs, c⟩ := u
    obtain ⟨hbs, hc, hq⟩ := hu (bs, c) (by simp)
    simp only at hbs hc hq
    simp only [escUnits, List.length_append, List.length_cons] at hf hfuel
    obtain ⟨f2, rfl⟩ : ∃ f2, f = f2 + 1 := ⟨f - 1, by omega⟩
    obtain ⟨caps2, h⟩ := ih (p + bs.length + 1) f2 ((1, p, p + bs.length + 1) :: caps)
      (by omega) (by omega) (fun u2 h2 => hu u2 (List.mem_cons_of_mem _ h2))
    refine ⟨caps2, fun k r hk0 hk => ?_⟩
    have hhead : k ⟨p, escUnits ((bs, c) :: us) ++ rest, caps⟩ = none := by
      simp only [escUnits]
      cases bs with
      | nil =>
        simp only [List.nil_append, List.cons_append]
        apply hk0
        intro e
        exact hq e rfl
      | cons b bs2 =>
        simp only [List.cons_append]
        apply hk0
        rw [hbs b (by simp)]
        decide
    rw [loop_lazy_step _ _ _ _ hhead, run_cap, run_cat, run_star]
    simp only [escUnits, Regex.any, List.append_assoc, List.cons_append]
    rw [lazy_cls_skip true [] fuel _ caps (c :: (escUnits us ++ rest)) bs fuel p (by omega)]
    · apply loop_lazy_done
      rw [run_cls, if_pos (by simp [inRanges_single, hc])]
      simp only []
      rw [if_pos (by omega)]
      apply h k r hk0
      rw [← hk]
      congr 2
      simp only [escUnits, List.length_append, List.length_cons]
      omega
    · intro x _
      simp [inRanges]
    · intro i hi
      obtain ⟨x, l, hxl, hx⟩ := drop_cons_of_lt bs i hi
      rw [hxl, List.cons_append, run_cls, if_neg]
      rw [hbs x hx]
      simp [inRanges_single]

/-- The match of `ttlLiteralMatcher` at a literal: over the white space in front, the value,
the suffix and what stands behind it. -/
theorem literal_units_run (fuel pos : Nat) (lead : List Char)
    (units : List (List Char × Char)) (suffix trail more : List Char)
    (hlead : ∀ c ∈ lead, wsChar c = true)
    (hu : ∀ u ∈ units, (∀ b ∈ u.1, b = '\\') ∧ u.2 ≠ '\\' ∧ (u.2 = '"' → u.1 ≠ []))
    (hsuf : ∀ (p : Nat) (caps : List (Nat × Nat × Nat)), ∃ caps2, Regex.run (Regex.cat
        (Regex.cap 2 (Regex.quest (Regex.cap 3 (Regex.cat
          (Regex.cap 4 (Regex.alt (Regex.lit "^^".data) (Regex.char '@')))
          (Regex.cap 5 (Regex.star Regex.dot false)))) true))
        (Regex.cat (Regex.star Regex.space false)
          (Regex.cap 6 (Regex.alt (Regex.char ',') Regex.eot)))) fuel (fun s => some s)
        ⟨p, suffix ++ (trail ++ more), caps⟩
      = some ⟨p + suffix.length + trail.length, more, caps2⟩)
    (hf : lead.length + (escUnits units).length + 1 ≤ fuel) :
    ∃ caps, Regex.run ttlLiteralMatcher fuel (fun s => some s)
        ⟨pos, lead ++ '"' :: (escUnits units ++ '"' :: (suffix ++ (trail ++ more))), []⟩
      = some ⟨pos + lead.length + (escUnits units).length + 2 + suffix.length + trail.length,
          more, caps⟩ := by
  have hcore : ∀ p, ∃ caps, Regex.run (Regex.seq [Regex.char '"',
      Regex.star (Regex.cap 1 (Regex.cat (Regex.star Regex.any false)
        (Regex.cls true [('\\', '\\')]))) false,
      Regex.char '"',
      Regex.cap 2 (Regex.quest (Regex.cap 3 (Regex.cat
        (Regex.cap 4 (Regex.alt (Regex.lit "^^".data) (Regex.char '@')))
        (Regex.cap 5 (Regex.star Regex.dot false)))) true),
      Regex.star Regex.space false, Regex.cap 6 (Regex.alt (Regex.char ',') Regex.eot)])
      fuel (fun s => some s)
      ⟨p, '"' :: (escUnits units ++ '"' :: (suffix ++ (trail ++ more))), []⟩
      = some ⟨p + (escUnits units).length + 2 + suffix.length + trail.length, more, caps⟩ := by
    intro p
    obtain ⟨caps1, h1⟩ := value_units_run fuel ('"' :: (suffix ++ (trail ++ more))) units
      (p + 1) fuel [] (by omega) (by omega) hu
    obtain ⟨caps2, h2⟩ := hsuf (p + 1 + (escUnits units).length + 1) caps1
    refine ⟨caps2, ?_⟩
    simp only [Regex.seq]
    rw [run_cat, run_char, if_pos rfl, run_cat, run_star]
    apply h1
    · intro c l q cs hc
      rw [run_cat, run_char, if_neg hc]
    · rw [run_cat, run_char, if_pos rfl, h2]
      congr 2
      omega
  simp only [Regex.seq] at hcore
  simp only [ttlLiteralMatcher, Regex.seq]
  rw [run_cat, run_star]
  obtain ⟨caps, h⟩ := hcore (pos + lead.length)
  refine ⟨caps, ?_⟩
  apply lazy_space_skip fuel _ [] _ lead fuel pos _ (by omega) hlead
  · intro i hi
    obtain ⟨c, l, hcl, hc⟩ := drop_cons_of_lt lead i hi
    rw [hcl, List.cons_append, run_cat, run_char, if_neg (ws_ne_quote c (hlead c hc))]
  · exact h

/-- No match of `ttlLiteralMatcher` starts at white space behind which no `"` stands. -/
theorem literal_none (fuel pos : Nat) (ws tail : List Char)
    (hws : ∀ c ∈ ws, wsChar c = true) (ht : ∀ d ∈ tail.head?, wsChar d = false ∧ d ≠ '"') :
    Regex.run ttlLiteralMatcher fuel (fun s => some s) ⟨pos, ws ++ tail, []⟩ = none := by
  simp only [ttlLiteralMatcher, Regex.seq]
  rw [run_cat, run_star]
  apply lazy_space_fail fuel _ [] tail (fun d hd => (ht d hd).1) _ ws fuel pos hws
  intro ws2 q hws2
  cases ws2 with
  | nil =>
    cases tail with
    | nil => rw [List.nil_append, run_cat, run_char_nil]
    | cons d r => rw [List.nil_append, run_cat, run_char, if_neg (ht d (by simp)).2]
  | cons c cs =>
    rw [List.cons_append, run_cat, run_char, if_neg (ws_ne_quote c (hws2 c (by simp)))]

/-- A text without `"` that ends the whole text or holds a character that is no white space:
white space, and then a character that is neither white space nor `"`, or nothing. -/
theorem unit_split (more : List Char) :
    ∀ (u : List Char), (∀ c ∈ u, c ≠ '"') → (more = [] ∨ ∃ c ∈ u, wsChar c = false) →
      ∃ ws tail, u ++ more = ws ++ tail ∧ (∀ c ∈ ws, wsChar c = true) ∧
        ∀ d ∈ tail.head?, wsChar d = false ∧ d ≠ '"' := by
  intro u
  induction u with
  | nil =>
    intro _ h
    rcases h with rfl | ⟨c, hc, _⟩
    · exact ⟨[], [], rfl, by simp, by simp⟩
    · simp at hc
  | cons c cs ih =>
    intro hq h
    cases hw : wsChar c with
    | false =>
      refine ⟨[], c :: cs ++ more, rfl, by simp, ?_⟩
      intro d hd
      simp only [List.cons_append, List.head?_cons, Option.mem_def, Option.some.injEq] at hd
      subst hd
      exact ⟨hw, hq _ (by simp)⟩
    | true =>
      obtain ⟨ws, tail, e, hws, ht⟩ := ih (fun x hx => hq x (List.mem_cons_of_mem _ hx))
        (by
          rcases h with h | ⟨x, hx, hxw⟩
          · exact Or.inl h
          · simp only [List.mem_cons] at hx
            rcases hx with rfl | hx
            · rw [hw] at hxw
              cases hxw
            · exact Or.inr ⟨x, hx, hxw⟩)
      refine ⟨c :: ws, tail, by rw [List.cons_append, e]; rfl, ?_, ht⟩
      intro x hx
      simp only [List.mem_cons] at hx
      rcases hx with rfl | hx
      · exact hw
      · exact hws x hx

/-- No match of `ttlLiteralMatcher` starts in a part of the text without `"` that ends the
text or ends in a character that is no white space. -/
theorem literal_noStart (fuel : Nat) (u more : List Char) (hq : ∀ c ∈ u, c ≠ '"')
    (h : more = [] ∨ ∃ e, u.getLast? = some e ∧ wsChar e = false) :
    ∀ i, i < u.length → ∀ pos,
      Regex.run ttlLiteralMatcher fuel (fun s => some s) ⟨pos, u.drop i ++ more, []⟩ = none := by
  intro i hi pos
  obtain ⟨ws, tail, e, hws, ht⟩ := unit_split more (u.drop i)
    (fun c hc => hq c (List.mem_of_mem_drop hc))
    (by
      rcases h with h | ⟨e, he, hew⟩
      · exact Or.inl h
      · refine Or.inr ⟨e, ?_, hew⟩
        apply List.mem_of_mem_getLast?
        rw [getLast?_drop_lt u i hi, he]
        rfl)
  rw [e]
  exact literal_none fuel pos ws tail hws ht

/-- The match of `iriToken` at a word `prefix:local`: the whole word, when the rest of the
expression fails at the characters behind the `:` and matches behind the word. -/
theorem iriToken_word (fuel : Nat) (K : MState → Option MState) (pos : Nat)
    (pd ld rest : List Char) (caps : List (Nat × Nat × Nat)) (r : MState)
    (hp : ∀ c ∈ pd, wsChar c = false ∧ c ≠ ':') (hld : ld ≠ [])
    (hl : ∀ c ∈ ld, wsChar c = false) (hlt : pd.head? ≠ some '<')
    (hf : pd.length + ld.length ≤ fuel)
    (hK : ∀ (q : Nat) (c : Char) (v : List Char), c ∈ ld →
      K ⟨q, c :: v ++ rest, caps⟩ = none)
    (hk : K ⟨pos + (pd ++ ':' :: ld).length, rest, caps⟩ = some r) :
    Regex.run iriToken fuel K ⟨pos, (pd ++ ':' :: ld) ++ rest, caps⟩ = some r := by
  have hfirst : Regex.run (Regex.char '<') fuel
      (Regex.run (Regex.cat (Regex.star Regex.dot false) (Regex.char '>')) fuel K)
      ⟨pos, (pd ++ ':' :: ld) ++ rest, caps⟩ = none := by
    cases pd with
    | nil =>
      rw [List.nil_append, List.cons_append, run_char, if_neg (by decide)]
    | cons c cs =>
      rw [List.cons_append, List.cons_append, run_char, if_neg]
      intro e
      apply hlt
      rw [e]
      rfl
  simp only [iriToken, Regex.seq, run_alt, run_cat, hfirst, orElse_none, run_star]
  rw [List.append_assoc]
  obtain ⟨l0, ls, rfl⟩ : ∃ l0 ls, ld = l0 :: ls := by
    cases ld with
    | nil => exact absurd rfl hld
    | cons l0 ls => exact ⟨l0, ls, rfl⟩
  simp only [List.length_append, List.length_cons] at hk hf
  apply lazy_nonSpace_skip fuel _ caps _ pd fuel pos r (by omega) (fun c hc => (hp c hc).1)
  · intro i hi
    obtain ⟨c, l, hcl, hc⟩ := drop_cons_of_lt pd i hi
    rw [hcl, List.cons_append, run_cat, run_char, if_neg (hp c hc).2]
  · rw [List.cons_append, run_cat, run_char, if_pos rfl, List.cons_append, run_plus,
      run_nonSpace, if_pos (hl l0 (by simp))]
    apply lazy_nonSpace_skip fuel _ caps _ ls fuel _ r (by omega)
      (fun c hc => hl c (List.mem_cons_of_mem _ hc))
    · intro i hi
      obtain ⟨c, l, hcl, hc⟩ := drop_cons_of_lt ls i hi
      rw [hcl]
      exact hK _ c l (List.mem_cons_of_mem _ hc)
    · rw [← hk]
      congr 2
      omega

theorem suffixOK_chars (body : List Char) (h : suffixOK body = true) :
    (∀ c ∈ body, c ≠ ',' ∧ c ≠ '\n') ∧ (∀ c ∈ body.getLast?, wsChar c = false) ∧
      ∀ c ∈ body.getLast?, isSpaceChar c = false ∧ c ≠ ',' := by
  simp only [suffixOK, Bool.and_eq_true, List.all_eq_true, bne_iff_ne, ne_eq] at h
  obtain ⟨h1, h2⟩ := h
  have h3 : ∀ c ∈ body.getLast?, isSpaceChar c = false := by
    intro c hc
    rw [Option.mem_def] at hc
    rw [hc] at h2
    simpa using h2
  refine ⟨h1, fun c hc => not_ws_of_not_space c (h3 c hc), fun c hc => ⟨h3 c hc, ?_⟩⟩
  exact (h1 c (List.mem_of_mem_getLast? hc)).1

theorem valueOK_escUnits (v : List Char) (h : valueOK false v = true) :
    ∃ units, v = escUnits units ∧
      ∀ u ∈ units, (∀ b ∈ u.1, b = '\\') ∧ u.2 ≠ '\\' ∧ (u.2 = '"' → u.1 ≠ []) := by
  obtain ⟨units, e, hu⟩ := valueOK_units v [] (by simp) (by simpa using h)
  exact ⟨units, by simpa using e, hu⟩

/-- The match of `ttlLiteralMatcher` at a literal token. -/
theorem literal_core_run (fuel pos : Nat) (lead trail more : List Char) (core : ObjCore)
    (hlit : core.isLiteral = true) (hok : core.ok = true)
    (hlead : ∀ c ∈ lead, wsChar c = true) (hend : tokenEnd trail more)
    (hf : lead.length + core.text.length + trail.length + 1 ≤ fuel) :
    ∃ caps, Regex.run ttlLiteralMatcher fuel (fun s => some s)
        ⟨pos, lead ++ (core.text ++ (trail ++ more)), []⟩
      = some ⟨pos + (lead.length + core.text.length + trail.length), more, caps⟩ := by
  cases core with
  | plain v =>
    simp only [ObjCore.ok] at hok
    obtain ⟨units, rfl, hu⟩ := valueOK_escUnits v hok
    simp only [ObjCore.text, List.length_cons, List.length_append, List.length_nil] at hf ⊢
    obtain ⟨caps, h⟩ := literal_units_run fuel pos lead units [] trail more hlead hu
      (fun p caps => tail_plain fuel p trail more caps hend (by omega)) (by omega)
    refine ⟨caps, ?_⟩
    simp only [List.nil_append, List.length_nil, Nat.add_zero] at h
    simp only [List.cons_append, List.append_assoc, List.nil_append]
    rw [h]
    congr 2
    omega
  | tagged v lang =>
    simp only [ObjCore.ok, Bool.and_eq_true] at hok
    obtain ⟨units, rfl, hu⟩ := valueOK_escUnits v hok.1
    obtain ⟨hb, hl, _⟩ := suffixOK_chars lang hok.2
    simp only [ObjCore.text, List.length_cons, List.length_append] at hf ⊢
    obtain ⟨caps, h⟩ := literal_units_run fuel pos lead units (['@'] ++ lang) trail more hlead hu
      (fun p caps => tail_ws fuel p ['@'] lang trail more caps (Or.inl rfl) hb hl hend
        (by omega)) (by omega)
    refine ⟨caps, ?_⟩
    simp only [List.singleton_append, List.cons_append, List.nil_append, List.length_cons] at h
    simp only [List.cons_append, List.append_assoc]
    rw [h]
    congr 2
    omega
  | typed v ty =>
    simp only [ObjCore.ok, Bool.and_eq_true] at hok
    obtain ⟨units, rfl, hu⟩ := valueOK_escUnits v hok.1
    obtain ⟨hb, hl, _⟩ := suffixOK_chars ty hok.2
    simp only [ObjCore.text, List.length_cons, List.length_append] at hf ⊢
    obtain ⟨caps, h⟩ := literal_units_run fuel pos lead units (['^', '^'] ++ ty) trail more
      hlead hu
      (fun p caps => tail_ws fuel p ['^', '^'] ty trail more caps (Or.inr rfl) hb hl hend
        (by omega)) (by omega)
    refine ⟨caps, ?_⟩
    simp only [List.cons_append, List.nil_append, List.length_cons] at h
    simp only [List.cons_append, List.append_assoc]
    rw [h]
    congr 2
    omega
  | bracket x => cases hlit
  | short pd ld => cases hlit

theorem suffixChar_ne (c : Char) (h : suffixChar c = true) :
    isSpaceChar c = false ∧ wsChar c = false ∧ c ≠ ',' := by
  simp only [suffixChar, Bool.and_eq_true, Bool.not_eq_true', bne_iff_ne, ne_eq] at h
  exact ⟨h.1, not_ws_of_not_space c h.1, h.2⟩

theorem short_ok (pd ld : List Char) (h : (ObjCore.short pd ld).ok = true) :
    (∀ c ∈ pd, suffixChar c = true ∧ c ≠ ':' ∧ c ≠ '"') ∧ pd.head? ≠ some '<' ∧ ld ≠ [] ∧
      ∀ c ∈ ld, suffixChar c = true ∧ c ≠ '"' := by
  simp only [ObjCore.ok, Bool.and_eq_true, List.all_eq_true, bne_iff_ne, ne_eq] at h
  obtain ⟨⟨⟨h1, h2⟩, h3⟩, h4⟩ := h
  exact ⟨fun c hc => ⟨(h1 c hc).1.1, (h1 c hc).1.2, (h1 c hc).2⟩, h2, h3, h4⟩

theorem bracket_ok (x : List Char) (h : (ObjCore.bracket x).ok = true) :
    ∀ c ∈ x, c ≠ '>' ∧ c ≠ '\n' ∧ c ≠ '"' := by
  simp only [ObjCore.ok, Bool.and_eq_true, List.all_eq_true, bne_iff_ne, ne_eq] at h
  exact fun c hc => ⟨(h c hc).1.1, (h c hc).1.2, (h c hc).2⟩

/-- The match of `ttlIriMatcher` at an IRI token. -/
theorem iri_core_run (fuel pos : Nat) (lead trail more : List Char) (core : ObjCore)
    (hlit : core.isLiteral = false) (hok : core.ok = true)
    (hlead : ∀ c ∈ lead, wsChar c = true) (hend : tokenEnd trail more)
    (hf : lead.length + core.text.length + trail.length + 1 ≤ fuel) :
    ∃ caps, Regex.run ttlIriMatcher fuel (fun s => some s)
        ⟨pos, lead ++ (core.text ++ (trail ++ more)), []⟩
      = some ⟨pos + (lead.length + core.text.length + trail.length), more, caps⟩ := by
  obtain ⟨caps2, h2⟩ := end_ws 2 fuel (pos + lead.length + core.text.length)
    [(1, pos + lead.length, pos + lead.length + core.text.length)] trail more hend (by omega)
  refine ⟨caps2, ?_⟩
  simp only [ttlIriMatcher, Regex.seq]
  rw [run_cat, run_star]
  apply lazy_space_skip fuel _ [] _ lead fuel pos _ (by omega) hlead
  · intro i hi
    obtain ⟨c, l, hcl, hc⟩ := drop_cons_of_lt lead i hi
    rw [hcl, run_cat, run_cap]
    exact iriToken_fail fuel _ _ _ [] (subjectLike_ws c _ (hlead c hc))
  · rw [run_cat, run_cap]
    cases core with
    | plain v => cases hlit
    | tagged v lang => cases hlit
    | typed v ty => cases hlit
    | bracket x =>
      have hx := bracket_ok x hok
      simp only [ObjCore.text, List.length_cons, List.length_append, List.length_nil] at hf h2 ⊢
      apply iriToken_bracket fuel _ (pos + lead.length) x (trail ++ more) [] _
        (fun c hc => ⟨(hx c hc).1, (hx c hc).2.1⟩) (by omega)
      simp only [List.length_cons, List.length_append, List.length_nil]
      rw [run_cat, h2]
      congr 2
      omega
    | short pd ld =>
      obtain ⟨hp, hlt, hld, hl⟩ := short_ok pd ld hok
      simp only [ObjCore.text, List.length_cons, List.length_append] at hf h2 ⊢
      apply iriToken_word fuel _ (pos + lead.length) pd ld (trail ++ more) [] _
        (fun c hc => ⟨(suffixChar_ne c (hp c hc).1).2.1, (hp c hc).2.1⟩) hld
        (fun c hc => (suffixChar_ne c (hl c hc).1).2.1) hlt (by omega)
      · intro q c v hc
        simp only [List.cons_append]
        rw [run_cat]
        exact end_fail 2 fuel q _ c _ (suffixChar_ne c (hl c hc).1).2.1
          (suffixChar_ne c (hl c hc).1).2.2
      · simp only [List.length_cons, List.length_append]
        rw [run_cat, h2]
        congr 2
        omega

/-- An IRI token holds no `"`. -/
theorem iri_core_noQuote (core : ObjCore) (hlit : core.isLiteral = false)
    (hok : core.ok = true) : ∀ c ∈ core.text, c ≠ '"' := by
  cases core with
  | plain v => cases hlit
  | tagged v lang => cases hlit
  | typed v ty => cases hlit
  | bracket x =>
    have hx := bracket_ok x hok
    intro c hc
    simp only [ObjCore.text, List.mem_cons, List.mem_append, List.mem_singleton,
      List.not_mem_nil, or_false] at hc
    rcases hc with rfl | hc | rfl
    · decide
    · exact (hx c hc).2.2
    · decide
  | short pd ld =>
    obtain ⟨hp, _, _, hl⟩ := short_ok pd ld hok
    intro c hc
    simp only [ObjCore.text, List.mem_cons, List.mem_append] at hc
    rcases hc with hc | rfl | hc
    · exact (hp c hc).2.2
    · decide
    · exact (hl c hc).2

/-- A token starts with a character that is no white space. -/
theorem core_head (core : ObjCore) (hok : core.ok = true) :
    ∃ h l, core.text = h :: l ∧ isSpaceChar h = false := by
  cases core with
  | plain v => exact ⟨'"', _, rfl, by decide⟩
  | tagged v lang => exact ⟨'"', _, rfl, by decide⟩
  | typed v ty => exact ⟨'"', _, rfl, by decide⟩
  | bracket x => exact ⟨'<', _, rfl, by decide⟩
  | short pd ld =>
    obtain ⟨hp, _, _, _⟩ := short_ok pd ld hok
    cases pd with
    | nil => exact ⟨':', ld, rfl, by decide⟩
    | cons c cs => exact ⟨c, cs ++ ':' :: ld, rfl, (suffixChar_ne c (hp c (by simp)).1).1⟩

/-- A token ends with a character that is neither white space nor a comma. -/
theorem core_last (core : ObjCore) (hok : core.ok = true) :
    ∃ c l, core.text = l ++ [c] ∧ isSpaceChar c = false ∧ c ≠ ',' := by
  have hsuf : ∀ (front : List Char) (m : Char) (body : List Char), isSpaceChar m = false →
      m ≠ ',' → suffixOK body = true →
      ∃ c l, front ++ m :: body = l ++ [c] ∧ isSpaceChar c = false ∧ c ≠ ',' := by
    intro front m body hm1 hm2 hb
    obtain ⟨_, _, h3⟩ := suffixOK_chars body hb
    rcases List.eq_nil_or_concat body with h | ⟨l, c, h⟩
    · subst h
      exact ⟨m, front, rfl, hm1, hm2⟩
    · have hc := h3 c (by rw [h]; simp)
      exact ⟨c, front ++ m :: l, by rw [h]; simp, hc.1, hc.2⟩
  cases core with
  | plain v => exact ⟨'"', '"' :: v, by simp [ObjCore.text], by decide, by decide⟩
  | tagged v lang =>
    simp only [ObjCore.ok, Bool.and_eq_true] at hok
    obtain ⟨c, l, e, h1, h2⟩ := hsuf ('"' :: (v ++ ['"'])) '@' lang (by decide) (by decide) hok.2
    exact ⟨c, l, by rw [← e]; simp [ObjCore.text], h1, h2⟩
  | typed v ty =>
    simp only [ObjCore.ok, Bool.and_eq_true] at hok
    obtain ⟨c, l, e, h1, h2⟩ := hsuf ('"' :: (v ++ ['"', '^'])) '^' ty (by decide) (by decide)
      hok.2
    exact ⟨c, l, by rw [← e]; simp [ObjCore.text], h1, h2⟩
  | bracket x => exact ⟨'>', '<' :: x, by simp [ObjCore.text], by decide, by decide⟩
  | short pd ld =>
    obtain ⟨_, _, hld, hl⟩ := short_ok pd ld hok
    rcases List.eq_nil_or_concat ld with h | ⟨l, c, h⟩
    · exact absurd h hld
    · have hc := hl c (by rw [h]; simp)
      exact ⟨c, pd ++ ':' :: l, by rw [h]; simp [ObjCore.text],
        (suffixChar_ne c hc.1).1, (suffixChar_ne c hc.1).2.2⟩

theorem token_ok (t : ObjToken) (h : t.ok = true) :
    (∀ c ∈ t.lead, wsChar c = true) ∧ (∀ c ∈ t.trail, wsChar c = true) ∧ t.core.ok = true := by
  simp only [ObjToken.ok, Bool.and_eq_true, List.all_eq_true] at h
  exact ⟨h.1.1, h.1.2, h.2⟩

theorem tokenEnd_trail (t : ObjToken) (rest : List ObjToken) (more : List Char)
    (ht : ∀ c ∈ t.trail, wsChar c = true) (h : rest = [] → more = []) :
    tokenEnd (tokenTrail t rest) more := by
  cases rest with
  | nil => exact ⟨t.trail, ht, Or.inl ⟨rfl, h rfl⟩⟩
  | cons t2 r => exact ⟨t.trail, ht, Or.inr rfl⟩

theorem tokenUnit_ne_nil (t : ObjToken) (rest : List ObjToken) (h : t.core.ok = true) :
    tokenUnit t rest ≠ [] := by
  obtain ⟨c, l, e, _⟩ := core_head t.core h
  simp [tokenUnit, e]

theorem tokenUnit_append (t : ObjToken) (rest : List ObjToken) (more : List Char) :
    tokenUnit t rest ++ more = t.lead ++ (t.core.text ++ (tokenTrail t rest ++ more)) := by
  simp [tokenUnit]

theorem tokenUnit_length (t : ObjToken) (rest : List ObjToken) :
    (tokenUnit t rest).length
      = t.lead.length + t.core.text.length + (tokenTrail t rest).length := by
  simp only [tokenUnit, List.length_append]

theorem segText_tokenLitSegs (fuel : Nat) (ts : List ObjToken) :
    ∀ pos, segText (tokenLitSegs fuel pos ts) = tokensText ts := by
  induction ts with
  | nil => intro pos; rfl
  | cons t rest ih =>
    intro pos
    simp only [tokenLitSegs, segText, tokensText, ih]

theorem keptText_tokenLitSegs (fuel : Nat) (ts : List ObjToken) :
    ∀ pos, keptText (tokenLitSegs fuel pos ts) = tokensKept ts := by
  induction ts with
  | nil => intro pos; rfl
  | cons t rest ih =>
    intro pos
    cases hl : t.core.isLiteral <;> simp [tokenLitSegs, keptText, tokensKept, hl, ih]

theorem segText_tokenIriSegs (fuel : Nat) (ts : List ObjToken) :
    ∀ pos, segText (tokenIriSegs fuel pos ts) = tokensKept ts := by
  induction ts with
  | nil => intro pos; rfl
  | cons t rest ih =>
    intro pos
    cases hl : t.core.isLiteral <;> simp [tokenIriSegs, segText, tokensKept, hl, ih]

/-- No `"` stands in the text of an IRI token, and a comma stands at its end when another token
follows. -/
theorem iri_unit_plain (t : ObjToken) (rest : List ObjToken) (more : List Char)
    (hok : t.ok = true) (hlit : t.core.isLiteral = false) (hmore : rest = [] → more = []) :
    (∀ c ∈ tokenUnit t rest, c ≠ '"') ∧
      (more = [] ∨ ∃ e, (tokenUnit t rest).getLast? = some e ∧ wsChar e = false) := by
  obtain ⟨hlead, htrail, hcore⟩ := token_ok t hok
  constructor
  · intro c hc
    simp only [tokenUnit, List.mem_append] at hc
    rcases hc with (hc | hc) | hc
    · exact ws_ne_quote c (hlead c hc)
    · exact iri_core_noQuote t.core hlit hcore c hc
    · cases rest with
      | nil => exact ws_ne_quote c (htrail c hc)
      | cons t2 r =>
        simp only [tokenTrail, List.mem_append, List.mem_singleton] at hc
        rcases hc with hc | rfl
        · exact ws_ne_quote c (htrail c hc)
        · decide
  · cases rest with
    | nil => exact Or.inl (hmore rfl)
    | cons t2 r =>
      refine Or.inr ⟨',', ?_, by decide⟩
      simp [tokenUnit, tokenTrail, List.getLast?_append]

/-- The search of `ttlLiteralMatcher` in the text of a list of tokens finds the literals. -/
theorem tokenLitSegs_ok (fuel : Nat) (ts : List ObjToken) (hok : ∀ t ∈ ts, t.ok = true) :
    ∀ pos, (tokensText ts).length < fuel →
      SegOK ttlLiteralMatcher fuel pos (tokenLitSegs fuel pos ts) := by
  induction ts with
  | nil =>
    intro pos _
    exact literal_end fuel pos
  | cons t rest ih =>
    intro pos hf
    simp only [tokensText, List.length_append] at hf
    have hrest := ih (fun t2 h2 => hok t2 (List.mem_cons_of_mem _ h2))
      (pos + (tokenUnit t rest).length) (by omega)
    have ht := hok t (by simp)
    obtain ⟨hlead, htrail, hcore⟩ := token_ok t ht
    have hmore : rest = [] → tokensText rest = [] := by
      intro h
      subst h
      rfl
    cases hlit : t.core.isLiteral with
    | false =>
      obtain ⟨hq, hlast⟩ := iri_unit_plain t rest (tokensText rest) ht hlit hmore
      simp only [tokenLitSegs, hlit, Bool.false_eq_true, if_false, SegOK, segText_tokenLitSegs]
      exact ⟨fun i hi => literal_noStart fuel _ _ hq hlast i hi (pos + i), hrest⟩
    | true =>
      obtain ⟨caps, hrun⟩ := literal_core_run fuel pos t.lead (tokenTrail t rest)
        (tokensText rest) t.core hlit hcore hlead (tokenEnd_trail t rest _ htrail hmore)
        (by rw [tokenUnit_length] at hf; omega)
      simp only [tokenLitSegs, hlit, if_true, SegOK, segText_tokenLitSegs]
      refine ⟨tokenUnit_ne_nil t rest hcore,
        ⟨⟨pos + (tokenUnit t rest).length, tokensText rest, caps⟩, ?_, rfl, ?_⟩, hrest⟩
      · rw [tokenUnit_append, hrun, tokenUnit_length]
      · rw [tokenUnit_append, capsAt_eq _ _ _ _ _ hrun]

/-- The search of `ttlIriMatcher` in the text that is left without the literals finds the IRI
tokens. -/
theorem tokenIriSegs_ok (fuel : Nat) (ts : List ObjToken) (hok : ∀ t ∈ ts, t.ok = true) :
    ∀ pos, (tokensKept ts).length < fuel →
      SegOK ttlIriMatcher fuel pos (tokenIriSegs fuel pos ts) := by
  induction ts with
  | nil =>
    intro pos _
    exact iri_end fuel pos
  | cons t rest ih =>
    intro pos hf
    have hok2 : ∀ t2 ∈ rest, t2.ok = true := fun t2 h2 => hok t2 (List.mem_cons_of_mem _ h2)
    have ht := hok t (by simp)
    obtain ⟨hlead, htrail, hcore⟩ := token_ok t ht
    have hmore : rest = [] → tokensKept rest = [] := by
      intro h
      subst h
      rfl
    cases hlit : t.core.isLiteral with
    | true =>
      simp only [tokenIriSegs, hlit, if_true]
      exact ih hok2 pos (by simpa [tokensKept, hlit] using hf)
    | false =>
      simp only [tokensKept, hlit, Bool.false_eq_true, if_false, List.length_append] at hf
      have hrest := ih hok2 (pos + (tokenUnit t rest).length) (by omega)
      obtain ⟨caps, hrun⟩ := iri_core_run fuel pos t.lead (tokenTrail t rest)
        (tokensKept rest) t.core hlit hcore hlead (tokenEnd_trail t rest _ htrail hmore)
        (by rw [tokenUnit_length] at hf; omega)
      simp only [tokenIriSegs, hlit, Bool.false_eq_true, if_false, SegOK, segText_tokenIriSegs]
      refine ⟨tokenUnit_ne_nil t rest hcore,
        ⟨⟨pos + (tokenUnit t rest).length, tokensKept rest, caps⟩, ?_, rfl, ?_⟩, hrest⟩
      · rw [tokenUnit_append, hrun, tokenUnit_length]
      · rw [tokenUnit_append, capsAt_eq _ _ _ _ _ hrun]

/-- The text that `extractObjects` keeps of the match of a token. -/
theorem objectTexts_token (text pre more : List Char) (t : ObjToken) (rest : List ObjToken)
    (caps : List (Nat × Nat × Nat)) (ms : List Match) (hok : t.ok = true)
    (ht : text = pre ++ tokenUnit t rest ++ more) :
    objectTexts text (⟨pre.length, pre.length + (tokenUnit t rest).length, caps⟩ :: ms)
      = (objectTexts text ms).bind (fun l => Outcome.ok
          (String.mk (t.core.text ++ tokenBlank t rest) :: l)) := by
  obtain ⟨hlead, htrail, hcore⟩ := token_ok t hok
  have htext : Match.text ⟨pre.length, pre.length + (tokenUnit t rest).length, caps⟩ text 0
      = tokenUnit t rest := by
    simp only [Match.text, Match.group, beq_self_eq_true, if_true, ht]
    have e : pre.length + (tokenUnit t rest).length - pre.length = (tokenUnit t rest).length := by
      omega
    rw [e, List.append_assoc pre, List.drop_left, List.take_left]
  obtain ⟨h, l1, hh, hhs⟩ := core_head t.core hcore
  obtain ⟨c, l2, hl, hcs, hcc⟩ := core_last t.core hcore
  rw [objectTexts]
  simp only [htext]
  cases rest with
  | nil =>
    have htrim : trimSpaceChars (tokenUnit t []) = t.core.text := by
      have := trimSpaceChars_core t.lead t.core.text t.trail
        (fun x hx => wsChar_isSpaceChar x (hlead x hx))
        (fun x hx => wsChar_isSpaceChar x (htrail x hx))
        (by rw [hh]; simpa using hhs) (by rw [hl]; simpa using hcs)
      simpa [tokenUnit, tokenTrail] using this
    have hlast : t.core.text.getLast? = some c := by simp [hl]
    have hne : (c == ',') = false := by simpa using hcc
    simp only [htrim, hlast, hne, Bool.false_eq_true, if_false, List.append_nil, tokenBlank]
  | cons t2 r =>
    have htrim : trimSpaceChars (tokenUnit t (t2 :: r)) = t.core.text ++ t.trail ++ [','] := by
      have := trimSpaceChars_core t.lead (t.core.text ++ t.trail ++ [',']) []
        (fun x hx => wsChar_isSpaceChar x (hlead x hx)) (by simp)
        (by rw [hh]; simpa using hhs) (by simp [List.getLast?_append, isSpaceChar])
      simpa [tokenUnit, tokenTrail] using this
    have hlast : (t.core.text ++ t.trail ++ [',']).getLast? = some ',' := by
      simp [List.getLast?_append]
    simp only [htrim, hlast, beq_self_eq_true, if_true, List.dropLast_concat, tokenBlank]

theorem objectTexts_tokenLitSegs (fuel : Nat) (text : List Char) (ts : List ObjToken)
    (hok : ∀ t ∈ ts, t.ok = true) :
    ∀ (pre : List Char), text = pre ++ tokensText ts →
      objectTexts text (matchesOf pre.length (tokenLitSegs fuel pre.length ts))
        = Outcome.ok (tokenPieces true ts) := by
  induction ts with
  | nil => intro pre _; rfl
  | cons t rest ih =>
    intro pre ht
    have hok2 : ∀ t2 ∈ rest, t2.ok = true := fun t2 h2 => hok t2 (List.mem_cons_of_mem _ h2)
    have ht2 : text = (pre ++ tokenUnit t rest) ++ tokensText rest := by
      rw [ht, tokensText]
      simp
    have hih := ih hok2 (pre ++ tokenUnit t rest) ht2
    rw [List.length_append] at hih
    cases hlit : t.core.isLiteral with
    | true =>
      simp only [tokenLitSegs, hlit, if_true, matchesOf, tokenPieces]
      rw [objectTexts_token text pre (tokensText rest) t rest _ _ (hok t (by simp)) ht2, hih]
      rfl
    | false =>
      simp only [tokenLitSegs, hlit, Bool.false_eq_true, if_false, matchesOf, tokenPieces,
        List.nil_append]
      exact hih

theorem objectTexts_tokenIriSegs (fuel : Nat) (text : List Char) (ts : List ObjToken)
    (hok : ∀ t ∈ ts, t.ok = true) :
    ∀ (pre : List Char), text = pre ++ tokensKept ts →
      objectTexts text (matchesOf pre.length (tokenIriSegs fuel pre.length ts))
        = Outcome.ok (tokenPieces false ts) := by
  induction ts with
  | nil => intro pre _; rfl
  | cons t rest ih =>
    intro pre ht
    have hok2 : ∀ t2 ∈ rest, t2.ok = true := fun t2 h2 => hok t2 (List.mem_cons_of_mem _ h2)
    cases hlit : t.core.isLiteral with
    | true =>
      have ht2 : text = pre ++ tokensKept rest := by
        rw [ht, tokensKept]
        simp [hlit]
      simp only [tokenIriSegs, hlit, if_true, tokenPieces, Bool.true_eq_false, if_false,
        List.nil_append]
      exact ih hok2 pre ht2
    | false =>
      have ht2 : text = (pre ++ tokenUnit t rest) ++ tokensKept rest := by
        rw [ht, tokensKept]
        simp [hlit]
      have hih := ih hok2 (pre ++ tokenUnit t rest) ht2
      rw [List.length_append] at hih
      simp only [tokenIriSegs, hlit, Bool.false_eq_true, if_false, matchesOf, tokenPieces,
        if_true]
      rw [objectTexts_token text pre (tokensKept rest) t rest _ _ (hok t (by simp)) ht2, hih]
      rfl

/-- The strings that `extractObjects` returns for a list of tokens. -/
theorem extractObjects_tokens (p : TurtleParser) (ts : List ObjToken)
    (hok : ∀ t ∈ ts, t.ok = true) :
    p.extractObjects (String.mk (tokensText ts))
      = Outcome.ok (tokenPieces true ts ++ tokenPieces false ts) := by
  have hseg : segText (tokenLitSegs ((tokensText ts).length + 1) 0 ts) = tokensText ts :=
    segText_tokenLitSegs _ _ _
  have hsok := tokenLitSegs_ok ((tokensText ts).length + 1) ts hok 0 (by omega)
  have hm := allMatches_segs ttlLiteralMatcher (tokenLitSegs ((tokensText ts).length + 1) 0 ts)
    (by rw [hseg]; exact hsok)
  have hr := ReplaceAllString_segs ttlLiteralMatcher
    (tokenLitSegs ((tokensText ts).length + 1) 0 ts) (by rw [hseg]; exact hsok)
  rw [hseg] at hm hr
  rw [keptText_tokenLitSegs] at hr
  have hseg2 : segText (tokenIriSegs ((tokensKept ts).length + 1) 0 ts) = tokensKept ts :=
    segText_tokenIriSegs _ _ _
  have hsok2 := tokenIriSegs_ok ((tokensKept ts).length + 1) ts hok 0 (by omega)
  have hm2 := allMatches_segs ttlIriMatcher (tokenIriSegs ((tokensKept ts).length + 1) 0 ts)
    (by rw [hseg2]; exact hsok2)
  rw [hseg2] at hm2
  have h1 := objectTexts_tokenLitSegs ((tokensText ts).length + 1) (tokensText ts) ts hok []
    rfl
  have h2 := objectTexts_tokenIriSegs ((tokensKept ts).length + 1) (tokensKept ts) ts hok []
    rfl
  simp only [List.length_nil] at h1 h2
  simp only [TurtleParser.extractObjects, hm, hr, hm2, h1, h2, Outcome.bind]

theorem tokenPieces_length (ts : List ObjToken) :
    (tokenPieces true ts).length + (tokenPieces false ts).length = ts.length := by
  induction ts with
  | nil => rfl
  | cons t rest ih =>
    cases hlit : t.core.isLiteral <;>
      simp only [tokenPieces, hlit, List.length_append, List.length_cons, List.length_nil,
        if_true, Bool.false_eq_true, Bool.true_eq_false, if_false] <;> omega

theorem tokenPieces_trim (lit : Bool) (ts : List ObjToken) (hok : ∀ t ∈ ts, t.ok = true) :
    (tokenPieces lit ts).map strings.TrimSpace
      = (ts.filter (fun t => t.core.isLiteral == lit)).map (fun t => String.mk t.core.text) := by
  induction ts with
  | nil => rfl
  | cons t rest ih =>
    have hih := ih (fun t2 h2 => hok t2 (List.mem_cons_of_mem _ h2))
    obtain ⟨_, htrail, hcore⟩ := token_ok t (hok t (by simp))
    obtain ⟨h, l1, hh, hhs⟩ := core_head t.core hcore
    obtain ⟨c, l2, hl, hcs, _⟩ := core_last t.core hcore
    have htrim : ∀ ws, (∀ x ∈ ws, wsChar x = true) →
        trimSpaceChars (t.core.text ++ ws) = t.core.text := by
      intro ws hws
      have := trimSpaceChars_core [] t.core.text ws (by simp)
        (fun x hx => wsChar_isSpaceChar x (hws x hx))
        (by rw [hh]; simpa using hhs) (by rw [hl]; simpa using hcs)
      simpa using this
    have hblank : trimSpaceChars (t.core.text ++ tokenBlank t rest) = t.core.text := by
      cases rest with
      | nil => exact htrim [] (by simp)
      | cons t2 r => exact htrim t.trail htrail
    by_cases hlit : t.core.isLiteral = lit
    · have hb : (t.core.isLiteral == lit) = true := by simpa using hlit
      rw [tokenPieces, if_pos hlit, List.filter_cons, if_pos hb, List.singleton_append,
        List.map_cons, List.map_cons, hih, strings.TrimSpace]
      simp only [hblank]
    · have hb : (t.core.isLiteral == lit) = false := by simpa using hlit
      simp only [tokenPieces, hlit, if_false, List.nil_append, hih, List.filter_cons, hb,
        Bool.false_eq_true]

/-- C35, counterexample: `extractObjects` cuts a literal at a comma of its type, returns one
string for two literals when the value of the first ends in a backslash or its language tag
holds a line feed, splits an IRI that holds a `"`, and loses an IRI with a line feed. -/
theorem C35_extractObjects_counterexample :
    (NewTurtleParser none).extractObjects "\"v\"^^<http://x/a,b>"
        = Outcome.ok ["\"v\"^^<http://x/a"] ∧
      (NewTurtleParser none).extractObjects "\"a\\\\\" , \"b\""
        = Outcome.ok ["\"a\\\\\" , \"b\""] ∧
      (NewTurtleParser none).extractObjects "\"a\" , <b\"c> , \"d\""
        = Outcome.ok ["\"a\" ", "\"c> , \"d\""] ∧
      (NewTurtleParser none).extractObjects "\"v\"@e\nn , \"w\""
        = Outcome.ok ["\"v\"@e\nn , \"w\""] ∧
      (NewTurtleParser none).extractObjects "<a\nb> , <c>" = Outcome.ok ["<c>"] := by
  refine ⟨?_, ?_, ?_, ?_, ?_⟩ <;> decide!

/-- C35, as the code has it: for a comma-separated list of object tokens in which the value of
a literal has every `"` behind a backslash and no backslash at its end, a suffix holds no comma
and no line feed, and an IRI token holds no `"` (`ObjToken.ok`), `extractObjects` returns one
string per token, the literals first and then the IRI tokens, each kind in the order of the
list; a string is the token, with the white space behind it when a comma follows, so that it
is the token up to white space around it. -/
theorem C35_extractObjects_tokens (p : TurtleParser) (tokens : List ObjToken)
    (h : ∀ t ∈ tokens, t.ok = true) :
    p.extractObjects (String.mk (tokensText tokens))
        = Outcome.ok (tokenPieces true tokens ++ tokenPieces false tokens) ∧
      (tokenPieces true tokens ++ tokenPieces false tokens).length = tokens.length ∧
      (tokenPieces true tokens ++ tokenPieces false tokens).map strings.TrimSpace
        = (tokens.filter (fun t => t.core.isLiteral == true)
            ++ tokens.filter (fun t => t.core.isLiteral == false)).map
              (fun t => String.mk t.core.text) := by
  refine ⟨extractObjects_tokens p tokens h, ?_, ?_⟩
  · rw [List.length_append]
    exact tokenPieces_length tokens
  · rw [List.map_append, List.map_append, tokenPieces_trim true tokens h,
      tokenPieces_trim false tokens h]

/-- C35, witness: the tokens `exTokens` of `TestExtractObjects`. -/
theorem C35_extractObjects_tokens_witness :
    (∀ t ∈ exTokens, t.ok = true) ∧
      String.mk (tokensText exTokens)
        = "<myuri#asds> , \"wrds\", \"sda\\\"@dasd , sds\"@de , sdas:Test,\n \"sdasds\"^^<http://jdsj/asds#sads>\t" ∧
      (NewTurtleParser none).extractObjects (String.mk (tokensText exTokens))
        = Outcome.ok ["\"wrds\"", "\"sda\\\"@dasd , sds\"@de ",
            "\"sdasds\"^^<http://jdsj/asds#sads>", "<myuri#asds> ", "sdas:Test"] :=
  ⟨by decide, by decide,
    (C35_extractObjects_tokens (NewTurtleParser none) exTokens (by decide)).1⟩

end Semtools
